import Mathlib

/-!
# Gravity DEX backend: schema merges, price resolution, scoreboard and transformer

A shallow embedding of the Go packages `schema`, `service/pricetable`, `service/price`,
`service/score`, `service/store` and `transformer` and of the command `accumulator` of the
gravity-dex-backend, with the properties proved about them.

Conventions of the embedding

* A Go `map[K]V` is an association list `List (K × V)` holding the entries in the
  order in which their keys were first stored.  `for k, v := range m` visits the
  entries in list order; Go leaves that order unspecified, and the theorems quantify
  over all lists, hence over every order.  Reading an absent key yields the zero value
  of `V`.
* `int64` and `int` values are integers; every `+=` of the source is followed by the
  two's-complement wrap-around `wrapInt64` (Go's `int` is 64 bits wide on the
  platforms the backend is built for).
* `float64` arithmetic is a parameter (`FloatOps`); the exact rational arithmetic
  `ratOps` is the instance used for concrete scenarios.  Where the source compares
  `float64` values, their type is linearly ordered and `FloatOps.isNaN` marks the NaN
  values: `!=` (`floatNe`) is true and `>` (`floatGt`) is false when an operand is a NaN.
  The arithmetic `nanOps` has NaN and the infinities next to exact finite results.
* An `sdk.Int` is an integer and an `sdk.Dec` the integer number of its `10^-18` units;
  the string parsers, the denom check and the date format are parameters (`Lib`).  A
  function in which the library can panic returns an `Option`, with `none` for the panic.
* A `time.Time` is the integer number of its nanoseconds since the Unix epoch.
* A collection of the database is the list of its documents; an upsert updates the first
  document that matches its filter or appends a new one.  Failures of the database and
  of the file system are not part of the embedding, except in the turn of the loop of
  `Run` (`transformer.cycle`), which takes the database call that fails as an argument.
* The reading `time.Now()` of the clock is an argument of the function that reads it.
-/

set_option autoImplicit false

/-! ## Go maps -/

namespace GoMap

variable {K V : Type}

/-- The comma-ok read `v, ok := m[k]`. -/
def lookup [DecidableEq K] : List (K × V) → K → Option V
  | [], _ => none
  | (k', v) :: rest, k => if k' = k then some v else lookup rest k

/-- The assignment `m[k] = v`. -/
def store [DecidableEq K] : List (K × V) → K → V → List (K × V)
  | [], k, v => [(k, v)]
  | (k', v') :: rest, k, v => if k' = k then (k', v) :: rest else (k', v') :: store rest k v

/-- The builtin `delete(m, k)`. -/
def delete [DecidableEq K] : List (K × V) → K → List (K × V)
  | [], _ => []
  | (k', v) :: rest, k => if k' = k then delete rest k else (k', v) :: delete rest k

/-- The keys of the map, in iteration order. -/
def keys (m : List (K × V)) : List K := m.map Prod.fst

/-- The plain read `m[k]` of an integer-valued map: 0 for an absent key. -/
def getInt [DecidableEq K] (m : List (K × Int)) (k : K) : Int := (lookup m k).getD 0

/-- The plain read `m[k]` of a map of maps: the nil (empty) map for an absent key. -/
def getMap [DecidableEq K] {K2 V2 : Type} (m : List (K × List (K2 × V2))) (k : K) :
    List (K2 × V2) := (lookup m k).getD []

/-- The sum of the values that the entries of an integer-valued map hold for `k`. -/
def entrySum [DecidableEq K] (m : List (K × Int)) (k : K) : Int :=
  (m.map (fun e => if e.1 = k then e.2 else 0)).sum

/-- A list is a well-formed map when no key occurs twice. -/
def WF (m : List (K × V)) : Prop := (keys m).Nodup

instance WF.decidable [DecidableEq K] (m : List (K × V)) : Decidable (WF m) :=
  inferInstanceAs (Decidable (keys m).Nodup)

end GoMap

/-- Two's-complement wrap-around of a 64-bit signed integer. -/
def wrapInt64 (x : Int) : Int :=
  (x + 9223372036854775808) % 18446744073709551616 - 9223372036854775808

/-! ## Package schema -/

namespace schema

open GoMap

/-- `type CoinMap map[string]int64`. -/
abbrev CoinMap := List (String × Int)

/-- `type Volumes map[int64]CoinMap`, keyed by Unix seconds. -/
abbrev Volumes := List (Int × CoinMap)

/-- `func (c CoinMap) Add(c2 CoinMap)`: `c[denom] += amount` for every entry of `c2`. -/
def CoinMap.Add (c c2 : CoinMap) : CoinMap :=
  c2.foldl (fun acc e => store acc e.1 (wrapInt64 (getInt acc e.1 + e.2))) c

/-- `time.Unix(t, 0).Truncate(VolumeTimeUnit).Unix()` with `VolumeTimeUnit = time.Minute`:
the timestamp rounded down to a multiple of 60 seconds (the zero time of package `time`
lies a whole number of minutes before the Unix epoch). -/
def truncateMinute (t : Int) : Int := t - t % 60

/-- One iteration of the inner loop of `MergeVolumes`. -/
def mergeVolumesStep (v : Volumes) (e : Int × CoinMap) : Volumes :=
  let t := truncateMinute e.1
  match lookup v t with
  | some c => store v t (CoinMap.Add c e.2)
  | none => store (store v t []) t (CoinMap.Add [] e.2)

/-- `func MergeVolumes(vs ...Volumes) Volumes`. -/
def MergeVolumes (vs : List Volumes) : Volumes :=
  vs.foldl (fun v v2 => v2.foldl mergeVolumesStep v) []

/-- `func (v Volumes) TotalCoins() CoinMap`. -/
def Volumes.TotalCoins (v : Volumes) : CoinMap :=
  v.foldl (fun c e => CoinMap.Add c e.2) []

/-- `func (v Volumes) AddCoins(now time.Time, c2 CoinMap)`; `now` is given in Unix seconds. -/
def Volumes.AddCoins (v : Volumes) (now : Int) (c2 : CoinMap) : Volumes :=
  mergeVolumesStep v (now, c2)

/-- `func (v Volumes) RemoveOutdated(past time.Time)`; `p` is `past.UTC().Unix()`. -/
def Volumes.RemoveOutdated (v : Volumes) (p : Int) : Volumes :=
  (keys v).foldl (fun acc t => if t < p then delete acc t else acc) v

/-- The read `v[t][d]` of a `Volumes`. -/
def Volumes.amount (v : Volumes) (t : Int) (d : String) : Int := getInt (getMap v t) d

/-- The sum of the amounts for `d` over the entries of `v` whose key truncates to `T`. -/
def Volumes.entrySum (v : Volumes) (T : Int) (d : String) : Int :=
  (v.map (fun e => if truncateMinute e.1 = T then GoMap.entrySum e.2 d else 0)).sum

/-- The sum, over the keys `k` of `v` that truncate to the minute `T`, of `v[k][d]`. -/
def Volumes.minuteSum (v : Volumes) (T : Int) (d : String) : Int :=
  (((keys v).filter (fun k => decide (truncateMinute k = T))).map (fun k => v.amount k d)).sum

/-- Every amount of the coin map is a fixed point of the wrap-around. -/
def CoinMap.InRange (c : CoinMap) : Prop := ∀ d, wrapInt64 (getInt c d) = getInt c d

/-- Every amount of every bucket is a fixed point of the wrap-around. -/
def Volumes.InRange (v : Volumes) : Prop := ∀ T, CoinMap.InRange (getMap v T)

/-- The sum over all entries of all inputs: what `MergeVolumes` adds up for `T` and `d`. -/
def mergedEntrySum (vs : List Volumes) (T : Int) (d : String) : Int :=
  (vs.map (fun v => Volumes.entrySum v T d)).sum

/-- The sum, over every input `v` and every key `k` of `v` that truncates to the minute `T`,
of `v[k][d]`. -/
def mergedMinuteSum (vs : List Volumes) (T : Int) (d : String) : Int :=
  (vs.map (fun v => Volumes.minuteSum v T d)).sum

/-- A `Volumes` is a well-formed map of well-formed maps. -/
def Volumes.WF (v : Volumes) : Prop := GoMap.WF v ∧ ∀ e ∈ v, GoMap.WF e.2

instance Volumes.WF.decidable (v : Volumes) : Decidable (Volumes.WF v) :=
  inferInstanceAs (Decidable (GoMap.WF v ∧ ∀ e ∈ v, GoMap.WF e.2))

/-- The volumes of `TestMergeVolumes`, keyed by the Unix seconds of 2021-04-30 06:00:35,
06:00:42, 06:01:00 and of 06:00:37, 06:01:30 UTC. -/
def testMergeV1 : Volumes :=
  [(1619762435, [("atom", 100)]), (1619762442, [("atom", 200)]),
   (1619762460, [("atom", 50), ("usd", 20)])]

/-- The second volumes of `TestMergeVolumes`. -/
def testMergeV2 : Volumes :=
  [(1619762437, [("atom", 50)]), (1619762490, [("usd", 70)])]

/-- The volumes of `TestVolumes_RemoveOutdated`: buckets at 06:00, 06:01 and 07:00 UTC of
2021-04-30. -/
def testOutdatedV : Volumes :=
  [(1619762400, [("atom", 20), ("usd", 100)]), (1619762460, [("atom", 100), ("usd", 200)]),
   (1619766000, [("usd", 300)])]

/-- `type CountByPoolID map[uint64]int`. -/
abbrev CountByPoolID := List (Nat × Int)

/-- `type AccountActionStatus struct`. -/
structure AccountActionStatus where
  CountByPoolID : schema.CountByPoolID
  CountByPoolIDByDate : List (String × schema.CountByPoolID)
  deriving DecidableEq, Repr

/-- `func NewAccountActionStatus() AccountActionStatus`. -/
def NewAccountActionStatus : AccountActionStatus :=
  { CountByPoolID := [], CountByPoolIDByDate := [] }

/-- `func (s *AccountActionStatus) IncreaseCount(poolID uint64, date string, amount int)`. -/
def AccountActionStatus.IncreaseCount (s : AccountActionStatus) (poolID : Nat) (date : String)
    (amount : Int) : AccountActionStatus :=
  let byPool := store s.CountByPoolID poolID (wrapInt64 (getInt s.CountByPoolID poolID + amount))
  match lookup s.CountByPoolIDByDate date with
  | some c =>
    { CountByPoolID := byPool
      CountByPoolIDByDate :=
        store s.CountByPoolIDByDate date (store c poolID (wrapInt64 (getInt c poolID + amount))) }
  | none =>
    { CountByPoolID := byPool
      CountByPoolIDByDate :=
        store (store s.CountByPoolIDByDate date []) date
          (store [] poolID (wrapInt64 (getInt ([] : schema.CountByPoolID) poolID + amount))) }

/-- `func MergeAccountActionStatuses(ss ...AccountActionStatus) AccountActionStatus`. -/
def MergeAccountActionStatuses (ss : List AccountActionStatus) : AccountActionStatus :=
  ss.foldl (fun s s2 =>
    s2.CountByPoolIDByDate.foldl (fun s e =>
      e.2.foldl (fun s e2 => s.IncreaseCount e2.1 e.1 e2.2) s) s) NewAccountActionStatus

/-- `func (s AccountActionStatus) NumDifferentPools() int`. -/
def AccountActionStatus.NumDifferentPools (s : AccountActionStatus) : Int :=
  s.CountByPoolID.length

/-- `func (s AccountActionStatus) NumDifferentPoolsByDate() map[string]int`. -/
def AccountActionStatus.NumDifferentPoolsByDate (s : AccountActionStatus) : List (String × Int) :=
  s.CountByPoolIDByDate.foldl (fun m e => store m e.1 (e.2.length : Int)) []

/-- The sum of the counts for `poolID` over the entries of `s.CountByPoolIDByDate` whose
date is `date`. -/
def AccountActionStatus.entrySum (s : AccountActionStatus) (date : String) (poolID : Nat) : Int :=
  (s.CountByPoolIDByDate.map (fun e => if e.1 = date then GoMap.entrySum e.2 poolID else 0)).sum

/-- The maps of the status are well-formed. -/
def AccountActionStatus.WF (s : AccountActionStatus) : Prop :=
  GoMap.WF s.CountByPoolID ∧ GoMap.WF s.CountByPoolIDByDate ∧
    ∀ e ∈ s.CountByPoolIDByDate, GoMap.WF e.2

instance AccountActionStatus.WF.decidable (s : AccountActionStatus) :
    Decidable (AccountActionStatus.WF s) :=
  inferInstanceAs (Decidable (GoMap.WF s.CountByPoolID ∧ GoMap.WF s.CountByPoolIDByDate ∧
    ∀ e ∈ s.CountByPoolIDByDate, GoMap.WF e.2))

/-- The read `s.CountByPoolIDByDate[date][poolID]`. -/
def AccountActionStatus.cell (s : AccountActionStatus) (date : String) (poolID : Nat) : Int :=
  getInt (getMap s.CountByPoolIDByDate date) poolID

/-- `type Coin struct`. -/
structure Coin where
  Denom : String
  Amount : Int
  deriving DecidableEq, Repr

/-- `type Balance struct`. -/
structure Balance where
  BlockHeight : Int
  Address : String
  Coins : List Coin
  deriving DecidableEq, Repr

/-- `type Supply struct`, with the embedded `Coin` inlined. -/
structure Supply where
  BlockHeight : Int
  Denom : String
  Amount : Int
  deriving DecidableEq, Repr

/-- `type PoolStatus struct`. -/
structure PoolStatus where
  BlockHeight : Int
  ID : Nat
  SwapFeeVolumes : Volumes
  deriving DecidableEq, Repr

/-- `type Pool struct`; a nil pointer field is `none`. -/
structure Pool where
  ID : Nat
  ReserveAccountAddress : String
  ReserveCoinDenoms : List String
  PoolCoinDenom : String
  Status : Option PoolStatus
  ReserveAccountBalance : Option Balance
  PoolCoinSupply : Option Supply
  deriving DecidableEq, Repr

/-- `func (p Pool) ReserveCoins() []Coin`. -/
def Pool.ReserveCoins (p : Pool) : List Coin :=
  match p.ReserveAccountBalance with
  | some b =>
    let cm : List (String × Coin) := b.Coins.foldl (fun cm c => store cm c.Denom c) []
    p.ReserveCoinDenoms.map (fun denom => (lookup cm denom).getD { Denom := "", Amount := 0 })
  | none => []

/-- `func (p Pool) PoolCoinAmount() int64`. -/
def Pool.PoolCoinAmount (p : Pool) : Int :=
  match p.PoolCoinSupply with
  | some s => s.Amount
  | none => 0

/-- `type AccountStatus struct`. -/
structure AccountStatus where
  BlockHeight : Int
  Address : String
  Deposits : AccountActionStatus
  Swaps : AccountActionStatus
  deriving DecidableEq, Repr

/-- `type Account struct`, without the time stamps; a nil pointer field is `none`. -/
structure Account where
  Address : String
  Username : String
  IsBlocked : Bool
  Status : Option AccountStatus
  Balance : Option Balance
  deriving DecidableEq, Repr

/-- `func (acc Account) DepositStatus() AccountActionStatus`. -/
def Account.DepositStatus (acc : Account) : AccountActionStatus :=
  match acc.Status with
  | some st => st.Deposits
  | none => { CountByPoolID := [], CountByPoolIDByDate := [] }

/-- `func (acc Account) SwapStatus() AccountActionStatus`. -/
def Account.SwapStatus (acc : Account) : AccountActionStatus :=
  match acc.Status with
  | some st => st.Swaps
  | none => { CountByPoolID := [], CountByPoolIDByDate := [] }

/-- `func (acc Account) Coins() []Coin`. -/
def Account.Coins (acc : Account) : List Coin :=
  match acc.Balance with
  | some b => b.Coins
  | none => []

/-- Every cell of the status is a fixed point of the wrap-around. -/
def AccountActionStatus.InRange (s : AccountActionStatus) : Prop :=
  ∀ d p, wrapInt64 (s.cell d p) = s.cell d p

/-- The sum of the `(date, poolID)` cells of the statuses `ss`. -/
def cellSum (ss : List AccountActionStatus) (date : String) (poolID : Nat) : Int :=
  (ss.map (fun s => s.cell date poolID)).sum

/-- A status with two dates, for the examples. -/
def exampleStatusA : AccountActionStatus :=
  { CountByPoolID := [(1, 2), (2, 3)]
    CountByPoolIDByDate := [("2021-05-04", [(1, 2), (2, 1)]), ("2021-05-05", [(2, 2)])] }

/-- A status with one date, for the examples. -/
def exampleStatusB : AccountActionStatus :=
  { CountByPoolID := [(2, 5)], CountByPoolIDByDate := [("2021-05-05", [(2, 5)])] }

/-- A status with a pool of its own, for the examples. -/
def exampleStatusC : AccountActionStatus :=
  { CountByPoolID := [(7, 1)], CountByPoolIDByDate := [("2021-05-05", [(7, 1), (2, 4)])] }

end schema

/-! ## Floating-point arithmetic as a parameter -/

/-- The `float64` operations the backend uses. -/
structure FloatOps (F : Type) where
  zero : F
  one : F
  add : F → F → F
  sub : F → F → F
  mul : F → F → F
  div : F → F → F
  /-- The conversion `float64(n)` of an integer. -/
  ofInt : Int → F
  /-- The library function `math.Pow10`. -/
  pow10 : Int → F
  /-- The library function `math.IsNaN`: the value is a NaN. -/
  isNaN : F → Bool

/-- Exact rational arithmetic, in which no value is a NaN. -/
def ratOps : FloatOps ℚ where
  zero := 0
  one := 1
  add := fun a b => a + b
  sub := fun a b => a - b
  mul := fun a b => a * b
  div := fun a b => a / b
  ofInt := fun n => (n : ℚ)
  pow10 := fun n => (10 : ℚ) ^ n
  isNaN := fun _ => false

/-- The comparison `a != b` of two `float64` values, whose values that are no NaN are
linearly ordered: true when `a` or `b` is a NaN. -/
def floatNe {F : Type} [LinearOrder F] (ops : FloatOps F) (a b : F) : Bool :=
  ops.isNaN a || ops.isNaN b || decide (a ≠ b)

/-- The comparison `a > b` of two `float64` values: false when `a` or `b` is a NaN. -/
def floatGt {F : Type} [LinearOrder F] (ops : FloatOps F) (a b : F) : Bool :=
  !ops.isNaN a && !ops.isNaN b && decide (a > b)

/-- The values of the arithmetic `nanOps`: NaN, the two infinities and the rationals. -/
inductive ExtRat where
  | nan
  | negInf
  | fin (q : ℚ)
  | posInf
  deriving DecidableEq

/-- The place of a value in the order of `ExtRat`: the infinities around the rationals, and
NaN, which no comparison of `float64` values orders, before them. -/
def ExtRat.key : ExtRat → Lex (Nat × ℚ)
  | .nan => toLex (0, 0)
  | .negInf => toLex (1, 0)
  | .fin q => toLex (2, q)
  | .posInf => toLex (3, 0)

instance ExtRat.linearOrder : LinearOrder ExtRat :=
  LinearOrder.lift' ExtRat.key (fun a b h => by
    have h0 : ofLex (ExtRat.key a) = ofLex (ExtRat.key b) := congrArg ofLex h
    cases a <;> cases b <;>
      simp only [ExtRat.key, ofLex_toLex, Prod.mk.injEq] at h0 <;>
      first
        | rfl
        | exact absurd h0.1 (by decide)
        | rw [h0.2])

/-- The sum of two values as IEEE 754 has it for NaN and the infinities. -/
def ExtRat.add : ExtRat → ExtRat → ExtRat
  | .nan, _ => .nan
  | _, .nan => .nan
  | .posInf, .negInf => .nan
  | .negInf, .posInf => .nan
  | .posInf, _ => .posInf
  | _, .posInf => .posInf
  | .negInf, _ => .negInf
  | _, .negInf => .negInf
  | .fin a, .fin b => .fin (a + b)

/-- The negation of a value. -/
def ExtRat.neg : ExtRat → ExtRat
  | .nan => .nan
  | .negInf => .posInf
  | .fin q => .fin (-q)
  | .posInf => .negInf

/-- The negative infinity or the positive one. -/
def ExtRat.signedInf (negative : Bool) : ExtRat :=
  if negative then .negInf else .posInf

/-- The product of two values as IEEE 754 has it for NaN and the infinities. -/
def ExtRat.mul : ExtRat → ExtRat → ExtRat
  | .nan, _ => .nan
  | _, .nan => .nan
  | .fin a, .fin b => .fin (a * b)
  | .fin a, .posInf => if a = 0 then .nan else ExtRat.signedInf (decide (a < 0))
  | .fin a, .negInf => if a = 0 then .nan else ExtRat.signedInf (!decide (a < 0))
  | .posInf, .fin b => if b = 0 then .nan else ExtRat.signedInf (decide (b < 0))
  | .negInf, .fin b => if b = 0 then .nan else ExtRat.signedInf (!decide (b < 0))
  | .posInf, .posInf => .posInf
  | .negInf, .negInf => .posInf
  | .posInf, .negInf => .negInf
  | .negInf, .posInf => .negInf

/-- The quotient of two values as IEEE 754 has it for NaN, the infinities and the division
by zero, zero counting as positive. -/
def ExtRat.div : ExtRat → ExtRat → ExtRat
  | .nan, _ => .nan
  | _, .nan => .nan
  | .fin a, .fin b =>
    if b = 0 then (if a = 0 then .nan else ExtRat.signedInf (decide (a < 0))) else .fin (a / b)
  | .fin _, .posInf => .fin 0
  | .fin _, .negInf => .fin 0
  | .posInf, .fin b => ExtRat.signedInf (decide (b < 0))
  | .negInf, .fin b => ExtRat.signedInf (!decide (b < 0))
  | .posInf, .posInf => .nan
  | .posInf, .negInf => .nan
  | .negInf, .posInf => .nan
  | .negInf, .negInf => .nan

/-- An arithmetic with NaN and the infinities: the results of finite operands are exact,
without rounding and without overflow, and NaN, the infinities and the division by zero
behave as in the `float64` arithmetic. -/
def nanOps : FloatOps ExtRat where
  zero := .fin 0
  one := .fin 1
  add := ExtRat.add
  sub := fun a b => ExtRat.add a (ExtRat.neg b)
  mul := ExtRat.mul
  div := ExtRat.div
  ofInt := fun n => .fin (n : ℚ)
  pow10 := fun n => .fin ((10 : ℚ) ^ n)
  isNaN := fun a => decide (a = .nan)

/-! ## Package util -/

namespace util

/-- `func StringInSlice(s string, ss []string) bool`. -/
def StringInSlice (s : String) : List String → Bool
  | [] => false
  | x :: ss => if s = x then true else StringInSlice s ss

/-- `func MinInt(a, b int) int`. -/
def MinInt (a b : Int) : Int := if a < b then a else b

end util

/-- `strings.HasPrefix(s, p)`. -/
def stringsHasPrefix (s p : String) : Bool := p.data.isPrefixOf s.data

/-! ## Package pricetable -/

namespace pricetable

open GoMap

/-- `type DenomMetadata struct`. -/
structure DenomMetadata where
  Denom : String
  Display : String
  Exponent : Int
  deriving DecidableEq, Repr

/-- `type ManualPrice struct`. -/
structure ManualPrice (F : Type) where
  Denom : String
  MinPrice : F
  MaxPrice : F
  deriving DecidableEq, Repr

/-- `type Context struct`. -/
structure Context (F : Type) where
  coinDenoms : List String
  manualPrices : List (String × ManualPrice F)
  denomMetadata : List (String × DenomMetadata)
  priceTable : List (String × F)
  pools : List (String × schema.Pool)
  deriving DecidableEq, Repr

/-- The errors `Context.Price` returns: its two `fmt.Errorf` sites. -/
inductive PriceError where
  /-- `normal coin denom %q's price must be in price table`. -/
  | normalCoinNotInTable (denom : String)
  /-- `unknown denom type: %s`. -/
  | unknownDenom (denom : String)
  deriving DecidableEq, Repr

variable {F : Type}

/-- `func (c *Context) IsNormalCoinDenom(denom string) bool`. -/
def Context.IsNormalCoinDenom (c : Context F) (denom : String) : Bool :=
  util.StringInSlice denom c.coinDenoms

/-- `func (c *Context) IsPoolCoinDenom(denom string) bool`. -/
def Context.IsPoolCoinDenom (c : Context F) (denom : String) : Bool :=
  if !stringsHasPrefix denom "pool" then false
  else (lookup c.pools denom).isSome

/-- The assignment `c.priceTable[denom] = p`. -/
def Context.setPrice (c : Context F) (denom : String) (p : F) : Context F :=
  { c with priceTable := store c.priceTable denom p }

/-- What a call of `Context.Price` leaves behind when it returns: the returned pair
(price or error), the context with its updated price table, and the number of values
drawn so far from the global random source. -/
abbrev PriceResult (F : Type) := Except PriceError F × Context F × Nat

/-- The loop `for _, rc := range pool.ReserveCoins()` of `Context.Price`, over the
resolver `price` used for the recursive calls: it stops at the first error. -/
def sumReserveCoins (ops : FloatOps F)
    (price : Context F → Nat → String → Option (PriceResult F)) :
    List schema.Coin → F → Context F → Nat → Option (PriceResult F)
  | [], sum, c, g => some (.ok sum, c, g)
  | rc :: rcs, sum, c, g =>
    match price c g rc.Denom with
    | none => none
    | some (.error e, c', g') => some (.error e, c', g')
    | some (.ok tp, c', g') =>
      sumReserveCoins ops price rcs (ops.add sum (ops.mul tp (ops.ofInt rc.Amount))) c' g'

/-- `func (c *Context) Price(denom string) (float64, error)`.

`rand n` is the `n`-th value `rand.Float64()` returns and `g` the number of values drawn
before the call.  The first argument bounds the depth of the recursion: the result is
`none` when the call does not return within that depth. -/
def Price (ops : FloatOps F) (rand : Nat → F) :
    Nat → Context F → Nat → String → Option (PriceResult F)
  | 0, _, _, _ => none
  | fuel + 1, c, g, denom =>
    match lookup c.priceTable denom with
    | some p => some (.ok p, c, g)
    | none =>
      if c.IsNormalCoinDenom denom then
        match lookup c.manualPrices denom with
        | none => some (.error (.normalCoinNotInTable denom), c, g)
        | some mp =>
          let p := ops.add mp.MinPrice (ops.mul (rand g) (ops.sub mp.MaxPrice mp.MinPrice))
          some (.ok p, c.setPrice denom p, g + 1)
      else if c.IsPoolCoinDenom denom then
        match lookup c.pools denom with
        | none => none -- not reached: `IsPoolCoinDenom` has found the pool
        | some pool =>
          if pool.PoolCoinAmount = 0 then
            some (.ok ops.zero, c.setPrice denom ops.zero, g)
          else
            match sumReserveCoins ops (Price ops rand fuel) pool.ReserveCoins ops.zero c g with
            | none => none
            | some (.error e, c', g') => some (.error e, c', g')
            | some (.ok sum, c', g') =>
              let p := ops.mul (ops.div ops.one (ops.ofInt pool.PoolCoinAmount)) sum
              some (.ok p, c'.setPrice denom p, g')
      else
        match lookup c.denomMetadata denom with
        | none => some (.error (.unknownDenom denom), c, g)
        | some md =>
          match Price ops rand fuel c g md.Display with
          | none => none
          | some (.error e, c', g') => some (.error e, c', g')
          | some (.ok tp, c', g') =>
            let p := ops.div tp (ops.pow10 md.Exponent)
            some (.ok p, c'.setPrice denom p, g')

/-- `c'` has the configuration of `c` and every price that `c` holds. -/
def Context.Extends (c c' : Context F) : Prop :=
  c'.coinDenoms = c.coinDenoms ∧ c'.manualPrices = c.manualPrices ∧
  c'.denomMetadata = c.denomMetadata ∧ c'.pools = c.pools ∧
  ∀ d x, lookup c.priceTable d = some x → lookup c'.priceTable d = some x

/-- Every call of the resolver that returns leaves an extension of the context it
started from, and a returned price is the price the table then holds for the denom. -/
def Memoizes (price : Context F → Nat → String → Option (PriceResult F)) : Prop :=
  ∀ c g denom r c' g', price c g denom = some (r, c', g') →
    Context.Extends c c' ∧ ∀ p, r = .ok p → lookup c'.priceTable denom = some p

/-- The calls `c.Price(rc.Denom)` for the coins `rcs` in turn, as the loop over the
reserve coins makes them: the prices they return, or the first error. -/
def resolveAll (price : Context F → Nat → String → Option (PriceResult F)) :
    List schema.Coin → Context F → Nat → Option (Except PriceError (List F) × Context F × Nat)
  | [], c, g => some (.ok [], c, g)
  | rc :: rcs, c, g =>
    match price c g rc.Denom with
    | none => none
    | some (.error e, c', g') => some (.error e, c', g')
    | some (.ok tp, c', g') =>
      match resolveAll price rcs c' g' with
      | none => none
      | some (.error e, c'', g'') => some (.error e, c'', g'')
      | some (.ok tps, c'', g'') => some (.ok (tp :: tps), c'', g'')

/-- The sum of `tps[i] * float64(rcs[i].Amount)` over `i`, added up from the left onto
`sum`. -/
def weightedSum (ops : FloatOps F) : List F → List schema.Coin → F → F
  | tp :: tps, rc :: rcs, sum =>
    weightedSum ops tps rcs (ops.add sum (ops.mul tp (ops.ofInt rc.Amount)))
  | _, _, sum => sum

/-- In `c` the denom is a pool coin with non-zero supply whose price is not in the table,
and the first reserve coin of its pool whose price is not in the table either is `next`. -/
def Context.WaitsOn (c : Context F) (denom next : String) : Prop :=
  lookup c.priceTable denom = none ∧ c.IsNormalCoinDenom denom = false ∧
  c.IsPoolCoinDenom denom = true ∧
  ∃ pool, lookup c.pools denom = some pool ∧ pool.PoolCoinAmount ≠ 0 ∧
    ∃ pre rc post, pool.ReserveCoins = pre ++ rc :: post ∧ rc.Denom = next ∧
      lookup c.priceTable next = none ∧
      ∀ x ∈ pre, (lookup c.priceTable x.Denom).isSome = true

/-- By the configuration of `c`, every denom of `S` is a pool coin with non-zero supply
that is not a normal coin and whose pool holds a reserve coin of `S`: the coins of `S`
depend on each other in a cycle. -/
def Context.CyclicOn (c : Context F) (S : String → Prop) : Prop :=
  ∀ d, S d → c.IsNormalCoinDenom d = false ∧ c.IsPoolCoinDenom d = true ∧
    ∃ pool, lookup c.pools d = some pool ∧ pool.PoolCoinAmount ≠ 0 ∧
      ∃ rc ∈ pool.ReserveCoins, S rc.Denom

/-- No denom of `S` has a price in the table of `c`. -/
def Context.Unpriced (c : Context F) (S : String → Prop) : Prop :=
  ∀ d, S d → lookup c.priceTable d = none

/-- Some call of `Price` with recursion depth at most `n`, for a denom of `S` and from a
context in which `S` is cyclic and unpriced, returns a price. -/
def PricedWithin (ops : FloatOps F) (rand : Nat → F) (S : String → Prop) (n : Nat) : Prop :=
  ∃ m, m ≤ n ∧ ∃ c g d p c' g', S d ∧ Context.CyclicOn c S ∧ Context.Unpriced c S ∧
    Price ops rand m c g d = some (.ok p, c', g')

/-- The loop of `TestContext_Price`: `Price` called for each denom in turn on the same
context, collecting what the calls return. -/
def priceEach (ops : FloatOps F) (rand : Nat → F) (fuel : Nat) :
    List String → Context F → Nat → Option (List (Except PriceError F) × Context F × Nat)
  | [], c, g => some ([], c, g)
  | denom :: rest, c, g =>
    match Price ops rand fuel c g denom with
    | none => none
    | some (r, c', g') =>
      match priceEach ops rand fuel rest c' g' with
      | none => none
      | some (rs, c'', g'') => some (r :: rs, c'', g'')

/-- A pool of the price-resolver scenario: reserve coins `x` of `a` and `y` of `b`, with
`supply` pool coins. -/
def testPool (denom a b : String) (x y supply : Int) : String × schema.Pool :=
  (denom,
    { ID := 0
      ReserveAccountAddress := ""
      ReserveCoinDenoms := [a, b]
      PoolCoinDenom := denom
      Status := none
      ReserveAccountBalance :=
        some { BlockHeight := 0, Address := "", Coins := [⟨a, x⟩, ⟨b, y⟩] }
      PoolCoinSupply := some { BlockHeight := 0, Denom := denom, Amount := supply } })

/-- The context of `TestContext_Price`, with the pools given. -/
def testContextWith (pools : List (String × schema.Pool)) : Context ℚ :=
  { coinDenoms := ["atom", "luna", "usd"]
    manualPrices := [("usd", ⟨"usd", 1, 1⟩)]
    denomMetadata :=
      [("uusd", ⟨"uusd", "usd", 6⟩), ("uatom", ⟨"uatom", "atom", 6⟩),
       ("uluna", ⟨"uluna", "luna", 6⟩)]
    priceTable := [("atom", 20), ("luna", 10)]
    pools := pools }

/-- The three plain pools of the scenario. -/
def testPools : List (String × schema.Pool) :=
  [testPool "pool1" "uatom" "uusd" 1000000 20000000 1000000,
   testPool "pool2" "uluna" "uusd" 1000000 10000000 1000000,
   testPool "pool3" "uatom" "uluna" 1000000 2000000 1000000]

/-- The scenario with the pools 1 to 3. -/
def testContext : Context ℚ := testContextWith testPools

/-- The scenario of `TestContext_Price`: the pools 1 to 3 and the nested pool 4. -/
def testContextNested : Context ℚ :=
  testContextWith (testPools ++ [testPool "pool4" "pool1" "pool2" 50000 100000 1000000])

/-- The value `a` lies within the relative tolerance 1e-3 of `b`. -/
def withinRelTol (a b : ℚ) : Prop := |a - b| ≤ 1 / 1000 * |b|

/-- `func approxEqual(a, b float64) bool` of the test: absolute tolerance 0.001. -/
def approxEqual (a b : ℚ) : Prop := |a - b| ≤ 1 / 1000

/-- The results `rs` are prices, each within the tolerance `tol` of the expected one. -/
def resultsWithin (tol : ℚ → ℚ → Prop) (rs : List (Except PriceError ℚ)) (expected : List ℚ) :
    Prop :=
  List.Forall₂ (fun r e => ∃ p, r = .ok p ∧ tol p e) rs expected

/-- The context of the scenario once `uatom` is resolved. -/
def testContextUatom : Context ℚ :=
  { testContext with priceTable := [("atom", 20), ("luna", 10), ("uatom", 1 / 50000)] }

/-- The context of the scenario once the reserve coins of pool 1 are resolved. -/
def testContextReserves : Context ℚ :=
  { testContext with
    priceTable :=
      [("atom", 20), ("luna", 10), ("uatom", 1 / 50000), ("usd", 1), ("uusd", 1 / 1000000)] }

/-- The scenario with a pool that holds its own pool coin behind a priced coin. -/
def selfCycleContext : Context ℚ :=
  testContextWith [testPool "poolP" "atom" "poolP" 1000000 50000 1000000]

/-- The scenario with two pools that hold each other's pool coin. -/
def mutualCycleContext : Context ℚ :=
  testContextWith
    [testPool "poolP" "atom" "poolQ" 1000000 50000 1000000,
     testPool "poolQ" "poolP" "luna" 50000 1000000 1000000]

/-- The scenario with a pool that holds its own pool coin behind a coin of unknown denom. -/
def errorCycleContext : Context ℚ :=
  testContextWith [testPool "poolE" "foo" "poolE" 1000000 50000 1000000]

/-- The scenario with a pool without supply. -/
def emptyPoolContext : Context ℚ :=
  testContextWith [testPool "pool9" "uatom" "uusd" 0 0 0]

end pricetable

/-- The comparison `a < b` of two Go strings: lexicographic order. -/
def stringLess (a b : String) : Bool := decide (a.data < b.data)

/-! ## Package score -/

namespace score

open GoMap

/-- `type Config struct`. -/
structure Config (F : Type) where
  TradingScoreRatio : F
  InitialBalancesValue : F
  MaxActionScorePerDay : Int
  TradingDates : List String
  deriving DecidableEq, Repr

/-- `type AccountActionStatus struct` of the scoreboard. -/
structure AccountActionStatus where
  NumDifferentPools : Int
  NumDifferentPoolsByDate : List (String × Int)
  deriving DecidableEq, Repr

/-- `type Account struct` of the scoreboard; `UpdatedAt` is in Unix seconds. -/
structure Account (F : Type) where
  BlockHeight : Int
  Address : String
  Username : String
  Ranking : Int
  TotalScore : F
  ActionScore : F
  TradingScore : F
  IsValid : Bool
  DepositStatus : AccountActionStatus
  SwapStatus : AccountActionStatus
  UpdatedAt : Int
  deriving DecidableEq, Repr

/-- The errors of the two score functions. -/
inductive ScoreError where
  /-- `missing account balance`. -/
  | missingBalance
  /-- `no price for denom %q`. -/
  | noPrice (denom : String)
  deriving DecidableEq, Repr

/-- The errors of `Scoreboard`, which wrap a score error with the account address. -/
inductive ScoreboardError where
  /-- `calculate trading score for account %q: %w`. -/
  | tradingScore (address : String) (e : ScoreError)
  /-- `calculate action score for account %q: %w`. -/
  | actionScore (address : String) (e : ScoreError)
  deriving DecidableEq, Repr

variable {F : Type}

/-- `func (s *Service) ActionScore(acc schema.Account) (float64, bool, error)`;
the error of the source is always nil. -/
def ActionScore (ops : FloatOps F) (cfg : Config F) (acc : schema.Account) :
    Except ScoreError (F × Bool) :=
  let ds := acc.DepositStatus.NumDifferentPoolsByDate
  let ss := acc.SwapStatus.NumDifferentPoolsByDate
  let score := cfg.TradingDates.foldl (fun score k =>
    ops.add (ops.add score (ops.ofInt (util.MinInt cfg.MaxActionScorePerDay (getInt ds k))))
      (ops.ofInt (util.MinInt cfg.MaxActionScorePerDay (getInt ss k)))) ops.zero
  let score := ops.div score
    (ops.ofInt (wrapInt64 (wrapInt64 (2 * cfg.MaxActionScorePerDay) * cfg.TradingDates.length)))
  let score := ops.mul score (ops.ofInt 100)
  let isValid := decide (acc.DepositStatus.NumDifferentPools ≥ 3) &&
    decide (acc.SwapStatus.NumDifferentPools ≥ 3)
  .ok (score, isValid)

/-- The loop over the coins of the balance in `TradingScore`. -/
def tradingValue (ops : FloatOps F) (priceTable : List (String × F)) :
    List schema.Coin → F → Except ScoreError F
  | [], v => .ok v
  | c :: cs, v =>
    if c.Denom = "stake" then tradingValue ops priceTable cs v
    else
      match lookup priceTable c.Denom with
      | none => .error (.noPrice c.Denom)
      | some p => tradingValue ops priceTable cs (ops.add v (ops.mul p (ops.ofInt c.Amount)))

/-- `func (s *Service) TradingScore(acc schema.Account, priceTable price.Table) (float64, error)`. -/
def TradingScore (ops : FloatOps F) (cfg : Config F) (acc : schema.Account)
    (priceTable : List (String × F)) : Except ScoreError F :=
  match acc.Balance with
  | none => .error .missingBalance
  | some _ =>
    match tradingValue ops priceTable acc.Coins ops.zero with
    | .error e => .error e
    | .ok v =>
      .ok (ops.mul (ops.div (ops.sub v cfg.InitialBalancesValue) cfg.InitialBalancesValue)
        (ops.ofInt 100))

/-- `func (s *Service) TotalScore(actionScore, tradingScore float64) float64`. -/
def TotalScore (ops : FloatOps F) (cfg : Config F) (actionScore tradingScore : F) : F :=
  ops.add (ops.mul actionScore (ops.sub ops.one cfg.TradingScoreRatio))
    (ops.mul tradingScore cfg.TradingScoreRatio)

/-- The callback `Scoreboard` passes to `IterateAccounts`: `none` when the account is
skipped, otherwise the scored account to append or the error that stops the iteration. -/
def scoreAccount (ops : FloatOps F) (cfg : Config F) (now : Int) (blockHeight : Int)
    (priceTable : List (String × F)) (acc : schema.Account) :
    Option (Except ScoreboardError (Account F)) :=
  if acc.Username = "" then none
  else
    match TradingScore ops cfg acc priceTable with
    | .error e => some (.error (.tradingScore acc.Address e))
    | .ok ts =>
      match ActionScore ops cfg acc with
      | .error e => some (.error (.actionScore acc.Address e))
      | .ok (as, isValid) =>
        some (.ok
          { BlockHeight := blockHeight
            Address := acc.Address
            Username := acc.Username
            Ranking := 0
            TotalScore := ops.add (ops.mul ts cfg.TradingScoreRatio)
              (ops.mul as (ops.sub ops.one cfg.TradingScoreRatio))
            ActionScore := as
            TradingScore := ts
            IsValid := isValid
            DepositStatus :=
              { NumDifferentPools := acc.DepositStatus.NumDifferentPools
                NumDifferentPoolsByDate := acc.DepositStatus.NumDifferentPoolsByDate }
            SwapStatus :=
              { NumDifferentPools := acc.SwapStatus.NumDifferentPools
                NumDifferentPoolsByDate := acc.SwapStatus.NumDifferentPoolsByDate }
            UpdatedAt := now })

/-- The iteration `s.ss.IterateAccounts(ctx, blockHeight, cb)` over the accounts the store
yields, in the order it yields them, with the callback of `Scoreboard`: the scored
accounts appended to `accs`, or the first error. -/
def iterateAccounts (ops : FloatOps F) (cfg : Config F) (now : Int) (blockHeight : Int)
    (priceTable : List (String × F)) :
    List schema.Account → List (Account F) → Except ScoreboardError (List (Account F))
  | [], accs => .ok accs
  | acc :: rest, accs =>
    match scoreAccount ops cfg now blockHeight priceTable acc with
    | none => iterateAccounts ops cfg now blockHeight priceTable rest accs
    | some (.error e) => .error e
    | some (.ok a) => iterateAccounts ops cfg now blockHeight priceTable rest (accs ++ [a])

/-- The `less` function `Scoreboard` sorts by, with the comparisons `!=` and `>` of
`float64` values. -/
def less [LinearOrder F] (ops : FloatOps F) (x y : Account F) : Bool :=
  if x.IsValid != y.IsValid then x.IsValid
  else if floatNe ops x.TotalScore y.TotalScore then floatGt ops x.TotalScore y.TotalScore
  else stringLess x.Address y.Address

/-- What `less` is between two accounts whose total scores are no NaN. -/
def lessOrdered [LinearOrder F] (x y : Account F) : Bool :=
  if x.IsValid != y.IsValid then x.IsValid
  else if x.TotalScore ≠ y.TotalScore then decide (x.TotalScore > y.TotalScore)
  else stringLess x.Address y.Address

/-- Insertion of `a` into a sorted list, behind the elements that are less than `a` and
before the first element that is not. -/
def insertStable {α : Type} (lt : α → α → Bool) (a : α) : List α → List α
  | [] => [a]
  | b :: l => if lt b a then b :: insertStable lt a l else a :: b :: l

/-- `sort.SliceStable(x, less)` of the standard library, by its contract: the elements in
the order of `less`, equal elements in their original order; here an insertion sort. -/
def sortSliceStable {α : Type} (lt : α → α → Bool) : List α → List α
  | [] => []
  | a :: l => insertStable lt a (sortSliceStable lt l)

/-- The loop `for i := range accs { accs[i].Ranking = i + 1 }`, from index `i` on. -/
def assignRanking : Nat → List (Account F) → List (Account F)
  | _, [] => []
  | i, a :: l => { a with Ranking := (i : Int) + 1 } :: assignRanking (i + 1) l

/-- `func (s *Service) Scoreboard(ctx, blockHeight, priceTable) ([]Account, error)`, on the
list `stored` of accounts that `IterateAccounts` yields and the time `now`. -/
def Scoreboard [LinearOrder F] (ops : FloatOps F) (cfg : Config F) (now : Int)
    (stored : List schema.Account) (blockHeight : Int) (priceTable : List (String × F)) :
    Except ScoreboardError (List (Account F)) :=
  match iterateAccounts ops cfg now blockHeight priceTable stored [] with
  | .error e => .error e
  | .ok accs => .ok (assignRanking 0 (sortSliceStable (less ops) accs))

/-- The order of the scoreboard between an account `x` and the account `y` listed right
after it: valid before invalid, then the higher total score, then the smaller address. -/
def RanksBefore [LinearOrder F] (x y : Account F) : Prop :=
  (x.IsValid = true ∧ y.IsValid = false) ∨
  (x.IsValid = y.IsValid ∧ x.TotalScore > y.TotalScore) ∨
  (x.IsValid = y.IsValid ∧ x.TotalScore = y.TotalScore ∧ x.Address.data ≤ y.Address.data)

/-- A scored account with the given address, validity and total score. -/
def exampleAccount (address : String) (isValid : Bool) (total : ℚ) : Account ℚ :=
  { BlockHeight := 1
    Address := address
    Username := address
    Ranking := 0
    TotalScore := total
    ActionScore := 0
    TradingScore := total
    IsValid := isValid
    DepositStatus := { NumDifferentPools := 0, NumDifferentPoolsByDate := [] }
    SwapStatus := { NumDifferentPools := 0, NumDifferentPoolsByDate := [] }
    UpdatedAt := 0 }

/-- A status that counts three pools on one trading date. -/
def exampleThreePools : schema.AccountActionStatus :=
  { CountByPoolID := [(1, 1), (2, 1), (3, 1)]
    CountByPoolIDByDate := [("2021-05-04", [(1, 1), (2, 1), (3, 1)])] }

/-- A configuration that scores by the trading score alone. -/
def exampleConfig : Config ℚ :=
  { TradingScoreRatio := 1
    InitialBalancesValue := 100
    MaxActionScorePerDay := 3
    TradingDates := ["2021-05-04"] }

/-- The stored accounts of the example: B without a status, an account without a
username, and A with three pools of deposits and swaps. -/
def exampleStored : List schema.Account :=
  [{ Address := "cosmos1b", Username := "bob", IsBlocked := false, Status := none
     Balance := some { BlockHeight := 5, Address := "cosmos1b", Coins := [⟨"usd", 190⟩] } },
   { Address := "cosmos1c", Username := "", IsBlocked := false, Status := none, Balance := none },
   { Address := "cosmos1a", Username := "alice", IsBlocked := false
     Status := some { BlockHeight := 5, Address := "cosmos1a", Deposits := exampleThreePools
                      Swaps := exampleThreePools }
     Balance := some { BlockHeight := 5, Address := "cosmos1a"
                       Coins := [⟨"usd", 150⟩, ⟨"stake", 7⟩] } }]

/-- The scoreboard of the example. -/
def exampleBoard : List (Account ℚ) :=
  [{ BlockHeight := 5, Address := "cosmos1a", Username := "alice", Ranking := 1
     TotalScore := 50, ActionScore := 100, TradingScore := 50, IsValid := true
     DepositStatus := { NumDifferentPools := 3, NumDifferentPoolsByDate := [("2021-05-04", 3)] }
     SwapStatus := { NumDifferentPools := 3, NumDifferentPoolsByDate := [("2021-05-04", 3)] }
     UpdatedAt := 0 },
   { BlockHeight := 5, Address := "cosmos1b", Username := "bob", Ranking := 2
     TotalScore := 90, ActionScore := 0, TradingScore := 90, IsValid := false
     DepositStatus := { NumDifferentPools := 0, NumDifferentPoolsByDate := [] }
     SwapStatus := { NumDifferentPools := 0, NumDifferentPoolsByDate := [] }
     UpdatedAt := 0 }]

/-- A configuration that `Config.Validate` accepts (trading dates, a positive initial
balances value, a ratio between 0 and 1), with `max_action_score_per_day` 0. -/
def nanConfig : Config ExtRat :=
  { TradingScoreRatio := .fin (9 / 10)
    InitialBalancesValue := .fin 40000
    MaxActionScorePerDay := 0
    TradingDates := ["2021-05-04"] }

/-- A stored account with three pools of deposits and swaps and a balance without coins. -/
def nanStoredAccount (address username : String) : schema.Account :=
  { Address := address, Username := username, IsBlocked := false
    Status := some { BlockHeight := 5, Address := address, Deposits := exampleThreePools
                     Swaps := exampleThreePools }
    Balance := some { BlockHeight := 5, Address := address, Coins := [] } }

/-- Two stored accounts, "cosmos1b" before "cosmos1a". -/
def nanStored : List schema.Account :=
  [nanStoredAccount "cosmos1b" "bob", nanStoredAccount "cosmos1a" "alice"]

/-- The scored account of `nanStoredAccount` under `nanConfig`: valid, with the trading
score -100 and with NaN as action score and total score. -/
def nanAccount (address username : String) : Account ExtRat :=
  { BlockHeight := 5, Address := address, Username := username, Ranking := 0
    TotalScore := .nan, ActionScore := .nan, TradingScore := .fin (-100), IsValid := true
    DepositStatus := { NumDifferentPools := 3, NumDifferentPoolsByDate := [("2021-05-04", 3)] }
    SwapStatus := { NumDifferentPools := 3, NumDifferentPoolsByDate := [("2021-05-04", 3)] }
    UpdatedAt := 0 }

/-- The scoreboard of `nanStored` under `nanConfig`. -/
def nanBoard : List (Account ExtRat) :=
  [{ nanAccount "cosmos1b" "bob" with Ranking := 1 },
   { nanAccount "cosmos1a" "alice" with Ranking := 2 }]

/-- The per-date figure of a status in the words of the specification: the number of
different pools the status counts on `date`, 0 when the date is absent. -/
def numPoolsOn (s : schema.AccountActionStatus) (date : String) : Int :=
  ((keys (getMap s.CountByPoolIDByDate date)).length : Int)

/-- The stored account A of the example. -/
def exampleAlice : schema.Account :=
  { Address := "cosmos1a", Username := "alice", IsBlocked := false
    Status := some { BlockHeight := 5, Address := "cosmos1a", Deposits := exampleThreePools
                     Swaps := exampleThreePools }
    Balance := some { BlockHeight := 5, Address := "cosmos1a"
                      Coins := [⟨"usd", 150⟩, ⟨"stake", 7⟩] } }

/-- The value loop of `TradingScore` in the words of the specification: the sum, from `v`
on, of price times amount over the coins whose denom is not `stake`. -/
def valueSum (ops : FloatOps F) (priceTable : List (String × F)) (coins : List schema.Coin)
    (v : F) : F :=
  (coins.filter (fun c => decide (c.Denom ≠ "stake"))).foldl
    (fun v c => ops.add v (ops.mul ((lookup priceTable c.Denom).getD ops.zero)
      (ops.ofInt c.Amount))) v

end score

/-! ## Library functions as parameters -/

/-- The functions of the standard library and of the SDK whose results the backend only
passes on: the string parsers, the denom check and the date format. -/
structure Lib where
  /-- `strconv.ParseUint(v, 10, 64)`; `none` for a parse error. -/
  ParseUint : String → Option Nat
  /-- `sdk.NewIntFromString(v)`; `none` when the second result is false. -/
  NewIntFromString : String → Option Int
  /-- `sdk.NewDecFromStr(v)`, the decimal in units of `10^-18`; `none` for an error. -/
  NewDecFromStr : String → Option Int
  /-- `sdk.ValidateDenom(denom) == nil`. -/
  ValidDenom : String → Bool
  /-- `t.Format("2006-01-02")` of the UTC time `t`, given in nanoseconds since the Unix
  epoch. -/
  FormatDate : Int → String

/-! ## Package sdk: coins and 18-decimal fixed-point numbers

An `sdk.Int` is an integer and an `sdk.Dec` the integer number of its `10^-18` units, both
of type `Int` here.  A result of type `Option` is `none` where the library panics. -/

namespace sdk

/-- `type Coin struct` of the SDK. -/
structure Coin where
  Denom : String
  Amount : Int
  deriving DecidableEq, Repr

/-- `func (i Int) Int64() int64`, which panics on a value outside the 64-bit range. -/
def Int64 (i : Int) : Option Int :=
  if -9223372036854775808 ≤ i ∧ i < 9223372036854775808 then some i else none

/-- `func NewCoin(denom string, amount Int) Coin`, which panics on an invalid denom and on
a negative amount. -/
def NewCoin (lib : Lib) (denom : String) (amount : Int) : Option Coin :=
  if lib.ValidDenom denom = true ∧ 0 ≤ amount then some { Denom := denom, Amount := amount }
  else none

/-- `precisionReuse`, the number `10^18` of units in one. -/
def precisionReuse : Int := 1000000000000000000

/-- `fivePrecision`, half of `precisionReuse`. -/
def fivePrecision : Int := 500000000000000000

/-- The body of `chopPrecisionAndRound` for a number that is not negative: the quotient by
`10^18`, rounded half to even. -/
def chopPrecisionAndRoundAbs (d : Int) : Int :=
  let quo := Int.tdiv d precisionReuse
  let rem := Int.tmod d precisionReuse
  if rem = 0 then quo
  else if rem < fivePrecision then quo
  else if rem > fivePrecision then quo + 1
  else if quo % 2 = 0 then quo
  else quo + 1

/-- `func chopPrecisionAndRound(d *big.Int) *big.Int`. -/
def chopPrecisionAndRound (d : Int) : Int :=
  if d < 0 then -(chopPrecisionAndRoundAbs (-d)) else chopPrecisionAndRoundAbs d

/-- The number `2^255`: an `sdk.Int` holds at most 255 bits. -/
def maxInt : Nat := 57896044618658097711785492504343953926634992332820282019728792003956564819968

/-- The number `2^315`: an `sdk.Dec` holds at most 255 + 60 bits. -/
def maxDec : Nat := 66749594872528440074844428317798503581334516323645399060845050244444366430645017188217565216768

/-- `func (i Int) ToDec() Dec`. -/
def ToDec (i : Int) : Int := i * precisionReuse

/-- `func (d Dec) Quo(d2 Dec) Dec`: the quotient to 36 decimals, cut off, then rounded to 18
decimals; a panic on a zero divisor and on a result of more than 315 bits. -/
def Quo (d d2 : Int) : Option Int :=
  if d2 = 0 then none
  else
    let chopped := chopPrecisionAndRound (Int.tdiv (d * precisionReuse * precisionReuse) d2)
    if maxDec ≤ chopped.natAbs then none else some chopped

/-- `func (d Dec) Mul(d2 Dec) Dec`: the product rounded to 18 decimals; a panic on a result
of more than 315 bits. -/
def Mul (d d2 : Int) : Option Int :=
  let chopped := chopPrecisionAndRound (d * d2)
  if maxDec ≤ chopped.natAbs then none else some chopped

/-- `func (d Dec) TruncateInt() Int`: the integer part, cut off toward zero; a panic on a
result of more than 255 bits. -/
def TruncateInt (d : Int) : Option Int :=
  let q := Int.tdiv d precisionReuse
  if maxInt ≤ q.natAbs then none else some q

end sdk

/-! ## Package liquiditytypes: pools, event types and attribute keys -/

namespace liquiditytypes

/-- `type Pool struct` of the liquidity module, with the fields the backend reads. -/
structure Pool where
  Id : Nat
  ReserveCoinDenoms : List String
  ReserveAccountAddress : String
  PoolCoinDenom : String
  deriving DecidableEq, Repr

/-- Modelled from the spec: the event type `deposit_to_pool`. -/
def EventTypeDepositToPool : String := "deposit_to_pool"

/-- Modelled from the spec: the event type `swap_transacted`. -/
def EventTypeSwapTransacted : String := "swap_transacted"

/-- Modelled from the spec: the attribute key `pool_id`. -/
def AttributeValuePoolId : String := "pool_id"

/-- Modelled from the spec: the attribute key `depositor`. -/
def AttributeValueDepositor : String := "depositor"

/-- Modelled from the spec: the attribute key `swap_requester`. -/
def AttributeValueSwapRequester : String := "swap_requester"

/-- Modelled from the spec: the attribute key `offer_coin_denom`. -/
def AttributeValueOfferCoinDenom : String := "offer_coin_denom"

/-- Modelled from the spec: the attribute key `exchanged_offer_coin_amount`. -/
def AttributeValueExchangedOfferCoinAmount : String := "exchanged_offer_coin_amount"

/-- Modelled from the spec: the attribute key `offer_coin_fee_amount`. -/
def AttributeValueOfferCoinFeeAmount : String := "offer_coin_fee_amount"

/-- Modelled from the spec: the attribute key `demand_coin_denom`. -/
def AttributeValueDemandCoinDenom : String := "demand_coin_denom"

/-- Modelled from the spec: the attribute key `swap_price`. -/
def AttributeValueSwapPrice : String := "swap_price"

end liquiditytypes

/-- `type Event struct` of package abcitypes: a type (the field `Type` of the source) and a
list of key-value attributes. -/
structure Event where
  Type_ : String
  Attributes : List (String × String)
  deriving DecidableEq, Repr

/-! ## Command accumulator: events -/

namespace accumulator

open GoMap

/-- `type EventAttributes map[string]string`. -/
abbrev EventAttributes := List (String × String)

/-- The errors of the event constructors. -/
inductive EventError where
  /-- `attribute %q not found`. -/
  | attrNotFound (key : String)
  /-- `parse pool id: %w`. -/
  | parsePoolID
  /-- `parse offer coin amount: %q`. -/
  | parseOfferCoinAmount (v : String)
  /-- `parse swap price: %w`. -/
  | parseSwapPrice
  /-- `pool %d not found`. -/
  | poolNotFound (poolID : Nat)
  /-- `opposite reserve coin denom for %s in pool %d not found`. -/
  | oppositeNotFound (denom : String) (poolID : Nat)
  deriving DecidableEq, Repr

/-- `func EventAttributesFromEvent(event abcitypes.Event) EventAttributes`. -/
def EventAttributesFromEvent (event : Event) : EventAttributes :=
  event.Attributes.foldl (fun m attr => store m attr.1 attr.2) []

/-- `func (attrs EventAttributes) Attr(key string) (string, error)`. -/
def EventAttributes.Attr (attrs : EventAttributes) (key : String) : Except EventError String :=
  match lookup attrs key with
  | none => .error (.attrNotFound key)
  | some v => .ok v

/-- `func (attrs EventAttributes) PoolID() (uint64, error)`. -/
def EventAttributes.PoolID (lib : Lib) (attrs : EventAttributes) : Except EventError Nat :=
  match attrs.Attr liquiditytypes.AttributeValuePoolId with
  | .error e => .error e
  | .ok v =>
    match lib.ParseUint v with
    | none => .error .parsePoolID
    | some id => .ok id

/-- `func (attrs EventAttributes) SwapRequesterAddress() (string, error)`. -/
def EventAttributes.SwapRequesterAddress (attrs : EventAttributes) : Except EventError String :=
  match attrs.Attr liquiditytypes.AttributeValueSwapRequester with
  | .error e => .error e
  | .ok v => .ok v

/-- `func (attrs EventAttributes) ExchangedOfferCoin() (sdk.Coin, error)`; `none` where
`sdk.NewCoin` panics. -/
def EventAttributes.ExchangedOfferCoin (lib : Lib) (attrs : EventAttributes) :
    Option (Except EventError sdk.Coin) :=
  match attrs.Attr liquiditytypes.AttributeValueOfferCoinDenom with
  | .error e => some (.error e)
  | .ok denom =>
    match attrs.Attr liquiditytypes.AttributeValueExchangedOfferCoinAmount with
    | .error e => some (.error e)
    | .ok v =>
      match lib.NewIntFromString v with
      | none => some (.error (.parseOfferCoinAmount v))
      | some amt =>
        match sdk.NewCoin lib denom amt with
        | none => none
        | some c => some (.ok c)

/-- `func (attrs EventAttributes) SwapPrice() (sdk.Dec, error)`. -/
def EventAttributes.SwapPrice (lib : Lib) (attrs : EventAttributes) : Except EventError Int :=
  match attrs.Attr liquiditytypes.AttributeValueSwapPrice with
  | .error e => .error e
  | .ok v =>
    match lib.NewDecFromStr v with
    | none => .error .parseSwapPrice
    | some d => .ok d

/-- `func OppositeReserveCoinDenom(pool liquiditytypes.Pool, denom string) (string, bool)`;
`none` when the second result is false. -/
def OppositeReserveCoinDenom (pool : liquiditytypes.Pool) (denom : String) : Option String :=
  pool.ReserveCoinDenoms.find? (fun d => decide (d ≠ denom))

/-- `type SwapEvent struct`. -/
structure SwapEvent where
  PoolID : Nat
  SwapRequesterAddress : String
  ExchangedOfferCoin : sdk.Coin
  ExchangedDemandCoin : sdk.Coin
  deriving DecidableEq, Repr

/-- The demand coin that `NewSwapEvent` computes from the offer coin, the demand denom and
the swap price; `none` where the SDK panics. -/
def demandCoin (lib : Lib) (offerCoin : sdk.Coin) (demandCoinDenom : String) (swapPrice : Int) :
    Option sdk.Coin :=
  if stringLess offerCoin.Denom demandCoinDenom then
    (sdk.Quo (sdk.ToDec offerCoin.Amount) swapPrice).bind (fun q =>
      (sdk.TruncateInt q).bind (fun amt => sdk.NewCoin lib demandCoinDenom amt))
  else
    (sdk.Mul (sdk.ToDec offerCoin.Amount) swapPrice).bind (fun q =>
      (sdk.TruncateInt q).bind (fun amt => sdk.NewCoin lib demandCoinDenom amt))

/-- `func NewSwapEvent(event abcitypes.Event, poolByID map[uint64]liquiditytypes.Pool)
(*SwapEvent, error)`; `none` where the SDK panics. -/
def NewSwapEvent (lib : Lib) (event : Event) (poolByID : List (Nat × liquiditytypes.Pool)) :
    Option (Except EventError SwapEvent) :=
  let attrs := EventAttributesFromEvent event
  match attrs.PoolID lib with
  | .error e => some (.error e)
  | .ok poolID =>
    match attrs.SwapRequesterAddress with
    | .error e => some (.error e)
    | .ok addr =>
      match attrs.ExchangedOfferCoin lib with
      | none => none
      | some (.error e) => some (.error e)
      | some (.ok offerCoin) =>
        match lookup poolByID poolID with
        | none => some (.error (.poolNotFound poolID))
        | some pool =>
          match OppositeReserveCoinDenom pool offerCoin.Denom with
          | none => some (.error (.oppositeNotFound offerCoin.Denom poolID))
          | some demandCoinDenom =>
            match attrs.SwapPrice lib with
            | .error e => some (.error e)
            | .ok swapPrice =>
              match demandCoin lib offerCoin demandCoinDenom swapPrice with
              | none => none
              | some dc =>
                some (.ok
                  { PoolID := poolID
                    SwapRequesterAddress := addr
                    ExchangedOfferCoin := offerCoin
                    ExchangedDemandCoin := dc })

end accumulator

/-! ## Package banktypes -/

namespace banktypes

/-- `type Balance struct` of the bank module. -/
structure Balance where
  Address : String
  Coins : List sdk.Coin
  deriving DecidableEq, Repr

/-- `type GenesisState struct` of the bank module, with the fields the backend reads. -/
structure GenesisState where
  Balances : List Balance
  Supply : List sdk.Coin
  deriving DecidableEq, Repr

end banktypes

/-! ## Times

A `time.Time` is the integer number of its nanoseconds since the Unix epoch. -/

/-- `func (t Time) Unix() int64`: the whole seconds since the Unix epoch. -/
def unixSeconds (t : Int) : Int := t / 1000000000

/-- `time.Hour`, in nanoseconds. -/
def timeHour : Int := 3600000000000

/-! ## Package store: the collections of the database

A collection is the list of its documents in their natural order.  A failure of the
database itself is not part of the model. -/

namespace store

/-- The collections the transformer reads and writes, and the checkpoint document. -/
structure State where
  Checkpoint : Option Int
  AccountStatuses : List schema.AccountStatus
  PoolStatuses : List schema.PoolStatus
  Pools : List schema.Pool
  Balances : List schema.Balance
  Supplies : List schema.Supply
  deriving DecidableEq, Repr

/-- `func (s *Service) AccountStatus(ctx, blockHeight, address) (schema.AccountStatus, error)`:
the first document with the block height and the address; `none` for `mongo.ErrNoDocuments`. -/
def AccountStatus (s : State) (blockHeight : Int) (address : String) :
    Option schema.AccountStatus :=
  s.AccountStatuses.find? (fun r => decide (r.BlockHeight = blockHeight ∧ r.Address = address))

/-- `func (s *Service) PoolStatus(ctx, blockHeight, id) (schema.PoolStatus, error)`: the first
document with the block height and the pool id; `none` for `mongo.ErrNoDocuments`. -/
def PoolStatus (s : State) (blockHeight : Int) (id : Nat) : Option schema.PoolStatus :=
  s.PoolStatuses.find? (fun r => decide (r.BlockHeight = blockHeight ∧ r.ID = id))

/-- The write model of an account status: an `UpdateOne` with the filter
`{blockHeight, address}`, the update `$set {deposits, swaps}` and the upsert option. -/
structure AccountStatusWrite where
  BlockHeight : Int
  Address : String
  Deposits : schema.AccountActionStatus
  Swaps : schema.AccountActionStatus
  deriving DecidableEq, Repr

/-- One upsert of an account status: the first document that matches the filter gets the
two fields set; without a match a document of the filter and the fields is inserted. -/
def upsertAccountStatus (w : AccountStatusWrite) :
    List schema.AccountStatus → List schema.AccountStatus
  | [] => [{ BlockHeight := w.BlockHeight, Address := w.Address, Deposits := w.Deposits
             Swaps := w.Swaps }]
  | r :: rows =>
    if r.BlockHeight = w.BlockHeight ∧ r.Address = w.Address then
      { r with Deposits := w.Deposits, Swaps := w.Swaps } :: rows
    else r :: upsertAccountStatus w rows

/-- `AccountStatusCollection().BulkWrite(ctx, writes)`: the writes in their order. -/
def bulkWriteAccountStatuses (writes : List AccountStatusWrite)
    (rows : List schema.AccountStatus) : List schema.AccountStatus :=
  writes.foldl (fun rows w => upsertAccountStatus w rows) rows

/-- The write model of a pool status: an `UpdateOne` with the filter `{blockHeight, id}`,
the update `$set {swapFeeVolumes}` and the upsert option. -/
structure PoolStatusWrite where
  BlockHeight : Int
  ID : Nat
  SwapFeeVolumes : schema.Volumes
  deriving DecidableEq, Repr

/-- One upsert of a pool status. -/
def upsertPoolStatus (w : PoolStatusWrite) : List schema.PoolStatus → List schema.PoolStatus
  | [] => [{ BlockHeight := w.BlockHeight, ID := w.ID, SwapFeeVolumes := w.SwapFeeVolumes }]
  | r :: rows =>
    if r.BlockHeight = w.BlockHeight ∧ r.ID = w.ID then
      { r with SwapFeeVolumes := w.SwapFeeVolumes } :: rows
    else r :: upsertPoolStatus w rows

/-- `PoolStatusCollection().BulkWrite(ctx, writes)`: the writes in their order. -/
def bulkWritePoolStatuses (writes : List PoolStatusWrite) (rows : List schema.PoolStatus) :
    List schema.PoolStatus :=
  writes.foldl (fun rows w => upsertPoolStatus w rows) rows

/-- One upsert of a pool definition: an `UpdateOne` with the filter `{id}`, the update
`$set {reserveAccountAddress, reserveCoinDenoms, poolCoinDenom}` and the upsert option. -/
def upsertPool (p : liquiditytypes.Pool) : List schema.Pool → List schema.Pool
  | [] => [{ ID := p.Id, ReserveAccountAddress := p.ReserveAccountAddress
             ReserveCoinDenoms := p.ReserveCoinDenoms, PoolCoinDenom := p.PoolCoinDenom
             Status := none, ReserveAccountBalance := none, PoolCoinSupply := none }]
  | r :: rows =>
    if r.ID = p.Id then
      { r with ReserveAccountAddress := p.ReserveAccountAddress
               ReserveCoinDenoms := p.ReserveCoinDenoms
               PoolCoinDenom := p.PoolCoinDenom } :: rows
    else r :: upsertPool p rows

/-- `PoolCollection().BulkWrite(ctx, writes2)`: the writes in their order. -/
def bulkWritePools (writes : List liquiditytypes.Pool) (rows : List schema.Pool) :
    List schema.Pool :=
  writes.foldl (fun rows p => upsertPool p rows) rows

end store

/-! ## Package config -/

namespace config

open GoMap

/-- `type TransformerConfig struct`, with the field the accumulation reads. -/
structure TransformerConfig where
  IgnoredAddresses : List String
  deriving DecidableEq, Repr

/-- `func (cfg TransformerConfig) IgnoredAddressesSet() map[string]struct{}`. -/
def TransformerConfig.IgnoredAddressesSet (cfg : TransformerConfig) : List (String × Unit) :=
  cfg.IgnoredAddresses.foldl (fun s a => store s a ()) []

end config

/-! ## Package transformer -/

namespace transformer

open GoMap

/-- `type Header struct` of a block, with the fields the transformer reads. -/
structure Header where
  Height : Int
  Time : Int
  deriving DecidableEq, Repr

/-- `type BlockData struct`; a nil bank module state is `none`. -/
structure BlockData where
  Header : transformer.Header
  BankModuleState : Option banktypes.GenesisState
  Events : List Event
  Pools : List liquiditytypes.Pool
  deriving DecidableEq, Repr

/-- `func (d *BlockData) PoolByID() map[uint64]liquiditytypes.Pool`. -/
def BlockData.PoolByID (d : BlockData) : List (Nat × liquiditytypes.Pool) :=
  d.Pools.foldl (fun m p => store m p.Id p) []

/-- `func oppositeReserveCoinDenom(pool liquiditytypes.Pool, denom string) (string, bool)`;
`none` when the second result is false. -/
def oppositeReserveCoinDenom (pool : liquiditytypes.Pool) (denom : String) : Option String :=
  pool.ReserveCoinDenoms.find? (fun d => decide (d ≠ denom))

/-- `type EventAttributes map[string]string`. -/
abbrev EventAttributes := List (String × String)

/-- The errors of `AccStateUpdates`. -/
inductive Error where
  /-- `attribute %q not found`. -/
  | attrNotFound (key : String)
  /-- `parse pool id: %w`. -/
  | parsePoolID
  /-- `parse offer coin fee amount: %w`. -/
  | parseOfferCoinFeeAmount
  /-- `parse swap price: %w`. -/
  | parseSwapPrice
  /-- `pool id %d not found: %w`. -/
  | poolNotFound (poolID : Nat)
  /-- `opposite reserve coin denom not found`. -/
  | oppositeNotFound
  /-- `mismatching block height: expected %d, got %d`. -/
  | mismatchingBlockHeight (expected got : Int)
  /-- `wait for block data: %w`. -/
  | waitForBlockData
  deriving DecidableEq, Repr

/-- `func eventAttrsFromEvent(event abcitypes.Event) EventAttributes`. -/
def eventAttrsFromEvent (event : Event) : EventAttributes :=
  event.Attributes.foldl (fun m attr => store m attr.1 attr.2) []

/-- `func (attrs EventAttributes) Attr(key string) (string, error)`. -/
def EventAttributes.Attr (attrs : EventAttributes) (key : String) : Except Error String :=
  match lookup attrs key with
  | none => .error (.attrNotFound key)
  | some v => .ok v

/-- `func (attrs EventAttributes) PoolID() (uint64, error)`. -/
def EventAttributes.PoolID (lib : Lib) (attrs : EventAttributes) : Except Error Nat :=
  match attrs.Attr liquiditytypes.AttributeValuePoolId with
  | .error e => .error e
  | .ok v =>
    match lib.ParseUint v with
    | none => .error .parsePoolID
    | some id => .ok id

/-- `func (attrs EventAttributes) DepositorAddr() (string, error)`. -/
def EventAttributes.DepositorAddr (attrs : EventAttributes) : Except Error String :=
  match attrs.Attr liquiditytypes.AttributeValueDepositor with
  | .error e => .error e
  | .ok v => .ok v

/-- `func (attrs EventAttributes) SwapRequesterAddr() (string, error)`. -/
def EventAttributes.SwapRequesterAddr (attrs : EventAttributes) : Except Error String :=
  match attrs.Attr liquiditytypes.AttributeValueSwapRequester with
  | .error e => .error e
  | .ok v => .ok v

/-- `func (attrs EventAttributes) OfferCoinFee() (sdk.Coin, error)`; `none` where the SDK
panics. -/
def EventAttributes.OfferCoinFee (lib : Lib) (attrs : EventAttributes) :
    Option (Except Error sdk.Coin) :=
  match attrs.Attr liquiditytypes.AttributeValueOfferCoinDenom with
  | .error e => some (.error e)
  | .ok denom =>
    match attrs.Attr liquiditytypes.AttributeValueOfferCoinFeeAmount with
    | .error e => some (.error e)
    | .ok v =>
      match lib.NewDecFromStr v with
      | none => some (.error .parseOfferCoinFeeAmount)
      | some amt =>
        match sdk.TruncateInt amt with
        | none => none
        | some i =>
          match sdk.NewCoin lib denom i with
          | none => none
          | some c => some (.ok c)

/-- `func (attrs EventAttributes) SwapPrice() (sdk.Dec, error)`. -/
def EventAttributes.SwapPrice (lib : Lib) (attrs : EventAttributes) : Except Error Int :=
  match attrs.Attr liquiditytypes.AttributeValueSwapPrice with
  | .error e => .error e
  | .ok v =>
    match lib.NewDecFromStr v with
    | none => .error .parseSwapPrice
    | some d => .ok d

/-- `type StateUpdates struct`; a nil pointer field is `none`. -/
structure StateUpdates where
  lastBlockData : Option BlockData
  lastBankModuleStateHeight : Int
  lastBankModuleState : Option banktypes.GenesisState
  depositStatusByAddress : List (String × schema.AccountActionStatus)
  swapStatusByAddress : List (String × schema.AccountActionStatus)
  swapVolumesByPoolID : List (Nat × schema.Volumes)
  deriving DecidableEq, Repr

/-- `func (m ActionStatusByAddress) ActionStatus(addr string) schema.AccountActionStatus`:
the map after the call and the status returned, whose maps are those of the map entry. -/
def ActionStatus (m : List (String × schema.AccountActionStatus)) (addr : String) :
    List (String × schema.AccountActionStatus) × schema.AccountActionStatus :=
  match lookup m addr with
  | some st => (m, st)
  | none => (store m addr schema.NewAccountActionStatus, schema.NewAccountActionStatus)

/-- `func (m VolumesByPoolID) Volumes(poolID uint64) schema.Volumes`: the map after the call
and the volumes returned, which are those of the map entry. -/
def Volumes (m : List (Nat × schema.Volumes)) (poolID : Nat) :
    List (Nat × schema.Volumes) × schema.Volumes :=
  match lookup m poolID with
  | some v => (m, v)
  | none => (store m poolID [], [])

/-- The statements `st := m.ActionStatus(addr)` and `st.IncreaseCount(poolID, dateKey, 1)`
of `AccStateUpdates`: the count goes into the maps of the entry of `addr`. -/
def increaseCount (m : List (String × schema.AccountActionStatus)) (addr : String)
    (poolID : Nat) (dateKey : String) : List (String × schema.AccountActionStatus) :=
  let r := ActionStatus m addr
  store r.1 addr (r.2.IncreaseCount poolID dateKey 1)

/-- The demand-side fee that `AccStateUpdates` computes from the offer coin fee, the demand
denom and the swap price; `none` where the SDK panics. -/
def demandCoinFee (lib : Lib) (offerCoinFee : sdk.Coin) (demandCoinDenom : String)
    (swapPrice : Int) : Option sdk.Coin :=
  if stringLess offerCoinFee.Denom demandCoinDenom then
    (sdk.Quo (sdk.ToDec offerCoinFee.Amount) swapPrice).bind (fun q =>
      (sdk.TruncateInt q).bind (fun amt => sdk.NewCoin lib demandCoinDenom amt))
  else
    (sdk.Mul (sdk.ToDec offerCoinFee.Amount) swapPrice).bind (fun q =>
      (sdk.TruncateInt q).bind (fun amt => sdk.NewCoin lib demandCoinDenom amt))

/-- The case `liquiditytypes.EventTypeDepositToPool` of the event loop of `AccStateUpdates`. -/
def accDepositEvent (lib : Lib) (ignoredAddresses : List (String × Unit)) (dateKey : String)
    (updates : StateUpdates) (evt : Event) : Except Error StateUpdates :=
  let attrs := eventAttrsFromEvent evt
  match attrs.DepositorAddr with
  | .error e => .error e
  | .ok addr =>
    if (lookup ignoredAddresses addr).isSome then .ok updates
    else
      match attrs.PoolID lib with
      | .error e => .error e
      | .ok poolID =>
        .ok { updates with
          depositStatusByAddress :=
            increaseCount updates.depositStatusByAddress addr poolID dateKey }

/-- The case `liquiditytypes.EventTypeSwapTransacted` of the event loop of
`AccStateUpdates`; `tm` is the block time, and `none` stands for a panic of the SDK. -/
def accSwapEvent (lib : Lib) (ignoredAddresses : List (String × Unit)) (tm : Int)
    (dateKey : String) (poolByID : List (Nat × liquiditytypes.Pool)) (updates : StateUpdates)
    (evt : Event) : Option (Except Error StateUpdates) :=
  let attrs := eventAttrsFromEvent evt
  match attrs.SwapRequesterAddr with
  | .error e => some (.error e)
  | .ok addr =>
    if (lookup ignoredAddresses addr).isSome then some (.ok updates)
    else
      match attrs.PoolID lib with
      | .error e => some (.error e)
      | .ok poolID =>
        match attrs.OfferCoinFee lib with
        | none => none
        | some (.error e) => some (.error e)
        | some (.ok offerCoinFee) =>
          match attrs.SwapPrice lib with
          | .error e => some (.error e)
          | .ok swapPrice =>
            match lookup poolByID poolID with
            | none => some (.error (.poolNotFound poolID))
            | some pool =>
              match oppositeReserveCoinDenom pool offerCoinFee.Denom with
              | none => some (.error .oppositeNotFound)
              | some demandCoinDenom =>
                match demandCoinFee lib offerCoinFee demandCoinDenom swapPrice with
                | none => none
                | some dcf =>
                  match sdk.Int64 offerCoinFee.Amount, sdk.Int64 dcf.Amount with
                  | some offerAmount, some demandAmount =>
                    let r := Volumes updates.swapVolumesByPoolID poolID
                    some (.ok { updates with
                      swapStatusByAddress :=
                        increaseCount updates.swapStatusByAddress addr poolID dateKey
                      swapVolumesByPoolID :=
                        store r.1 poolID (r.2.AddCoins (unixSeconds tm)
                          (store (store [] offerCoinFee.Denom offerAmount)
                            dcf.Denom demandAmount)) })
                  | _, _ => none

/-- The loop `for _, evt := range data.Events` of `AccStateUpdates`. -/
def accEvents (lib : Lib) (ignoredAddresses : List (String × Unit)) (tm : Int)
    (dateKey : String) (poolByID : List (Nat × liquiditytypes.Pool)) :
    List Event → StateUpdates → Option (Except Error StateUpdates)
  | [], updates => some (.ok updates)
  | evt :: rest, updates =>
    if evt.Type_ = liquiditytypes.EventTypeDepositToPool then
      match accDepositEvent lib ignoredAddresses dateKey updates evt with
      | .error e => some (.error e)
      | .ok u => accEvents lib ignoredAddresses tm dateKey poolByID rest u
    else if evt.Type_ = liquiditytypes.EventTypeSwapTransacted then
      match accSwapEvent lib ignoredAddresses tm dateKey poolByID updates evt with
      | none => none
      | some (.error e) => some (.error e)
      | some (.ok u) => accEvents lib ignoredAddresses tm dateKey poolByID rest u
    else accEvents lib ignoredAddresses tm dateKey poolByID rest updates

/-- The body of the block loop of `AccStateUpdates` after the height check, on the data
of one block. -/
def accBlock (lib : Lib) (ignoredAddresses : List (String × Unit)) (blockHeight : Int)
    (updates : StateUpdates) (data : BlockData) : Option (Except Error StateUpdates) :=
  let updates := { updates with lastBlockData := some data }
  let updates :=
    match data.BankModuleState with
    | some st =>
      { updates with lastBankModuleState := some st, lastBankModuleStateHeight := blockHeight }
    | none => updates
  accEvents lib ignoredAddresses data.Header.Time (lib.FormatDate data.Header.Time)
    data.PoolByID data.Events updates

/-- The block loop of `AccStateUpdates` on the data of the blocks that arrive before the
waiting time runs out. -/
def accBlocks (lib : Lib) (ignoredAddresses : List (String × Unit)) :
    List BlockData → Int → StateUpdates → Option (Except Error StateUpdates)
  | [], _, updates => some (.ok updates)
  | data :: rest, blockHeight, updates =>
    if data.Header.Height ≠ blockHeight then
      some (.error (.mismatchingBlockHeight blockHeight data.Header.Height))
    else
      match accBlock lib ignoredAddresses blockHeight updates data with
      | none => none
      | some (.error e) => some (.error e)
      | some (.ok u) => accBlocks lib ignoredAddresses rest (wrapInt64 (blockHeight + 1)) u

/-- `func (t *Transformer) AccStateUpdates(ctx, startingBlockHeight) (*StateUpdates, error)`
on the list `blocks` of the block data that `WaitForBlockData` yields from the starting
height on; the empty list stands for a wait for the first block that ends with an error. -/
def AccStateUpdates (lib : Lib) (cfg : config.TransformerConfig) (startingBlockHeight : Int)
    (blocks : List BlockData) : Option (Except Error StateUpdates) :=
  match blocks with
  | [] => some (.error .waitForBlockData)
  | _ :: _ =>
    accBlocks lib cfg.IgnoredAddressesSet blocks startingBlockHeight
      { lastBlockData := none, lastBankModuleStateHeight := 0, lastBankModuleState := none
        depositStatusByAddress := [], swapStatusByAddress := [], swapVolumesByPoolID := [] }

/-- The plain read `m[addr]` of a map of statuses: the zero status for an absent key. -/
def getStatus (m : List (String × schema.AccountActionStatus)) (addr : String) :
    schema.AccountActionStatus :=
  (lookup m addr).getD { CountByPoolID := [], CountByPoolIDByDate := [] }

/-- The set `addrsToUpdate` of `UpdateAccountStatus`. -/
def addrsToUpdate (updates : StateUpdates) : List (String × Unit) :=
  (keys updates.swapStatusByAddress).foldl (fun m addr => store m addr ())
    ((keys updates.depositStatusByAddress).foldl (fun m addr => store m addr ()) [])

/-- The set `reserveAccAddrs` of `UpdateAccountStatus`. -/
def reserveAccAddrs (data : BlockData) : List (String × Unit) :=
  data.Pools.foldl (fun m p => store m p.ReserveAccountAddress ()) []

/-- The account status that `UpdateAccountStatus` starts from for an address: the row at
the current block height when that is positive and the row exists, the zero value
otherwise. -/
def currentAccountStatus (s : store.State) (currentBlockHeight : Int) (addr : String) :
    schema.AccountStatus :=
  if currentBlockHeight > 0 then
    (store.AccountStatus s currentBlockHeight addr).getD
      { BlockHeight := 0, Address := ""
        Deposits := { CountByPoolID := [], CountByPoolIDByDate := [] }
        Swaps := { CountByPoolID := [], CountByPoolIDByDate := [] } }
  else
    { BlockHeight := 0, Address := ""
      Deposits := { CountByPoolID := [], CountByPoolIDByDate := [] }
      Swaps := { CountByPoolID := [], CountByPoolIDByDate := [] } }

/-- The writes of the first loop of `UpdateAccountStatus`: one for every touched address
that is not a reserve account. -/
def mergeWrites (s : store.State) (currentBlockHeight : Int) (updates : StateUpdates)
    (data : BlockData) : List store.AccountStatusWrite :=
  ((keys (addrsToUpdate updates)).filter
      (fun addr => !(lookup (reserveAccAddrs data) addr).isSome)).map
    (fun addr =>
      let accStatus := currentAccountStatus s currentBlockHeight addr
      { BlockHeight := data.Header.Height
        Address := addr
        Deposits := schema.MergeAccountActionStatuses
          [accStatus.Deposits, getStatus updates.depositStatusByAddress addr]
        Swaps := schema.MergeAccountActionStatuses
          [accStatus.Swaps, getStatus updates.swapStatusByAddress addr] })

/-- The writes of the second loop of `UpdateAccountStatus`, over the rows `cur` at the
current block height: one for every row whose address was not touched. -/
def carryWrites (cur : List schema.AccountStatus) (updates : StateUpdates) (data : BlockData) :
    List store.AccountStatusWrite :=
  (cur.filter (fun r => !(lookup (addrsToUpdate updates) r.Address).isSome)).map
    (fun r =>
      { BlockHeight := data.Header.Height
        Address := r.Address
        Deposits := r.Deposits
        Swaps := r.Swaps })

/-- `func (t *Transformer) UpdateAccountStatus(ctx, currentBlockHeight, updates) error`:
the store after the call; `none` for the nil dereference of an absent last block. -/
def UpdateAccountStatus (s : store.State) (currentBlockHeight : Int) (updates : StateUpdates) :
    Option store.State :=
  match updates.lastBlockData with
  | none => none
  | some data =>
    let rows := store.bulkWriteAccountStatuses
      (mergeWrites s currentBlockHeight updates data) s.AccountStatuses
    let cur := rows.filter (fun r => decide (r.BlockHeight = currentBlockHeight))
    some { s with
      AccountStatuses := store.bulkWriteAccountStatuses (carryWrites cur updates data) rows }

/-- The pool status that `UpdatePoolStatus` starts from for a pool: the row at the current
block height when that is positive and the row exists, the zero value otherwise. -/
def currentPoolStatus (s : store.State) (currentBlockHeight : Int) (id : Nat) :
    schema.PoolStatus :=
  if currentBlockHeight > 0 then
    (store.PoolStatus s currentBlockHeight id).getD
      { BlockHeight := 0, ID := 0, SwapFeeVolumes := [] }
  else { BlockHeight := 0, ID := 0, SwapFeeVolumes := [] }

/-- The swap fee volumes that `UpdatePoolStatus` writes for the pool `id`. -/
def newSwapFeeVolumes (s : store.State) (currentBlockHeight : Int) (updates : StateUpdates)
    (data : BlockData) (id : Nat) : schema.Volumes :=
  (schema.MergeVolumes [(currentPoolStatus s currentBlockHeight id).SwapFeeVolumes,
      getMap updates.swapVolumesByPoolID id]).RemoveOutdated
    (unixSeconds (data.Header.Time - timeHour))

/-- The pool status writes of `UpdatePoolStatus`: one for every pool of the last block. -/
def poolStatusWrites (s : store.State) (currentBlockHeight : Int) (updates : StateUpdates)
    (data : BlockData) : List store.PoolStatusWrite :=
  data.Pools.map (fun p =>
    { BlockHeight := data.Header.Height
      ID := p.Id
      SwapFeeVolumes := newSwapFeeVolumes s currentBlockHeight updates data p.Id })

/-- `func (t *Transformer) UpdatePoolStatus(ctx, currentBlockHeight, updates) error`: the
store after the call; `none` for the nil dereference of an absent last block. -/
def UpdatePoolStatus (s : store.State) (currentBlockHeight : Int) (updates : StateUpdates) :
    Option store.State :=
  match updates.lastBlockData with
  | none => none
  | some data =>
    some { s with
      PoolStatuses := store.bulkWritePoolStatuses
        (poolStatusWrites s currentBlockHeight updates data) s.PoolStatuses
      Pools := store.bulkWritePools data.Pools s.Pools }

end transformer

/-! ## Command accumulator: data -/

namespace accumulator

open GoMap

/-- `type Coins map[string]int64`. -/
abbrev Coins := List (String × Int)

/-- `type PoolData struct`. -/
structure PoolData where
  NumDeposits : Int
  CoinsDeposited : Coins
  NumWithdrawals : Int
  CoinsWithdrawn : Coins
  NumSwapsXToY : Int
  NumSwapsYToX : Int
  CoinsSwapped : Coins
  CoinsTransacted : Coins
  deriving DecidableEq, Repr

/-- `func NewPoolData() *PoolData`. -/
def NewPoolData : PoolData :=
  { NumDeposits := 0, CoinsDeposited := [], NumWithdrawals := 0, CoinsWithdrawn := []
    NumSwapsXToY := 0, NumSwapsYToX := 0, CoinsSwapped := [], CoinsTransacted := [] }

/-- `type DataTimeBucket struct`; the pointer to a pool data is the data it points to. -/
structure DataTimeBucket where
  Pools : List (Nat × PoolData)
  deriving DecidableEq, Repr

/-- `func NewDataTimeBucket() *DataTimeBucket`. -/
def NewDataTimeBucket : DataTimeBucket := { Pools := [] }

/-- `type Data struct`, with the time unit in nanoseconds and without the mutex; the
pointer to a time bucket is the bucket it points to. -/
structure Data where
  TimeBuckets : List (String × DataTimeBucket)
  TimeUnit : Int
  deriving DecidableEq, Repr

/-- `func (data *Data) TimeBucket(key string) *DataTimeBucket`: the data after the call and
the bucket returned. -/
def Data.TimeBucket (data : Data) (key : String) : Data × DataTimeBucket :=
  match lookup data.TimeBuckets key with
  | some hs => (data, hs)
  | none =>
    ({ data with TimeBuckets := store data.TimeBuckets key NewDataTimeBucket },
      NewDataTimeBucket)

/-- `func (b *DataTimeBucket) Pool(id uint64) *PoolData`: the bucket after the call and the
pool data returned. -/
def DataTimeBucket.Pool (b : DataTimeBucket) (id : Nat) : DataTimeBucket × PoolData :=
  match lookup b.Pools id with
  | some p => (b, p)
  | none => ({ b with Pools := store b.Pools id NewPoolData }, NewPoolData)

/-- The writes through the pointer `p := data.TimeBucket(bucketKey).Pool(poolID)`: the
data in which the pool data of `poolID` in the bucket `bucketKey` has become `p`. -/
def Data.setPool (data : Data) (bucketKey : String) (poolID : Nat) (p : PoolData) : Data :=
  let r := data.TimeBucket bucketKey
  let r2 := r.2.Pool poolID
  { r.1 with
    TimeBuckets := store r.1.TimeBuckets bucketKey { r2.1 with Pools := store r2.1.Pools poolID p } }

/-- The statement `cs[denom] += amount` on a `Coins`. -/
def Coins.add (cs : Coins) (denom : String) (amount : Int) : Coins :=
  store cs denom (wrapInt64 (getInt cs denom + amount))

/-- `func (data *Data) SwapCoin(bucketKey string, poolID uint64, offerCoin sdk.Coin,
demandCoin sdk.Coin)`: the data after the call; `none` where `Int64` panics. -/
def Data.SwapCoin (data : Data) (bucketKey : String) (poolID : Nat)
    (offerCoin demandCoin : sdk.Coin) : Option Data :=
  let p := ((data.TimeBucket bucketKey).2.Pool poolID).2
  let p :=
    if stringLess offerCoin.Denom demandCoin.Denom then
      { p with NumSwapsXToY := wrapInt64 (p.NumSwapsXToY + 1) }
    else { p with NumSwapsYToX := wrapInt64 (p.NumSwapsYToX + 1) }
  match sdk.Int64 offerCoin.Amount with
  | none => none
  | some offerAmount =>
    let p := { p with CoinsSwapped := Coins.add p.CoinsSwapped offerCoin.Denom offerAmount }
    let p := { p with
      CoinsTransacted := Coins.add p.CoinsTransacted offerCoin.Denom offerAmount }
    match sdk.Int64 demandCoin.Amount with
    | none => none
    | some demandAmount =>
      let p := { p with
        CoinsTransacted := Coins.add p.CoinsTransacted demandCoin.Denom demandAmount }
      some (data.setPool bucketKey poolID p)

/-- The pool data of `poolID` in the bucket `bucketKey`, if the data holds it. -/
def Data.findPool (data : Data) (bucketKey : String) (poolID : Nat) : Option PoolData :=
  (lookup data.TimeBuckets bucketKey).bind (fun b => lookup b.Pools poolID)

/-- The pool data of `poolID` in the bucket `bucketKey` as `SwapCoin` finds it: a new pool
data where the data holds none. -/
def Data.poolData (data : Data) (bucketKey : String) (poolID : Nat) : PoolData :=
  (data.findPool bucketKey poolID).getD NewPoolData

end accumulator

/-! ## The demand amount in closed form -/

namespace sdk

/-- The amount `a / p`, for the price `p` of `P` units of `10^-18`, rounded to 18 decimals
half to even and then cut off: the integer part of `a / p + 5 * 10^-19`. -/
def quoRounded (a P : Int) : Int :=
  (2 * a * precisionReuse * precisionReuse + P) / (2 * precisionReuse * P)

/-- The demand amount that the code computes for the offer amount `a` and the price of `P`
units of `10^-18`: `a / p` rounded to 18 decimals and then cut off when the offer denom is
the smaller one, `a * p` cut off otherwise. -/
def demandAmount (offerDenom demandDenom : String) (a P : Int) : Int :=
  if stringLess offerDenom demandDenom then quoRounded a P
  else Int.tdiv (a * P) precisionReuse

/-- The demand amount in the words of the specification: `a / p` truncated toward zero
when the offer denom is the smaller one, `a * p` truncated toward zero otherwise. -/
def specDemandAmount (offerDenom demandDenom : String) (a P : Int) : Int :=
  if stringLess offerDenom demandDenom then Int.tdiv (a * precisionReuse) P
  else Int.tdiv (a * P) precisionReuse

end sdk

/-! ## A library for the examples -/

/-- The value of a string of decimal digits read after the value `n`; `none` for another
character. -/
def digitsValue : List Char → Nat → Option Nat
  | [], n => some n
  | c :: cs, n => if c.isDigit then digitsValue cs (10 * n + (c.toNat - 48)) else none

/-- The number a non-empty string of decimal digits stands for. -/
def exampleParseUint (s : String) : Option Nat :=
  if s.data = [] then none else digitsValue s.data 0

/-- The decimal, in units of `10^-18`, that a string of digits with at most one point and
at most 18 digits behind it stands for. -/
def exampleNewDecFromStr (s : String) : Option Int :=
  match s.data.span (fun c => c != '.') with
  | (ip, []) => (if ip = [] then none else digitsValue ip 0).map
      (fun n => (n : Int) * 1000000000000000000)
  | (ip, _ :: fp) =>
    if ip = [] ∨ fp = [] ∨ 18 < fp.length then none
    else
      match digitsValue ip 0, digitsValue fp 0 with
      | some n, some f => some ((n : Int) * 1000000000000000000 + (f : Int) * 10 ^ (18 - fp.length))
      | _, _ => none

/-- The two digits of a number below 100. -/
def twoDigits (n : Nat) : List Char := [Char.ofNat (48 + n / 10 % 10), Char.ofNat (48 + n % 10)]

/-- The date `YYYY-MM-DD` of a time in nanoseconds since the Unix epoch, for the years
from 1970 to 9999, by the usual conversion of a day number into a civil date. -/
def exampleFormatDate (t : Int) : String :=
  let z := (t / 86400000000000).toNat + 719468
  let era := z / 146097
  let doe := z - era * 146097
  let yoe := (doe - doe / 1460 + doe / 36524 - doe / 146096) / 365
  let doy := doe - (365 * yoe + yoe / 4 - yoe / 100)
  let mp := (5 * doy + 2) / 153
  let d := doy - (153 * mp + 2) / 5 + 1
  let m := if mp < 10 then mp + 3 else mp - 9
  let y := yoe + era * 400 + (if m ≤ 2 then 1 else 0)
  String.mk (twoDigits (y / 100) ++ twoDigits y ++ ['-'] ++ twoDigits m ++ ['-'] ++ twoDigits d)

/-- A library for the examples: decimal parsers, every non-empty denom valid. -/
def exampleLib : Lib :=
  { ParseUint := exampleParseUint
    NewIntFromString := fun s => (exampleParseUint s).map (fun n => (n : Int))
    NewDecFromStr := exampleNewDecFromStr
    ValidDenom := fun d => decide (d ≠ "")
    FormatDate := exampleFormatDate }

namespace accumulator

/-- A pool of atom and usd, for the examples. -/
def examplePool : liquiditytypes.Pool :=
  { Id := 1, ReserveCoinDenoms := ["atom", "usd"], ReserveAccountAddress := "cosmos1pool"
    PoolCoinDenom := "pool1" }

/-- A swap of 2 atom at the price 2.000000000000000001, without the attributes
`offer_coin_fee_amount` and `demand_coin_denom`. -/
def exampleSwap : Event :=
  { Type_ := "swap_transacted"
    Attributes := [("pool_id", "1"), ("swap_requester", "cosmos1x"),
      ("offer_coin_denom", "atom"), ("exchanged_offer_coin_amount", "2"),
      ("swap_price", "2.000000000000000001")] }

end accumulator

/-! ## A cycle for the examples -/

namespace transformer

/-- Pool 7 of atom and usd. -/
def examplePool7 : liquiditytypes.Pool :=
  { Id := 7, ReserveCoinDenoms := ["atom", "usd"], ReserveAccountAddress := "cosmos1pool7"
    PoolCoinDenom := "pool7" }

/-- A store at the checkpoint 100 in which X has 3 deposits in pool 7. -/
def exampleStore : store.State :=
  { Checkpoint := some 100
    AccountStatuses :=
      [{ BlockHeight := 100, Address := "cosmos1x"
         Deposits := { CountByPoolID := [(7, 3)]
                       CountByPoolIDByDate := [("2021-05-03", [(7, 3)])] }
         Swaps := { CountByPoolID := [], CountByPoolIDByDate := [] } }]
    PoolStatuses := [], Pools := [], Balances := [], Supplies := [] }

/-- Block 101, of 2021-05-04 10:00:00 UTC, with one deposit of X in pool 7. -/
def exampleBlock101 : BlockData :=
  { Header := { Height := 101, Time := 1620122400000000000 }
    BankModuleState := none
    Events := [{ Type_ := "deposit_to_pool"
                 Attributes := [("pool_id", "7"), ("depositor", "cosmos1x")] }]
    Pools := [examplePool7] }

/-- The updates that block 101 yields. -/
def exampleUpdates : StateUpdates :=
  { lastBlockData := some exampleBlock101
    lastBankModuleStateHeight := 0
    lastBankModuleState := none
    depositStatusByAddress :=
      [("cosmos1x", { CountByPoolID := [(7, 1)]
                      CountByPoolIDByDate := [("2021-05-04", [(7, 1)])] })]
    swapStatusByAddress := []
    swapVolumesByPoolID := [] }

end transformer

namespace transformer

open GoMap

/-- Every bucket of every swap fee volume of the updates satisfies `P`. -/
def BucketsSatisfy (P : Int → Prop) (m : List (Nat × schema.Volumes)) : Prop :=
  ∀ id v, lookup m id = some v → ∀ k ∈ keys v, P k

/-- The store without a document. -/
def emptyStore : store.State :=
  { Checkpoint := none, AccountStatuses := [], PoolStatuses := [], Pools := []
    Balances := [], Supplies := [] }

/-- Block 1, of 2021-05-04 10:00:30 UTC, with one swap of X in pool 7 whose offer coin fee
is 3 atom at the price 2. -/
def exampleSwapBlock1 : BlockData :=
  { Header := { Height := 1, Time := 1620122430000000000 }
    BankModuleState := none
    Events := [{ Type_ := "swap_transacted"
                 Attributes := [("pool_id", "7"), ("swap_requester", "cosmos1x"),
                   ("offer_coin_denom", "atom"), ("offer_coin_fee_amount", "3"),
                   ("swap_price", "2")] }]
    Pools := [examplePool7] }

/-- Block 2, of 2021-05-04 11:00:00.5 UTC, without an event. -/
def exampleSwapBlock2 : BlockData :=
  { Header := { Height := 2, Time := 1620126000500000000 }
    BankModuleState := none
    Events := []
    Pools := [examplePool7] }

/-- The updates that the blocks 1 and 2 yield. -/
def exampleSwapUpdates : StateUpdates :=
  { lastBlockData := some exampleSwapBlock2
    lastBankModuleStateHeight := 0
    lastBankModuleState := none
    depositStatusByAddress := []
    swapStatusByAddress :=
      [("cosmos1x", { CountByPoolID := [(7, 1)]
                      CountByPoolIDByDate := [("2021-05-04", [(7, 1)])] })]
    swapVolumesByPoolID := [(7, [(1620122400, [("atom", 3), ("usd", 1)])])] }

end transformer

namespace schema

open GoMap

/-- The sum over all dates `d` of the status of `s.CountByPoolIDByDate[d][poolID]`. -/
def AccountActionStatus.dateSum (s : AccountActionStatus) (poolID : Nat) : Int :=
  ((keys s.CountByPoolIDByDate).map (fun d => s.cell d poolID)).sum

/-- The sum over the entries of `s.CountByPoolIDByDate` of their counts for `poolID`. -/
def AccountActionStatus.entryTotal (s : AccountActionStatus) (poolID : Nat) : Int :=
  (s.CountByPoolIDByDate.map (fun e => getInt e.2 poolID)).sum

/-- The per-pool totals of the status are the sums of its per-date cells, up to the
wrap-around of the machine integers. -/
def AccountActionStatus.TotalsFromCells (s : AccountActionStatus) : Prop :=
  ∀ p, getInt s.CountByPoolID p = wrapInt64 (s.dateSum p)

/-- A status whose `CountByPoolID` holds a pool that no date holds. -/
def exampleStatusStray : AccountActionStatus :=
  { CountByPoolID := [(9, 5), (2, 1)], CountByPoolIDByDate := [("2021-05-05", [(2, 1)])] }

end schema

namespace schema

/-- The coin that the map `cm` of `Pool.ReserveCoins` holds for `denom`: the last coin of
the balance with that denom. -/
def Balance.coinOf (b : Balance) (denom : String) : Option Coin :=
  b.Coins.reverse.find? (fun c => decide (c.Denom = denom))

end schema

namespace pricetable

/-- The scenario with a pool whose reserve balance lacks the reserve denom `uusd`. -/
def lackingPoolContext : Context ℚ :=
  testContextWith
    [("pool7",
      { ID := 7
        ReserveAccountAddress := ""
        ReserveCoinDenoms := ["atom", "uusd"]
        PoolCoinDenom := "pool7"
        Status := none
        ReserveAccountBalance := some { BlockHeight := 0, Address := "", Coins := [⟨"atom", 5⟩] }
        PoolCoinSupply := some { BlockHeight := 0, Denom := "pool7", Amount := 1000000 } })]

/-- The scenario with a pool with supply and without a reserve account balance. -/
def noBalancePoolContext : Context ℚ :=
  testContextWith
    [("pool8",
      { ID := 8
        ReserveAccountAddress := ""
        ReserveCoinDenoms := ["atom", "uusd"]
        PoolCoinDenom := "pool8"
        Status := none
        ReserveAccountBalance := none
        PoolCoinSupply := some { BlockHeight := 0, Denom := "pool8", Amount := 1000000 } })]

end pricetable

namespace transformer

open GoMap

/-- The event is a `deposit_to_pool` event with the depositor `a` and the pool `p`. -/
def isDepositOf (lib : Lib) (a : String) (p : Nat) (evt : Event) : Bool :=
  decide (evt.Type_ = liquiditytypes.EventTypeDepositToPool) &&
    match (eventAttrsFromEvent evt).DepositorAddr, (eventAttrsFromEvent evt).PoolID lib with
    | .ok addr, .ok poolID => decide (addr = a ∧ poolID = p)
    | _, _ => false

/-- The event is a `swap_transacted` event with the requester `a` and the pool `p`. -/
def isSwapOf (lib : Lib) (a : String) (p : Nat) (evt : Event) : Bool :=
  decide (evt.Type_ = liquiditytypes.EventTypeSwapTransacted) &&
    match (eventAttrsFromEvent evt).SwapRequesterAddr, (eventAttrsFromEvent evt).PoolID lib with
    | .ok addr, .ok poolID => decide (addr = a ∧ poolID = p)
    | _, _ => false

/-- The number of events that satisfy `q` in the blocks whose UTC date is `d`. -/
def countOnDate (lib : Lib) (q : Event → Bool) (blocks : List BlockData) (d : String) : Nat :=
  ((blocks.filter (fun b => decide (lib.FormatDate b.Header.Time = d))).map
    (fun b => b.Events.countP q)).sum

end transformer

/-! ## Package service/price: the cache of fetched prices -/

namespace strings

/-- The library function `strings.ToLower` on a string of ASCII characters. -/
def ToLowerASCII (s : String) : String := String.mk (s.data.map Char.toLower)

end strings

namespace price

open GoMap

variable {F : Type}

/-- A cached price and the time at which it was stored. -/
structure Cache (F : Type) where
  Price : F
  UpdatedAt : Int

/-- The cache `c` of the prices by symbol and the age, in nanoseconds, that an entry may
reach. -/
structure CacheStorage (F : Type) where
  c : List (String × Cache F)
  maxAge : Int

def NewCacheStorage (maxAge : Int) : CacheStorage F := { c := [], maxAge := maxAge }

/-- The condition `!c.UpdatedAt.Add(cs.maxAge).After(now)` of `Expire`. -/
def CacheStorage.expired (cs : CacheStorage F) (now : Int) (c : Cache F) : Bool :=
  !decide (c.UpdatedAt + cs.maxAge > now)

/-- The method `Expire`, with the reading `now` of the clock: the loop over the entries of
the map deletes the keys of the entries that have expired. -/
def CacheStorage.Expire (cs : CacheStorage F) (now : Int) : CacheStorage F :=
  { cs with c := cs.c.foldl (fun m kc => if cs.expired now kc.2 then delete m kc.1 else m) cs.c }

/-- The method `NewSymbols`: the symbols that are no key of the cache after `Expire`,
together with the cache that `Expire` leaves. -/
def CacheStorage.NewSymbols (cs : CacheStorage F) (now : Int) (symbols : List String) :
    List String × CacheStorage F :=
  let cs := cs.Expire now
  (symbols.filter (fun s => (lookup cs.c s).isNone), cs)

/-- The method `SetPrice`, with the library function `strings.ToLower` and the reading
`now` of the clock. -/
def CacheStorage.SetPrice (toLower : String → String) (cs : CacheStorage F) (now : Int)
    (symbol : String) (price : F) : CacheStorage F :=
  { cs with c := store cs.c (toLower symbol) { Price := price, UpdatedAt := now } }

/-- The method `Price`. -/
def CacheStorage.Price (ops : FloatOps F) (cs : CacheStorage F) (symbol : String) : F × Bool :=
  match lookup cs.c symbol with
  | none => (ops.zero, false)
  | some c => (c.Price, true)

/-- A cache with the maximal age of one minute into which the price 25/2 of the symbol
`ATOM` was stored at the time 0. -/
def exampleCache : CacheStorage ℚ :=
  (NewCacheStorage 60000000000).SetPrice strings.ToLowerASCII 0 "ATOM" (25 / 2)

end price

/-! ## Package service/store: the banner to show -/

namespace schema

structure Banner where
  UpcomingText : String
  Text : String
  URL : String
  VisibleAt : Int
  StartsAt : Int
  EndsAt : Int
deriving DecidableEq, Repr

end schema

namespace store

/-- The filter `{visibleAt: {$lte: now}, endsAt: {$gt: now}}` of `Banner`. -/
def bannerFilter (now : Int) (b : schema.Banner) : Bool :=
  decide (b.VisibleAt ≤ now) && decide (now < b.EndsAt)

/-- The first document in the order of the sort `{startsAt: -1}`: a document with the
greatest `startsAt`, the earliest in the collection among these. -/
def firstByStartsAtDesc : List schema.Banner → Option schema.Banner
  | [] => none
  | b :: rest =>
    match firstByStartsAtDesc rest with
    | none => some b
    | some b' => if b'.StartsAt > b.StartsAt then some b' else some b

/-- The method `Banner` on the banner collection `banners`: `FindOne` with the filter and
the sort; `none` is the result `nil, nil` for `ErrNoDocuments`. -/
def Banner (banners : List schema.Banner) (now : Int) : Option schema.Banner :=
  firstByStartsAtDesc (banners.filter (bannerFilter now))

/-- The time `2021-05-04 h:m:s UTC` in nanoseconds since the Unix epoch. -/
def may4 (h m s : Int) : Int := (1620086400 + h * 3600 + m * 60 + s) * 1000000000

/-- The banners that `TestService_Banner` inserts. -/
def testBanners : List schema.Banner :=
  [ { UpcomingText := "", Text := "passive banner 1", URL := "",
      VisibleAt := may4 0 0 0, StartsAt := may4 0 0 0, EndsAt := may4 12 0 0 },
    { UpcomingText := "", Text := "event 1", URL := "",
      VisibleAt := may4 8 30 0, StartsAt := may4 9 0 0, EndsAt := may4 9 10 0 },
    { UpcomingText := "", Text := "event 2", URL := "",
      VisibleAt := may4 17 30 0, StartsAt := may4 18 0 0, EndsAt := may4 18 10 0 } ]

end store

/-! ## The cycle of the transformer -/

namespace schema

/-- `func CoinFromSDK(coin sdk.Coin) Coin`; `none` for the panic of `Int64`. -/
def CoinFromSDK (coin : sdk.Coin) : Option Coin :=
  match sdk.Int64 coin.Amount with
  | none => none
  | some a => some { Denom := coin.Denom, Amount := a }

/-- `func CoinsFromSDK(coins sdk.Coins) []Coin`. -/
def CoinsFromSDK : List sdk.Coin → Option (List Coin)
  | [] => some []
  | c :: cs =>
    match CoinFromSDK c with
    | none => none
    | some c1 =>
      match CoinsFromSDK cs with
      | none => none
      | some r => some (c1 :: r)

end schema

namespace store

/-- `func (s *Service) LatestBlockHeight(ctx) (int64, error)`: the block height of the
checkpoint document, 0 for `mongo.ErrNoDocuments`. -/
def LatestBlockHeight (s : State) : Int := s.Checkpoint.getD 0

/-- `func (s *Service) SetLatestBlockHeight(ctx, height) error`. -/
def SetLatestBlockHeight (s : State) (height : Int) : State := { s with Checkpoint := some height }

/-- `func (s *Service) DeleteOutdatedAccountStatuses(ctx, currentBlockHeight) error`:
`DeleteMany` with the filter `blockHeight < currentBlockHeight-1 or
blockHeight > currentBlockHeight+1`. -/
def DeleteOutdatedAccountStatuses (s : State) (currentBlockHeight : Int) : State :=
  { s with AccountStatuses := s.AccountStatuses.filter (fun r =>
      !(decide (r.BlockHeight < wrapInt64 (currentBlockHeight - 1)) ||
        decide (r.BlockHeight > wrapInt64 (currentBlockHeight + 1)))) }

/-- `func (s *Service) DeleteOutdatedPoolStatuses(ctx, currentBlockHeight) error`. -/
def DeleteOutdatedPoolStatuses (s : State) (currentBlockHeight : Int) : State :=
  { s with PoolStatuses := s.PoolStatuses.filter (fun r =>
      !(decide (r.BlockHeight < wrapInt64 (currentBlockHeight - 1)) ||
        decide (r.BlockHeight > wrapInt64 (currentBlockHeight + 1)))) }

/-- The write model of a balance: an `UpdateOne` with the filter `{address}`, the update
`$set {blockHeight, coins}` and the upsert option. -/
structure BalanceWrite where
  Address : String
  BlockHeight : Int
  Coins : List schema.Coin
  deriving DecidableEq, Repr

/-- One upsert of a balance. -/
def upsertBalance (w : BalanceWrite) : List schema.Balance → List schema.Balance
  | [] => [{ BlockHeight := w.BlockHeight, Address := w.Address, Coins := w.Coins }]
  | r :: rows =>
    if r.Address = w.Address then
      { r with BlockHeight := w.BlockHeight, Coins := w.Coins } :: rows
    else r :: upsertBalance w rows

/-- `BalanceCollection().BulkWrite(ctx, writes)`: the writes in their order. -/
def bulkWriteBalances (writes : List BalanceWrite) (rows : List schema.Balance) :
    List schema.Balance :=
  writes.foldl (fun rows w => upsertBalance w rows) rows

/-- The write model of a supply: an `UpdateOne` with the filter `{denom}`, the update
`$set {blockHeight, amount}` and the upsert option. -/
structure SupplyWrite where
  Denom : String
  BlockHeight : Int
  Amount : Int
  deriving DecidableEq, Repr

/-- One upsert of a supply. -/
def upsertSupply (w : SupplyWrite) : List schema.Supply → List schema.Supply
  | [] => [{ BlockHeight := w.BlockHeight, Denom := w.Denom, Amount := w.Amount }]
  | r :: rows =>
    if r.Denom = w.Denom then
      { r with BlockHeight := w.BlockHeight, Amount := w.Amount } :: rows
    else r :: upsertSupply w rows

/-- `SupplyCollection().BulkWrite(ctx, writes)`: the writes in their order. -/
def bulkWriteSupplies (writes : List SupplyWrite) (rows : List schema.Supply) :
    List schema.Supply :=
  writes.foldl (fun rows w => upsertSupply w rows) rows

/-- An upsert in general: the write `w` has the key `kW w`, a document `r` the key `kR r`;
the first document with the key of the write is updated by `set`, and without such a
document the document `new w` is appended. -/
def upsertBy {W R K : Type} [DecidableEq K] (kW : W → K) (kR : R → K) (set : W → R → R)
    (new : W → R) (w : W) : List R → List R
  | [] => [new w]
  | r :: rows =>
    if kR r = kW w then set w r :: rows else r :: upsertBy kW kR set new w rows

/-- A bulk write of upserts in general. -/
def bulkBy {W R K : Type} [DecidableEq K] (kW : W → K) (kR : R → K) (set : W → R → R)
    (new : W → R) (ws : List W) (rows : List R) : List R :=
  ws.foldl (fun rows w => upsertBy kW kR set new w rows) rows

/-- The account status rows of an address. -/
def rowsOf (s : State) (a : String) : List schema.AccountStatus :=
  s.AccountStatuses.filter (fun r => decide (r.Address = a))

end store

namespace transformer

open GoMap

/-- `func (t *Transformer) PruneOutdatedStates(ctx, currentBlockHeight) error`. -/
def PruneOutdatedStates (s : store.State) (currentBlockHeight : Int) : store.State :=
  store.DeleteOutdatedPoolStatuses
    (store.DeleteOutdatedAccountStatuses s currentBlockHeight) currentBlockHeight

/-- The balance writes of `UpdateBalancesAndSupplies`; `none` for a panic of
`CoinsFromSDK`. -/
def balanceWrites (height : Int) : List banktypes.Balance → Option (List store.BalanceWrite)
  | [] => some []
  | b :: bs =>
    match schema.CoinsFromSDK b.Coins with
    | none => none
    | some cs =>
      match balanceWrites height bs with
      | none => none
      | some ws => some ({ Address := b.Address, BlockHeight := height, Coins := cs } :: ws)

/-- The supply writes of `UpdateBalancesAndSupplies`; `none` for a panic of `Int64`. -/
def supplyWrites (height : Int) : List sdk.Coin → Option (List store.SupplyWrite)
  | [] => some []
  | c :: cs =>
    match sdk.Int64 c.Amount with
    | none => none
    | some a =>
      match supplyWrites height cs with
      | none => none
      | some ws => some ({ Denom := c.Denom, BlockHeight := height, Amount := a } :: ws)

/-- `func (t *Transformer) UpdateBalancesAndSupplies(ctx, updates) error`: the store after
the call; `none` for a panic. -/
def UpdateBalancesAndSupplies (s : store.State) (updates : StateUpdates) : Option store.State :=
  match updates.lastBankModuleState with
  | none => some s
  | some bankModuleState =>
    match balanceWrites updates.lastBankModuleStateHeight bankModuleState.Balances with
    | none => none
    | some writes =>
      match supplyWrites updates.lastBankModuleStateHeight bankModuleState.Supply with
      | none => none
      | some writes2 =>
        some { s with
          Balances := store.bulkWriteBalances writes s.Balances
          Supplies := store.bulkWriteSupplies writes2 s.Supplies }

/-- `func (t *Transformer) UpdateState(ctx, currentBlockHeight, updates) error`: the store
after the three functions of the error group have run; they write different collections,
so that the order in which they run makes no difference. -/
def UpdateState (s : store.State) (currentBlockHeight : Int) (updates : StateUpdates) :
    Option store.State :=
  match UpdateAccountStatus s currentBlockHeight updates with
  | none => none
  | some s1 =>
    match UpdatePoolStatus s1 currentBlockHeight updates with
    | none => none
    | some s2 =>
      if updates.lastBankModuleState.isSome then UpdateBalancesAndSupplies s2 updates
      else some s2

/-- The errors that `Run` returns. -/
inductive RunError where
  /-- `get latest block height: %w`. -/
  | getLatestBlockHeight
  /-- `prune old state: %w`. -/
  | pruneOldState
  /-- `accumulate state updates: %w`. -/
  | accumulateStateUpdates (err : Error)
  /-- `update state: %w`. -/
  | updateState
  /-- `update latest block height: %w`. -/
  | updateLatestBlockHeight
  deriving DecidableEq, Repr

/-- The call of a cycle in which the database fails.  A failing `PruneOutdatedStates` or
`UpdateState` leaves the collections that it writes as they are in `after`; neither writes
the checkpoint. -/
inductive Fault where
  | latestBlockHeight
  | pruneOutdatedStates (after : store.State)
  | updateState (after : store.State)
  | setLatestBlockHeight
  deriving DecidableEq, Repr

/-- The pruning step of a cycle: the store after it, as an error when the step fails. -/
def pruneStep (fault : Option Fault) (s : store.State) (h : Int) :
    Except store.State store.State :=
  if h > 1 then
    match fault with
    | some (.pruneOutdatedStates after) =>
      .error { s with AccountStatuses := after.AccountStatuses
                      PoolStatuses := after.PoolStatuses }
    | _ => .ok (PruneOutdatedStates s h)
  else .ok s

/-- The writing steps of a cycle: `UpdateState` and `SetLatestBlockHeight`. -/
def writeStep (fault : Option Fault) (s : store.State) (h lastH : Int)
    (updates : StateUpdates) : Option (store.State × Option RunError) :=
  match fault with
  | some (.updateState after) =>
    some ({ after with Checkpoint := s.Checkpoint }, some .updateState)
  | _ =>
    match UpdateState s h updates with
    | none => none
    | some s1 =>
      match fault with
      | some .setLatestBlockHeight => some (s1, some .updateLatestBlockHeight)
      | _ => some (store.SetLatestBlockHeight s1 lastH, none)

/-- One turn of the loop of `func (t *Transformer) Run(ctx) error` on the store `s`, with
the block data `blocks` that arrive and the database call `fault` that fails, if any: the
store after the turn and the error with which `Run` returns, if any; `none` for a
panic. -/
def cycle (lib : Lib) (cfg : config.TransformerConfig) (fault : Option Fault)
    (blocks : List BlockData) (s : store.State) : Option (store.State × Option RunError) :=
  if fault = some .latestBlockHeight then some (s, some .getLatestBlockHeight)
  else
    let h := store.LatestBlockHeight s
    match pruneStep fault s h with
    | .error s1 => some (s1, some .pruneOldState)
    | .ok s0 =>
      match AccStateUpdates lib cfg (wrapInt64 (h + 1)) blocks with
      | none => none
      | some (.error e) => some (s0, some (.accumulateStateUpdates e))
      | some (.ok updates) =>
        match updates.lastBlockData with
        | none => none
        | some data => writeStep fault s0 h data.Header.Height updates

/-- A sequence of turns, each started on the store that the turn before has left. -/
def cycles (lib : Lib) (cfg : config.TransformerConfig) :
    List (Option Fault × List BlockData) → store.State → Option store.State
  | [], s => some s
  | (fault, blocks) :: rest, s =>
    match cycle lib cfg fault blocks s with
    | none => none
    | some (s1, _) => cycles lib cfg rest s1

/-- The stores that turns without a failure of the database reach from the empty store,
the block heights staying within the 64-bit range. -/
inductive Reachable (lib : Lib) (cfg : config.TransformerConfig) : store.State → Prop where
  | empty : Reachable lib cfg emptyStore
  | step (s s1 : store.State) (blocks : List BlockData) (err : Option RunError) :
      Reachable lib cfg s →
      store.LatestBlockHeight s + blocks.length < 9223372036854775808 →
      cycle lib cfg none blocks s = some (s1, err) →
      Reachable lib cfg s1

/-- Block 1, of 2021-05-04 10:00:00 UTC, with one deposit of X in pool 7. -/
def exampleDepositBlock1 : BlockData :=
  { Header := { Height := 1, Time := 1620122400000000000 }
    BankModuleState := none
    Events := [{ Type_ := "deposit_to_pool"
                 Attributes := [("pool_id", "7"), ("depositor", "cosmos1x")] }]
    Pools := [examplePool7] }

/-- A block without an event at the given height, of 2021-05-04 10:00:00 UTC. -/
def exampleEmptyBlock (height : Int) : BlockData :=
  { Header := { Height := height, Time := 1620122400000000000 }
    BankModuleState := none
    Events := []
    Pools := [examplePool7] }

/-- The updates that block 101 yields when it carries the state of the bank module. -/
def exampleBankUpdates : StateUpdates :=
  { exampleUpdates with
    lastBankModuleStateHeight := 101
    lastBankModuleState := some
      { Balances := [{ Address := "cosmos1x", Coins := [⟨"atom", 5⟩] }]
        Supply := [⟨"atom", 100⟩] } }

/-- The account status of X with one deposit in pool 7 at the given height. -/
def exampleRowAt (height : Int) : schema.AccountStatus :=
  { BlockHeight := height, Address := "cosmos1x"
    Deposits := { CountByPoolID := [(7, 1)], CountByPoolIDByDate := [("2021-05-04", [(7, 1)])] }
    Swaps := { CountByPoolID := [], CountByPoolIDByDate := [] } }

/-- The store with the checkpoint `cp` in which X and the pool 7 have a status at each of
the given heights. -/
def exampleStoreAfter (heights : List Int) (cp : Int) : store.State :=
  { Checkpoint := some cp
    AccountStatuses := heights.map exampleRowAt
    PoolStatuses := heights.map (fun h => { BlockHeight := h, ID := 7, SwapFeeVolumes := [] })
    Pools := [{ ID := 7, ReserveAccountAddress := "cosmos1pool7"
                ReserveCoinDenoms := ["atom", "usd"], PoolCoinDenom := "pool7"
                Status := none, ReserveAccountBalance := none, PoolCoinSupply := none }]
    Balances := [], Supplies := [] }

end transformer

/-! ## Price resolution: dependencies between denoms and the writes of a call -/

namespace pricetable

open GoMap

variable {F : Type}

/-- Neither `d` nor `d2` has a price in the table of `c`, and a call of `Price` for `d`
calls `Price` for `d2`: `d` is no normal coin and is either a pool coin with non-zero
supply of which `d2` is a reserve coin, or no pool coin and has the display denom `d2`. -/
def Context.Dep (c : Context F) (d d2 : String) : Prop :=
  lookup c.priceTable d = none ∧ lookup c.priceTable d2 = none ∧
  c.IsNormalCoinDenom d = false ∧
  ((c.IsPoolCoinDenom d = true ∧
      ∃ pool, lookup c.pools d = some pool ∧ pool.PoolCoinAmount ≠ 0 ∧
        ∃ rc ∈ pool.ReserveCoins, rc.Denom = d2) ∨
    (c.IsPoolCoinDenom d = false ∧
      ∃ md, lookup c.denomMetadata d = some md ∧ md.Display = d2))

/-- The dependencies between the denoms without a price have no cycle. -/
def Context.Acyclic (c : Context F) : Prop := ∀ d, ¬ Relation.TransGen c.Dep d d

/-- The loop over the reserve coins as in `sumReserveCoins`, over a resolver that also
returns the denoms it has written into the price table, in the order of the writes; `log`
holds the denoms written so far. -/
def sumReserveCoinsLog (ops : FloatOps F)
    (price : Context F → Nat → String → Option (PriceResult F × List String)) :
    List schema.Coin → F → Context F → Nat → List String →
      Option (PriceResult F × List String)
  | [], sum, c, g, log => some ((.ok sum, c, g), log)
  | rc :: rcs, sum, c, g, log =>
    match price c g rc.Denom with
    | none => none
    | some ((.error e, c', g'), l) => some ((.error e, c', g'), log ++ l)
    | some ((.ok tp, c', g'), l) =>
      sumReserveCoinsLog ops price rcs (ops.add sum (ops.mul tp (ops.ofInt rc.Amount))) c' g'
        (log ++ l)

/-- `Context.Price` as in `Price`, with the list of the denoms of its assignments
`c.priceTable[denom] = p`, in the order in which they are made. -/
def PriceLog (ops : FloatOps F) (rand : Nat → F) :
    Nat → Context F → Nat → String → Option (PriceResult F × List String)
  | 0, _, _, _ => none
  | fuel + 1, c, g, denom =>
    match lookup c.priceTable denom with
    | some p => some ((.ok p, c, g), [])
    | none =>
      if c.IsNormalCoinDenom denom then
        match lookup c.manualPrices denom with
        | none => some ((.error (.normalCoinNotInTable denom), c, g), [])
        | some mp =>
          let p := ops.add mp.MinPrice (ops.mul (rand g) (ops.sub mp.MaxPrice mp.MinPrice))
          some ((.ok p, c.setPrice denom p, g + 1), [denom])
      else if c.IsPoolCoinDenom denom then
        match lookup c.pools denom with
        | none => none
        | some pool =>
          if pool.PoolCoinAmount = 0 then
            some ((.ok ops.zero, c.setPrice denom ops.zero, g), [denom])
          else
            match sumReserveCoinsLog ops (PriceLog ops rand fuel) pool.ReserveCoins ops.zero
                c g [] with
            | none => none
            | some ((.error e, c', g'), l) => some ((.error e, c', g'), l)
            | some ((.ok sum, c', g'), l) =>
              let p := ops.mul (ops.div ops.one (ops.ofInt pool.PoolCoinAmount)) sum
              some ((.ok p, c'.setPrice denom p, g'), l ++ [denom])
      else
        match lookup c.denomMetadata denom with
        | none => some ((.error (.unknownDenom denom), c, g), [])
        | some md =>
          match PriceLog ops rand fuel c g md.Display with
          | none => none
          | some ((.error e, c', g'), l) => some ((.error e, c', g'), l)
          | some ((.ok tp, c', g'), l) =>
            let p := ops.div tp (ops.pow10 md.Exponent)
            some ((.ok p, c'.setPrice denom p, g'), l ++ [denom])

/-- A rank of the denoms of the scenario of `TestContext_Price` that every dependency
lowers. -/
def testRank (d : String) : Nat :=
  if d = "pool4" then 3
  else if d = "pool1" ∨ d = "pool2" ∨ d = "pool3" then 2
  else if d = "uusd" ∨ d = "uatom" ∨ d = "uluna" then 1
  else 0

end pricetable

/-! ## Facts about Go maps -/

namespace GoMap

variable {K V : Type} [DecidableEq K]

theorem lookup_store (m : List (K × V)) (k k' : K) (v : V) :
    lookup (store m k v) k' = if k = k' then some v else lookup m k' := by
  induction m with
  | nil => simp [store, lookup]
  | cons e m ih =>
    obtain ⟨a, b⟩ := e
    by_cases h : a = k
    · subst h
      by_cases h' : a = k' <;> simp [store, lookup, h']
    · by_cases h' : a = k'
      · subst h'
        have hne : ¬ k = a := fun hk => h hk.symm
        simp [store, lookup, h, hne]
      · simp [store, lookup, h, h', ih]

theorem mem_keys_store (m : List (K × V)) (k x : K) (v : V) :
    x ∈ keys (store m k v) ↔ x = k ∨ x ∈ keys m := by
  induction m with
  | nil => simp [store, keys]
  | cons e m ih =>
    obtain ⟨a, b⟩ := e
    by_cases h : a = k
    · subst h
      simp [store, keys]
    · simp only [keys] at ih
      simp only [store, h, keys, if_false, List.map_cons, List.mem_cons, ih]
      tauto

theorem lookup_eq_none_iff (m : List (K × V)) (k : K) :
    lookup m k = none ↔ k ∉ keys m := by
  induction m with
  | nil => simp [lookup, keys]
  | cons e m ih =>
    obtain ⟨a, b⟩ := e
    simp only [keys] at ih
    by_cases h : a = k
    · simp [lookup, keys, h]
    · have hne : ¬ k = a := fun hk => h hk.symm
      simp [lookup, keys, h, hne, ih]

theorem lookup_isSome_iff (m : List (K × V)) (k : K) :
    (lookup m k).isSome = true ↔ k ∈ keys m := by
  rw [← not_iff_not, ← lookup_eq_none_iff]
  cases lookup m k <;> simp

theorem WF_store (m : List (K × V)) (k : K) (v : V) (h : WF m) : WF (store m k v) := by
  induction m with
  | nil => simp [store, WF, keys]
  | cons e m ih =>
    obtain ⟨a, b⟩ := e
    simp only [WF, keys, List.map_cons, List.nodup_cons] at h
    by_cases hk : a = k
    · simp only [store, hk, if_true, WF, keys, List.map_cons, List.nodup_cons]
      exact ⟨hk ▸ h.1, h.2⟩
    · have hm := mem_keys_store m k a v
      simp only [keys] at hm
      simp only [store, hk, if_false, WF, keys, List.map_cons, List.nodup_cons, hm]
      refine ⟨?_, ih h.2⟩
      intro hc
      rcases hc with hc | hc
      · exact hc.elim
      · exact h.1 hc

theorem lookup_of_mem_WF (m : List (K × V)) (h : WF m) (k : K) (v : V) (hm : (k, v) ∈ m) :
    lookup m k = some v := by
  induction m with
  | nil => simp at hm
  | cons e m ih =>
    obtain ⟨a, b⟩ := e
    simp only [WF, keys, List.map_cons, List.nodup_cons] at h
    rcases List.mem_cons.1 hm with heq | hmem
    · cases heq
      simp [lookup]
    · have hne : ¬ a = k := by
        intro hak
        apply h.1
        rw [hak]
        exact List.mem_map_of_mem Prod.fst hmem
      simp only [lookup, hne, if_false]
      exact ih h.2 hmem

theorem lookup_delete (m : List (K × V)) (k k' : K) :
    lookup (delete m k) k' = if k = k' then none else lookup m k' := by
  induction m with
  | nil => simp [delete, lookup]
  | cons e m ih =>
    obtain ⟨a, b⟩ := e
    by_cases h : a = k
    · subst h
      by_cases h' : a = k'
      · subst h'
        simpa [delete, lookup] using ih
      · simp [delete, lookup, h', ih]
    · by_cases h' : a = k'
      · subst h'
        have hne : ¬ k = a := fun hk => h hk.symm
        simp [delete, lookup, h, hne]
      · simp [delete, lookup, h, h', ih]

theorem delete_eq_filter (m : List (K × V)) (k : K) :
    delete m k = m.filter (fun e => !decide (e.1 = k)) := by
  induction m with
  | nil => simp [delete]
  | cons e m ih =>
    obtain ⟨a, b⟩ := e
    by_cases h : a = k <;> simp [delete, h, ih]

end GoMap

theorem wrapInt64_idem (x : Int) : wrapInt64 (wrapInt64 x) = wrapInt64 x := by
  unfold wrapInt64; omega

theorem wrapInt64_add_left (x y : Int) : wrapInt64 (wrapInt64 x + y) = wrapInt64 (x + y) := by
  unfold wrapInt64; omega

theorem wrapInt64_add_right (x y : Int) : wrapInt64 (x + wrapInt64 y) = wrapInt64 (x + y) := by
  unfold wrapInt64; omega

theorem wrapInt64_of_range (x : Int) (h1 : -9223372036854775808 ≤ x)
    (h2 : x < 9223372036854775808) : wrapInt64 x = x := by
  unfold wrapInt64; omega

theorem wrapInt64_zero : wrapInt64 0 = 0 := by decide

/-! ## Volumes: removing outdated buckets -/

namespace schema

open GoMap

theorem foldl_delete_eq_filter (p : Int) (ks : List Int) (acc : Volumes) :
    ks.foldl (fun acc t => if t < p then delete acc t else acc) acc =
      acc.filter (fun e => !(decide (e.1 < p) && decide (e.1 ∈ ks))) := by
  induction ks generalizing acc with
  | nil => simp
  | cons k ks ih =>
    rw [List.foldl_cons, ih]
    by_cases hk : k < p
    · rw [if_pos hk, delete_eq_filter, List.filter_filter]
      apply List.filter_congr
      intro e _
      by_cases h1 : e.1 = k
      · simp [h1, hk]
      · by_cases h2 : e.1 < p <;> simp [h1, h2]
    · rw [if_neg hk]
      apply List.filter_congr
      intro e _
      by_cases h1 : e.1 = k
      · simp [h1, hk]
      · by_cases h2 : e.1 < p <;> simp [h1, h2]

theorem RemoveOutdated_eq_filter (v : Volumes) (p : Int) :
    v.RemoveOutdated p = v.filter (fun e => decide (p ≤ e.1)) := by
  unfold Volumes.RemoveOutdated
  rw [foldl_delete_eq_filter]
  apply List.filter_congr
  intro e he
  have hmem : e.1 ∈ keys v := List.mem_map_of_mem Prod.fst he
  by_cases h : e.1 < p
  · have h' : ¬ p ≤ e.1 := by omega
    simp [h, h', hmem]
  · have h' : p ≤ e.1 := by omega
    simp [h, h']

theorem lookup_filter_key (q : Int → Bool) (v : Volumes) (t : Int) :
    lookup (v.filter (fun e => q e.1)) t = if q t = true then lookup v t else none := by
  induction v with
  | nil => simp [lookup]
  | cons e v ih =>
    obtain ⟨a, b⟩ := e
    by_cases hq : q a = true
    · by_cases ht : a = t
      · subst ht
        simp [List.filter_cons, hq, lookup]
      · simp [List.filter_cons, hq, lookup, ht, ih]
    · by_cases ht : a = t
      · subst ht
        simp [List.filter_cons, hq, ih]
      · simp [List.filter_cons, hq, lookup, ht, ih]


/-- C3: after `v.RemoveOutdated(past)` the keys of `v` are exactly the original keys `t`
with `t >= past.Unix()`, and the coin map stored under each retained key is the one stored
before; the buckets 06:00, 06:01 and 07:00 with `past` = 07:02 minus one hour leave exactly
one bucket, the one of 07:00. -/
theorem RemoveOutdated_keeps_recent :
    (∀ (v : Volumes) (p t : Int), t ∈ keys (v.RemoveOutdated p) ↔ t ∈ keys v ∧ p ≤ t) ∧
    (∀ (v : Volumes) (p t : Int),
      lookup (v.RemoveOutdated p) t = if p ≤ t then lookup v t else none) ∧
    Volumes.RemoveOutdated testOutdatedV (1619766120 - 3600) = [(1619766000, [("usd", 300)])] ∧
    (Volumes.RemoveOutdated testOutdatedV (1619766120 - 3600)).length = 1 := by
  refine ⟨?_, ?_, by decide, by decide⟩
  · intro v p t
    rw [RemoveOutdated_eq_filter]
    simp only [keys, List.mem_map, List.mem_filter, decide_eq_true_eq]
    constructor
    · rintro ⟨e, ⟨he, hp⟩, rfl⟩
      exact ⟨⟨e, he, rfl⟩, hp⟩
    · rintro ⟨⟨e, he, rfl⟩, hp⟩
      exact ⟨e, ⟨he, hp⟩, rfl⟩
  · intro v p t
    rw [RemoveOutdated_eq_filter, lookup_filter_key (fun k => decide (p ≤ k))]
    simp

end schema

/-! ## Volumes: merging -/

namespace schema

open GoMap

theorem getInt_store {K : Type} [DecidableEq K] (m : List (K × Int)) (k k' : K) (x : Int) :
    getInt (store m k x) k' = if k = k' then x else getInt m k' := by
  unfold getInt
  rw [lookup_store]
  by_cases h : k = k' <;> simp [h]

theorem getMap_store {K K2 V2 : Type} [DecidableEq K] (m : List (K × List (K2 × V2)))
    (k k' : K) (x : List (K2 × V2)) :
    getMap (store m k x) k' = if k = k' then x else getMap m k' := by
  unfold getMap
  rw [lookup_store]
  by_cases h : k = k' <;> simp [h]

/-- What `c.Add(c2)` leaves under `d`, up to wrap-around. -/
theorem Add_getInt_wrap (c2 c : CoinMap) (d : String) :
    wrapInt64 (getInt (CoinMap.Add c c2) d) = wrapInt64 (getInt c d + GoMap.entrySum c2 d) := by
  induction c2 generalizing c with
  | nil => simp [CoinMap.Add, GoMap.entrySum]
  | cons e c2 ih =>
    have ih' := ih (store c e.1 (wrapInt64 (getInt c e.1 + e.2)))
    simp only [CoinMap.Add, List.foldl_cons] at ih' ⊢
    rw [ih', getInt_store]
    simp only [GoMap.entrySum, List.map_cons, List.sum_cons]
    by_cases h : e.1 = d
    · subst h
      simp only [if_true]
      rw [wrapInt64_add_left]
      congr 1
      ring
    · simp only [h, if_false]
      congr 1
      ring

theorem Add_inRange (c2 c : CoinMap) (h : CoinMap.InRange c) :
    CoinMap.InRange (CoinMap.Add c c2) := by
  induction c2 generalizing c with
  | nil => simpa [CoinMap.Add] using h
  | cons e c2 ih =>
    simp only [CoinMap.Add, List.foldl_cons]
    apply ih
    intro d
    rw [getInt_store]
    by_cases hd : e.1 = d
    · simp only [hd, if_true]
      exact wrapInt64_idem _
    · simp only [hd, if_false]
      exact h d

theorem Add_getInt (c2 c : CoinMap) (h : CoinMap.InRange c) (d : String) :
    getInt (CoinMap.Add c c2) d = wrapInt64 (getInt c d + GoMap.entrySum c2 d) := by
  rw [← Add_getInt_wrap, Add_inRange c2 c h d]

theorem mem_keys_Add (c2 c : CoinMap) (d : String) :
    d ∈ keys (CoinMap.Add c c2) ↔ d ∈ keys c ∨ d ∈ keys c2 := by
  induction c2 generalizing c with
  | nil => simp [CoinMap.Add, keys]
  | cons e c2 ih =>
    have ih' := ih (store c e.1 (wrapInt64 (getInt c e.1 + e.2)))
    simp only [CoinMap.Add, List.foldl_cons] at ih' ⊢
    rw [ih', mem_keys_store]
    simp only [keys, List.map_cons, List.mem_cons]
    tauto

theorem inRange_nil : CoinMap.InRange [] := by
  intro d
  simp [getInt, lookup, wrapInt64_zero]

theorem getMap_mergeVolumesStep (v : Volumes) (e : Int × CoinMap) (T : Int) :
    getMap (mergeVolumesStep v e) T =
      if truncateMinute e.1 = T then CoinMap.Add (getMap v T) e.2 else getMap v T := by
  cases hl : lookup v (truncateMinute e.1) with
  | none =>
    simp only [mergeVolumesStep, hl]
    rw [getMap_store, getMap_store]
    by_cases h : truncateMinute e.1 = T
    · subst h
      simp [getMap, hl]
    · simp [h]
  | some c =>
    simp only [mergeVolumesStep, hl]
    rw [getMap_store]
    by_cases h : truncateMinute e.1 = T
    · subst h
      simp [getMap, hl]
    · simp [h]

theorem mem_keys_mergeVolumesStep (v : Volumes) (e : Int × CoinMap) (T : Int) :
    T ∈ keys (mergeVolumesStep v e) ↔ T = truncateMinute e.1 ∨ T ∈ keys v := by
  cases hl : lookup v (truncateMinute e.1) with
  | none =>
    simp only [mergeVolumesStep, hl]
    rw [mem_keys_store, mem_keys_store]
    tauto
  | some c =>
    simp only [mergeVolumesStep, hl]
    rw [mem_keys_store]

theorem mergeVolumesStep_inRange (v : Volumes) (e : Int × CoinMap) (h : Volumes.InRange v) :
    Volumes.InRange (mergeVolumesStep v e) := by
  intro T
  rw [getMap_mergeVolumesStep]
  by_cases hT : truncateMinute e.1 = T
  · simp only [hT, if_true]
    exact Add_inRange _ _ (h T)
  · simp only [hT, if_false]
    exact h T

theorem foldl_step_inRange (es : Volumes) (v : Volumes) (h : Volumes.InRange v) :
    Volumes.InRange (es.foldl mergeVolumesStep v) := by
  induction es generalizing v with
  | nil => simpa using h
  | cons e es ih => exact ih _ (mergeVolumesStep_inRange v e h)

theorem foldl_step_amount (es : Volumes) (v : Volumes) (h : Volumes.InRange v) (T : Int)
    (d : String) :
    Volumes.amount (es.foldl mergeVolumesStep v) T d =
      wrapInt64 (Volumes.amount v T d + Volumes.entrySum es T d) := by
  induction es generalizing v with
  | nil =>
    simp only [List.foldl_nil, Volumes.entrySum, List.map_nil, List.sum_nil, add_zero]
    exact (h T d).symm
  | cons e es ih =>
    rw [List.foldl_cons, ih _ (mergeVolumesStep_inRange v e h)]
    simp only [Volumes.amount, Volumes.entrySum, List.map_cons, List.sum_cons]
    rw [getMap_mergeVolumesStep]
    by_cases hT : truncateMinute e.1 = T
    · simp only [hT, if_true]
      rw [Add_getInt _ _ (h T), wrapInt64_add_left]
      congr 1
      ring
    · simp only [hT, if_false]
      congr 1
      ring

theorem foldl_merge_inRange (vs : List Volumes) (v : Volumes) (h : Volumes.InRange v) :
    Volumes.InRange (vs.foldl (fun v v2 => v2.foldl mergeVolumesStep v) v) := by
  induction vs generalizing v with
  | nil => simpa using h
  | cons v2 vs ih => exact ih _ (foldl_step_inRange v2 v h)

theorem foldl_merge_amount (vs : List Volumes) (v : Volumes) (h : Volumes.InRange v) (T : Int)
    (d : String) :
    Volumes.amount (vs.foldl (fun v v2 => v2.foldl mergeVolumesStep v) v) T d =
      wrapInt64 (Volumes.amount v T d + mergedEntrySum vs T d) := by
  induction vs generalizing v with
  | nil =>
    simp only [List.foldl_nil, mergedEntrySum, List.map_nil, List.sum_nil, add_zero]
    exact (h T d).symm
  | cons v2 vs ih =>
    rw [List.foldl_cons, ih _ (foldl_step_inRange v2 v h), foldl_step_amount v2 v h,
      wrapInt64_add_left]
    simp only [mergedEntrySum, List.map_cons, List.sum_cons]
    congr 1
    ring

theorem volumes_nil_inRange : Volumes.InRange [] := by
  intro T d
  simp [getMap, getInt, lookup, wrapInt64_zero]

theorem MergeVolumes_amount (vs : List Volumes) (T : Int) (d : String) :
    Volumes.amount (MergeVolumes vs) T d = wrapInt64 (mergedEntrySum vs T d) := by
  unfold MergeVolumes
  rw [foldl_merge_amount vs [] volumes_nil_inRange]
  simp [Volumes.amount, getMap, getInt, lookup]


theorem entrySum_eq_zero {K : Type} [DecidableEq K] (c : List (K × Int)) (d : K)
    (h : d ∉ keys c) :
    GoMap.entrySum c d = 0 := by
  induction c with
  | nil => simp [GoMap.entrySum]
  | cons e c ih =>
    simp only [keys, List.map_cons, List.mem_cons, not_or] at h
    have hne : ¬ e.1 = d := fun he => h.1 he.symm
    have ih' := ih h.2
    simp only [GoMap.entrySum] at ih'
    simp [GoMap.entrySum, hne, ih']

theorem entrySum_eq_getInt {K : Type} [DecidableEq K] (c : List (K × Int)) (d : K)
    (h : GoMap.WF c) :
    GoMap.entrySum c d = getInt c d := by
  induction c with
  | nil => simp [GoMap.entrySum, getInt, lookup]
  | cons e c ih =>
    obtain ⟨a, b⟩ := e
    simp only [GoMap.WF, keys, List.map_cons, List.nodup_cons] at h
    by_cases had : a = d
    · subst had
      have hz := entrySum_eq_zero c a h.1
      simp only [GoMap.entrySum] at hz
      simp [GoMap.entrySum, getInt, lookup, hz]
    · have ih' := ih h.2
      simp only [GoMap.entrySum, getInt] at ih'
      simp [GoMap.entrySum, getInt, lookup, had, ih']

theorem sum_filter_map {α : Type} (l : List α) (q : α → Bool) (f : α → Int) :
    ((l.filter q).map f).sum = (l.map (fun x => if q x = true then f x else 0)).sum := by
  induction l with
  | nil => simp
  | cons a l ih =>
    by_cases h : q a = true <;> simp [List.filter_cons, h, ih]

theorem minuteSum_eq_entrySum (v : Volumes) (T : Int) (d : String) (h : Volumes.WF v) :
    Volumes.minuteSum v T d = Volumes.entrySum v T d := by
  unfold Volumes.minuteSum Volumes.entrySum keys
  rw [sum_filter_map, List.map_map]
  congr 1
  apply List.map_congr_left
  intro e he
  simp only [Function.comp, decide_eq_true_eq]
  by_cases hT : truncateMinute e.1 = T
  · simp only [hT, if_true]
    have hl : lookup v e.1 = some e.2 := lookup_of_mem_WF v h.1 e.1 e.2 he
    rw [entrySum_eq_getInt _ _ (h.2 e he)]
    simp [Volumes.amount, getMap, hl]
  · simp [hT]

theorem mergedMinuteSum_eq (vs : List Volumes) (T : Int) (d : String)
    (h : ∀ v ∈ vs, Volumes.WF v) : mergedMinuteSum vs T d = mergedEntrySum vs T d := by
  unfold mergedMinuteSum mergedEntrySum
  congr 1
  apply List.map_congr_left
  intro v hv
  exact minuteSum_eq_entrySum v T d (h v hv)

theorem truncateMinute_aligned (t : Int) : truncateMinute t % 60 = 0 := by
  unfold truncateMinute; omega

theorem mem_keys_foldl_step (es : Volumes) (v : Volumes) (T : Int) :
    T ∈ keys (es.foldl mergeVolumesStep v) ↔
      T ∈ keys v ∨ ∃ e ∈ es, truncateMinute e.1 = T := by
  induction es generalizing v with
  | nil => simp
  | cons e es ih =>
    rw [List.foldl_cons, ih, mem_keys_mergeVolumesStep]
    simp only [List.mem_cons, exists_eq_or_imp]
    constructor
    · rintro ((h | h) | h)
      · exact Or.inr (Or.inl h.symm)
      · exact Or.inl h
      · exact Or.inr (Or.inr h)
    · rintro (h | h | h)
      · exact Or.inl (Or.inr h)
      · exact Or.inl (Or.inl h.symm)
      · exact Or.inr h

theorem mem_keys_foldl_merge (vs : List Volumes) (v : Volumes) (T : Int) :
    T ∈ keys (vs.foldl (fun v v2 => v2.foldl mergeVolumesStep v) v) ↔
      T ∈ keys v ∨ ∃ v2 ∈ vs, ∃ e ∈ v2, truncateMinute e.1 = T := by
  induction vs generalizing v with
  | nil => simp
  | cons v2 vs ih =>
    rw [List.foldl_cons, ih, mem_keys_foldl_step]
    simp only [List.mem_cons, exists_eq_or_imp]
    exact or_assoc

theorem mem_keys_MergeVolumes (vs : List Volumes) (T : Int) :
    T ∈ keys (MergeVolumes vs) ↔ ∃ v ∈ vs, ∃ e ∈ v, truncateMinute e.1 = T := by
  unfold MergeVolumes
  rw [mem_keys_foldl_merge]
  simp [keys]

theorem mem_keys_getMap_foldl_step (es : Volumes) (v : Volumes) (T : Int) (d : String) :
    d ∈ keys (getMap (es.foldl mergeVolumesStep v) T) ↔
      d ∈ keys (getMap v T) ∨ ∃ e ∈ es, truncateMinute e.1 = T ∧ d ∈ keys e.2 := by
  induction es generalizing v with
  | nil => simp
  | cons e es ih =>
    rw [List.foldl_cons, ih, getMap_mergeVolumesStep]
    simp only [List.mem_cons, exists_eq_or_imp]
    by_cases hT : truncateMinute e.1 = T
    · simp only [hT, if_true, true_and, mem_keys_Add]
      tauto
    · simp only [hT, if_false, false_and, false_or]

theorem mem_keys_getMap_foldl_merge (vs : List Volumes) (v : Volumes) (T : Int) (d : String) :
    d ∈ keys (getMap (vs.foldl (fun v v2 => v2.foldl mergeVolumesStep v) v) T) ↔
      d ∈ keys (getMap v T) ∨ ∃ v2 ∈ vs, ∃ e ∈ v2, truncateMinute e.1 = T ∧ d ∈ keys e.2 := by
  induction vs generalizing v with
  | nil => simp
  | cons v2 vs ih =>
    rw [List.foldl_cons, ih, mem_keys_getMap_foldl_step]
    simp only [List.mem_cons, exists_eq_or_imp]
    exact or_assoc

theorem mem_keys_getMap_MergeVolumes (vs : List Volumes) (T : Int) (d : String) :
    d ∈ keys (getMap (MergeVolumes vs) T) ↔
      ∃ v ∈ vs, ∃ e ∈ v, truncateMinute e.1 = T ∧ d ∈ keys e.2 := by
  unfold MergeVolumes
  rw [mem_keys_getMap_foldl_merge]
  simp [keys, getMap, lookup]

/-- C1: for every list of well-formed volumes `vs`, every timestamp `T` and denom `d`,
`MergeVolumes(vs...)[T][d]` is the sum, over every input `v` and every key `k` of `v` whose
truncation to the minute is `T`, of `v[k][d]`, taken in `int64` arithmetic (it is the exact
sum whenever that fits into an `int64`), and every key of the result is a whole-minute
timestamp; for `v1` and `v2` of `TestMergeVolumes` the result holds 350 atom and 0 usd at
06:00, 50 atom and 90 usd at 06:01. -/
theorem MergeVolumes_minute_sum :
    (∀ (vs : List Volumes) (T : Int) (d : String), (∀ v ∈ vs, Volumes.WF v) →
      Volumes.amount (MergeVolumes vs) T d = wrapInt64 (mergedMinuteSum vs T d) ∧
      (-9223372036854775808 ≤ mergedMinuteSum vs T d →
        mergedMinuteSum vs T d < 9223372036854775808 →
        Volumes.amount (MergeVolumes vs) T d = mergedMinuteSum vs T d)) ∧
    (∀ (vs : List Volumes), ∀ k ∈ keys (MergeVolumes vs), k % 60 = 0) ∧
    (Volumes.amount (MergeVolumes [testMergeV1, testMergeV2]) 1619762400 "atom" = 350 ∧
      Volumes.amount (MergeVolumes [testMergeV1, testMergeV2]) 1619762400 "usd" = 0 ∧
      Volumes.amount (MergeVolumes [testMergeV1, testMergeV2]) 1619762460 "atom" = 50 ∧
      Volumes.amount (MergeVolumes [testMergeV1, testMergeV2]) 1619762460 "usd" = 90) := by
  refine ⟨?_, ?_, by decide⟩
  · intro vs T d hwf
    have h := MergeVolumes_amount vs T d
    rw [← mergedMinuteSum_eq vs T d hwf] at h
    refine ⟨h, fun h1 h2 => ?_⟩
    rw [h, wrapInt64_of_range _ h1 h2]
  · intro vs k hk
    obtain ⟨v, _, e, _, he⟩ := (mem_keys_MergeVolumes vs k).1 hk
    rw [← he]
    exact truncateMinute_aligned e.1

theorem MergeVolumes_minute_sum_witness :
    (∀ v ∈ [testMergeV1, testMergeV2], Volumes.WF v) ∧
    mergedMinuteSum [testMergeV1, testMergeV2] 1619762400 "atom" = 350 ∧
    Volumes.amount (MergeVolumes [testMergeV1, testMergeV2]) 1619762400 "atom" =
      mergedMinuteSum [testMergeV1, testMergeV2] 1619762400 "atom" := by
  have hwf : ∀ v ∈ [testMergeV1, testMergeV2], Volumes.WF v := by decide
  refine ⟨hwf, by decide, ?_⟩
  exact (MergeVolumes_minute_sum.1 [testMergeV1, testMergeV2] 1619762400 "atom" hwf).2
    (by decide) (by decide)

/-- C2: `MergeVolumes` is independent of the order of its inputs: for every permutation
`vs'` of `vs` the two results have the same buckets, the same denoms in each bucket and
the same amount for every bucket and denom; in particular `MergeVolumes(a, b)` and
`MergeVolumes(b, a)` agree. -/
theorem MergeVolumes_perm (vs vs' : List Volumes) (h : vs.Perm vs') (T : Int) (d : String) :
    (T ∈ keys (MergeVolumes vs) ↔ T ∈ keys (MergeVolumes vs')) ∧
    (d ∈ keys (getMap (MergeVolumes vs) T) ↔ d ∈ keys (getMap (MergeVolumes vs') T)) ∧
    Volumes.amount (MergeVolumes vs) T d = Volumes.amount (MergeVolumes vs') T d := by
  refine ⟨?_, ?_, ?_⟩
  · rw [mem_keys_MergeVolumes, mem_keys_MergeVolumes]
    constructor
    · rintro ⟨v, hv, hr⟩
      exact ⟨v, h.mem_iff.1 hv, hr⟩
    · rintro ⟨v, hv, hr⟩
      exact ⟨v, h.mem_iff.2 hv, hr⟩
  · rw [mem_keys_getMap_MergeVolumes, mem_keys_getMap_MergeVolumes]
    constructor
    · rintro ⟨v, hv, hr⟩
      exact ⟨v, h.mem_iff.1 hv, hr⟩
    · rintro ⟨v, hv, hr⟩
      exact ⟨v, h.mem_iff.2 hv, hr⟩
  · rw [MergeVolumes_amount, MergeVolumes_amount]
    congr 1
    exact (h.map _).sum_eq

theorem MergeVolumes_perm_witness :
    [testMergeV1, testMergeV2].Perm [testMergeV2, testMergeV1] ∧
    Volumes.amount (MergeVolumes [testMergeV1, testMergeV2]) 1619762460 "usd" =
      Volumes.amount (MergeVolumes [testMergeV2, testMergeV1]) 1619762460 "usd" :=
  ⟨List.Perm.swap _ _ _,
    (MergeVolumes_perm [testMergeV1, testMergeV2] [testMergeV2, testMergeV1]
      (List.Perm.swap _ _ _) 1619762460 "usd").2.2⟩

end schema

/-! ## Account action statuses: merging -/

namespace schema

open GoMap

theorem mem_of_lookup_eq_some {K V : Type} [DecidableEq K] (m : List (K × V)) (k : K) (v : V)
    (h : lookup m k = some v) : (k, v) ∈ m := by
  induction m with
  | nil => simp [lookup] at h
  | cons e m ih =>
    obtain ⟨a, b⟩ := e
    by_cases hk : a = k
    · subst hk
      simp only [lookup, if_true, Option.some.injEq] at h
      simp [h]
    · simp only [lookup, hk, if_false] at h
      exact List.mem_cons_of_mem _ (ih h)

theorem mem_store {K V : Type} [DecidableEq K] (m : List (K × V)) (k : K) (v : V) (e : K × V)
    (h : e ∈ store m k v) : e ∈ m ∨ e = (k, v) := by
  induction m with
  | nil =>
    simp only [store, List.mem_singleton] at h
    exact Or.inr h
  | cons x m ih =>
    obtain ⟨a, b⟩ := x
    by_cases hk : a = k
    · subst hk
      simp only [store, if_true, List.mem_cons] at h
      rcases h with h | h
      · exact Or.inr h
      · exact Or.inl (List.mem_cons_of_mem _ h)
    · simp only [store, hk, if_false, List.mem_cons] at h
      rcases h with h | h
      · exact Or.inl (h ▸ List.mem_cons_self _ _)
      · rcases ih h with h' | h'
        · exact Or.inl (List.mem_cons_of_mem _ h')
        · exact Or.inr h'

theorem getMap_WF {K K2 V2 : Type} [DecidableEq K] (m : List (K × List (K2 × V2))) (k : K)
    (h : ∀ e ∈ m, GoMap.WF e.2) : GoMap.WF (getMap m k) := by
  unfold getMap
  cases hl : lookup m k with
  | none => simp [GoMap.WF, keys]
  | some c => exact h _ (mem_of_lookup_eq_some m k c hl)

/-- The by-date map after `IncreaseCount`. -/
theorem byDate_IncreaseCount (s : AccountActionStatus) (p : Nat) (d : String) (a : Int) :
    (s.IncreaseCount p d a).CountByPoolIDByDate =
      store (match lookup s.CountByPoolIDByDate d with
        | some _ => s.CountByPoolIDByDate
        | none => store s.CountByPoolIDByDate d [])
        d (store (getMap s.CountByPoolIDByDate d) p
          (wrapInt64 (getInt (getMap s.CountByPoolIDByDate d) p + a))) := by
  cases hl : lookup s.CountByPoolIDByDate d with
  | none => simp [AccountActionStatus.IncreaseCount, hl, getMap]
  | some c => simp [AccountActionStatus.IncreaseCount, hl, getMap]

theorem getMap_IncreaseCount (s : AccountActionStatus) (p : Nat) (d d' : String) (a : Int) :
    getMap (s.IncreaseCount p d a).CountByPoolIDByDate d' =
      if d = d' then store (getMap s.CountByPoolIDByDate d) p
          (wrapInt64 (getInt (getMap s.CountByPoolIDByDate d) p + a))
      else getMap s.CountByPoolIDByDate d' := by
  rw [byDate_IncreaseCount, getMap_store]
  by_cases h : d = d'
  · simp [h]
  · simp only [h, if_false]
    cases hl : lookup s.CountByPoolIDByDate d with
    | none => simp only; rw [getMap_store]; simp [h]
    | some c => rfl

theorem cell_IncreaseCount (s : AccountActionStatus) (p p' : Nat) (d d' : String) (a : Int) :
    (s.IncreaseCount p d a).cell d' p' =
      if d = d' ∧ p = p' then wrapInt64 (s.cell d' p' + a) else s.cell d' p' := by
  unfold AccountActionStatus.cell
  rw [getMap_IncreaseCount]
  by_cases h : d = d'
  · subst h
    simp only [if_true, true_and]
    rw [getInt_store]
    by_cases hp : p = p'
    · subst hp; simp
    · simp [hp]
  · simp [h]

theorem IncreaseCount_WF (s : AccountActionStatus) (p : Nat) (d : String) (a : Int)
    (h : AccountActionStatus.WF s) : AccountActionStatus.WF (s.IncreaseCount p d a) := by
  obtain ⟨h1, h2, h3⟩ := h
  refine ⟨?_, ?_, ?_⟩
  · cases hl : lookup s.CountByPoolIDByDate d <;>
      simp only [AccountActionStatus.IncreaseCount, hl] <;> exact WF_store _ _ _ h1
  · rw [byDate_IncreaseCount]
    apply WF_store
    cases hl : lookup s.CountByPoolIDByDate d with
    | none => exact WF_store _ _ _ h2
    | some c => exact h2
  · rw [byDate_IncreaseCount]
    intro e he
    rcases mem_store _ _ _ _ he with he' | he'
    · cases hl : lookup s.CountByPoolIDByDate d with
      | none =>
        rw [hl] at he'
        rcases mem_store _ _ _ _ he' with h' | h'
        · exact h3 e h'
        · rw [h']; simp [GoMap.WF, keys]
      | some c =>
        rw [hl] at he'
        exact h3 e he'
    · rw [he']
      exact WF_store _ _ _ (getMap_WF _ _ h3)

theorem foldl_IncreaseCount_WF (c : CountByPoolID) (date : String) (s : AccountActionStatus)
    (h : AccountActionStatus.WF s) :
    AccountActionStatus.WF (c.foldl (fun s e2 => s.IncreaseCount e2.1 date e2.2) s) := by
  induction c generalizing s with
  | nil => simpa using h
  | cons e c ih => exact ih _ (IncreaseCount_WF s e.1 date e.2 h)

theorem IncreaseCount_inRange (s : AccountActionStatus) (p : Nat) (d : String) (a : Int)
    (h : AccountActionStatus.InRange s) : AccountActionStatus.InRange (s.IncreaseCount p d a) := by
  intro d' p'
  rw [cell_IncreaseCount]
  by_cases hc : d = d' ∧ p = p'
  · simp only [hc, and_self, if_true]
    exact wrapInt64_idem _
  · simp only [hc, if_false]
    exact h d' p'

theorem foldl_IncreaseCount_inRange (c : CountByPoolID) (date : String)
    (s : AccountActionStatus) (h : AccountActionStatus.InRange s) :
    AccountActionStatus.InRange (c.foldl (fun s e2 => s.IncreaseCount e2.1 date e2.2) s) := by
  induction c generalizing s with
  | nil => simpa using h
  | cons e c ih => exact ih _ (IncreaseCount_inRange s e.1 date e.2 h)

theorem foldl_IncreaseCount_cell (c : CountByPoolID) (date : String) (s : AccountActionStatus)
    (h : AccountActionStatus.InRange s) (d : String) (p : Nat) :
    (c.foldl (fun s e2 => s.IncreaseCount e2.1 date e2.2) s).cell d p =
      wrapInt64 (s.cell d p + if date = d then GoMap.entrySum c p else 0) := by
  induction c generalizing s with
  | nil =>
    simp only [List.foldl_nil, GoMap.entrySum, List.map_nil, List.sum_nil, ite_self, add_zero]
    exact (h d p).symm
  | cons e c ih =>
    rw [List.foldl_cons, ih _ (IncreaseCount_inRange s e.1 date e.2 h), cell_IncreaseCount]
    simp only [GoMap.entrySum, List.map_cons, List.sum_cons]
    by_cases hd : date = d
    · by_cases hp : e.1 = p
      · simp only [hd, hp, and_self, if_true]
        rw [wrapInt64_add_left]
        congr 1
        ring
      · simp only [hd, hp, and_false, if_false, if_true]
        congr 1
        ring
    · simp only [hd, false_and, if_false]

/-- The loops of `MergeAccountActionStatuses` over one input status. -/
theorem foldl_dates_WF (es : List (String × CountByPoolID)) (s : AccountActionStatus)
    (h : AccountActionStatus.WF s) :
    AccountActionStatus.WF (es.foldl (fun s e =>
      e.2.foldl (fun s e2 => s.IncreaseCount e2.1 e.1 e2.2) s) s) := by
  induction es generalizing s with
  | nil => simpa using h
  | cons e es ih => exact ih _ (foldl_IncreaseCount_WF e.2 e.1 s h)

theorem foldl_dates_inRange (es : List (String × CountByPoolID)) (s : AccountActionStatus)
    (h : AccountActionStatus.InRange s) :
    AccountActionStatus.InRange (es.foldl (fun s e =>
      e.2.foldl (fun s e2 => s.IncreaseCount e2.1 e.1 e2.2) s) s) := by
  induction es generalizing s with
  | nil => simpa using h
  | cons e es ih => exact ih _ (foldl_IncreaseCount_inRange e.2 e.1 s h)

theorem foldl_dates_cell (es : List (String × CountByPoolID)) (s : AccountActionStatus)
    (h : AccountActionStatus.InRange s) (d : String) (p : Nat) :
    (es.foldl (fun s e => e.2.foldl (fun s e2 => s.IncreaseCount e2.1 e.1 e2.2) s) s).cell d p =
      wrapInt64 (s.cell d p +
        (es.map (fun e => if e.1 = d then GoMap.entrySum e.2 p else 0)).sum) := by
  induction es generalizing s with
  | nil =>
    simp only [List.foldl_nil, List.map_nil, List.sum_nil, add_zero]
    exact (h d p).symm
  | cons e es ih =>
    rw [List.foldl_cons, ih _ (foldl_IncreaseCount_inRange e.2 e.1 s h),
      foldl_IncreaseCount_cell e.2 e.1 s h, wrapInt64_add_left]
    simp only [List.map_cons, List.sum_cons]
    congr 1
    ring

theorem foldl_statuses_WF (ss : List AccountActionStatus) (s : AccountActionStatus)
    (h : AccountActionStatus.WF s) :
    AccountActionStatus.WF (ss.foldl (fun s s2 =>
      s2.CountByPoolIDByDate.foldl (fun s e =>
        e.2.foldl (fun s e2 => s.IncreaseCount e2.1 e.1 e2.2) s) s) s) := by
  induction ss generalizing s with
  | nil => simpa using h
  | cons s2 ss ih => exact ih _ (foldl_dates_WF s2.CountByPoolIDByDate s h)

theorem foldl_statuses_inRange (ss : List AccountActionStatus) (s : AccountActionStatus)
    (h : AccountActionStatus.InRange s) :
    AccountActionStatus.InRange (ss.foldl (fun s s2 =>
      s2.CountByPoolIDByDate.foldl (fun s e =>
        e.2.foldl (fun s e2 => s.IncreaseCount e2.1 e.1 e2.2) s) s) s) := by
  induction ss generalizing s with
  | nil => simpa using h
  | cons s2 ss ih => exact ih _ (foldl_dates_inRange s2.CountByPoolIDByDate s h)

theorem foldl_statuses_cell (ss : List AccountActionStatus) (s : AccountActionStatus)
    (h : AccountActionStatus.InRange s) (d : String) (p : Nat) :
    (ss.foldl (fun s s2 =>
      s2.CountByPoolIDByDate.foldl (fun s e =>
        e.2.foldl (fun s e2 => s.IncreaseCount e2.1 e.1 e2.2) s) s) s).cell d p =
      wrapInt64 (s.cell d p + (ss.map (fun s2 => s2.entrySum d p)).sum) := by
  induction ss generalizing s with
  | nil =>
    simp only [List.foldl_nil, List.map_nil, List.sum_nil, add_zero]
    exact (h d p).symm
  | cons s2 ss ih =>
    rw [List.foldl_cons, ih _ (foldl_dates_inRange s2.CountByPoolIDByDate s h),
      foldl_dates_cell s2.CountByPoolIDByDate s h, wrapInt64_add_left]
    simp only [List.map_cons, List.sum_cons, AccountActionStatus.entrySum]
    congr 1
    ring

theorem NewAccountActionStatus_cell (d : String) (p : Nat) :
    NewAccountActionStatus.cell d p = 0 := by
  simp [NewAccountActionStatus, AccountActionStatus.cell, getMap, getInt, lookup]

theorem MergeAccountActionStatuses_WF (ss : List AccountActionStatus) :
    AccountActionStatus.WF (MergeAccountActionStatuses ss) := by
  unfold MergeAccountActionStatuses
  apply foldl_statuses_WF
  simp [AccountActionStatus.WF, NewAccountActionStatus, GoMap.WF, keys]

theorem MergeAccountActionStatuses_entrySum (ss : List AccountActionStatus) (d : String)
    (p : Nat) :
    (MergeAccountActionStatuses ss).cell d p =
      wrapInt64 ((ss.map (fun s2 => s2.entrySum d p)).sum) := by
  unfold MergeAccountActionStatuses
  rw [foldl_statuses_cell, NewAccountActionStatus_cell, zero_add]
  intro d' p'
  rw [NewAccountActionStatus_cell]
  exact wrapInt64_zero

theorem status_entrySum_eq_cell (s : AccountActionStatus) (h : AccountActionStatus.WF s)
    (d : String) (p : Nat) : s.entrySum d p = s.cell d p := by
  obtain ⟨_, h2, h3⟩ := h
  unfold AccountActionStatus.entrySum AccountActionStatus.cell
  generalize s.CountByPoolIDByDate = m at h2 h3
  induction m with
  | nil => simp [getMap, getInt, lookup]
  | cons e m ih =>
    obtain ⟨a, c⟩ := e
    simp only [GoMap.WF, keys, List.map_cons, List.nodup_cons] at h2
    have h3' : ∀ e ∈ m, GoMap.WF e.2 := fun e he => h3 e (List.mem_cons_of_mem _ he)
    have ih' := ih h2.2 h3'
    by_cases had : a = d
    · subst had
      have hz : (m.map (fun e => if e.1 = a then GoMap.entrySum e.2 p else 0)).sum = 0 := by
        apply List.sum_eq_zero
        intro x hx
        obtain ⟨e, he, rfl⟩ := List.mem_map.1 hx
        have hne : ¬ e.1 = a := fun hea => h2.1 (hea ▸ List.mem_map_of_mem Prod.fst he)
        simp [hne]
      simp only [List.map_cons, List.sum_cons, if_true, hz, add_zero]
      rw [entrySum_eq_getInt c p (h3 (a, c) (List.mem_cons_self _ _))]
      simp [getMap, lookup]
    · simp only [List.map_cons, List.sum_cons, had, if_false, zero_add, ih']
      simp [getMap, lookup, had]

theorem MergeAccountActionStatuses_cell (ss : List AccountActionStatus)
    (h : ∀ s ∈ ss, AccountActionStatus.WF s) (d : String) (p : Nat) :
    (MergeAccountActionStatuses ss).cell d p = wrapInt64 (cellSum ss d p) := by
  rw [MergeAccountActionStatuses_entrySum, cellSum]
  congr 2
  apply List.map_congr_left
  intro s hs
  exact status_entrySum_eq_cell s (h s hs) d p

/-- C4: `MergeAccountActionStatuses` is additive, commutative and associative per
`(poolID, date)` cell: for well-formed statuses `a`, `b`, `c` the cell `(d, p)` of
`Merge(a, b)` is `a`'s cell plus `b`'s cell in `int` arithmetic (an absent cell counting
as 0; the exact sum whenever it fits), `Merge(a, b)` and `Merge(b, a)` agree on every
cell, and so do `Merge(Merge(a, b), c)` and `Merge(a, Merge(b, c))`. -/
theorem MergeAccountActionStatuses_cellwise (a b c : AccountActionStatus)
    (ha : AccountActionStatus.WF a) (hb : AccountActionStatus.WF b)
    (hc : AccountActionStatus.WF c) (d : String) (p : Nat) :
    (MergeAccountActionStatuses [a, b]).cell d p = wrapInt64 (a.cell d p + b.cell d p) ∧
    (-9223372036854775808 ≤ a.cell d p + b.cell d p →
      a.cell d p + b.cell d p < 9223372036854775808 →
      (MergeAccountActionStatuses [a, b]).cell d p = a.cell d p + b.cell d p) ∧
    (MergeAccountActionStatuses [a, b]).cell d p = (MergeAccountActionStatuses [b, a]).cell d p ∧
    (MergeAccountActionStatuses [MergeAccountActionStatuses [a, b], c]).cell d p =
      (MergeAccountActionStatuses [a, MergeAccountActionStatuses [b, c]]).cell d p := by
  have two : ∀ x y : AccountActionStatus, AccountActionStatus.WF x → AccountActionStatus.WF y →
      (MergeAccountActionStatuses [x, y]).cell d p = wrapInt64 (x.cell d p + y.cell d p) := by
    intro x y hx hy
    rw [MergeAccountActionStatuses_cell [x, y] (by
      intro s hs
      simp only [List.mem_cons, List.mem_singleton, List.not_mem_nil, or_false] at hs
      rcases hs with rfl | rfl
      · exact hx
      · exact hy)]
    simp [cellSum]
  refine ⟨two a b ha hb, ?_, ?_, ?_⟩
  · intro h1 h2
    rw [two a b ha hb, wrapInt64_of_range _ h1 h2]
  · rw [two a b ha hb, two b a hb ha, add_comm]
  · rw [two _ c (MergeAccountActionStatuses_WF _) hc, two a _ ha (MergeAccountActionStatuses_WF _),
      two a b ha hb, two b c hb hc, wrapInt64_add_left, wrapInt64_add_right, add_assoc]

theorem MergeAccountActionStatuses_cellwise_witness :
    AccountActionStatus.WF exampleStatusA ∧ AccountActionStatus.WF exampleStatusB ∧
    AccountActionStatus.WF exampleStatusC ∧
    exampleStatusA.cell "2021-05-05" 2 + exampleStatusB.cell "2021-05-05" 2 = 7 ∧
    (MergeAccountActionStatuses [exampleStatusA, exampleStatusB]).cell "2021-05-05" 2 =
      exampleStatusA.cell "2021-05-05" 2 + exampleStatusB.cell "2021-05-05" 2 ∧
    (MergeAccountActionStatuses
        [MergeAccountActionStatuses [exampleStatusA, exampleStatusB], exampleStatusC]).cell
        "2021-05-05" 2 =
      (MergeAccountActionStatuses
        [exampleStatusA, MergeAccountActionStatuses [exampleStatusB, exampleStatusC]]).cell
        "2021-05-05" 2 :=
  ⟨by decide, by decide, by decide, by decide,
    (MergeAccountActionStatuses_cellwise exampleStatusA exampleStatusB exampleStatusC
      (by decide) (by decide) (by decide) "2021-05-05" 2).2.1 (by decide) (by decide),
    (MergeAccountActionStatuses_cellwise exampleStatusA exampleStatusB exampleStatusC
      (by decide) (by decide) (by decide) "2021-05-05" 2).2.2.2⟩

end schema

/-! ## Price resolution -/

namespace pricetable

open GoMap

variable {F : Type}

theorem Extends_refl (c : Context F) : Context.Extends c c :=
  ⟨rfl, rfl, rfl, rfl, fun _ _ h => h⟩

theorem Extends_trans {c1 c2 c3 : Context F} (h12 : Context.Extends c1 c2)
    (h23 : Context.Extends c2 c3) : Context.Extends c1 c3 :=
  ⟨h23.1.trans h12.1, h23.2.1.trans h12.2.1, h23.2.2.1.trans h12.2.2.1,
    h23.2.2.2.1.trans h12.2.2.2.1, fun d x h => h23.2.2.2.2 d x (h12.2.2.2.2 d x h)⟩

theorem Extends_setPrice (c : Context F) (denom : String) (p : F)
    (h : lookup c.priceTable denom = none) : Context.Extends c (c.setPrice denom p) := by
  refine ⟨rfl, rfl, rfl, rfl, ?_⟩
  intro d x hd
  simp only [Context.setPrice, lookup_store]
  by_cases hk : denom = d
  · subst hk
    rw [h] at hd
    cases hd
  · simpa [hk] using hd

theorem lookup_setPrice_self (c : Context F) (denom : String) (p : F) :
    lookup (c.setPrice denom p).priceTable denom = some p := by
  simp [Context.setPrice, lookup_store]

theorem sumReserveCoins_extends (ops : FloatOps F)
    (price : Context F → Nat → String → Option (PriceResult F)) (hp : Memoizes price)
    (rcs : List schema.Coin) (sum : F) (c : Context F) (g : Nat) (r : Except PriceError F)
    (c' : Context F) (g' : Nat)
    (h : sumReserveCoins ops price rcs sum c g = some (r, c', g')) : Context.Extends c c' := by
  induction rcs generalizing sum c g with
  | nil =>
    simp only [sumReserveCoins, Option.some.injEq, Prod.mk.injEq] at h
    rw [← h.2.1]
    exact Extends_refl c
  | cons rc rcs ih =>
    simp only [sumReserveCoins] at h
    cases hc : price c g rc.Denom with
    | none => simp [hc] at h
    | some res =>
      obtain ⟨r1, c1, g1⟩ := res
      have h1 := (hp c g rc.Denom r1 c1 g1 hc).1
      cases r1 with
      | error e =>
        simp only [hc, Option.some.injEq, Prod.mk.injEq] at h
        rw [← h.2.1]
        exact h1
      | ok tp =>
        simp only [hc] at h
        exact Extends_trans h1 (ih _ _ _ h)

/-! Unfolding `Price` along the branches of the source. -/

theorem Price_hit (ops : FloatOps F) (rand : Nat → F) (n : Nat) (c : Context F) (g : Nat)
    (denom : String) (p : F) (hl : lookup c.priceTable denom = some p) :
    Price ops rand (n + 1) c g denom = some (.ok p, c, g) := by
  rw [Price]
  simp only [hl]

theorem Price_normal (ops : FloatOps F) (rand : Nat → F) (n : Nat) (c : Context F) (g : Nat)
    (denom : String) (hl : lookup c.priceTable denom = none)
    (hn : c.IsNormalCoinDenom denom = true) :
    Price ops rand (n + 1) c g denom =
      match lookup c.manualPrices denom with
      | none => some (.error (.normalCoinNotInTable denom), c, g)
      | some mp =>
        some (.ok (ops.add mp.MinPrice (ops.mul (rand g) (ops.sub mp.MaxPrice mp.MinPrice))),
          c.setPrice denom
            (ops.add mp.MinPrice (ops.mul (rand g) (ops.sub mp.MaxPrice mp.MinPrice))), g + 1) := by
  rw [Price]
  simp only [hl, hn, if_true]

theorem Price_pool_zero (ops : FloatOps F) (rand : Nat → F) (n : Nat) (c : Context F) (g : Nat)
    (denom : String) (pool : schema.Pool) (hl : lookup c.priceTable denom = none)
    (hn : c.IsNormalCoinDenom denom = false) (hp : c.IsPoolCoinDenom denom = true)
    (hq : lookup c.pools denom = some pool) (hz : pool.PoolCoinAmount = 0) :
    Price ops rand (n + 1) c g denom = some (.ok ops.zero, c.setPrice denom ops.zero, g) := by
  rw [Price]
  simp only [hl, hn, hp, hq, hz, if_true, Bool.false_eq_true, if_false]

theorem Price_pool (ops : FloatOps F) (rand : Nat → F) (n : Nat) (c : Context F) (g : Nat)
    (denom : String) (pool : schema.Pool) (hl : lookup c.priceTable denom = none)
    (hn : c.IsNormalCoinDenom denom = false) (hp : c.IsPoolCoinDenom denom = true)
    (hq : lookup c.pools denom = some pool) (hz : pool.PoolCoinAmount ≠ 0) :
    Price ops rand (n + 1) c g denom =
      match sumReserveCoins ops (Price ops rand n) pool.ReserveCoins ops.zero c g with
      | none => none
      | some (.error e, c', g') => some (.error e, c', g')
      | some (.ok sum, c', g') =>
        some (.ok (ops.mul (ops.div ops.one (ops.ofInt pool.PoolCoinAmount)) sum),
          c'.setPrice denom (ops.mul (ops.div ops.one (ops.ofInt pool.PoolCoinAmount)) sum), g') := by
  rw [Price]
  simp only [hl, hn, hp, hq, hz, if_true, Bool.false_eq_true, if_false]

theorem Price_metadata (ops : FloatOps F) (rand : Nat → F) (n : Nat) (c : Context F) (g : Nat)
    (denom : String) (hl : lookup c.priceTable denom = none)
    (hn : c.IsNormalCoinDenom denom = false) (hp : c.IsPoolCoinDenom denom = false) :
    Price ops rand (n + 1) c g denom =
      match lookup c.denomMetadata denom with
      | none => some (.error (.unknownDenom denom), c, g)
      | some md =>
        match Price ops rand n c g md.Display with
        | none => none
        | some (.error e, c', g') => some (.error e, c', g')
        | some (.ok tp, c', g') =>
          some (.ok (ops.div tp (ops.pow10 md.Exponent)),
            c'.setPrice denom (ops.div tp (ops.pow10 md.Exponent)), g') := by
  rw [Price]
  simp only [hl, hn, hp, Bool.false_eq_true, if_false]

theorem Extends_setPrice_of (c c1 : Context F) (denom : String) (p : F)
    (hl : lookup c.priceTable denom = none) (hext : Context.Extends c c1) :
    Context.Extends c (c1.setPrice denom p) := by
  refine ⟨hext.1, hext.2.1, hext.2.2.1, hext.2.2.2.1, ?_⟩
  intro d x hd
  simp only [Context.setPrice, lookup_store]
  by_cases hk : denom = d
  · subst hk
    rw [hl] at hd
    cases hd
  · simpa [hk] using hext.2.2.2.2 d x hd

theorem Price_memoizes (ops : FloatOps F) (rand : Nat → F) (fuel : Nat) :
    Memoizes (Price ops rand fuel) := by
  induction fuel with
  | zero =>
    intro c g denom r c' g' h
    simp [Price] at h
  | succ n ih =>
    intro c g denom r c' g' h
    cases hl : lookup c.priceTable denom with
    | some p =>
      rw [Price_hit ops rand n c g denom p hl] at h
      simp only [Option.some.injEq, Prod.mk.injEq] at h
      obtain ⟨hr, hc, _⟩ := h
      subst hc hr
      refine ⟨Extends_refl c, ?_⟩
      intro p' hp'
      cases hp'
      exact hl
    | none =>
      cases hn : c.IsNormalCoinDenom denom with
      | true =>
        rw [Price_normal ops rand n c g denom hl hn] at h
        cases hm : lookup c.manualPrices denom with
        | none =>
          simp only [hm, Option.some.injEq, Prod.mk.injEq] at h
          obtain ⟨hr, hc, _⟩ := h
          subst hc hr
          exact ⟨Extends_refl c, fun p' hp' => by cases hp'⟩
        | some mp =>
          simp only [hm, Option.some.injEq, Prod.mk.injEq] at h
          obtain ⟨hr, hc, _⟩ := h
          subst hc hr
          refine ⟨Extends_setPrice c denom _ hl, ?_⟩
          intro p' hp'
          cases hp'
          exact lookup_setPrice_self _ _ _
      | false =>
        cases hpool : c.IsPoolCoinDenom denom with
        | true =>
          cases hq : lookup c.pools denom with
          | none =>
            rw [Price] at h
            simp [hl, hn, hpool, hq] at h
          | some pool =>
            by_cases hz : pool.PoolCoinAmount = 0
            · rw [Price_pool_zero ops rand n c g denom pool hl hn hpool hq hz] at h
              simp only [Option.some.injEq, Prod.mk.injEq] at h
              obtain ⟨hr, hc, _⟩ := h
              subst hc hr
              refine ⟨Extends_setPrice c denom _ hl, ?_⟩
              intro p' hp'
              cases hp'
              exact lookup_setPrice_self _ _ _
            · rw [Price_pool ops rand n c g denom pool hl hn hpool hq hz] at h
              cases hs : sumReserveCoins ops (Price ops rand n) pool.ReserveCoins ops.zero c g with
              | none => simp [hs] at h
              | some res =>
                obtain ⟨r1, c1, g1⟩ := res
                have hext := sumReserveCoins_extends ops _ ih _ _ _ _ _ _ _ hs
                cases r1 with
                | error e =>
                  simp only [hs, Option.some.injEq, Prod.mk.injEq] at h
                  obtain ⟨hr, hc, _⟩ := h
                  subst hc hr
                  exact ⟨hext, fun p' hp' => by cases hp'⟩
                | ok sum =>
                  simp only [hs, Option.some.injEq, Prod.mk.injEq] at h
                  obtain ⟨hr, hc, _⟩ := h
                  subst hc hr
                  refine ⟨Extends_setPrice_of c c1 denom _ hl hext, ?_⟩
                  intro p' hp'
                  cases hp'
                  exact lookup_setPrice_self _ _ _
        | false =>
          rw [Price_metadata ops rand n c g denom hl hn hpool] at h
          cases hm : lookup c.denomMetadata denom with
          | none =>
            simp only [hm, Option.some.injEq, Prod.mk.injEq] at h
            obtain ⟨hr, hc, _⟩ := h
            subst hc hr
            exact ⟨Extends_refl c, fun p' hp' => by cases hp'⟩
          | some md =>
            simp only [hm] at h
            cases hs : Price ops rand n c g md.Display with
            | none => simp [hs] at h
            | some res =>
              obtain ⟨r1, c1, g1⟩ := res
              have hext := (ih _ _ _ _ _ _ hs).1
              cases r1 with
              | error e =>
                simp only [hs, Option.some.injEq, Prod.mk.injEq] at h
                obtain ⟨hr, hc, _⟩ := h
                subst hc hr
                exact ⟨hext, fun p' hp' => by cases hp'⟩
              | ok tp =>
                simp only [hs, Option.some.injEq, Prod.mk.injEq] at h
                obtain ⟨hr, hc, _⟩ := h
                subst hc hr
                refine ⟨Extends_setPrice_of c c1 denom _ hl hext, ?_⟩
                intro p' hp'
                cases hp'
                exact lookup_setPrice_self _ _ _



/-- C8: a call `Context.Price(denom)` that returns leaves the price of every denom that was
in the price table unchanged, and after a successful call a second `Context.Price(denom)`
returns the same price and leaves the context, its whole price table included,
unchanged. -/
theorem Price_keeps_written (ops : FloatOps F) (rand : Nat → F) (fuel : Nat) (c : Context F)
    (g : Nat) (denom : String) (r : Except PriceError F) (c' : Context F) (g' : Nat)
    (h : Price ops rand fuel c g denom = some (r, c', g')) :
    (∀ d x, lookup c.priceTable d = some x → lookup c'.priceTable d = some x) ∧
    (∀ p, r = .ok p → ∀ fuel', Price ops rand (fuel' + 1) c' g' denom = some (.ok p, c', g')) := by
  have hm := Price_memoizes ops rand fuel c g denom r c' g' h
  refine ⟨hm.1.2.2.2.2, ?_⟩
  intro p hp fuel'
  exact Price_hit ops rand fuel' c' g' denom p (hm.2 p hp)

theorem sumReserveCoins_prefix_none (ops : FloatOps F) (rand : Nat → F) (n : Nat)
    (c : Context F) (g : Nat) (pre : List schema.Coin) (rc : schema.Coin)
    (post : List schema.Coin) (sum : F)
    (hpre : ∀ x ∈ pre, (lookup c.priceTable x.Denom).isSome = true)
    (hrc : Price ops rand n c g rc.Denom = none) :
    sumReserveCoins ops (Price ops rand n) (pre ++ rc :: post) sum c g = none := by
  induction pre generalizing sum with
  | nil => simp [sumReserveCoins, hrc]
  | cons x pre ih =>
    cases n with
    | zero => simp [sumReserveCoins, Price]
    | succ m =>
      have hx := hpre x (List.mem_cons_self _ _)
      obtain ⟨p, hp⟩ := Option.isSome_iff_exists.1 hx
      simp only [List.cons_append, sumReserveCoins, Price_hit ops rand m c g x.Denom p hp]
      exact ih _ (fun y hy => hpre y (List.mem_cons_of_mem _ hy))

/-- Along a set of pool coins that wait on each other the recursion never returns. -/
theorem Price_none_of_waitsOn (ops : FloatOps F) (rand : Nat → F) (c : Context F)
    (S : String → Prop) (hS : ∀ d, S d → ∃ d', S d' ∧ c.WaitsOn d d') (fuel : Nat) :
    ∀ g d, S d → Price ops rand fuel c g d = none := by
  induction fuel with
  | zero =>
    intro g d _
    simp [Price]
  | succ n ih =>
    intro g d hd
    obtain ⟨d', hd', hl, hn, hp, pool, hq, hz, pre, rc, post, hrc, hnext, _, hpre⟩ := hS d hd
    rw [Price_pool ops rand n c g d pool hl hn hp hq hz, hrc,
      sumReserveCoins_prefix_none ops rand n c g pre rc post ops.zero hpre
        (by rw [hnext]; exact ih g d' hd')]

theorem selfCycle_waitsOn : selfCycleContext.WaitsOn "poolP" "poolP" := by
  refine ⟨by decide, by decide, by decide, (testPool "poolP" "atom" "poolP" 1000000 50000 1000000).2,
    by decide, by decide, [⟨"atom", 1000000⟩], ⟨"poolP", 50000⟩, [], by decide, rfl, by decide, ?_⟩
  intro x hx
  simp only [List.mem_singleton] at hx
  subst hx
  decide

theorem mutualCycle_waitsOn_P : mutualCycleContext.WaitsOn "poolP" "poolQ" := by
  refine ⟨by decide, by decide, by decide, (testPool "poolP" "atom" "poolQ" 1000000 50000 1000000).2,
    by decide, by decide, [⟨"atom", 1000000⟩], ⟨"poolQ", 50000⟩, [], by decide, rfl, by decide, ?_⟩
  intro x hx
  simp only [List.mem_singleton] at hx
  subst hx
  decide

theorem mutualCycle_waitsOn_Q : mutualCycleContext.WaitsOn "poolQ" "poolP" := by
  refine ⟨by decide, by decide, by decide, (testPool "poolQ" "poolP" "luna" 50000 1000000 1000000).2,
    by decide, by decide, [], ⟨"poolP", 50000⟩, [⟨"luna", 1000000⟩], by decide, rfl, by decide, ?_⟩
  intro x hx
  simp at hx


theorem sumReserveCoins_of_resolveAll (ops : FloatOps F)
    (price : Context F → Nat → String → Option (PriceResult F)) (rcs : List schema.Coin)
    (sum : F) (c : Context F) (g : Nat) (tps : List F) (c' : Context F) (g' : Nat)
    (h : resolveAll price rcs c g = some (.ok tps, c', g')) :
    sumReserveCoins ops price rcs sum c g = some (.ok (weightedSum ops tps rcs sum), c', g') := by
  induction rcs generalizing sum c g tps with
  | nil =>
    simp only [resolveAll, Option.some.injEq, Prod.mk.injEq, Except.ok.injEq] at h
    obtain ⟨ht, hc, hg⟩ := h
    subst ht hc hg
    simp [sumReserveCoins, weightedSum]
  | cons rc rcs ih =>
    simp only [resolveAll] at h
    cases hp : price c g rc.Denom with
    | none => simp [hp] at h
    | some res =>
      obtain ⟨r1, c1, g1⟩ := res
      cases r1 with
      | error e => simp [hp] at h
      | ok tp =>
        simp only [hp] at h
        cases hr : resolveAll price rcs c1 g1 with
        | none => simp [hr] at h
        | some res2 =>
          obtain ⟨r2, c2, g2⟩ := res2
          cases r2 with
          | error e => simp [hr] at h
          | ok tps2 =>
            simp only [hr, Option.some.injEq, Prod.mk.injEq, Except.ok.injEq] at h
            obtain ⟨ht, hc, hg⟩ := h
            subst ht hc hg
            simp only [sumReserveCoins, hp, weightedSum]
            exact ih _ _ _ _ hr

theorem resolveAll_extends (price : Context F → Nat → String → Option (PriceResult F))
    (hm : Memoizes price) (rcs : List schema.Coin) (c : Context F) (g : Nat)
    (r : Except PriceError (List F)) (c' : Context F) (g' : Nat)
    (h : resolveAll price rcs c g = some (r, c', g')) : Context.Extends c c' := by
  induction rcs generalizing c g r c' g' with
  | nil =>
    simp only [resolveAll, Option.some.injEq, Prod.mk.injEq] at h
    rw [← h.2.1]
    exact Extends_refl c
  | cons rc rcs ih =>
    simp only [resolveAll] at h
    cases hp : price c g rc.Denom with
    | none => simp [hp] at h
    | some res =>
      obtain ⟨r1, c1, g1⟩ := res
      have h1 := (hm c g rc.Denom r1 c1 g1 hp).1
      cases r1 with
      | error e =>
        simp only [hp, Option.some.injEq, Prod.mk.injEq] at h
        rw [← h.2.1]
        exact h1
      | ok tp =>
        simp only [hp] at h
        cases hr : resolveAll price rcs c1 g1 with
        | none => simp [hr] at h
        | some res2 =>
          obtain ⟨r2, c2, g2⟩ := res2
          have h2 := ih _ _ _ _ _ hr
          cases r2 with
          | error e =>
            simp only [hr, Option.some.injEq, Prod.mk.injEq] at h
            rw [← h.2.1]
            exact Extends_trans h1 h2
          | ok tps2 =>
            simp only [hr, Option.some.injEq, Prod.mk.injEq] at h
            rw [← h.2.1]
            exact Extends_trans h1 h2

/-- The prices the calls returned are the prices the table holds when the loop is over. -/
theorem resolveAll_prices (price : Context F → Nat → String → Option (PriceResult F))
    (hm : Memoizes price) (rcs : List schema.Coin) (c : Context F) (g : Nat)
    (tps : List F) (c' : Context F) (g' : Nat)
    (h : resolveAll price rcs c g = some (.ok tps, c', g')) :
    List.Forall₂ (fun tp rc => lookup c'.priceTable rc.Denom = some tp) tps rcs := by
  induction rcs generalizing c g tps with
  | nil =>
    simp only [resolveAll, Option.some.injEq, Prod.mk.injEq, Except.ok.injEq] at h
    rw [← h.1]
    exact List.Forall₂.nil
  | cons rc rcs ih =>
    simp only [resolveAll] at h
    cases hp : price c g rc.Denom with
    | none => simp [hp] at h
    | some res =>
      obtain ⟨r1, c1, g1⟩ := res
      cases r1 with
      | error e => simp [hp] at h
      | ok tp =>
        simp only [hp] at h
        cases hr : resolveAll price rcs c1 g1 with
        | none => simp [hr] at h
        | some res2 =>
          obtain ⟨r2, c2, g2⟩ := res2
          cases r2 with
          | error e => simp [hr] at h
          | ok tps2 =>
            simp only [hr, Option.some.injEq, Prod.mk.injEq, Except.ok.injEq] at h
            obtain ⟨ht, hc, hg⟩ := h
            subst ht hc hg
            refine List.Forall₂.cons ?_ (ih _ _ _ hr)
            have h1 := (hm c g rc.Denom _ c1 g1 hp).2 tp rfl
            exact (resolveAll_extends price hm rcs c1 g1 _ _ _ hr).2.2.2.2 _ _ h1

/-- C5: for an unresolved pool coin `P` (denom prefixed "pool", present in the pool map,
not a normal coin denom) with pool-coin supply `S` and reserve coins `C_i` of amount `A_i`,
in exact arithmetic: if `S = 0` then `Context.Price(P)` returns 0, and if `S` is not 0 and
every `Price(C_i.denom)` succeeds, returning `tps[i]`, then `Context.Price(P)` returns
`(sum over i of tps[i] * A_i) / S`, where `tps[i]` is also the price the table holds for
`C_i.denom` once the reserve coins are resolved.  In every arithmetic the price returned
is the expression of the code, `1 / S * (sum over i of tps[i] * A_i)`. -/
theorem Price_pool_coin (rand : Nat → ℚ) (fuel : Nat) (c : Context ℚ) (g : Nat) (P : String)
    (pool : schema.Pool)
    (hl : lookup c.priceTable P = none) (hn : c.IsNormalCoinDenom P = false)
    (hp : stringsHasPrefix P "pool" = true) (hq : lookup c.pools P = some pool) :
    (pool.PoolCoinAmount = 0 →
      Price ratOps rand (fuel + 1) c g P = some (.ok 0, c.setPrice P 0, g)) ∧
    (pool.PoolCoinAmount ≠ 0 → ∀ tps c' g',
      resolveAll (Price ratOps rand fuel) pool.ReserveCoins c g = some (.ok tps, c', g') →
      Price ratOps rand (fuel + 1) c g P =
        some (.ok (weightedSum ratOps tps pool.ReserveCoins 0 / (pool.PoolCoinAmount : ℚ)),
          c'.setPrice P
            (weightedSum ratOps tps pool.ReserveCoins 0 / (pool.PoolCoinAmount : ℚ)), g') ∧
      List.Forall₂ (fun tp rc => lookup c'.priceTable rc.Denom = some tp) tps
        pool.ReserveCoins) ∧
    (∀ (G : Type) (ops : FloatOps G) (rnd : Nat → G) (d : Context G) (k : Nat),
      lookup d.priceTable P = none → d.IsNormalCoinDenom P = false →
      lookup d.pools P = some pool →
      (pool.PoolCoinAmount = 0 →
        Price ops rnd (fuel + 1) d k P = some (.ok ops.zero, d.setPrice P ops.zero, k)) ∧
      (pool.PoolCoinAmount ≠ 0 → ∀ tps d' k',
        resolveAll (Price ops rnd fuel) pool.ReserveCoins d k = some (.ok tps, d', k') →
        Price ops rnd (fuel + 1) d k P =
          some (.ok (ops.mul (ops.div ops.one (ops.ofInt pool.PoolCoinAmount))
              (weightedSum ops tps pool.ReserveCoins ops.zero)),
            d'.setPrice P (ops.mul (ops.div ops.one (ops.ofInt pool.PoolCoinAmount))
              (weightedSum ops tps pool.ReserveCoins ops.zero)), k') ∧
        List.Forall₂ (fun tp rc => lookup d'.priceTable rc.Denom = some tp) tps
          pool.ReserveCoins)) := by
  have hgen : ∀ (G : Type) (ops : FloatOps G) (rnd : Nat → G) (d : Context G) (k : Nat),
      lookup d.priceTable P = none → d.IsNormalCoinDenom P = false →
      lookup d.pools P = some pool →
      (pool.PoolCoinAmount = 0 →
        Price ops rnd (fuel + 1) d k P = some (.ok ops.zero, d.setPrice P ops.zero, k)) ∧
      (pool.PoolCoinAmount ≠ 0 → ∀ tps d' k',
        resolveAll (Price ops rnd fuel) pool.ReserveCoins d k = some (.ok tps, d', k') →
        Price ops rnd (fuel + 1) d k P =
          some (.ok (ops.mul (ops.div ops.one (ops.ofInt pool.PoolCoinAmount))
              (weightedSum ops tps pool.ReserveCoins ops.zero)),
            d'.setPrice P (ops.mul (ops.div ops.one (ops.ofInt pool.PoolCoinAmount))
              (weightedSum ops tps pool.ReserveCoins ops.zero)), k') ∧
        List.Forall₂ (fun tp rc => lookup d'.priceTable rc.Denom = some tp) tps
          pool.ReserveCoins) := by
    intro G ops rnd d k hdl hdn hdq
    have hpc : d.IsPoolCoinDenom P = true := by
      simp [Context.IsPoolCoinDenom, hp, hdq]
    refine ⟨fun hz => Price_pool_zero ops rnd fuel d k P pool hdl hdn hpc hdq hz, ?_⟩
    intro hz tps d' k' hr
    refine ⟨?_, resolveAll_prices _ (Price_memoizes ops rnd fuel) _ _ _ _ _ _ hr⟩
    rw [Price_pool ops rnd fuel d k P pool hdl hdn hpc hdq hz,
      sumReserveCoins_of_resolveAll ops _ _ ops.zero d k tps d' k' hr]
  obtain ⟨hzero, hlit⟩ := hgen ℚ ratOps rand c g hl hn hq
  refine ⟨hzero, ?_, hgen⟩
  intro hz tps c' g' hr
  obtain ⟨hprice, htable⟩ := hlit hz tps c' g' hr
  refine ⟨?_, htable⟩
  rw [hprice]
  have hexpr : ratOps.mul (ratOps.div ratOps.one (ratOps.ofInt pool.PoolCoinAmount))
      (weightedSum ratOps tps pool.ReserveCoins ratOps.zero) =
      weightedSum ratOps tps pool.ReserveCoins 0 / (pool.PoolCoinAmount : ℚ) := by
    show (1 / (pool.PoolCoinAmount : ℚ)) * weightedSum ratOps tps pool.ReserveCoins 0 = _
    rw [one_div, mul_comm]
    rfl
  rw [hexpr]

theorem Price_pool_coin_witness :
    Price ratOps (fun _ => 0) 1 emptyPoolContext 0 "pool9" =
      some (.ok 0, emptyPoolContext.setPrice "pool9" 0, 0) ∧
    Price ratOps (fun _ => 0) 3 testContext 0 "pool1" =
      some (.ok (1 / 25000), testContextReserves.setPrice "pool1" (1 / 25000), 1) := by
  have hres : resolveAll (Price ratOps (fun _ => 0) 2)
      (testPool "pool1" "uatom" "uusd" 1000000 20000000 1000000).2.ReserveCoins testContext 0 =
      some (.ok [1 / 50000, 1 / 1000000], testContextReserves, 1) := by
    simp [resolveAll, Price, sumReserveCoins, lookup, store, testContext, testContextWith,
      testPools, testPool, testContextReserves, Context.IsNormalCoinDenom,
      Context.IsPoolCoinDenom, Context.setPrice, util.StringInSlice, stringsHasPrefix,
      schema.Pool.ReserveCoins, schema.Pool.PoolCoinAmount, ratOps]
    norm_num
  have h0 := (Price_pool_coin (fun _ => 0) 0 emptyPoolContext 0 "pool9"
    (testPool "pool9" "uatom" "uusd" 0 0 0).2 (by decide) (by decide) (by decide)
    (by decide)).1 (by decide)
  have h1 := ((Price_pool_coin (fun _ => 0) 2 testContext 0 "pool1"
    (testPool "pool1" "uatom" "uusd" 1000000 20000000 1000000).2 (by decide) (by decide)
    (by decide) (by decide)).2.1 (by decide) _ _ _ hres).1
  refine ⟨h0, ?_⟩
  rw [h1]
  simp [weightedSum, ratOps, testPool, schema.Pool.ReserveCoins, schema.Pool.PoolCoinAmount,
    lookup, store]
  norm_num

theorem Price_keeps_written_witness :
    Price ratOps (fun _ => 0) 2 testContext 0 "uatom" =
      some (.ok (1 / 50000), testContextUatom, 0) ∧
    lookup testContextUatom.priceTable "atom" = some 20 ∧
    Price ratOps (fun _ => 0) 1 testContextUatom 0 "uatom" =
      some (.ok (1 / 50000), testContextUatom, 0) := by
  have h : Price ratOps (fun _ => 0) 2 testContext 0 "uatom" =
      some (.ok (1 / 50000), testContextUatom, 0) := by
    simp [Price, lookup, store, testContext, testContextWith, testPools, testPool,
      testContextUatom, Context.IsNormalCoinDenom, Context.IsPoolCoinDenom, Context.setPrice,
      util.StringInSlice, stringsHasPrefix, ratOps]
    norm_num
  exact ⟨h,
    (Price_keeps_written ratOps (fun _ => 0) 2 testContext 0 "uatom" _ _ _ h).1 "atom" 20
      (by decide),
    (Price_keeps_written ratOps (fun _ => 0) 2 testContext 0 "uatom" _ _ _ h).2 _ rfl 0⟩


/-! ## Price resolution: a deeper recursion bound keeps every result -/

theorem sumReserveCoins_mono (ops : FloatOps F)
    (price price' : Context F → Nat → String → Option (PriceResult F))
    (hle : ∀ c g d r, price c g d = some r → price' c g d = some r)
    (rcs : List schema.Coin) (sum : F) (c : Context F) (g : Nat) (r : PriceResult F)
    (h : sumReserveCoins ops price rcs sum c g = some r) :
    sumReserveCoins ops price' rcs sum c g = some r := by
  induction rcs generalizing sum c g with
  | nil => simpa [sumReserveCoins] using h
  | cons rc rcs ih =>
    simp only [sumReserveCoins] at h ⊢
    cases hp : price c g rc.Denom with
    | none => simp [hp] at h
    | some res =>
      rw [hle c g rc.Denom res hp]
      obtain ⟨r1, c1, g1⟩ := res
      cases r1 with
      | error e => simpa [hp] using h
      | ok tp =>
        simp only [hp] at h
        exact ih _ _ _ h

theorem Price_mono_succ (ops : FloatOps F) (rand : Nat → F) (n : Nat) :
    ∀ c g denom r, Price ops rand n c g denom = some r →
      Price ops rand (n + 1) c g denom = some r := by
  induction n with
  | zero =>
    intro c g denom r h
    simp [Price] at h
  | succ n ih =>
    intro c g denom r h
    cases hl : lookup c.priceTable denom with
    | some p =>
      rw [Price_hit ops rand n c g denom p hl] at h
      rw [Price_hit ops rand (n + 1) c g denom p hl]
      exact h
    | none =>
      cases hnorm : c.IsNormalCoinDenom denom with
      | true =>
        rw [Price_normal ops rand n c g denom hl hnorm] at h
        rw [Price_normal ops rand (n + 1) c g denom hl hnorm]
        exact h
      | false =>
        cases hpool : c.IsPoolCoinDenom denom with
        | true =>
          cases hq : lookup c.pools denom with
          | none =>
            rw [Price] at h
            simp [hl, hnorm, hpool, hq] at h
          | some pool =>
            by_cases hz : pool.PoolCoinAmount = 0
            · rw [Price_pool_zero ops rand n c g denom pool hl hnorm hpool hq hz] at h
              rw [Price_pool_zero ops rand (n + 1) c g denom pool hl hnorm hpool hq hz]
              exact h
            · rw [Price_pool ops rand n c g denom pool hl hnorm hpool hq hz] at h
              rw [Price_pool ops rand (n + 1) c g denom pool hl hnorm hpool hq hz]
              cases hs : sumReserveCoins ops (Price ops rand n) pool.ReserveCoins ops.zero c g with
              | none => simp [hs] at h
              | some res =>
                rw [sumReserveCoins_mono ops _ _ ih _ _ _ _ res hs]
                simpa [hs] using h
        | false =>
          rw [Price_metadata ops rand n c g denom hl hnorm hpool] at h
          rw [Price_metadata ops rand (n + 1) c g denom hl hnorm hpool]
          cases hmd : lookup c.denomMetadata denom with
          | none => simpa [hmd] using h
          | some md =>
            simp only [hmd] at h ⊢
            cases hs : Price ops rand n c g md.Display with
            | none => simp [hs] at h
            | some res =>
              rw [ih c g md.Display res hs]
              simpa [hs] using h

theorem Price_mono (ops : FloatOps F) (rand : Nat → F) (n k : Nat) (c : Context F) (g : Nat)
    (denom : String) (r : PriceResult F) (h : Price ops rand n c g denom = some r) :
    Price ops rand (n + k) c g denom = some r := by
  induction k with
  | zero => exact h
  | succ k ih => exact Price_mono_succ ops rand (n + k) c g denom r ih

theorem priceEach_mono (ops : FloatOps F) (rand : Nat → F) (n k : Nat) (denoms : List String)
    (c : Context F) (g : Nat) (r : List (Except PriceError F) × Context F × Nat)
    (h : priceEach ops rand n denoms c g = some r) :
    priceEach ops rand (n + k) denoms c g = some r := by
  induction denoms generalizing c g r with
  | nil => simpa [priceEach] using h
  | cons d ds ih =>
    simp only [priceEach] at h ⊢
    cases hp : Price ops rand n c g d with
    | none => simp [hp] at h
    | some res =>
      rw [Price_mono ops rand n k c g d res hp]
      obtain ⟨r1, c1, g1⟩ := res
      simp only [hp] at h ⊢
      cases hr : priceEach ops rand n ds c1 g1 with
      | none => simp [hr] at h
      | some res2 =>
        rw [ih c1 g1 res2 hr]
        simpa [hr] using h

theorem Price_map_mono (ops : FloatOps F) (rand : Nat → F) (n k : Nat) (c : Context F)
    (g : Nat) (denom : String) (x : Except PriceError F)
    (h : (Price ops rand n c g denom).map (fun r => r.1) = some x) :
    (Price ops rand (n + k) c g denom).map (fun r => r.1) = some x := by
  cases hp : Price ops rand n c g denom with
  | none => simp [hp] at h
  | some res =>
    rw [Price_mono ops rand n k c g denom res hp]
    simpa [hp] using h

theorem priceEach_map_mono (ops : FloatOps F) (rand : Nat → F) (n k : Nat)
    (denoms : List String) (c : Context F) (g : Nat) (x : List (Except PriceError F))
    (h : (priceEach ops rand n denoms c g).map (fun r => r.1) = some x) :
    (priceEach ops rand (n + k) denoms c g).map (fun r => r.1) = some x := by
  cases hp : priceEach ops rand n denoms c g with
  | none => simp [hp] at h
  | some res =>
    rw [priceEach_mono ops rand n k denoms c g res hp]
    simpa [hp] using h

/-! ## Price resolution: the scenario of the test -/

/-- C6: in the price-resolver scenario `Context.Price` succeeds, at every recursion depth
from 4 on and whatever the random source yields, and returns `Price(uatom) = 2e-5`,
`Price(uluna) = 1e-5`, `Price(pool1) = 4e-5`, `Price(pool2) = 2e-5` and
`Price(pool3) = 4e-5`, each exactly and so within the relative tolerance 1e-3: called on
the initial context one denom at a time, and called in turn on the same context as the
test does. -/
theorem Price_scenario (rand : Nat → ℚ) (g k : Nat) :
    ((Price ratOps rand (4 + k) testContext g "uatom").map (fun r => r.1) =
        some (.ok (2 / 100000)) ∧
      (Price ratOps rand (4 + k) testContext g "uluna").map (fun r => r.1) =
        some (.ok (1 / 100000)) ∧
      (Price ratOps rand (4 + k) testContext g "pool1").map (fun r => r.1) =
        some (.ok (4 / 100000)) ∧
      (Price ratOps rand (4 + k) testContext g "pool2").map (fun r => r.1) =
        some (.ok (2 / 100000)) ∧
      (Price ratOps rand (4 + k) testContext g "pool3").map (fun r => r.1) =
        some (.ok (4 / 100000))) ∧
    (priceEach ratOps rand (4 + k) ["uatom", "uluna", "pool1", "pool2", "pool3"]
        testContext g).map (fun r => r.1) =
      some [.ok (2 / 100000), .ok (1 / 100000), .ok (4 / 100000), .ok (2 / 100000),
        .ok (4 / 100000)] ∧
    resultsWithin withinRelTol
      [.ok (2 / 100000), .ok (1 / 100000), .ok (4 / 100000), .ok (2 / 100000), .ok (4 / 100000)]
      [2 / 100000, 1 / 100000, 4 / 100000, 2 / 100000, 4 / 100000] := by
  refine ⟨⟨?_, ?_, ?_, ?_, ?_⟩, ?_, ?_⟩
  · apply Price_map_mono
    simp [Price, sumReserveCoins, lookup, store, testContext, testContextWith, testPools,
      testPool, Context.IsNormalCoinDenom, Context.IsPoolCoinDenom, Context.setPrice,
      util.StringInSlice, stringsHasPrefix, schema.Pool.ReserveCoins,
      schema.Pool.PoolCoinAmount, ratOps]
    norm_num
  · apply Price_map_mono
    simp [Price, sumReserveCoins, lookup, store, testContext, testContextWith, testPools,
      testPool, Context.IsNormalCoinDenom, Context.IsPoolCoinDenom, Context.setPrice,
      util.StringInSlice, stringsHasPrefix, schema.Pool.ReserveCoins,
      schema.Pool.PoolCoinAmount, ratOps]
    norm_num
  · apply Price_map_mono
    simp [Price, sumReserveCoins, lookup, store, testContext, testContextWith, testPools,
      testPool, Context.IsNormalCoinDenom, Context.IsPoolCoinDenom, Context.setPrice,
      util.StringInSlice, stringsHasPrefix, schema.Pool.ReserveCoins,
      schema.Pool.PoolCoinAmount, ratOps]
    norm_num
  · apply Price_map_mono
    simp [Price, sumReserveCoins, lookup, store, testContext, testContextWith, testPools,
      testPool, Context.IsNormalCoinDenom, Context.IsPoolCoinDenom, Context.setPrice,
      util.StringInSlice, stringsHasPrefix, schema.Pool.ReserveCoins,
      schema.Pool.PoolCoinAmount, ratOps]
    norm_num
  · apply Price_map_mono
    simp [Price, sumReserveCoins, lookup, store, testContext, testContextWith, testPools,
      testPool, Context.IsNormalCoinDenom, Context.IsPoolCoinDenom, Context.setPrice,
      util.StringInSlice, stringsHasPrefix, schema.Pool.ReserveCoins,
      schema.Pool.PoolCoinAmount, ratOps]
    norm_num
  · apply priceEach_map_mono
    simp [priceEach, Price, sumReserveCoins, lookup, store, testContext, testContextWith,
      testPools, testPool, Context.IsNormalCoinDenom, Context.IsPoolCoinDenom,
      Context.setPrice, util.StringInSlice, stringsHasPrefix, schema.Pool.ReserveCoins,
      schema.Pool.PoolCoinAmount, ratOps]
    norm_num
  · simp [resultsWithin, withinRelTol]

/-- C7, as the code has it: with the nested pool4 the call `Context.Price(pool4)` succeeds,
at every recursion depth from 4 on and whatever the random source yields, and returns
4e-6, the value of its reserve (5e4 pool1 coins at 4e-5 and 1e5 pool2 coins at 2e-5) over
its supply of 1e6; that is within the absolute tolerance 1e-3 of 4e-5 which `approxEqual`
of the test checks. -/
theorem Price_nested_pool (rand : Nat → ℚ) (g k : Nat) :
    (Price ratOps rand (4 + k) testContextNested g "pool4").map (fun r => r.1) =
      some (.ok (4 / 1000000)) ∧
    (priceEach ratOps rand (4 + k) ["uatom", "uluna", "pool1", "pool2", "pool3", "pool4"]
        testContextNested g).map (fun r => r.1) =
      some [.ok (2 / 100000), .ok (1 / 100000), .ok (4 / 100000), .ok (2 / 100000),
        .ok (4 / 100000), .ok (4 / 1000000)] ∧
    approxEqual (4 / 1000000) (4 / 100000) := by
  refine ⟨?_, ?_, ?_⟩
  · apply Price_map_mono
    simp [Price, sumReserveCoins, lookup, store, testContextNested, testContextWith, testPools,
      testPool, Context.IsNormalCoinDenom, Context.IsPoolCoinDenom, Context.setPrice,
      util.StringInSlice, stringsHasPrefix, schema.Pool.ReserveCoins,
      schema.Pool.PoolCoinAmount, ratOps]
    norm_num
  · apply priceEach_map_mono
    simp [priceEach, Price, sumReserveCoins, lookup, store, testContextNested, testContextWith,
      testPools, testPool, Context.IsNormalCoinDenom, Context.IsPoolCoinDenom,
      Context.setPrice, util.StringInSlice, stringsHasPrefix, schema.Pool.ReserveCoins,
      schema.Pool.PoolCoinAmount, ratOps]
    norm_num
  · unfold approxEqual
    rw [abs_le]
    constructor <;> norm_num

/-- C7 as stated fails: the price `Context.Price` returns for pool4 in the scenario is
4e-6, which is not within the relative tolerance 1e-3 of 4e-5. -/
theorem Price_nested_pool_not_within :
    (Price ratOps (fun _ => 0) 4 testContextNested 0 "pool4").map (fun r => r.1) =
      some (.ok (4 / 1000000)) ∧
    ¬ withinRelTol (4 / 1000000) (4 / 100000) := by
  refine ⟨?_, ?_⟩
  · simp [Price, sumReserveCoins, lookup, store, testContextNested, testContextWith, testPools,
      testPool, Context.IsNormalCoinDenom, Context.IsPoolCoinDenom, Context.setPrice,
      util.StringInSlice, stringsHasPrefix, schema.Pool.ReserveCoins,
      schema.Pool.PoolCoinAmount, ratOps]
    norm_num
  · unfold withinRelTol
    rw [abs_of_pos (show (0 : ℚ) < 4 / 100000 by norm_num),
      abs_of_neg (show (4 / 1000000 - 4 / 100000 : ℚ) < 0 by norm_num)]
    norm_num

end pricetable

/-! ## Scoreboard: order and ranking -/

namespace score

open GoMap

variable {F : Type}

theorem stringLess_asymm (a b : String) (h : stringLess a b = true) : stringLess b a = false := by
  simp only [stringLess, decide_eq_true_eq, decide_eq_false_iff_not] at h ⊢
  exact lt_asymm h

theorem less_asymm [LinearOrder F] (x y : Account F) (h : lessOrdered x y = true) : lessOrdered y x = false := by
  unfold lessOrdered at h ⊢
  by_cases hv : x.IsValid = y.IsValid
  · have hv' : y.IsValid = x.IsValid := hv.symm
    by_cases ht : x.TotalScore = y.TotalScore
    · have ht' : y.TotalScore = x.TotalScore := ht.symm
      simp only [hv, ht, bne_self_eq_false, Bool.false_eq_true, if_false, ne_eq,
        not_true_eq_false] at h
      simp only [hv', ht', bne_self_eq_false, Bool.false_eq_true, if_false, ne_eq,
        not_true_eq_false]
      exact stringLess_asymm _ _ h
    · have ht' : ¬ y.TotalScore = x.TotalScore := fun e => ht e.symm
      simp only [hv, ht, bne_self_eq_false, Bool.false_eq_true, if_false, ne_eq,
        not_false_eq_true, if_true, decide_eq_true_eq] at h
      simp only [hv', ht', bne_self_eq_false, Bool.false_eq_true, if_false, ne_eq,
        not_false_eq_true, if_true, decide_eq_false_iff_not]
      exact lt_asymm h
  · have hv' : ¬ y.IsValid = x.IsValid := fun e => hv e.symm
    have h1 : (x.IsValid != y.IsValid) = true := by simpa using hv
    have h2 : (y.IsValid != x.IsValid) = true := by simpa using hv'
    simp only [h1, if_true] at h
    simp only [h2, if_true]
    cases hy : y.IsValid with
    | false => rfl
    | true => exact absurd (h.trans hy.symm) hv

theorem ranksBefore_of_not_less [LinearOrder F] (x y : Account F) (h : lessOrdered y x = false) : RanksBefore x y := by
  unfold lessOrdered at h
  unfold RanksBefore
  by_cases hv : y.IsValid = x.IsValid
  · by_cases ht : y.TotalScore = x.TotalScore
    · simp only [hv, ht, bne_self_eq_false, Bool.false_eq_true, if_false, ne_eq,
        not_true_eq_false, stringLess, decide_eq_false_iff_not] at h
      exact Or.inr (Or.inr ⟨hv.symm, ht.symm, not_lt.1 h⟩)
    · simp only [hv, ht, bne_self_eq_false, Bool.false_eq_true, if_false, ne_eq,
        not_false_eq_true, if_true, decide_eq_false_iff_not] at h
      refine Or.inr (Or.inl ⟨hv.symm, ?_⟩)
      exact lt_of_le_of_ne (not_lt.1 h) ht
  · have h2 : (y.IsValid != x.IsValid) = true := by simpa using hv
    simp only [h2, if_true] at h
    refine Or.inl ⟨?_, h⟩
    cases hx : x.IsValid with
    | true => rfl
    | false => exact absurd (h.trans hx.symm) hv

theorem insertStable_perm {α : Type} (lt : α → α → Bool) (a : α) (l : List α) :
    (insertStable lt a l).Perm (a :: l) := by
  induction l with
  | nil => exact List.Perm.refl _
  | cons b l ih =>
    by_cases h : lt b a = true
    · simp only [insertStable, h, if_true]
      exact (List.Perm.cons b ih).trans (List.Perm.swap a b l)
    · simp only [insertStable, h, if_false]
      exact List.Perm.refl _

theorem sortSliceStable_perm {α : Type} (lt : α → α → Bool) (l : List α) :
    (sortSliceStable lt l).Perm l := by
  induction l with
  | nil => exact List.Perm.refl _
  | cons a l ih =>
    simp only [sortSliceStable]
    exact (insertStable_perm lt a _).trans (List.Perm.cons a ih)

theorem insertStable_chain {α : Type} (lt : α → α → Bool)
    (hasymm : ∀ x y, lt x y = true → lt y x = false) (a : α) (l : List α)
    (h : List.Chain' (fun x y => lt y x = false) l) :
    List.Chain' (fun x y => lt y x = false) (insertStable lt a l) := by
  induction l with
  | nil => simp [insertStable]
  | cons b l ih =>
    by_cases hb : lt b a = true
    · simp only [insertStable, hb, if_true]
      have ih' := ih (List.Chain'.tail h)
      rw [List.chain'_cons'] 
      refine ⟨?_, ih'⟩
      intro y hy
      cases l with
      | nil =>
        simp only [insertStable, List.head?_cons, Option.mem_def, Option.some.injEq] at hy
        rw [← hy]
        exact hasymm b a hb
      | cons c l =>
        cases hc : lt c a with
        | true =>
          simp only [insertStable, hc, if_true, List.head?_cons, Option.mem_def,
            Option.some.injEq] at hy
          rw [← hy]
          exact (List.chain'_cons.1 h).1
        | false =>
          simp only [insertStable, hc, Bool.false_eq_true, if_false, List.head?_cons,
            Option.mem_def, Option.some.injEq] at hy
          rw [← hy]
          exact hasymm b a hb
    · simp only [insertStable, hb, if_false]
      have hb' : lt b a = false := by simpa using hb
      exact List.chain'_cons.2 ⟨hb', h⟩

theorem sortSliceStable_chain {α : Type} (lt : α → α → Bool)
    (hasymm : ∀ x y, lt x y = true → lt y x = false) (l : List α) :
    List.Chain' (fun x y => lt y x = false) (sortSliceStable lt l) := by
  induction l with
  | nil => simp [sortSliceStable]
  | cons a l ih => exact insertStable_chain lt hasymm a _ ih

theorem assignRanking_chain [LinearOrder F] (l : List (Account F)) (i : Nat)
    (h : List.Chain' RanksBefore l) : List.Chain' RanksBefore (assignRanking i l) := by
  induction l generalizing i with
  | nil => simp [assignRanking]
  | cons a l ih =>
    cases l with
    | nil => simp [assignRanking]
    | cons b l =>
      have hab := (List.chain'_cons.1 h).1
      have ih' := ih (i + 1) (List.chain'_cons.1 h).2
      simp only [assignRanking] at ih' ⊢
      exact List.chain'_cons.2 ⟨hab, ih'⟩

theorem assignRanking_ranking (l : List (Account F)) (i j : Nat) (a : Account F)
    (h : (assignRanking i l)[j]? = some a) : a.Ranking = ((i + j : Nat) : Int) + 1 := by
  induction l generalizing i j with
  | nil => simp [assignRanking] at h
  | cons b l ih =>
    cases j with
    | zero =>
      simp only [assignRanking, List.getElem?_cons_zero, Option.some.injEq] at h
      rw [← h]
      simp
    | succ j =>
      simp only [assignRanking, List.getElem?_cons_succ] at h
      have := ih (i + 1) j h
      rw [this]
      congr 2
      omega

theorem assignRanking_map_address (l : List (Account F)) (i : Nat) :
    (assignRanking i l).map (fun a => a.Address) = l.map (fun a => a.Address) := by
  induction l generalizing i with
  | nil => rfl
  | cons b l ih => simp [assignRanking, ih]

theorem assignRanking_length (l : List (Account F)) (i : Nat) :
    (assignRanking i l).length = l.length := by
  induction l generalizing i with
  | nil => rfl
  | cons b l ih => simp [assignRanking, ih]

theorem less_eq_lessOrdered [LinearOrder F] (ops : FloatOps F) (x y : Account F)
    (hx : ops.isNaN x.TotalScore = false) (hy : ops.isNaN y.TotalScore = false) :
    less ops x y = lessOrdered x y := by
  unfold less lessOrdered floatNe floatGt
  simp only [hx, hy, Bool.false_or, Bool.not_false, Bool.true_and, decide_eq_true_eq]

theorem insertStable_congr {α : Type} (lt lt2 : α → α → Bool) (a : α) (l : List α)
    (h : ∀ b ∈ l, lt b a = lt2 b a) : insertStable lt a l = insertStable lt2 a l := by
  induction l with
  | nil => rfl
  | cons b l ih =>
    simp only [insertStable]
    rw [h b (List.mem_cons_self _ _), ih (fun c hc => h c (List.mem_cons_of_mem _ hc))]

theorem sortSliceStable_congr {α : Type} (lt lt2 : α → α → Bool) (l : List α)
    (h : ∀ a ∈ l, ∀ b ∈ l, lt a b = lt2 a b) :
    sortSliceStable lt l = sortSliceStable lt2 l := by
  induction l with
  | nil => rfl
  | cons a l ih =>
    simp only [sortSliceStable]
    rw [ih (fun x hx y hy => h x (List.mem_cons_of_mem _ hx) y (List.mem_cons_of_mem _ hy))]
    apply insertStable_congr
    intro b hb
    exact h b (List.mem_cons_of_mem _ ((sortSliceStable_perm lt2 l).subset hb)) a
      (List.mem_cons_self _ _)

/-- On accounts whose total scores are no NaN, the sort by `less` is the sort by the
order of the total scores. -/
theorem sortSliceStable_less [LinearOrder F] (ops : FloatOps F) (accs : List (Account F))
    (hnan : ∀ a ∈ accs, ops.isNaN a.TotalScore = false) :
    sortSliceStable (less ops) accs = sortSliceStable lessOrdered accs :=
  sortSliceStable_congr _ _ accs
    (fun a ha b hb => less_eq_lessOrdered ops a b (hnan a ha) (hnan b hb))

theorem assignRanking_map_totalScore (l : List (Account F)) (i : Nat) :
    (assignRanking i l).map (fun a => a.TotalScore) = l.map (fun a => a.TotalScore) := by
  induction l generalizing i with
  | nil => rfl
  | cons b l ih => simp [assignRanking, ih]

/-- The scored accounts have a total score that is no NaN when the ranked ones have. -/
theorem notNaN_of_ranked [LinearOrder F] (ops : FloatOps F) (accs : List (Account F))
    (hnan : ∀ a ∈ assignRanking 0 (sortSliceStable (less ops) accs),
      ops.isNaN a.TotalScore = false) :
    ∀ a ∈ accs, ops.isNaN a.TotalScore = false := by
  intro a ha
  have h1 : a.TotalScore ∈ (sortSliceStable (less ops) accs).map (fun a => a.TotalScore) :=
    List.mem_map_of_mem _ ((sortSliceStable_perm (less ops) accs).symm.subset ha)
  rw [← assignRanking_map_totalScore _ 0, List.mem_map] at h1
  obtain ⟨b, hb, hbt⟩ := h1
  rw [← hbt]
  exact hnan b hb

/-- C10: when no total score of the list `Scoreboard` returns is a NaN, the list is ordered
and numbered 1..N: every adjacent pair (`x` before `y`) has `x` valid and `y` not, or equal
validity and `x.TotalScore > y.TotalScore`, or equal validity, equal total score and
`x.Address <= y.Address`; and the `i`-th element (0-based) has `Ranking = i + 1`; the
addresses listed are those of the scored accounts.  In the sort-and-rank step A (valid,
total 50) outranks B (invalid, total 90), and of two valid accounts with total 50 the one
with address "cosmos1a" outranks the one with "cosmos1b". -/
theorem Scoreboard_ordered_and_ranked [LinearOrder F] (ops : FloatOps F) (cfg : Config F) (now : Int)
    (stored : List schema.Account) (blockHeight : Int) (priceTable : List (String × F))
    (out : List (Account F))
    (h : Scoreboard ops cfg now stored blockHeight priceTable = .ok out)
    (hnan : ∀ a ∈ out, ops.isNaN a.TotalScore = false) :
    List.Chain' RanksBefore out ∧
    (∀ (i : Nat) (a : Account F), out[i]? = some a → a.Ranking = (i : Int) + 1) ∧
    (∃ accs, iterateAccounts ops cfg now blockHeight priceTable stored [] = .ok accs ∧
      (out.map (fun a => a.Address)).Perm (accs.map (fun a => a.Address))) ∧
    ((assignRanking 0 (sortSliceStable (less ratOps)
        [exampleAccount "B" false 90, exampleAccount "A" true 50])).map
        (fun a => (a.Address, a.Ranking)) = [("A", 1), ("B", 2)] ∧
      (assignRanking 0 (sortSliceStable (less ratOps)
        [exampleAccount "cosmos1b" true 50, exampleAccount "cosmos1a" true 50])).map
        (fun a => (a.Address, a.Ranking)) = [("cosmos1a", 1), ("cosmos1b", 2)]) := by
  unfold Scoreboard at h
  cases hi : iterateAccounts ops cfg now blockHeight priceTable stored [] with
  | error e => simp [hi] at h
  | ok accs =>
    simp only [hi, Except.ok.injEq] at h
    subst h
    have hsort := sortSliceStable_less ops accs (notNaN_of_ranked ops accs hnan)
    refine ⟨?_, ?_, ⟨accs, rfl, ?_⟩, ?_, ?_⟩
    · rw [hsort]
      apply assignRanking_chain
      exact (sortSliceStable_chain lessOrdered less_asymm accs).imp
        (fun {x y} hxy => ranksBefore_of_not_less x y hxy)
    · intro i a ha
      have := assignRanking_ranking _ 0 i a ha
      simpa using this
    · rw [assignRanking_map_address]
      exact (sortSliceStable_perm (less ops) accs).map _
    · decide
    · decide

theorem Scoreboard_ordered_and_ranked_witness :
    Scoreboard ratOps exampleConfig 0 exampleStored 5 [("usd", 1)] = .ok exampleBoard ∧
    List.Chain' RanksBefore exampleBoard ∧
    (∀ (i : Nat) (a : Account ℚ), exampleBoard[i]? = some a → a.Ranking = (i : Int) + 1) := by
  have h : Scoreboard ratOps exampleConfig 0 exampleStored 5 [("usd", 1)] = .ok exampleBoard := by
    simp [Scoreboard, iterateAccounts, scoreAccount, TradingScore, tradingValue, ActionScore,
      exampleConfig, exampleStored, exampleBoard, exampleThreePools, lookup, store, getInt,
      ratOps, util.MinInt, sortSliceStable, insertStable, less, floatNe, floatGt,
      assignRanking,
      schema.Account.Coins, schema.Account.DepositStatus, schema.Account.SwapStatus,
      schema.AccountActionStatus.NumDifferentPools,
      schema.AccountActionStatus.NumDifferentPoolsByDate, wrapInt64]
    norm_num
  exact ⟨h,
    (Scoreboard_ordered_and_ranked ratOps exampleConfig 0 exampleStored 5 [("usd", 1)]
      exampleBoard h (fun _ _ => rfl)).1,
    (Scoreboard_ordered_and_ranked ratOps exampleConfig 0 exampleStored 5 [("usd", 1)]
      exampleBoard h (fun _ _ => rfl)).2.1⟩

/-- With `max_action_score_per_day` 0 every action score is the NaN `0 / 0`, and so is
every total score: two valid accounts stay in the order in which they are iterated,
"cosmos1b" before "cosmos1a", and neither `>` nor `==` holds between their total
scores. -/
theorem Scoreboard_nan_unordered :
    Scoreboard nanOps nanConfig 0 nanStored 5 [] = .ok nanBoard ∧
    nanBoard.map (fun a => (a.Address, a.IsValid, nanOps.isNaN a.TotalScore, a.Ranking)) =
      [("cosmos1b", true, true, 1), ("cosmos1a", true, true, 2)] ∧
    (¬ List.Chain' RanksBefore nanBoard) ∧
    floatGt nanOps ExtRat.nan ExtRat.nan = false ∧
    floatNe nanOps ExtRat.nan ExtRat.nan = true := by
  refine ⟨?_, by decide, ?_, by decide, by decide⟩
  · simp [Scoreboard, iterateAccounts, scoreAccount, TradingScore, tradingValue, ActionScore,
      nanConfig, nanStored, nanStoredAccount, nanBoard, nanAccount, exampleThreePools, lookup, store, getInt,
      nanOps, ExtRat.add, ExtRat.neg, ExtRat.mul, ExtRat.div, util.MinInt, sortSliceStable,
      insertStable, less, floatNe, floatGt, assignRanking,
      schema.Account.Coins, schema.Account.DepositStatus, schema.Account.SwapStatus,
      schema.AccountActionStatus.NumDifferentPools,
      schema.AccountActionStatus.NumDifferentPoolsByDate, wrapInt64]
  · simp only [nanBoard, List.chain'_cons, List.chain'_singleton, and_true]
    intro hr
    rcases hr with ⟨_, h2⟩ | ⟨_, h2⟩ | ⟨_, _, h3⟩
    · exact absurd h2 (by decide)
    · exact absurd h2 (lt_irrefl _)
    · exact absurd h3 (by decide)

end score

/-! ## Price resolution: cycles between pool coins -/

namespace pricetable

open GoMap

variable {F : Type}

theorem CyclicOn_of_extends (c c' : Context F) (S : String → Prop) (h : Context.Extends c c')
    (hc : c.CyclicOn S) : c'.CyclicOn S := by
  obtain ⟨h1, _, _, h4, _⟩ := h
  intro d hd
  have := hc d hd
  simpa only [Context.IsNormalCoinDenom, Context.IsPoolCoinDenom, h1, h4] using this

theorem unpriced_setPrice (c : Context F) (S : String → Prop) (Y : String) (p : F)
    (hu : c.Unpriced S) (hn : ¬ (c.setPrice Y p).Unpriced S) : S Y := by
  by_contra hY
  apply hn
  intro d hd
  have hne : ¬ Y = d := fun e => hY (e ▸ hd)
  simp only [Context.setPrice, lookup_store, hne, if_false]
  exact hu d hd

/-- A loop over reserve coins that leaves a coin of `S` priced contains a call that
does. -/
theorem sumReserveCoins_priced (ops : FloatOps F)
    (price : Context F → Nat → String → Option (PriceResult F)) (hm : Memoizes price)
    (S : String → Prop) (Q : Prop)
    (hprice : ∀ c g Y r c' g', c.CyclicOn S → c.Unpriced S → price c g Y = some (r, c', g') →
      ¬ c'.Unpriced S → Q)
    (rcs : List schema.Coin) (sum : F) (c : Context F) (g : Nat) (r : Except PriceError F)
    (c' : Context F) (g' : Nat) (hc : c.CyclicOn S) (hu : c.Unpriced S)
    (h : sumReserveCoins ops price rcs sum c g = some (r, c', g')) (hn : ¬ c'.Unpriced S) : Q := by
  induction rcs generalizing sum c g with
  | nil =>
    simp only [sumReserveCoins, Option.some.injEq, Prod.mk.injEq] at h
    rw [← h.2.1] at hn
    exact absurd hu hn
  | cons rc rcs ih =>
    simp only [sumReserveCoins] at h
    cases hp : price c g rc.Denom with
    | none => simp [hp] at h
    | some res =>
      obtain ⟨r1, c1, g1⟩ := res
      by_cases hu1 : c1.Unpriced S
      · have hc1 := CyclicOn_of_extends c c1 S (hm c g rc.Denom r1 c1 g1 hp).1 hc
        cases r1 with
        | error e =>
          simp only [hp, Option.some.injEq, Prod.mk.injEq] at h
          rw [← h.2.1] at hn
          exact absurd hu1 hn
        | ok tp =>
          simp only [hp] at h
          exact ih _ _ _ hc1 hu1 h
      · exact hprice c g rc.Denom r1 c1 g1 hc hu hp hu1

/-- A call that leaves a coin of `S` priced contains a call for a coin of `S` that
returns a price. -/
theorem Price_priced (ops : FloatOps F) (rand : Nat → F) (S : String → Prop) (n : Nat) :
    ∀ c g Y r c' g', Context.CyclicOn c S → Context.Unpriced c S →
      Price ops rand n c g Y = some (r, c', g') → ¬ Context.Unpriced c' S →
      PricedWithin ops rand S n := by
  induction n with
  | zero =>
    intro c g Y r c' g' _ _ h
    simp [Price] at h
  | succ n ih =>
    intro c g Y r c' g' hc hu h hn
    have widen : PricedWithin ops rand S n → PricedWithin ops rand S (n + 1) := by
      rintro ⟨m, hm, rest⟩
      exact ⟨m, Nat.le_succ_of_le hm, rest⟩
    have self : ∀ p, S Y → r = .ok p → PricedWithin ops rand S (n + 1) := by
      intro p hY hr
      exact ⟨n + 1, le_refl _, c, g, Y, p, c', g', hY, hc, hu, hr ▸ h⟩
    cases hl : lookup c.priceTable Y with
    | some p =>
      rw [Price_hit ops rand n c g Y p hl] at h
      simp only [Option.some.injEq, Prod.mk.injEq] at h
      rw [← h.2.1] at hn
      exact absurd hu hn
    | none =>
      cases hnorm : c.IsNormalCoinDenom Y with
      | true =>
        have hh := h
        rw [Price_normal ops rand n c g Y hl hnorm] at hh
        cases hmp : lookup c.manualPrices Y with
        | none =>
          simp only [hmp, Option.some.injEq, Prod.mk.injEq] at hh
          rw [← hh.2.1] at hn
          exact absurd hu hn
        | some mp =>
          simp only [hmp, Option.some.injEq, Prod.mk.injEq] at hh
          rw [← hh.2.1] at hn
          have hY := unpriced_setPrice c S Y _ hu hn
          rw [(hc Y hY).1] at hnorm
          cases hnorm
      | false =>
        cases hpool : c.IsPoolCoinDenom Y with
        | true =>
          cases hq : lookup c.pools Y with
          | none =>
            rw [Price] at h
            simp [hl, hnorm, hpool, hq] at h
          | some pool =>
            by_cases hz : pool.PoolCoinAmount = 0
            · have hh := h
              rw [Price_pool_zero ops rand n c g Y pool hl hnorm hpool hq hz] at hh
              simp only [Option.some.injEq, Prod.mk.injEq] at hh
              rw [← hh.2.1] at hn
              have hY := unpriced_setPrice c S Y _ hu hn
              obtain ⟨_, _, pool', hq', hz', _⟩ := hc Y hY
              rw [hq] at hq'
              cases hq'
              exact absurd hz hz'
            · have hh := h
              rw [Price_pool ops rand n c g Y pool hl hnorm hpool hq hz] at hh
              cases hs : sumReserveCoins ops (Price ops rand n) pool.ReserveCoins ops.zero c g with
              | none => simp [hs] at hh
              | some res =>
                obtain ⟨r1, c1, g1⟩ := res
                by_cases hu1 : c1.Unpriced S
                · cases r1 with
                  | error e =>
                    simp only [hs, Option.some.injEq, Prod.mk.injEq] at hh
                    rw [← hh.2.1] at hn
                    exact absurd hu1 hn
                  | ok sum =>
                    simp only [hs, Option.some.injEq, Prod.mk.injEq] at hh
                    rw [← hh.2.1] at hn
                    have hY := unpriced_setPrice c1 S Y _ hu1 hn
                    exact self _ hY hh.1.symm
                · exact widen (sumReserveCoins_priced ops _ (Price_memoizes ops rand n) S _ ih
                    _ _ c g r1 c1 g1 hc hu hs hu1)
        | false =>
          have hh := h
          rw [Price_metadata ops rand n c g Y hl hnorm hpool] at hh
          cases hmd : lookup c.denomMetadata Y with
          | none =>
            simp only [hmd, Option.some.injEq, Prod.mk.injEq] at hh
            rw [← hh.2.1] at hn
            exact absurd hu hn
          | some md =>
            simp only [hmd] at hh
            cases hs : Price ops rand n c g md.Display with
            | none => simp [hs] at hh
            | some res =>
              obtain ⟨r1, c1, g1⟩ := res
              by_cases hu1 : c1.Unpriced S
              · cases r1 with
                | error e =>
                  simp only [hs, Option.some.injEq, Prod.mk.injEq] at hh
                  rw [← hh.2.1] at hn
                  exact absurd hu1 hn
                | ok tp =>
                  simp only [hs, Option.some.injEq, Prod.mk.injEq] at hh
                  rw [← hh.2.1] at hn
                  have hY := unpriced_setPrice c1 S Y _ hu1 hn
                  rw [(hc Y hY).2.1] at hpool
                  cases hpool
              · exact widen (ih c g md.Display r1 c1 g1 hc hu hs hu1)

/-- A loop over reserve coins that succeeds has priced each of them by a successful call. -/
theorem sumReserveCoins_member (ops : FloatOps F)
    (price : Context F → Nat → String → Option (PriceResult F)) (hm : Memoizes price)
    (S : String → Prop) (Q : Prop)
    (hprice : ∀ c g Y r c' g', c.CyclicOn S → c.Unpriced S → price c g Y = some (r, c', g') →
      ¬ c'.Unpriced S → Q)
    (hok : ∀ c g Y tp c' g', c.CyclicOn S → c.Unpriced S → S Y →
      price c g Y = some (.ok tp, c', g') → Q)
    (rcs : List schema.Coin) (rc : schema.Coin) (hrc : rc ∈ rcs) (hS : S rc.Denom) (sum : F)
    (c : Context F) (g : Nat) (s : F) (c' : Context F) (g' : Nat) (hc : c.CyclicOn S)
    (hu : c.Unpriced S) (h : sumReserveCoins ops price rcs sum c g = some (.ok s, c', g')) :
    Q := by
  induction rcs generalizing sum c g with
  | nil => simp at hrc
  | cons x rcs ih =>
    simp only [sumReserveCoins] at h
    cases hp : price c g x.Denom with
    | none => simp [hp] at h
    | some res =>
      obtain ⟨r1, c1, g1⟩ := res
      cases r1 with
      | error e => simp [hp] at h
      | ok tp =>
        simp only [hp] at h
        rcases List.mem_cons.1 hrc with heq | hmem
        · subst heq
          exact hok c g rc.Denom tp c1 g1 hc hu hS hp
        · by_cases hu1 : c1.Unpriced S
          · exact ih hmem _ _ _ (CyclicOn_of_extends c c1 S (hm c g x.Denom _ c1 g1 hp).1 hc)
              hu1 h
          · exact hprice c g x.Denom _ c1 g1 hc hu hp hu1

/-- Pool coins that depend on each other in a cycle are never priced. -/
theorem not_pricedWithin (ops : FloatOps F) (rand : Nat → F) (S : String → Prop) (n : Nat) :
    ¬ PricedWithin ops rand S n := by
  induction n with
  | zero =>
    rintro ⟨m, hm, c, g, d, p, c', g', _, _, _, h⟩
    have : m = 0 := Nat.le_zero.1 hm
    subst this
    simp [Price] at h
  | succ n ih =>
    rintro ⟨m, hm, c, g, d, p, c', g', hd, hc, hu, h⟩
    rcases Nat.lt_or_ge m (n + 1) with hlt | hge
    · exact ih ⟨m, Nat.lt_succ_iff.1 hlt, c, g, d, p, c', g', hd, hc, hu, h⟩
    · have hmn : m = n + 1 := le_antisymm hm hge
      subst hmn
      obtain ⟨hnorm, hpool, pool, hq, hz, rc, hrc, hS⟩ := hc d hd
      rw [Price_pool ops rand n c g d pool (hu d hd) hnorm hpool hq hz] at h
      cases hs : sumReserveCoins ops (Price ops rand n) pool.ReserveCoins ops.zero c g with
      | none => simp [hs] at h
      | some res =>
        obtain ⟨r1, c1, g1⟩ := res
        cases r1 with
        | error e => simp [hs] at h
        | ok sum =>
          apply ih
          exact sumReserveCoins_member ops _ (Price_memoizes ops rand n) S _
            (Price_priced ops rand S n)
            (fun c2 g2 Y tp c3 g3 hc2 hu2 hY hp =>
              ⟨n, le_refl _, c2, g2, Y, tp, c3, g3, hY, hc2, hu2, hp⟩)
            pool.ReserveCoins rc hrc hS ops.zero c g sum c1 g1 hc hu hs

/-- C9, as the code has it: `Context.Price` has no cycle detection and no `PriceCycle`
error.  In every context in which the pool coins of a set `S` are unresolved pool coins with
non-zero supply and each holds a reserve coin of `S` (a pool coin that depends on itself
through reserve coins), `Context.Price` of a coin `P` of `S` never returns a price,
whatever depth the recursion is allowed: it returns the error of a reserve coin it resolves
before it runs into the cycle, or it does not return.  When moreover the first reserve coin
without a price in the table is, for each coin of `S`, again a coin of `S` (a pool that
holds its own pool coin, or two pools that hold each other's), it does not return: it
recurses without bound. -/
theorem Price_cycle_unbounded (ops : FloatOps F) (rand : Nat → F) (c : Context F)
    (S : String → Prop) (P : String) (hP : S P) (fuel : Nat) (g : Nat) :
    (c.CyclicOn S → c.Unpriced S →
      ∀ p c' g', Price ops rand fuel c g P ≠ some (.ok p, c', g')) ∧
    ((∀ d, S d → ∃ d', S d' ∧ c.WaitsOn d d') → Price ops rand fuel c g P = none) := by
  constructor
  · intro hc hu p c' g' h
    exact not_pricedWithin ops rand S fuel ⟨fuel, le_refl _, c, g, P, p, c', g', hP, hc, hu, h⟩
  · intro hS
    exact Price_none_of_waitsOn ops rand c S hS fuel g P hP

theorem errorCycle_cyclicOn : errorCycleContext.CyclicOn (fun d => d = "poolE") := by
  intro d hd
  subst hd
  exact ⟨by decide, by decide, (testPool "poolE" "foo" "poolE" 1000000 50000 1000000).2,
    by decide, by decide, ⟨"poolE", 50000⟩, by decide, rfl⟩

theorem errorCycle_unpriced : errorCycleContext.Unpriced (fun d => d = "poolE") := by
  intro d hd
  subst hd
  decide

theorem Price_cycle_unbounded_witness :
    errorCycleContext.CyclicOn (fun d => d = "poolE") ∧
    errorCycleContext.Unpriced (fun d => d = "poolE") ∧
    (∀ p c' g', Price ratOps (fun _ => 0) 3 errorCycleContext 0 "poolE" ≠ some (.ok p, c', g')) ∧
    Price ratOps (fun _ => 0) 3 errorCycleContext 0 "poolE" =
      some (.error (.unknownDenom "foo"), errorCycleContext, 0) ∧
    (∀ d, d = "poolP" → ∃ d', d' = "poolP" ∧ selfCycleContext.WaitsOn d d') ∧
    Price ratOps (fun _ => 0) 1000 selfCycleContext 0 "poolP" = none := by
  refine ⟨errorCycle_cyclicOn, errorCycle_unpriced,
    (Price_cycle_unbounded ratOps (fun _ => 0) errorCycleContext (fun d => d = "poolE") "poolE"
      rfl 3 0).1 errorCycle_cyclicOn errorCycle_unpriced,
    ?_, fun _ hd => ⟨"poolP", rfl, hd ▸ selfCycle_waitsOn⟩,
    (Price_cycle_unbounded ratOps (fun _ => 0) selfCycleContext (fun d => d = "poolP") "poolP"
      rfl 1000 0).2 (fun _ hd => ⟨"poolP", rfl, hd ▸ selfCycle_waitsOn⟩)⟩
  simp [Price, sumReserveCoins, lookup, errorCycleContext, testContextWith, testPool,
    Context.IsNormalCoinDenom, Context.IsPoolCoinDenom, util.StringInSlice, stringsHasPrefix,
    schema.Pool.ReserveCoins, schema.Pool.PoolCoinAmount, store]

/-- C9 as stated fails: for the pool that holds its own pool coin, and for the two pools
that hold each other's, `Context.Price` returns nothing at any recursion depth, so it does
not terminate with a `PriceCycle` error. -/
theorem Price_cycle_not_reported :
    (∀ fuel, Price ratOps (fun _ => 0) fuel selfCycleContext 0 "poolP" = none) ∧
    (∀ fuel, Price ratOps (fun _ => 0) fuel mutualCycleContext 0 "poolP" = none) := by
  constructor
  · intro fuel
    exact Price_none_of_waitsOn ratOps (fun _ => 0) selfCycleContext (fun d => d = "poolP")
      (fun _ hd => ⟨"poolP", rfl, hd ▸ selfCycle_waitsOn⟩) fuel 0 "poolP" rfl
  · intro fuel
    refine Price_none_of_waitsOn ratOps (fun _ => 0) mutualCycleContext
      (fun d => d = "poolP" ∨ d = "poolQ") ?_ fuel 0 "poolP" (Or.inl rfl)
    intro d hd
    rcases hd with hd | hd
    · exact ⟨"poolQ", Or.inr rfl, hd ▸ mutualCycle_waitsOn_P⟩
    · exact ⟨"poolP", Or.inl rfl, hd ▸ mutualCycle_waitsOn_Q⟩

end pricetable

namespace score

open GoMap

variable {F : Type}

/-! ## Scoreboard: the order is total and the ranking deterministic -/

theorem ranksBefore_trans [LinearOrder F] (x y z : Account F) (h1 : RanksBefore x y)
    (h2 : RanksBefore y z) : RanksBefore x z := by
  unfold RanksBefore at *
  rcases h1 with ⟨a1, b1⟩ | ⟨a1, b1⟩ | ⟨a1, b1, c1⟩
  · rcases h2 with ⟨a2, b2⟩ | ⟨a2, b2⟩ | ⟨a2, b2, c2⟩
    · rw [b1] at a2; cases a2
    · exact Or.inl ⟨a1, by rw [← a2]; exact b1⟩
    · exact Or.inl ⟨a1, by rw [← a2]; exact b1⟩
  · rcases h2 with ⟨a2, b2⟩ | ⟨a2, b2⟩ | ⟨a2, b2, c2⟩
    · exact Or.inl ⟨by rw [a1]; exact a2, b2⟩
    · exact Or.inr (Or.inl ⟨a1.trans a2, lt_trans b2 b1⟩)
    · exact Or.inr (Or.inl ⟨a1.trans a2, by rw [← b2]; exact b1⟩)
  · rcases h2 with ⟨a2, b2⟩ | ⟨a2, b2⟩ | ⟨a2, b2, c2⟩
    · exact Or.inl ⟨by rw [a1]; exact a2, b2⟩
    · exact Or.inr (Or.inl ⟨a1.trans a2, by rw [b1]; exact b2⟩)
    · exact Or.inr (Or.inr ⟨a1.trans a2, b1.trans b2, le_trans c1 c2⟩)

theorem ranksBefore_antisymm [LinearOrder F] (x y : Account F) (h1 : RanksBefore x y)
    (h2 : RanksBefore y x) : x.Address = y.Address := by
  unfold RanksBefore at *
  rcases h1 with ⟨a1, b1⟩ | ⟨a1, b1⟩ | ⟨a1, b1, c1⟩
  · rcases h2 with ⟨a2, b2⟩ | ⟨a2, b2⟩ | ⟨a2, b2, c2⟩
    · rw [a1] at b2; cases b2
    · rw [a1, b1] at a2; cases a2
    · rw [a1, b1] at a2; cases a2
  · rcases h2 with ⟨a2, b2⟩ | ⟨a2, b2⟩ | ⟨a2, b2, c2⟩
    · rw [a2, b2] at a1; cases a1
    · exact absurd b1 (lt_asymm b2)
    · rw [b2] at b1; exact absurd b1 (lt_irrefl _)
  · rcases h2 with ⟨a2, b2⟩ | ⟨a2, b2⟩ | ⟨a2, b2, c2⟩
    · rw [a2, b2] at a1; cases a1
    · rw [b1] at b2; exact absurd b2 (lt_irrefl _)
    · exact String.ext (le_antisymm c1 c2)

theorem ranksBefore_of_less [LinearOrder F] (x y : Account F) (h : lessOrdered x y = true) :
    RanksBefore x y :=
  ranksBefore_of_not_less x y (less_asymm x y h)

theorem less_irrefl [LinearOrder F] (x : Account F) : lessOrdered x x = false := by
  cases h : lessOrdered x x with
  | false => rfl
  | true => exact (less_asymm x x h).symm.trans h |>.symm ▸ rfl

theorem not_ranksBefore_of_less [LinearOrder F] (x y : Account F) (h : lessOrdered x y = true) :
    ¬ RanksBefore y x := by
  intro hr
  have hxy := ranksBefore_of_less x y h
  have hadd := ranksBefore_antisymm x y hxy hr
  unfold RanksBefore at hr hxy
  unfold lessOrdered at h
  rcases hr with ⟨a1, b1⟩ | ⟨a1, b1⟩ | ⟨a1, b1, c1⟩
  · simp [a1, b1] at h
  · have hne : ¬ x.TotalScore = y.TotalScore := fun e => by rw [e] at b1; exact lt_irrefl _ b1
    simp only [a1, bne_self_eq_false, Bool.false_eq_true, if_false, ne_eq, hne,
      not_false_eq_true, if_true, decide_eq_true_eq] at h
    exact lt_asymm h b1
  · simp only [a1, b1, bne_self_eq_false, Bool.false_eq_true, if_false, ne_eq,
      not_true_eq_false, stringLess, decide_eq_true_eq] at h
    rw [hadd] at h
    exact lt_irrefl _ h

theorem less_trans [LinearOrder F] (x y z : Account F) (h1 : lessOrdered x y = true)
    (h2 : lessOrdered y z = true) : lessOrdered x z = true := by
  cases h : lessOrdered x z with
  | true => rfl
  | false =>
    exfalso
    -- `z` ranks before or with `x`, and `x` before `y`: so `z` before or with `y`
    have hzx : RanksBefore z x := ranksBefore_of_not_less z x h
    exact not_ranksBefore_of_less y z h2
      (ranksBefore_trans z x y hzx (ranksBefore_of_less x y h1))

theorem less_total [LinearOrder F] (x y : Account F) (h : x.Address ≠ y.Address) :
    lessOrdered x y = true ∨ lessOrdered y x = true := by
  cases h1 : lessOrdered x y with
  | true => exact Or.inl rfl
  | false =>
    cases h2 : lessOrdered y x with
    | true => exact Or.inr rfl
    | false =>
      exact absurd (ranksBefore_antisymm x y (ranksBefore_of_not_less x y h2)
        (ranksBefore_of_not_less y x h1)) h

theorem insertStable_pairwise [LinearOrder F] (a : Account F) (l : List (Account F))
    (h : l.Pairwise RanksBefore) : (insertStable lessOrdered a l).Pairwise RanksBefore := by
  induction l with
  | nil => simp [insertStable]
  | cons b l ih =>
    cases hb : lessOrdered b a with
    | true =>
      simp only [insertStable, hb, if_true]
      rw [List.pairwise_cons] at h ⊢
      refine ⟨?_, ih h.2⟩
      intro y hy
      rcases List.mem_cons.1 ((insertStable_perm lessOrdered a l).subset hy) with rfl | hm
      · exact ranksBefore_of_less b y hb
      · exact h.1 y hm
    | false =>
      simp only [insertStable, hb, Bool.false_eq_true, if_false]
      have hab : RanksBefore a b := ranksBefore_of_not_less a b hb
      refine List.pairwise_cons.2 ⟨?_, h⟩
      intro y hy
      rcases List.mem_cons.1 hy with rfl | hm
      · exact hab
      · exact ranksBefore_trans a b y hab ((List.pairwise_cons.1 h).1 y hm)

theorem sortSliceStable_pairwise [LinearOrder F] (l : List (Account F)) :
    (sortSliceStable lessOrdered l).Pairwise RanksBefore := by
  induction l with
  | nil => simp [sortSliceStable]
  | cons a l ih => exact insertStable_pairwise a _ ih

/-- The sorted list does not depend on the order of the accounts it is sorted from, when
their addresses are pairwise distinct. -/
theorem sortSliceStable_perm_eq [LinearOrder F] (accs accs' : List (Account F))
    (hperm : accs.Perm accs') (hnd : (accs.map (fun a => a.Address)).Nodup) :
    sortSliceStable lessOrdered accs = sortSliceStable lessOrdered accs' := by
  have p1 := sortSliceStable_perm lessOrdered accs
  have p2 := sortSliceStable_perm lessOrdered accs'
  refine List.Perm.eq_of_sorted ?_ (sortSliceStable_pairwise accs)
    (sortSliceStable_pairwise accs') (p1.trans (hperm.trans p2.symm))
  intro a b ha hb hab hba
  have ha' : a ∈ accs := p1.subset ha
  have hb' : b ∈ accs := hperm.symm.subset (p2.subset hb)
  exact List.inj_on_of_nodup_map hnd ha' hb' (ranksBefore_antisymm a b hab hba)

/-- C11: rank assignment is deterministic in the account set when no total score is a
NaN.  For two iteration orders `accs` and `accs'` of the same scored accounts with pairwise
distinct addresses and total scores that are no NaN, the sort-and-rank step of
`Scoreboard` yields the same ranked list, so every address gets the same `Ranking`; and
the comparison it sorts by is a strict total order on those accounts: irreflexive,
transitive, and of two different accounts one comes before the other. -/
theorem sortAndRank_deterministic [LinearOrder F] (ops : FloatOps F)
    (accs accs' : List (Account F))
    (hperm : accs.Perm accs') (hnd : (accs.map (fun a => a.Address)).Nodup)
    (hnan : ∀ a ∈ accs, ops.isNaN a.TotalScore = false) :
    assignRanking 0 (sortSliceStable (less ops) accs) =
      assignRanking 0 (sortSliceStable (less ops) accs') ∧
    (∀ a ∈ assignRanking 0 (sortSliceStable (less ops) accs),
      ∀ b ∈ assignRanking 0 (sortSliceStable (less ops) accs'),
        a.Address = b.Address → a.Ranking = b.Ranking) ∧
    (∀ x ∈ accs, less ops x x = false) ∧
    (∀ x ∈ accs, ∀ y ∈ accs, ∀ z ∈ accs,
      less ops x y = true → less ops y z = true → less ops x z = true) ∧
    (∀ x ∈ accs, ∀ y ∈ accs, x ≠ y → less ops x y = true ∨ less ops y x = true) := by
  have hnan' : ∀ a ∈ accs', ops.isNaN a.TotalScore = false :=
    fun a ha => hnan a (hperm.symm.subset ha)
  have hl : ∀ x ∈ accs, ∀ y ∈ accs, less ops x y = lessOrdered x y :=
    fun x hx y hy => less_eq_lessOrdered ops x y (hnan x hx) (hnan y hy)
  have heq : sortSliceStable (less ops) accs = sortSliceStable (less ops) accs' := by
    rw [sortSliceStable_less ops accs hnan, sortSliceStable_less ops accs' hnan']
    exact sortSliceStable_perm_eq accs accs' hperm hnd
  refine ⟨by rw [heq], ?_, ?_, ?_, ?_⟩
  · intro a ha b hb hab
    rw [← heq] at hb
    have hnd' : ((assignRanking 0 (sortSliceStable (less ops) accs)).map
        (fun a => a.Address)).Nodup := by
      rw [assignRanking_map_address]
      exact ((sortSliceStable_perm (less ops) accs).map _).nodup_iff.2 hnd
    rw [List.inj_on_of_nodup_map hnd' ha hb hab]
  · intro x hx
    rw [hl x hx x hx]
    exact less_irrefl x
  · intro x hx y hy z hz
    rw [hl x hx y hy, hl y hy z hz, hl x hx z hz]
    exact less_trans x y z
  · intro x hx y hy hxy
    rw [hl x hx y hy, hl y hy x hx]
    apply less_total
    intro hadd
    exact hxy (List.inj_on_of_nodup_map hnd hx hy hadd)

theorem sortAndRank_deterministic_witness :
    [exampleAccount "cosmos1b" true 50, exampleAccount "cosmos1a" true 50,
        exampleAccount "cosmos1c" false 90].Perm
      [exampleAccount "cosmos1c" false 90, exampleAccount "cosmos1b" true 50,
        exampleAccount "cosmos1a" true 50] ∧
    assignRanking 0 (sortSliceStable (less ratOps)
        [exampleAccount "cosmos1b" true 50, exampleAccount "cosmos1a" true 50,
          exampleAccount "cosmos1c" false 90]) =
      assignRanking 0 (sortSliceStable (less ratOps)
        [exampleAccount "cosmos1c" false 90, exampleAccount "cosmos1b" true 50,
          exampleAccount "cosmos1a" true 50]) :=
  ⟨by decide,
    (sortAndRank_deterministic ratOps _ _ (by decide) (by decide) (fun _ _ => rfl)).1⟩

/-- The scored accounts of two valid stored accounts under `max_action_score_per_day` 0
have NaN total scores; iterated as "cosmos1b", "cosmos1a" they are ranked 1 and 2 in that
order, iterated as "cosmos1a", "cosmos1b" in the other, and the comparison puts neither
before the other. -/
theorem sortAndRank_nan_order_dependent :
    iterateAccounts nanOps nanConfig 0 5 [] nanStored [] =
      .ok [nanAccount "cosmos1b" "bob", nanAccount "cosmos1a" "alice"] ∧
    iterateAccounts nanOps nanConfig 0 5 [] nanStored.reverse [] =
      .ok [nanAccount "cosmos1a" "alice", nanAccount "cosmos1b" "bob"] ∧
    (assignRanking 0 (sortSliceStable (less nanOps)
        [nanAccount "cosmos1b" "bob", nanAccount "cosmos1a" "alice"])).map
      (fun a => (a.Address, a.Ranking)) = [("cosmos1b", 1), ("cosmos1a", 2)] ∧
    (assignRanking 0 (sortSliceStable (less nanOps)
        [nanAccount "cosmos1a" "alice", nanAccount "cosmos1b" "bob"])).map
      (fun a => (a.Address, a.Ranking)) = [("cosmos1a", 1), ("cosmos1b", 2)] ∧
    less nanOps (nanAccount "cosmos1b" "bob") (nanAccount "cosmos1a" "alice") = false ∧
    less nanOps (nanAccount "cosmos1a" "alice") (nanAccount "cosmos1b" "bob") = false := by
  refine ⟨?_, ?_, by decide, by decide, by decide, by decide⟩
  · simp [iterateAccounts, scoreAccount, TradingScore, tradingValue, ActionScore,
      nanConfig, nanStored, nanStoredAccount, nanAccount, exampleThreePools, lookup, store, getInt,
      nanOps, ExtRat.add, ExtRat.neg, ExtRat.mul, ExtRat.div, util.MinInt,
      schema.Account.Coins, schema.Account.DepositStatus, schema.Account.SwapStatus,
      schema.AccountActionStatus.NumDifferentPools,
      schema.AccountActionStatus.NumDifferentPoolsByDate, wrapInt64]
  · simp [iterateAccounts, scoreAccount, TradingScore, tradingValue, ActionScore,
      nanConfig, nanStored, nanStoredAccount, nanAccount, exampleThreePools, lookup, store, getInt,
      nanOps, ExtRat.add, ExtRat.neg, ExtRat.mul, ExtRat.div, util.MinInt,
      schema.Account.Coins, schema.Account.DepositStatus, schema.Account.SwapStatus,
      schema.AccountActionStatus.NumDifferentPools,
      schema.AccountActionStatus.NumDifferentPoolsByDate, wrapInt64]

end score

namespace score

open GoMap

variable {F : Type}

/-! ## Action score -/

theorem lookup_foldl_store_length (m : List (String × schema.CountByPoolID))
    (h : GoMap.WF m) (init : List (String × Int)) (d : String) :
    lookup (m.foldl (fun acc e => store acc e.1 (e.2.length : Int)) init) d =
      match lookup m d with
      | some c => some (c.length : Int)
      | none => lookup init d := by
  induction m generalizing init with
  | nil => simp [lookup]
  | cons e m ih =>
    obtain ⟨a, c⟩ := e
    have hnd : a ∉ keys m ∧ GoMap.WF m := by
      simpa [GoMap.WF, keys] using h
    rw [List.foldl_cons, ih hnd.2]
    by_cases had : a = d
    · subst had
      have hnone : lookup m a = none := (lookup_eq_none_iff m a).2 hnd.1
      simp [lookup, hnone, lookup_store]
    · simp only [lookup, had, if_false, lookup_store]

theorem getInt_NumDifferentPoolsByDate (s : schema.AccountActionStatus)
    (h : schema.AccountActionStatus.WF s) (d : String) :
    getInt s.NumDifferentPoolsByDate d = numPoolsOn s d := by
  unfold getInt schema.AccountActionStatus.NumDifferentPoolsByDate numPoolsOn getMap
  rw [lookup_foldl_store_length _ h.2.1]
  cases lookup s.CountByPoolIDByDate d <;> simp [lookup, keys]

theorem MinInt_eq_min (a b : Int) : util.MinInt a b = min a b := by
  unfold util.MinInt
  split
  · rename_i h; exact (min_eq_left (le_of_lt h)).symm
  · rename_i h; exact (min_eq_right (not_lt.1 h)).symm

theorem foldl_add_ofInt (f g : String → Int) (ds : List String) (z : Int) :
    ds.foldl (fun score k => ratOps.add (ratOps.add score (ratOps.ofInt (f k)))
        (ratOps.ofInt (g k))) (z : ℚ) =
      ((z + (ds.map (fun d => f d + g d)).sum : Int) : ℚ) := by
  induction ds generalizing z with
  | nil => simp
  | cons d ds ih =>
    have := ih (z + f d + g d)
    simp only [List.foldl_cons, List.map_cons, List.sum_cons]
    have e : ratOps.add (ratOps.add (z : ℚ) (ratOps.ofInt (f d))) (ratOps.ofInt (g d)) =
        ((z + f d + g d : Int) : ℚ) := by
      simp [ratOps]
    rw [e, this]
    congr 1
    ring

/-- C12: in exact arithmetic, for a configuration with `MaxActionScorePerDay > 0`, a
non-empty list of trading dates, and a product `2 * MaxActionScorePerDay * |TradingDates|`
that fits the machine integer, `ActionScore` returns
`100 * (sum over the trading dates d of min(max, D[d]) + min(max, S[d])) / (2 * max * |dates|)`
with a non-zero denominator, where `D[d]` and `S[d]` are the numbers of different pools the
deposit and the swap status of the account count on date `d` (0 for an absent date or an
account without a status row). -/
theorem ActionScore_formula (cfg : Config ℚ) (acc : schema.Account)
    (hmax : 0 < cfg.MaxActionScorePerDay) (hne : cfg.TradingDates ≠ [])
    (hfit : 2 * cfg.MaxActionScorePerDay * (cfg.TradingDates.length : Int) <
      9223372036854775808)
    (hd : schema.AccountActionStatus.WF acc.DepositStatus)
    (hs : schema.AccountActionStatus.WF acc.SwapStatus) :
    (∃ isValid, ActionScore ratOps cfg acc = .ok
      (100 * (((cfg.TradingDates.map (fun d =>
          min cfg.MaxActionScorePerDay (numPoolsOn acc.DepositStatus d) +
          min cfg.MaxActionScorePerDay (numPoolsOn acc.SwapStatus d))).sum : Int) : ℚ) /
        (2 * (cfg.MaxActionScorePerDay : ℚ) * (cfg.TradingDates.length : ℚ)), isValid)) ∧
    2 * (cfg.MaxActionScorePerDay : ℚ) * (cfg.TradingDates.length : ℚ) ≠ 0 ∧
    (acc.Status = none → ∀ d, numPoolsOn acc.DepositStatus d = 0 ∧
      numPoolsOn acc.SwapStatus d = 0) := by
  have hlen : 1 ≤ (cfg.TradingDates.length : Int) := by
    have : 0 < cfg.TradingDates.length := List.length_pos.2 hne
    omega
  have h2 : 2 * cfg.MaxActionScorePerDay ≤
      2 * cfg.MaxActionScorePerDay * (cfg.TradingDates.length : Int) := by
    nlinarith
  have hw1 : wrapInt64 (2 * cfg.MaxActionScorePerDay) = 2 * cfg.MaxActionScorePerDay :=
    wrapInt64_of_range _ (by omega) (by omega)
  have hw2 : wrapInt64 (2 * cfg.MaxActionScorePerDay * (cfg.TradingDates.length : Int)) =
      2 * cfg.MaxActionScorePerDay * (cfg.TradingDates.length : Int) :=
    wrapInt64_of_range _ (by nlinarith) hfit
  have hden : 2 * (cfg.MaxActionScorePerDay : ℚ) * (cfg.TradingDates.length : ℚ) ≠ 0 := by
    have h1 : (cfg.MaxActionScorePerDay : ℚ) ≠ 0 := by
      exact_mod_cast (ne_of_gt hmax)
    have h3 : (cfg.TradingDates.length : ℚ) ≠ 0 := by
      have : cfg.TradingDates.length ≠ 0 := fun h => hne (List.length_eq_zero.1 h)
      exact_mod_cast this
    positivity
  refine ⟨⟨decide (acc.DepositStatus.NumDifferentPools ≥ 3) &&
    decide (acc.SwapStatus.NumDifferentPools ≥ 3), ?_⟩, hden, ?_⟩
  · unfold ActionScore
    simp only [hw1, hw2]
    have hz : ratOps.zero = ((0 : Int) : ℚ) := by simp [ratOps]
    rw [hz, foldl_add_ofInt]
    simp only [MinInt_eq_min, getInt_NumDifferentPoolsByDate _ hd,
      getInt_NumDifferentPoolsByDate _ hs, zero_add]
    congr 2
    simp only [ratOps]
    push_cast
    ring
  · intro hnone d
    simp [numPoolsOn, schema.Account.DepositStatus, schema.Account.SwapStatus, hnone, getMap,
      lookup, keys]

theorem ActionScore_formula_witness :
    (∃ isValid, ActionScore ratOps exampleConfig exampleAlice = .ok
      (100 * (((exampleConfig.TradingDates.map (fun d =>
          min exampleConfig.MaxActionScorePerDay (numPoolsOn exampleAlice.DepositStatus d) +
          min exampleConfig.MaxActionScorePerDay (numPoolsOn exampleAlice.SwapStatus d))).sum :
            Int) : ℚ) /
        (2 * (exampleConfig.MaxActionScorePerDay : ℚ) *
          (exampleConfig.TradingDates.length : ℚ)), isValid)) ∧
    (exampleConfig.TradingDates.map (fun d =>
          min exampleConfig.MaxActionScorePerDay (numPoolsOn exampleAlice.DepositStatus d) +
          min exampleConfig.MaxActionScorePerDay (numPoolsOn exampleAlice.SwapStatus d))).sum
      = 6 :=
  ⟨(ActionScore_formula exampleConfig exampleAlice (by decide) (by decide) (by decide)
      (by decide) (by decide)).1, by decide⟩

end score

namespace score

open GoMap

variable {F : Type}

/-! ## Validity, trading score, and the errors of the scoreboard -/

/-- C13: the `isValid` flag that `ActionScore` returns is true if and only if the deposit
status of the account counts at least 3 different pools and its swap status counts at
least 3 different pools; `ActionScore` never fails, and an account without a status row is
not valid. -/
theorem ActionScore_isValid (ops : FloatOps F) (cfg : Config F) (acc : schema.Account) :
    ∃ score isValid, ActionScore ops cfg acc = .ok (score, isValid) ∧
      (isValid = true ↔
        3 ≤ (keys acc.DepositStatus.CountByPoolID).length ∧
        3 ≤ (keys acc.SwapStatus.CountByPoolID).length) ∧
      (acc.Status = none → isValid = false) := by
  refine ⟨_, _, rfl, ?_, ?_⟩
  · simp [schema.AccountActionStatus.NumDifferentPools, keys]
  · intro h
    simp [schema.AccountActionStatus.NumDifferentPools, schema.Account.DepositStatus, h]

theorem tradingValue_error_iff (ops : FloatOps F) (priceTable : List (String × F))
    (coins : List schema.Coin) (v : F) :
    (∃ e, tradingValue ops priceTable coins v = .error e) ↔
      ∃ c ∈ coins, c.Denom ≠ "stake" ∧ lookup priceTable c.Denom = none := by
  induction coins generalizing v with
  | nil => simp [tradingValue]
  | cons c cs ih =>
    by_cases hs : c.Denom = "stake"
    · simp only [tradingValue, hs, if_true, ih, List.mem_cons, exists_eq_or_imp, ne_eq,
        not_true_eq_false, false_and, false_or]
    · cases hl : lookup priceTable c.Denom with
      | none =>
        simp only [tradingValue, hs, if_false, hl, List.mem_cons, exists_eq_or_imp, ne_eq,
          not_false_eq_true, and_self, true_or, iff_true]
        exact ⟨_, rfl⟩
      | some p =>
        simp only [tradingValue, hs, if_false, hl, ih, List.mem_cons, exists_eq_or_imp, ne_eq,
          not_false_eq_true, true_and, false_or]
        simp

theorem tradingValue_ok (ops : FloatOps F) (priceTable : List (String × F))
    (coins : List schema.Coin) (v : F)
    (h : ∀ c ∈ coins, c.Denom ≠ "stake" → lookup priceTable c.Denom ≠ none) :
    tradingValue ops priceTable coins v = .ok (valueSum ops priceTable coins v) := by
  induction coins generalizing v with
  | nil => simp [tradingValue, valueSum]
  | cons c cs ih =>
    have hcs : ∀ c ∈ cs, c.Denom ≠ "stake" → lookup priceTable c.Denom ≠ none :=
      fun c' hc' => h c' (List.mem_cons_of_mem _ hc')
    by_cases hs : c.Denom = "stake"
    · simp only [tradingValue, hs, if_true, ih _ hcs]
      simp [valueSum, hs]
    · cases hl : lookup priceTable c.Denom with
      | none => exact absurd hl (h c (List.mem_cons_self _ _) hs)
      | some p =>
        simp only [tradingValue, hs, if_false, hl, ih _ hcs]
        simp [valueSum, hs, hl]

/-- C14: `TradingScore` returns an error if and only if the account has no balance or some
coin of the balance with a denom other than `stake` has no entry in the price table;
otherwise it returns `(V - V0) / V0 * 100`, where `V` is the sum of price times amount
over the coins of the balance whose denom is not `stake` and `V0` the configured initial
balances value. -/
theorem TradingScore_error_iff (ops : FloatOps F) (cfg : Config F) (acc : schema.Account)
    (priceTable : List (String × F)) :
    ((∃ e, TradingScore ops cfg acc priceTable = .error e) ↔
      (acc.Balance = none ∨
        ∃ c ∈ acc.Coins, c.Denom ≠ "stake" ∧ lookup priceTable c.Denom = none)) ∧
    (¬ (acc.Balance = none ∨
        ∃ c ∈ acc.Coins, c.Denom ≠ "stake" ∧ lookup priceTable c.Denom = none) →
      TradingScore ops cfg acc priceTable = .ok
        (ops.mul (ops.div (ops.sub (valueSum ops priceTable acc.Coins ops.zero)
          cfg.InitialBalancesValue) cfg.InitialBalancesValue) (ops.ofInt 100))) := by
  constructor
  · unfold TradingScore
    cases hb : acc.Balance with
    | none => simp
    | some b =>
      simp only [reduceCtorEq, false_or]
      rw [← tradingValue_error_iff ops priceTable acc.Coins ops.zero]
      cases tradingValue ops priceTable acc.Coins ops.zero <;> simp
  · intro h
    rw [not_or] at h
    obtain ⟨hb, hc⟩ := h
    unfold TradingScore
    cases hbal : acc.Balance with
    | none => exact absurd hbal hb
    | some b =>
      have hall : ∀ c ∈ acc.Coins, c.Denom ≠ "stake" → lookup priceTable c.Denom ≠ none :=
        fun c hc1 hc2 hc3 => hc ⟨c, hc1, hc2, hc3⟩
      simp only [tradingValue_ok ops priceTable acc.Coins ops.zero hall]

theorem scoreAccount_cases (ops : FloatOps F) (cfg : Config F) (now blockHeight : Int)
    (priceTable : List (String × F)) (acc : schema.Account) :
    (acc.Username = "" ∧ scoreAccount ops cfg now blockHeight priceTable acc = none) ∨
    (acc.Username ≠ "" ∧ (∃ e, TradingScore ops cfg acc priceTable = .error e) ∧
      ∃ e, scoreAccount ops cfg now blockHeight priceTable acc = some (.error e)) ∨
    (acc.Username ≠ "" ∧ (¬ ∃ e, TradingScore ops cfg acc priceTable = .error e) ∧
      ∃ a, scoreAccount ops cfg now blockHeight priceTable acc = some (.ok a) ∧
        a.Address = acc.Address ∧ a.Username = acc.Username) := by
  by_cases hu : acc.Username = ""
  · exact Or.inl ⟨hu, by simp [scoreAccount, hu]⟩
  · right
    cases ht : TradingScore ops cfg acc priceTable with
    | error e =>
      exact Or.inl ⟨hu, ⟨e, rfl⟩,
        ⟨.tradingScore acc.Address e, by simp [scoreAccount, hu, ht]⟩⟩
    | ok ts =>
      refine Or.inr ⟨hu, by simp, ?_⟩
      simp only [scoreAccount, hu, if_false, ht, ActionScore]
      exact ⟨_, rfl, rfl, rfl⟩

theorem iterateAccounts_error_iff (ops : FloatOps F) (cfg : Config F) (now blockHeight : Int)
    (priceTable : List (String × F)) (stored : List schema.Account) (accs : List (Account F)) :
    (∃ e, iterateAccounts ops cfg now blockHeight priceTable stored accs = .error e) ↔
      ∃ acc ∈ stored, acc.Username ≠ "" ∧
        ∃ e, TradingScore ops cfg acc priceTable = .error e := by
  induction stored generalizing accs with
  | nil => simp [iterateAccounts]
  | cons acc rest ih =>
    simp only [List.mem_cons, exists_eq_or_imp]
    rcases scoreAccount_cases ops cfg now blockHeight priceTable acc with
      ⟨hu, hsa⟩ | ⟨hu, hts, e, hsa⟩ | ⟨hu, hts, a, hsa, _⟩
    · simp only [iterateAccounts, hsa, ih, hu, ne_eq, not_true_eq_false, false_and, false_or]
    · simp only [iterateAccounts, hsa]
      exact ⟨fun _ => Or.inl ⟨hu, hts⟩, fun _ => ⟨e, rfl⟩⟩
    · simp only [iterateAccounts, hsa, ih]
      constructor
      · exact fun h => Or.inr h
      · rintro (⟨_, h⟩ | h)
        · exact absurd h hts
        · exact h

theorem iterateAccounts_entries (ops : FloatOps F) (cfg : Config F) (now blockHeight : Int)
    (priceTable : List (String × F)) (stored : List schema.Account) (accs r : List (Account F))
    (h : iterateAccounts ops cfg now blockHeight priceTable stored accs = .ok r) :
    r.map (fun a => (a.Address, a.Username)) =
      accs.map (fun a => (a.Address, a.Username)) ++
        (stored.filter (fun acc => decide (acc.Username ≠ ""))).map
          (fun acc => (acc.Address, acc.Username)) := by
  induction stored generalizing accs with
  | nil =>
    simp only [iterateAccounts, Except.ok.injEq] at h
    simp [h]
  | cons acc rest ih =>
    rcases scoreAccount_cases ops cfg now blockHeight priceTable acc with
      ⟨hu, hsa⟩ | ⟨hu, hts, e, hsa⟩ | ⟨hu, hts, a, hsa, ha1, ha2⟩
    · simp only [iterateAccounts, hsa] at h
      rw [ih accs h]
      simp [hu]
    · simp [iterateAccounts, hsa] at h
    · simp only [iterateAccounts, hsa] at h
      rw [ih _ h]
      simp [hu, ha1, ha2]

/-- C15: a per-account error is fatal for the whole scoreboard build.  On every sequence
`stored` of iterated accounts, `Scoreboard` returns an error, and no account list, if and
only if some account with a non-empty username has a failing `TradingScore`; otherwise it
returns a list with exactly one entry per iterated account with a non-empty username.
Accounts with an empty username are not scored, cannot make the build fail and do not
appear.  Errors of the store itself are outside the model. -/
theorem Scoreboard_error_fatal [LinearOrder F] (ops : FloatOps F) (cfg : Config F) (now : Int)
    (stored : List schema.Account) (blockHeight : Int) (priceTable : List (String × F)) :
    ((∃ e, Scoreboard ops cfg now stored blockHeight priceTable = .error e) ↔
      ∃ acc ∈ stored, acc.Username ≠ "" ∧
        ∃ e, TradingScore ops cfg acc priceTable = .error e) ∧
    ((¬ ∃ acc ∈ stored, acc.Username ≠ "" ∧
        ∃ e, TradingScore ops cfg acc priceTable = .error e) →
      ∃ board, Scoreboard ops cfg now stored blockHeight priceTable = .ok board ∧
        (board.map (fun a => (a.Address, a.Username))).Perm
          ((stored.filter (fun acc => decide (acc.Username ≠ ""))).map
            (fun acc => (acc.Address, acc.Username)))) := by
  have herr := iterateAccounts_error_iff ops cfg now blockHeight priceTable stored []
  constructor
  · rw [← herr]
    unfold Scoreboard
    cases iterateAccounts ops cfg now blockHeight priceTable stored [] <;> simp
  · intro hno
    rw [← herr] at hno
    unfold Scoreboard
    cases hi : iterateAccounts ops cfg now blockHeight priceTable stored [] with
    | error e => exact absurd ⟨e, hi⟩ hno
    | ok accs =>
      refine ⟨_, rfl, ?_⟩
      have hent := iterateAccounts_entries ops cfg now blockHeight priceTable stored [] accs hi
      simp only [List.map_nil, List.nil_append] at hent
      rw [← hent]
      have hmap : (assignRanking 0 (sortSliceStable (less ops) accs)).map
          (fun a => (a.Address, a.Username)) =
          (sortSliceStable (less ops) accs).map (fun a => (a.Address, a.Username)) := by
        generalize sortSliceStable (less ops) accs = l
        generalize 0 = i
        induction l generalizing i with
        | nil => rfl
        | cons a l ih => simp [assignRanking, ih]
      rw [hmap]
      exact (sortSliceStable_perm (less ops) accs).map _

end score

namespace accumulator

open GoMap

/-! ## Accumulator: the swap counters -/

theorem findPool_setPool (data : Data) (bucketKey : String) (poolID : Nat) (p : PoolData)
    (key : String) (id : Nat) :
    (data.setPool bucketKey poolID p).findPool key id =
      if bucketKey = key ∧ poolID = id then some p else data.findPool key id := by
  unfold Data.setPool Data.findPool Data.TimeBucket DataTimeBucket.Pool
  cases hb : lookup data.TimeBuckets bucketKey with
  | none =>
    by_cases hk : bucketKey = key
    · subst hk
      by_cases hi : poolID = id
      · simp [lookup_store, hb, hi, NewDataTimeBucket, lookup]
      · simp [lookup_store, hb, hi, NewDataTimeBucket, lookup]
    · simp [lookup_store, hb, hk]
  | some b =>
    by_cases hk : bucketKey = key
    · subst hk
      cases hp : lookup b.Pools poolID with
      | none =>
        by_cases hi : poolID = id
        · simp [lookup_store, hb, hp, hi]
        · simp [lookup_store, hb, hp, hi]
      | some q =>
        by_cases hi : poolID = id
        · simp [lookup_store, hb, hp, hi]
        · simp [lookup_store, hb, hp, hi]
    · simp [lookup_store, hb, hk]

theorem poolData_eq (data : Data) (bucketKey : String) (poolID : Nat) :
    ((data.TimeBucket bucketKey).2.Pool poolID).2 = data.poolData bucketKey poolID := by
  unfold Data.poolData Data.findPool Data.TimeBucket DataTimeBucket.Pool
  cases hb : lookup data.TimeBuckets bucketKey with
  | none => simp [NewDataTimeBucket, lookup]
  | some b => cases hp : lookup b.Pools poolID <;> simp [hp]

/-- C17: for every data, bucket key, pool id, offer coin and demand coin whose amounts fit
64 bits, with the two swap counters of the pool below the largest machine integer,
`Data.SwapCoin` increases exactly one of the two swap counters of the pool by 1 and leaves
the other unchanged: `NumSwapsXToY` when `offerCoin.Denom < demandCoin.Denom`,
`NumSwapsYToX` otherwise.  The deposit and withdrawal counters and coins of that pool and
the data of every other bucket and pool are unchanged. -/
theorem SwapCoin_counts (data : Data) (bucketKey : String) (poolID : Nat)
    (offerCoin demandCoin : sdk.Coin)
    (ho : -9223372036854775808 ≤ offerCoin.Amount ∧ offerCoin.Amount < 9223372036854775808)
    (hd : -9223372036854775808 ≤ demandCoin.Amount ∧ demandCoin.Amount < 9223372036854775808)
    (hx : -9223372036854775808 ≤ (data.poolData bucketKey poolID).NumSwapsXToY ∧
      (data.poolData bucketKey poolID).NumSwapsXToY < 9223372036854775807)
    (hy : -9223372036854775808 ≤ (data.poolData bucketKey poolID).NumSwapsYToX ∧
      (data.poolData bucketKey poolID).NumSwapsYToX < 9223372036854775807) :
    ∃ data', data.SwapCoin bucketKey poolID offerCoin demandCoin = some data' ∧
      (offerCoin.Denom.data < demandCoin.Denom.data →
        (data'.poolData bucketKey poolID).NumSwapsXToY =
          (data.poolData bucketKey poolID).NumSwapsXToY + 1 ∧
        (data'.poolData bucketKey poolID).NumSwapsYToX =
          (data.poolData bucketKey poolID).NumSwapsYToX) ∧
      (¬ offerCoin.Denom.data < demandCoin.Denom.data →
        (data'.poolData bucketKey poolID).NumSwapsYToX =
          (data.poolData bucketKey poolID).NumSwapsYToX + 1 ∧
        (data'.poolData bucketKey poolID).NumSwapsXToY =
          (data.poolData bucketKey poolID).NumSwapsXToY) ∧
      (data'.poolData bucketKey poolID).NumDeposits =
        (data.poolData bucketKey poolID).NumDeposits ∧
      (data'.poolData bucketKey poolID).NumWithdrawals =
        (data.poolData bucketKey poolID).NumWithdrawals ∧
      (data'.poolData bucketKey poolID).CoinsDeposited =
        (data.poolData bucketKey poolID).CoinsDeposited ∧
      (data'.poolData bucketKey poolID).CoinsWithdrawn =
        (data.poolData bucketKey poolID).CoinsWithdrawn ∧
      (∀ key id, ¬ (key = bucketKey ∧ id = poolID) →
        data'.findPool key id = data.findPool key id) := by
  have hox : sdk.Int64 offerCoin.Amount = some offerCoin.Amount := by
    unfold sdk.Int64; rw [if_pos ho]
  have hdx : sdk.Int64 demandCoin.Amount = some demandCoin.Amount := by
    unfold sdk.Int64; rw [if_pos hd]
  have hwx := wrapInt64_of_range ((data.poolData bucketKey poolID).NumSwapsXToY + 1)
    (by omega) (by omega)
  have hwy := wrapInt64_of_range ((data.poolData bucketKey poolID).NumSwapsYToX + 1)
    (by omega) (by omega)
  unfold Data.SwapCoin
  simp only [hox, hdx, poolData_eq]
  refine ⟨_, rfl, ?_, ?_, ?_, ?_, ?_, ?_, ?_⟩
  · intro hlt
    have hs : stringLess offerCoin.Denom demandCoin.Denom = true := by
      simp [stringLess, hlt]
    simp only [Data.poolData] at hwx
    simp [Data.poolData, findPool_setPool, hs, hwx]
  · intro hlt
    have hs : stringLess offerCoin.Denom demandCoin.Denom = false := by
      simp [stringLess, hlt]
    simp only [Data.poolData] at hwy
    simp [Data.poolData, findPool_setPool, hs, hwy]
  · simp only [Data.poolData, findPool_setPool, and_self, if_true, Option.getD_some]
    split <;> rfl
  · simp only [Data.poolData, findPool_setPool, and_self, if_true, Option.getD_some]
    split <;> rfl
  · simp only [Data.poolData, findPool_setPool, and_self, if_true, Option.getD_some]
    split <;> rfl
  · simp only [Data.poolData, findPool_setPool, and_self, if_true, Option.getD_some]
    split <;> rfl
  · intro key id hne
    rw [findPool_setPool]
    rw [if_neg]
    rintro ⟨h1, h2⟩
    exact hne ⟨h1.symm, h2.symm⟩

theorem SwapCoin_counts_witness :
    ∃ data', (Data.mk [("2021-05-04T10:00:00", ⟨[(1, NewPoolData)]⟩)] 3600000000000).SwapCoin
        "2021-05-04T10:00:00" 1 ⟨"atom", 5⟩ ⟨"usd", 100⟩ = some data' ∧
      (data'.poolData "2021-05-04T10:00:00" 1).NumSwapsXToY = 1 ∧
      (data'.poolData "2021-05-04T10:00:00" 1).NumSwapsYToX = 0 := by
  obtain ⟨data', h, hlt, _⟩ := SwapCoin_counts
    (Data.mk [("2021-05-04T10:00:00", ⟨[(1, NewPoolData)]⟩)] 3600000000000)
    "2021-05-04T10:00:00" 1 ⟨"atom", 5⟩ ⟨"usd", 100⟩ (by decide) (by decide) (by decide)
    (by decide)
  exact ⟨data', h, hlt (by decide)⟩

end accumulator

/-! ## The SDK decimals: quotient and product of an integer amount and a price -/

namespace sdk

theorem ediv_ediv_pos (m n k : Int) (hn : 0 < n) (hk : 0 < k) : m / n / k = m / (n * k) := by
  have hnk : 0 < n * k := Int.mul_pos hn hk
  apply le_antisymm
  · rw [Int.le_ediv_iff_mul_le hnk]
    have h1 : m / n / k * k ≤ m / n := Int.ediv_mul_le _ (ne_of_gt hk)
    have h2 : m / n * n ≤ m := Int.ediv_mul_le _ (ne_of_gt hn)
    calc m / n / k * (n * k) = (m / n / k * k) * n := by ring
      _ ≤ (m / n) * n := Int.mul_le_mul_of_nonneg_right h1 (le_of_lt hn)
      _ ≤ m := h2
  · rw [Int.le_ediv_iff_mul_le hk, Int.le_ediv_iff_mul_le hn]
    have h1 : m / (n * k) * (n * k) ≤ m := Int.ediv_mul_le _ (ne_of_gt hnk)
    calc m / (n * k) * k * n = m / (n * k) * (n * k) := by ring
      _ ≤ m := h1

theorem chopPrecisionAndRound_nonneg (d : Int) (h : 0 ≤ d) :
    chopPrecisionAndRound d = chopPrecisionAndRoundAbs d := by
  unfold chopPrecisionAndRound
  rw [if_neg (not_lt.2 h)]

theorem chopPrecisionAndRoundAbs_div (d : Int) (h : 0 ≤ d) :
    0 ≤ chopPrecisionAndRoundAbs d ∧
    chopPrecisionAndRoundAbs d / 1000000000000000000 =
      (d + 500000000000000000) / 1000000000000000000000000000000000000 := by
  unfold chopPrecisionAndRoundAbs precisionReuse fivePrecision
  rw [Int.tdiv_eq_ediv h (by decide), Int.tmod_eq_emod h (by decide)]
  simp only
  split_ifs <;> omega

theorem chopPrecisionAndRoundAbs_mul (n : Int) (h : 0 ≤ n) :
    chopPrecisionAndRoundAbs (n * 1000000000000000000) = n := by
  have h0 : 0 ≤ n * 1000000000000000000 := by omega
  unfold chopPrecisionAndRoundAbs precisionReuse fivePrecision
  rw [Int.tdiv_eq_ediv h0 (by decide), Int.tmod_eq_emod h0 (by decide)]
  simp only
  split_ifs <;> omega

/-- The quotient of the rounding, in closed form. -/
theorem quoRounded_eq (a P : Int) (hP : 0 < P) :
    (a * 1000000000000000000 * 1000000000000000000 * 1000000000000000000 / P +
        500000000000000000) / 1000000000000000000000000000000000000 = quoRounded a P := by
  unfold quoRounded precisionReuse
  have e1 : a * 1000000000000000000 * 1000000000000000000 * 1000000000000000000 / P +
      500000000000000000 =
      (a * 1000000000000000000 * 1000000000000000000 * 1000000000000000000 +
        500000000000000000 * P) / P := by
    rw [Int.add_mul_ediv_right _ _ (ne_of_gt hP)]
  rw [e1, ediv_ediv_pos _ _ _ hP (by decide)]
  have e2 : (2 * a * 1000000000000000000 * 1000000000000000000 + P) /
      (2 * 1000000000000000000 * P) =
      (500000000000000000 * (2 * a * 1000000000000000000 * 1000000000000000000 + P)) /
        (500000000000000000 * (2 * 1000000000000000000 * P)) := by
    rw [Int.mul_ediv_mul_of_pos _ _ (by decide)]
  rw [e2]
  congr 1 <;> ring

theorem Quo_TruncateInt (a P : Int) (ha : 0 ≤ a) (hP : 0 < P)
    (hfit : quoRounded a P < 57896044618658097711785492504343953926634992332820282019728792003956564819968) :
    (Quo (ToDec a) P).bind TruncateInt = some (quoRounded a P) := by
  have hN : 0 ≤ a * 1000000000000000000 * 1000000000000000000 * 1000000000000000000 := by
    positivity
  have hq : 0 ≤ a * 1000000000000000000 * 1000000000000000000 * 1000000000000000000 / P :=
    Int.ediv_nonneg hN (le_of_lt hP)
  obtain ⟨hc0, hcd⟩ := chopPrecisionAndRoundAbs_div _ hq
  rw [quoRounded_eq a P hP] at hcd
  unfold Quo ToDec precisionReuse
  rw [if_neg (ne_of_gt hP)]
  simp only [Int.tdiv_eq_ediv hN (le_of_lt hP), chopPrecisionAndRound_nonneg _ hq]
  generalize chopPrecisionAndRoundAbs
    (a * 1000000000000000000 * 1000000000000000000 * 1000000000000000000 / P) = c at hc0 hcd
  generalize quoRounded a P = r at hfit hcd
  have h1 : ¬ maxDec ≤ c.natAbs := by unfold maxDec; omega
  rw [if_neg h1]
  simp only [Option.some_bind, TruncateInt, precisionReuse]
  rw [Int.tdiv_eq_ediv hc0 (by decide), hcd]
  have h2 : ¬ maxInt ≤ r.natAbs := by unfold maxInt; omega
  rw [if_neg h2]

theorem Mul_TruncateInt (a P : Int) (ha : 0 ≤ a) (hP : 0 < P)
    (hfit : Int.tdiv (a * P) precisionReuse <
      57896044618658097711785492504343953926634992332820282019728792003956564819968) :
    (Mul (ToDec a) P).bind TruncateInt = some (Int.tdiv (a * P) precisionReuse) := by
  have haP : 0 ≤ a * P := Int.mul_nonneg ha (le_of_lt hP)
  have e : a * precisionReuse * P = a * P * 1000000000000000000 := by
    unfold precisionReuse; ring
  unfold Mul ToDec
  rw [e, chopPrecisionAndRound_nonneg _ (by omega), chopPrecisionAndRoundAbs_mul _ haP]
  unfold precisionReuse at hfit ⊢
  rw [Int.tdiv_eq_ediv haP (by decide)] at hfit
  generalize a * P = n at haP hfit
  have h1 : ¬ maxDec ≤ n.natAbs := by unfold maxDec; omega
  rw [if_neg h1]
  simp only [Option.some_bind, TruncateInt, precisionReuse]
  rw [Int.tdiv_eq_ediv haP (by decide)]
  have h2 : ¬ maxInt ≤ (n / 1000000000000000000).natAbs := by unfold maxInt; omega
  rw [if_neg h2]

theorem NewCoin_valid (lib : Lib) (denom : String) (amount : Int)
    (hv : lib.ValidDenom denom = true) (ha : 0 ≤ amount) :
    NewCoin lib denom amount = some { Denom := denom, Amount := amount } := by
  unfold NewCoin
  rw [if_pos ⟨hv, ha⟩]

theorem NewCoin_some (lib : Lib) (denom : String) (amount : Int) (c : Coin)
    (h : NewCoin lib denom amount = some c) :
    c = { Denom := denom, Amount := amount } ∧ lib.ValidDenom denom = true ∧ 0 ≤ amount := by
  unfold NewCoin at h
  split at h
  · rename_i hc
    simp only [Option.some.injEq] at h
    exact ⟨h.symm, hc.1, hc.2⟩
  · cases h

theorem demandAmount_nonneg (o d : String) (a P : Int) (ha : 0 ≤ a) (hP : 0 < P) :
    0 ≤ demandAmount o d a P := by
  unfold demandAmount quoRounded precisionReuse
  split
  · apply Int.ediv_nonneg
    · positivity
    · positivity
  · rw [Int.tdiv_eq_ediv (Int.mul_nonneg ha (le_of_lt hP)) (by decide)]
    exact Int.ediv_nonneg (Int.mul_nonneg ha (le_of_lt hP)) (by decide)

/-- The amount of the code lies at most one above the truncated amount of the
specification, and is equal to it for the product. -/
theorem demandAmount_bounds (o d : String) (a P : Int) (ha : 0 ≤ a) (hP : 0 < P) :
    specDemandAmount o d a P ≤ demandAmount o d a P ∧
    demandAmount o d a P ≤ specDemandAmount o d a P + 1 ∧
    (stringLess o d = false → demandAmount o d a P = specDemandAmount o d a P) := by
  unfold demandAmount specDemandAmount
  cases stringLess o d with
  | false => simp
  | true =>
    simp only [if_true, Bool.true_eq_false, false_implies, and_true]
    unfold quoRounded precisionReuse
    have hD : 0 < 2 * 1000000000000000000 * P := by positivity
    rw [Int.tdiv_eq_ediv (by positivity) (le_of_lt hP)]
    have e : a * 1000000000000000000 / P =
        (2 * 1000000000000000000 * (a * 1000000000000000000)) /
          (2 * 1000000000000000000 * P) := by
      rw [Int.mul_ediv_mul_of_pos _ _ (by decide)]
    rw [e]
    constructor
    · apply Int.ediv_le_ediv hD
      nlinarith
    · have e2 : (2 * 1000000000000000000 * (a * 1000000000000000000)) /
          (2 * 1000000000000000000 * P) + 1 =
          (2 * 1000000000000000000 * (a * 1000000000000000000) +
            1 * (2 * 1000000000000000000 * P)) / (2 * 1000000000000000000 * P) := by
        rw [Int.add_mul_ediv_right _ _ (ne_of_gt hD)]
      rw [e2]
      apply Int.ediv_le_ediv hD
      nlinarith

end sdk

/-! ## Swap events: the demand coin -/

namespace accumulator

open GoMap

theorem find_opposite (dA dB o : String) (hne : dA ≠ dB) (ho : o = dA ∨ o = dB) :
    [dA, dB].find? (fun d => decide (d ≠ o)) = some (if o = dA then dB else dA) := by
  rcases ho with rfl | rfl
  · have h : ¬ dB = o := fun h => hne h.symm
    simp [List.find?, h]
  · have h : ¬ o = dA := fun h => hne h.symm
    simp [List.find?, hne, h]

theorem demandCoin_eq (lib : Lib) (o d : String) (a P : Int) (ha : 0 ≤ a) (hP : 0 < P)
    (hv : lib.ValidDenom d = true)
    (hfit : sdk.demandAmount o d a P <
      57896044618658097711785492504343953926634992332820282019728792003956564819968) :
    demandCoin lib { Denom := o, Amount := a } d P =
      some { Denom := d, Amount := sdk.demandAmount o d a P } := by
  have hnn := sdk.demandAmount_nonneg o d a P ha hP
  unfold demandCoin
  unfold sdk.demandAmount at hfit hnn ⊢
  cases hs : stringLess o d with
  | true =>
    simp only [hs, if_true] at hfit hnn ⊢
    rw [← Option.bind_assoc, sdk.Quo_TruncateInt a P ha hP hfit]
    exact sdk.NewCoin_valid lib d _ hv hnn
  | false =>
    simp only [hs, Bool.false_eq_true, if_false] at hfit hnn ⊢
    rw [← Option.bind_assoc, sdk.Mul_TruncateInt a P ha hP hfit]
    exact sdk.NewCoin_valid lib d _ hv hnn

theorem ExchangedOfferCoin_ok (lib : Lib) (attrs : EventAttributes) (c : sdk.Coin)
    (h : attrs.ExchangedOfferCoin lib = some (.ok c)) : 0 ≤ c.Amount := by
  unfold EventAttributes.ExchangedOfferCoin at h
  split at h
  · cases h
  · split at h
    · cases h
    · split at h
      · cases h
      · split at h
        · cases h
        · rename_i c' hc
          simp only [Option.some.injEq, Except.ok.injEq] at h
          subst h
          obtain ⟨rfl, _, hnn⟩ := sdk.NewCoin_some _ _ _ _ hc
          exact hnn

end accumulator

namespace transformer

theorem demandCoinFee_eq (lib : Lib) (o d : String) (a P : Int) (ha : 0 ≤ a) (hP : 0 < P)
    (hv : lib.ValidDenom d = true)
    (hfit : sdk.demandAmount o d a P <
      57896044618658097711785492504343953926634992332820282019728792003956564819968) :
    demandCoinFee lib { Denom := o, Amount := a } d P =
      some { Denom := d, Amount := sdk.demandAmount o d a P } :=
  accumulator.demandCoin_eq lib o d a P ha hP hv hfit

end transformer

namespace accumulator

open GoMap

/-- C16, as the code has it: for a swap event on a pool with the two reserve denoms `dA` and
`dB`, an offer coin of the denom `o` of the pool with the amount `a`, and a swap price
`p > 0` of `P` units of `10^-18`, `NewSwapEvent` returns the event whose demand denom is the
other reserve denom of the pool and whose demand amount is `a / p` rounded to 18 decimals
half to even and then cut off (the integer part of `a / p + 5 * 10^-19`) when `o` is
smaller than the demand denom, and `a * p` cut off otherwise.  That amount is the amount
truncated toward zero or one more, and the truncated amount for the product.  The
transformer computes the demand-side fee from the offer coin fee amount by the same rule.
The demand amount is assumed to have at most 255 bits. -/
theorem NewSwapEvent_demand (lib : Lib) (event : Event)
    (poolByID : List (Nat × liquiditytypes.Pool)) (poolID : Nat) (addr o dA dB : String)
    (a P : Int) (pool : liquiditytypes.Pool)
    (hid : (EventAttributesFromEvent event).PoolID lib = .ok poolID)
    (haddr : (EventAttributesFromEvent event).SwapRequesterAddress = .ok addr)
    (hoffer : (EventAttributesFromEvent event).ExchangedOfferCoin lib =
      some (.ok { Denom := o, Amount := a }))
    (hpool : lookup poolByID poolID = some pool)
    (hden : pool.ReserveCoinDenoms = [dA, dB]) (hne : dA ≠ dB) (ho : o = dA ∨ o = dB)
    (hvA : lib.ValidDenom dA = true) (hvB : lib.ValidDenom dB = true)
    (hprice : (EventAttributesFromEvent event).SwapPrice lib = .ok P) (hP : 0 < P)
    (hfit : sdk.demandAmount o (if o = dA then dB else dA) a P <
      57896044618658097711785492504343953926634992332820282019728792003956564819968) :
    NewSwapEvent lib event poolByID = some (.ok
      { PoolID := poolID
        SwapRequesterAddress := addr
        ExchangedOfferCoin := { Denom := o, Amount := a }
        ExchangedDemandCoin :=
          { Denom := if o = dA then dB else dA
            Amount := sdk.demandAmount o (if o = dA then dB else dA) a P } }) ∧
    sdk.specDemandAmount o (if o = dA then dB else dA) a P ≤
      sdk.demandAmount o (if o = dA then dB else dA) a P ∧
    sdk.demandAmount o (if o = dA then dB else dA) a P ≤
      sdk.specDemandAmount o (if o = dA then dB else dA) a P + 1 ∧
    (stringLess o (if o = dA then dB else dA) = false →
      sdk.demandAmount o (if o = dA then dB else dA) a P =
        sdk.specDemandAmount o (if o = dA then dB else dA) a P) ∧
    (∀ fee : Int, 0 ≤ fee →
      sdk.demandAmount o (if o = dA then dB else dA) fee P <
        57896044618658097711785492504343953926634992332820282019728792003956564819968 →
      transformer.oppositeReserveCoinDenom pool o = some (if o = dA then dB else dA) ∧
      transformer.demandCoinFee lib { Denom := o, Amount := fee }
          (if o = dA then dB else dA) P =
        some { Denom := if o = dA then dB else dA
               Amount := sdk.demandAmount o (if o = dA then dB else dA) fee P }) := by
  have ha : 0 ≤ a := ExchangedOfferCoin_ok lib _ _ hoffer
  have hv : lib.ValidDenom (if o = dA then dB else dA) = true := by
    split
    · exact hvB
    · exact hvA
  have hopp : OppositeReserveCoinDenom pool o = some (if o = dA then dB else dA) := by
    unfold OppositeReserveCoinDenom
    rw [hden]
    exact find_opposite dA dB o hne ho
  have hb := sdk.demandAmount_bounds o (if o = dA then dB else dA) a P ha hP
  refine ⟨?_, hb.1, hb.2.1, hb.2.2, ?_⟩
  · unfold NewSwapEvent
    simp only [hid, haddr, hoffer, hpool, hopp, hprice,
      demandCoin_eq lib o _ a P ha hP hv hfit]
  · intro fee hfee hfeefit
    refine ⟨?_, transformer.demandCoinFee_eq lib o _ fee P hfee hP hv hfeefit⟩
    unfold transformer.oppositeReserveCoinDenom
    rw [hden]
    exact find_opposite dA dB o hne ho

theorem NewSwapEvent_demand_witness :
    NewSwapEvent exampleLib
        { Type_ := "swap_transacted"
          Attributes := [("pool_id", "1"), ("swap_requester", "cosmos1x"),
            ("offer_coin_denom", "usd"), ("exchanged_offer_coin_amount", "7"),
            ("swap_price", "0.5")] }
        [(1, examplePool)] =
      some (.ok
        { PoolID := 1, SwapRequesterAddress := "cosmos1x"
          ExchangedOfferCoin := { Denom := "usd", Amount := 7 }
          ExchangedDemandCoin := { Denom := "atom", Amount := 3 } }) :=
  (NewSwapEvent_demand exampleLib
    { Type_ := "swap_transacted"
      Attributes := [("pool_id", "1"), ("swap_requester", "cosmos1x"),
        ("offer_coin_denom", "usd"), ("exchanged_offer_coin_amount", "7"),
        ("swap_price", "0.5")] }
    [(1, examplePool)] 1 "cosmos1x" "usd" "atom" "usd" 7 500000000000000000 examplePool
    (by rfl) (by rfl) (by rfl) (by rfl) (by rfl) (by decide) (by decide) (by rfl) (by rfl)
    (by rfl) (by decide) (by decide)).1

/-- The amount of the code is not always the truncated quotient: a swap of 2 atom at the
price 2.000000000000000001 yields the demand amount 1, while 2 / 2.000000000000000001
truncated toward zero is 0. -/
theorem NewSwapEvent_demand_not_truncated :
    NewSwapEvent exampleLib exampleSwap [(1, examplePool)] =
      some (.ok
        { PoolID := 1, SwapRequesterAddress := "cosmos1x"
          ExchangedOfferCoin := { Denom := "atom", Amount := 2 }
          ExchangedDemandCoin := { Denom := "usd", Amount := 1 } }) ∧
    stringLess "atom" "usd" = true ∧
    exampleLib.NewDecFromStr "2.000000000000000001" = some 2000000000000000001 ∧
    sdk.specDemandAmount "atom" "usd" 2 2000000000000000001 = 0 :=
  ⟨by rfl, by decide, by decide, by decide⟩

end accumulator

/-! ## Swap events: the attributes that are read -/

namespace accumulator

open GoMap

theorem Attr_none (attrs : EventAttributes) (key : String) (h : lookup attrs key = none) :
    attrs.Attr key = .error (.attrNotFound key) := by
  unfold EventAttributes.Attr
  rw [h]

theorem Attr_some (attrs : EventAttributes) (key v : String) (h : lookup attrs key = some v) :
    attrs.Attr key = .ok v := by
  unfold EventAttributes.Attr
  rw [h]

theorem Attr_congr (attrs attrs' : EventAttributes) (key : String)
    (h : lookup attrs' key = lookup attrs key) : attrs'.Attr key = attrs.Attr key := by
  unfold EventAttributes.Attr
  rw [h]

theorem PoolID_ok (lib : Lib) (attrs : EventAttributes) (id : Nat)
    (h : attrs.PoolID lib = .ok id) : lookup attrs "pool_id" ≠ none := by
  intro hn
  simp [EventAttributes.PoolID, liquiditytypes.AttributeValuePoolId, Attr_none _ _ hn] at h

theorem SwapRequesterAddress_ok (attrs : EventAttributes) (addr : String)
    (h : attrs.SwapRequesterAddress = .ok addr) : lookup attrs "swap_requester" ≠ none := by
  intro hn
  simp [EventAttributes.SwapRequesterAddress, liquiditytypes.AttributeValueSwapRequester,
    Attr_none _ _ hn] at h

theorem ExchangedOfferCoin_keys (lib : Lib) (attrs : EventAttributes) (c : sdk.Coin)
    (h : attrs.ExchangedOfferCoin lib = some (.ok c)) :
    lookup attrs "offer_coin_denom" ≠ none ∧
      lookup attrs "exchanged_offer_coin_amount" ≠ none := by
  constructor
  · intro hn
    simp [EventAttributes.ExchangedOfferCoin, liquiditytypes.AttributeValueOfferCoinDenom,
      Attr_none _ _ hn] at h
  · intro hn
    cases hd : lookup attrs "offer_coin_denom" with
    | none =>
      simp [EventAttributes.ExchangedOfferCoin, liquiditytypes.AttributeValueOfferCoinDenom,
        Attr_none _ _ hd] at h
    | some d =>
      simp [EventAttributes.ExchangedOfferCoin, liquiditytypes.AttributeValueOfferCoinDenom,
        liquiditytypes.AttributeValueExchangedOfferCoinAmount, Attr_some _ _ _ hd,
        Attr_none _ _ hn] at h

theorem SwapPrice_ok (lib : Lib) (attrs : EventAttributes) (p : Int)
    (h : attrs.SwapPrice lib = .ok p) : lookup attrs "swap_price" ≠ none := by
  intro hn
  simp [EventAttributes.SwapPrice, liquiditytypes.AttributeValueSwapPrice,
    Attr_none _ _ hn] at h

/-- An event that `NewSwapEvent` accepts passes the four reads of its attributes. -/
theorem NewSwapEvent_ok_inv (lib : Lib) (event : Event)
    (poolByID : List (Nat × liquiditytypes.Pool)) (ev : SwapEvent)
    (h : NewSwapEvent lib event poolByID = some (.ok ev)) :
    ∃ poolID addr offerCoin swapPrice,
      (EventAttributesFromEvent event).PoolID lib = .ok poolID ∧
      (EventAttributesFromEvent event).SwapRequesterAddress = .ok addr ∧
      (EventAttributesFromEvent event).ExchangedOfferCoin lib = some (.ok offerCoin) ∧
      (EventAttributesFromEvent event).SwapPrice lib = .ok swapPrice := by
  unfold NewSwapEvent at h
  simp only at h
  cases h1 : (EventAttributesFromEvent event).PoolID lib with
  | error e => simp [h1] at h
  | ok poolID =>
    cases h2 : (EventAttributesFromEvent event).SwapRequesterAddress with
    | error e => simp [h1, h2] at h
    | ok addr =>
      cases h3 : (EventAttributesFromEvent event).ExchangedOfferCoin lib with
      | none => simp [h1, h2, h3] at h
      | some r =>
        cases r with
        | error e => simp [h1, h2, h3] at h
        | ok offerCoin =>
          cases h4 : (EventAttributesFromEvent event).SwapPrice lib with
          | error e =>
            simp only [h1, h2, h3, h4] at h
            split at h
            · simp at h
            · split at h <;> simp at h
          | ok swapPrice => exact ⟨poolID, addr, offerCoin, swapPrice, rfl, rfl, rfl, rfl⟩

/-- C18, as the code has it: `NewSwapEvent` reads the five attributes `pool_id`,
`swap_requester`, `offer_coin_denom`, `exchanged_offer_coin_amount` and `swap_price`.  An
event that lacks one of them yields no typed event, and the error is the
missing-attribute error of the first read that fails when the reads before it succeed.
The attributes `offer_coin_fee_amount` and `demand_coin_denom` are not read: two events
with the same values of the five attributes get the same result. -/
theorem NewSwapEvent_required_keys (lib : Lib) (event : Event)
    (poolByID : List (Nat × liquiditytypes.Pool)) :
    (∀ key ∈ ["pool_id", "swap_requester", "offer_coin_denom", "exchanged_offer_coin_amount",
        "swap_price"],
      lookup (EventAttributesFromEvent event) key = none →
        ∀ ev, NewSwapEvent lib event poolByID ≠ some (.ok ev)) ∧
    (lookup (EventAttributesFromEvent event) "pool_id" = none →
      NewSwapEvent lib event poolByID = some (.error (.attrNotFound "pool_id"))) ∧
    (∀ poolID, (EventAttributesFromEvent event).PoolID lib = .ok poolID →
      lookup (EventAttributesFromEvent event) "swap_requester" = none →
      NewSwapEvent lib event poolByID = some (.error (.attrNotFound "swap_requester"))) ∧
    (∀ poolID addr, (EventAttributesFromEvent event).PoolID lib = .ok poolID →
      (EventAttributesFromEvent event).SwapRequesterAddress = .ok addr →
      (lookup (EventAttributesFromEvent event) "offer_coin_denom" = none →
        NewSwapEvent lib event poolByID = some (.error (.attrNotFound "offer_coin_denom"))) ∧
      (lookup (EventAttributesFromEvent event) "offer_coin_denom" ≠ none →
        lookup (EventAttributesFromEvent event) "exchanged_offer_coin_amount" = none →
        NewSwapEvent lib event poolByID =
          some (.error (.attrNotFound "exchanged_offer_coin_amount")))) ∧
    (∀ poolID addr offerCoin pool demandCoinDenom,
      (EventAttributesFromEvent event).PoolID lib = .ok poolID →
      (EventAttributesFromEvent event).SwapRequesterAddress = .ok addr →
      (EventAttributesFromEvent event).ExchangedOfferCoin lib = some (.ok offerCoin) →
      lookup poolByID poolID = some pool →
      OppositeReserveCoinDenom pool offerCoin.Denom = some demandCoinDenom →
      lookup (EventAttributesFromEvent event) "swap_price" = none →
      NewSwapEvent lib event poolByID = some (.error (.attrNotFound "swap_price"))) ∧
    (∀ event' : Event,
      (∀ key ∈ ["pool_id", "swap_requester", "offer_coin_denom",
          "exchanged_offer_coin_amount", "swap_price"],
        lookup (EventAttributesFromEvent event') key =
          lookup (EventAttributesFromEvent event) key) →
      NewSwapEvent lib event' poolByID = NewSwapEvent lib event poolByID) := by
  refine ⟨?_, ?_, ?_, ?_, ?_, ?_⟩
  · intro key hkey hnone ev hev
    obtain ⟨poolID, addr, offerCoin, swapPrice, h1, h2, h3, h4⟩ :=
      NewSwapEvent_ok_inv lib event poolByID ev hev
    simp only [List.mem_cons, List.mem_singleton, List.mem_nil_iff, or_false] at hkey
    rcases hkey with rfl | rfl | rfl | rfl | rfl
    · exact PoolID_ok lib _ _ h1 hnone
    · exact SwapRequesterAddress_ok _ _ h2 hnone
    · exact (ExchangedOfferCoin_keys lib _ _ h3).1 hnone
    · exact (ExchangedOfferCoin_keys lib _ _ h3).2 hnone
    · exact SwapPrice_ok lib _ _ h4 hnone
  · intro hn
    simp [NewSwapEvent, EventAttributes.PoolID, liquiditytypes.AttributeValuePoolId,
      Attr_none _ _ hn]
  · intro poolID h1 hn
    simp [NewSwapEvent, h1, EventAttributes.SwapRequesterAddress,
      liquiditytypes.AttributeValueSwapRequester, Attr_none _ _ hn]
  · intro poolID addr h1 h2
    constructor
    · intro hn
      simp [NewSwapEvent, h1, h2, EventAttributes.ExchangedOfferCoin,
        liquiditytypes.AttributeValueOfferCoinDenom, Attr_none _ _ hn]
    · intro hd hn
      obtain ⟨d, hd⟩ := Option.ne_none_iff_exists'.1 hd
      simp [NewSwapEvent, h1, h2, EventAttributes.ExchangedOfferCoin,
        liquiditytypes.AttributeValueOfferCoinDenom,
        liquiditytypes.AttributeValueExchangedOfferCoinAmount, Attr_some _ _ _ hd,
        Attr_none _ _ hn]
  · intro poolID addr offerCoin pool demandCoinDenom h1 h2 h3 h4 h5 hn
    simp [NewSwapEvent, h1, h2, h3, h4, h5, EventAttributes.SwapPrice,
      liquiditytypes.AttributeValueSwapPrice, Attr_none _ _ hn]
  · intro event' hkeys
    have k1 := Attr_congr _ _ _ (hkeys "pool_id" (by simp))
    have k2 := Attr_congr _ _ _ (hkeys "swap_requester" (by simp))
    have k3 := Attr_congr _ _ _ (hkeys "offer_coin_denom" (by simp))
    have k4 := Attr_congr _ _ _ (hkeys "exchanged_offer_coin_amount" (by simp))
    have k5 := Attr_congr _ _ _ (hkeys "swap_price" (by simp))
    simp only [NewSwapEvent, EventAttributes.PoolID, EventAttributes.SwapRequesterAddress,
      EventAttributes.ExchangedOfferCoin, EventAttributes.SwapPrice,
      liquiditytypes.AttributeValuePoolId, liquiditytypes.AttributeValueSwapRequester,
      liquiditytypes.AttributeValueOfferCoinDenom,
      liquiditytypes.AttributeValueExchangedOfferCoinAmount,
      liquiditytypes.AttributeValueSwapPrice, k1, k2, k3, k4, k5]

/-- A swap event without the attributes `offer_coin_fee_amount` and `demand_coin_denom`
gets a typed event, not a missing-attribute error. -/
theorem NewSwapEvent_unread_keys :
    lookup (EventAttributesFromEvent exampleSwap) "offer_coin_fee_amount" = none ∧
    lookup (EventAttributesFromEvent exampleSwap) "demand_coin_denom" = none ∧
    NewSwapEvent exampleLib exampleSwap [(1, examplePool)] =
      some (.ok
        { PoolID := 1, SwapRequesterAddress := "cosmos1x"
          ExchangedOfferCoin := { Denom := "atom", Amount := 2 }
          ExchangedDemandCoin := { Denom := "usd", Amount := 1 } }) :=
  ⟨by decide, by decide, by rfl⟩

end accumulator

/-! ## The store: upserts of account statuses -/

namespace store

open GoMap

theorem find_upsertAccountStatus (w : AccountStatusWrite) (rows : List schema.AccountStatus)
    (h : Int) (a : String) :
    (upsertAccountStatus w rows).find?
        (fun r => decide (r.BlockHeight = h ∧ r.Address = a)) =
      if w.BlockHeight = h ∧ w.Address = a then
        some { BlockHeight := h, Address := a, Deposits := w.Deposits, Swaps := w.Swaps }
      else rows.find? (fun r => decide (r.BlockHeight = h ∧ r.Address = a)) := by
  induction rows with
  | nil =>
    by_cases hw : w.BlockHeight = h ∧ w.Address = a
    · simp [upsertAccountStatus, List.find?, hw]
    · simp [upsertAccountStatus, List.find?, hw]
  | cons r rows ih =>
    by_cases hr : r.BlockHeight = w.BlockHeight ∧ r.Address = w.Address
    · by_cases hw : w.BlockHeight = h ∧ w.Address = a
      · simp [upsertAccountStatus, hr, hw, List.find?]
      · have h1 : ¬ (r.BlockHeight = h ∧ r.Address = a) := by
          rw [hr.1, hr.2]; exact hw
        have h2 : ¬ (w.BlockHeight = h ∧ w.Address = a) := hw
        simp only [upsertAccountStatus, hr, and_self, if_true, List.find?, hw, if_false]
        simp [h1, h2]
    · by_cases hm : r.BlockHeight = h ∧ r.Address = a
      · have hw : ¬ (w.BlockHeight = h ∧ w.Address = a) := by
          rintro ⟨h1, h2⟩
          exact hr ⟨hm.1.trans h1.symm, hm.2.trans h2.symm⟩
        rw [upsertAccountStatus, if_neg hr, if_neg hw, List.find?_cons_of_pos _ (by simpa using hm),
          List.find?_cons_of_pos _ (by simpa using hm)]
      · rw [upsertAccountStatus, if_neg hr, List.find?_cons_of_neg _ (by simpa using hm),
          List.find?_cons_of_neg _ (by simpa using hm), ih]

theorem find_bulkWrite_of_not_mem (writes : List AccountStatusWrite)
    (rows : List schema.AccountStatus) (h : Int) (a : String)
    (hn : ∀ w ∈ writes, ¬ (w.BlockHeight = h ∧ w.Address = a)) :
    (bulkWriteAccountStatuses writes rows).find?
        (fun r => decide (r.BlockHeight = h ∧ r.Address = a)) =
      rows.find? (fun r => decide (r.BlockHeight = h ∧ r.Address = a)) := by
  induction writes generalizing rows with
  | nil => rfl
  | cons w ws ih =>
    have hw := hn w (List.mem_cons_self _ _)
    simp only [bulkWriteAccountStatuses, List.foldl_cons] at ih ⊢
    rw [ih _ (fun w' hw' => hn w' (List.mem_cons_of_mem _ hw')), find_upsertAccountStatus,
      if_neg hw]

theorem find_bulkWrite_of_mem (writes : List AccountStatusWrite)
    (rows : List schema.AccountStatus) (h : Int) (a : String)
    (hm : ∃ w ∈ writes, w.BlockHeight = h ∧ w.Address = a) :
    ∃ w ∈ writes, w.BlockHeight = h ∧ w.Address = a ∧
      (bulkWriteAccountStatuses writes rows).find?
          (fun r => decide (r.BlockHeight = h ∧ r.Address = a)) =
        some { BlockHeight := h, Address := a, Deposits := w.Deposits, Swaps := w.Swaps } := by
  induction writes generalizing rows with
  | nil => obtain ⟨w, hw, _⟩ := hm; cases hw
  | cons w ws ih =>
    by_cases hrest : ∃ w' ∈ ws, w'.BlockHeight = h ∧ w'.Address = a
    · obtain ⟨w', hw', h1, h2, h3⟩ := ih (upsertAccountStatus w rows) hrest
      exact ⟨w', List.mem_cons_of_mem _ hw', h1, h2, h3⟩
    · have hw : w.BlockHeight = h ∧ w.Address = a := by
        obtain ⟨w', hw', hk⟩ := hm
        rcases List.mem_cons.1 hw' with rfl | hin
        · exact hk
        · exact absurd ⟨w', hin, hk⟩ hrest
      refine ⟨w, List.mem_cons_self _ _, hw.1, hw.2, ?_⟩
      have hno : ∀ w' ∈ ws, ¬ (w'.BlockHeight = h ∧ w'.Address = a) :=
        fun w' hw' hk => hrest ⟨w', hw', hk⟩
      have := find_bulkWrite_of_not_mem ws (upsertAccountStatus w rows) h a hno
      simp only [bulkWriteAccountStatuses, List.foldl_cons] at this ⊢
      rw [this, find_upsertAccountStatus, if_pos hw]

theorem filter_upsertAccountStatus (w : AccountStatusWrite) (rows : List schema.AccountStatus)
    (h : Int) (hne : w.BlockHeight ≠ h) :
    (upsertAccountStatus w rows).filter (fun r => decide (r.BlockHeight = h)) =
      rows.filter (fun r => decide (r.BlockHeight = h)) := by
  induction rows with
  | nil => simp [upsertAccountStatus, hne]
  | cons r rows ih =>
    by_cases hr : r.BlockHeight = w.BlockHeight ∧ r.Address = w.Address
    · have h1 : ¬ r.BlockHeight = h := by rw [hr.1]; exact hne
      simp [upsertAccountStatus, hr, List.filter_cons, hne, h1]
    · simp only [upsertAccountStatus, hr, if_false, List.filter_cons, ih]

theorem filter_bulkWriteAccountStatuses (writes : List AccountStatusWrite)
    (rows : List schema.AccountStatus) (h : Int) (hne : ∀ w ∈ writes, w.BlockHeight ≠ h) :
    (bulkWriteAccountStatuses writes rows).filter (fun r => decide (r.BlockHeight = h)) =
      rows.filter (fun r => decide (r.BlockHeight = h)) := by
  induction writes generalizing rows with
  | nil => rfl
  | cons w ws ih =>
    simp only [bulkWriteAccountStatuses, List.foldl_cons] at ih ⊢
    rw [ih _ (fun w' hw' => hne w' (List.mem_cons_of_mem _ hw')),
      filter_upsertAccountStatus w rows h (hne w (List.mem_cons_self _ _))]

end store

/-! ## Transformer: account statuses -/

namespace transformer

open GoMap

theorem mem_keys_foldl_store_unit {α : Type} (f : α → String) (l : List α)
    (init : List (String × Unit)) (a : String) :
    a ∈ keys (l.foldl (fun m x => store m (f x) ()) init) ↔
      a ∈ keys init ∨ ∃ x ∈ l, f x = a := by
  induction l generalizing init with
  | nil => simp
  | cons x l ih =>
    rw [List.foldl_cons, ih, mem_keys_store]
    simp only [List.mem_cons, exists_eq_or_imp]
    constructor
    · rintro ((h | h) | h)
      · exact Or.inr (Or.inl h.symm)
      · exact Or.inl h
      · exact Or.inr (Or.inr h)
    · rintro (h | h | h)
      · exact Or.inl (Or.inr h)
      · exact Or.inl (Or.inl h.symm)
      · exact Or.inr h

theorem mem_addrsToUpdate (updates : StateUpdates) (a : String) :
    a ∈ keys (addrsToUpdate updates) ↔
      a ∈ keys updates.depositStatusByAddress ∨ a ∈ keys updates.swapStatusByAddress := by
  unfold addrsToUpdate
  rw [mem_keys_foldl_store_unit, mem_keys_foldl_store_unit]
  simp [keys]

theorem mem_reserveAccAddrs (data : BlockData) (a : String) :
    a ∈ keys (reserveAccAddrs data) ↔ ∃ p ∈ data.Pools, p.ReserveAccountAddress = a := by
  unfold reserveAccAddrs
  rw [mem_keys_foldl_store_unit]
  simp [keys]

theorem currentAccountStatus_eq (s : store.State) (h : Int) (a : String)
    (hrows : 0 < h ∨ ∀ r ∈ s.AccountStatuses, r.BlockHeight ≠ h) :
    (currentAccountStatus s h a).Deposits =
        ((store.AccountStatus s h a).map (fun r => r.Deposits)).getD
          { CountByPoolID := [], CountByPoolIDByDate := [] } ∧
      (currentAccountStatus s h a).Swaps =
        ((store.AccountStatus s h a).map (fun r => r.Swaps)).getD
          { CountByPoolID := [], CountByPoolIDByDate := [] } := by
  unfold currentAccountStatus
  by_cases hpos : h > 0
  · rw [if_pos hpos]
    cases store.AccountStatus s h a <;> simp
  · rw [if_neg hpos]
    have hno : store.AccountStatus s h a = none := by
      unfold store.AccountStatus
      rw [List.find?_eq_none]
      intro r hr
      rcases hrows with h0 | h0
      · exact absurd h0 hpos
      · simp [h0 r hr]
    simp [hno]

/-- C19: in a cycle from the checkpoint `h` to the height `lastH > h` of the last consumed
block, `UpdateAccountStatus` writes, for every address touched by a deposit or a swap of
the cycle that is not the reserve account of a pool of the last block, the row at `lastH`
with `deposits = MergeAccountActionStatuses(deposits of the row at h, or empty if none;
deposits accumulated in the cycle)` and `swaps` likewise; and for every address that has
a row at `h` and was not touched, the row at `lastH` carries the deposits and swaps of a
row of that address at `h`, which is the row read at `h` when no address has two rows
there.  The store has no row at the height `h` when `h` is not positive. -/
theorem UpdateAccountStatus_rows (s : store.State) (h : Int) (updates : StateUpdates)
    (data : BlockData) (hlast : updates.lastBlockData = some data)
    (hlt : h < data.Header.Height)
    (hrows : 0 < h ∨ ∀ r ∈ s.AccountStatuses, r.BlockHeight ≠ h) :
    ∃ s', UpdateAccountStatus s h updates = some s' ∧
      (∀ a, (a ∈ keys updates.depositStatusByAddress ∨
            a ∈ keys updates.swapStatusByAddress) →
          (∀ p ∈ data.Pools, p.ReserveAccountAddress ≠ a) →
          ∃ row, store.AccountStatus s' data.Header.Height a = some row ∧
            row.Deposits = schema.MergeAccountActionStatuses
              [((store.AccountStatus s h a).map (fun r => r.Deposits)).getD
                  { CountByPoolID := [], CountByPoolIDByDate := [] },
                getStatus updates.depositStatusByAddress a] ∧
            row.Swaps = schema.MergeAccountActionStatuses
              [((store.AccountStatus s h a).map (fun r => r.Swaps)).getD
                  { CountByPoolID := [], CountByPoolIDByDate := [] },
                getStatus updates.swapStatusByAddress a]) ∧
      (∀ b r, store.AccountStatus s h b = some r →
          b ∉ keys updates.depositStatusByAddress →
          b ∉ keys updates.swapStatusByAddress →
          ∃ row r', store.AccountStatus s' data.Header.Height b = some row ∧
            r' ∈ s.AccountStatuses ∧ r'.BlockHeight = h ∧ r'.Address = b ∧
            row.Deposits = r'.Deposits ∧ row.Swaps = r'.Swaps ∧
            (((s.AccountStatuses.filter (fun x => decide (x.BlockHeight = h))).map
                (fun x => x.Address)).Nodup → r' = r)) := by
  have hne : ∀ w ∈ mergeWrites s h updates data, w.BlockHeight ≠ h := by
    intro w hw
    simp only [mergeWrites, List.mem_map] at hw
    obtain ⟨addr, _, rfl⟩ := hw
    exact ne_of_gt hlt
  have hcur : (store.bulkWriteAccountStatuses (mergeWrites s h updates data)
      s.AccountStatuses).filter (fun r => decide (r.BlockHeight = h)) =
      s.AccountStatuses.filter (fun r => decide (r.BlockHeight = h)) :=
    store.filter_bulkWriteAccountStatuses _ _ h hne
  have hs : UpdateAccountStatus s h updates = some { s with
      AccountStatuses := store.bulkWriteAccountStatuses
        (carryWrites
          ((store.bulkWriteAccountStatuses (mergeWrites s h updates data)
            s.AccountStatuses).filter (fun r => decide (r.BlockHeight = h))) updates data)
        (store.bulkWriteAccountStatuses (mergeWrites s h updates data) s.AccountStatuses) } := by
    simp only [UpdateAccountStatus, hlast]
  refine ⟨_, hs, ?_, ?_⟩
  · intro a htouched hres
    have hta : a ∈ keys (addrsToUpdate updates) := (mem_addrsToUpdate updates a).2 htouched
    have hnr : (lookup (reserveAccAddrs data) a).isSome = false := by
      cases hl : (lookup (reserveAccAddrs data) a).isSome with
      | false => rfl
      | true =>
        obtain ⟨p, hp, hpa⟩ := (mem_reserveAccAddrs data a).1
          ((lookup_isSome_iff _ _).1 hl)
        exact absurd hpa (hres p hp)
    -- the carry-forward writes leave the row of a touched address alone
    have hcarry : ∀ w ∈ carryWrites
        ((store.bulkWriteAccountStatuses (mergeWrites s h updates data)
          s.AccountStatuses).filter (fun r => decide (r.BlockHeight = h))) updates data,
        ¬ (w.BlockHeight = data.Header.Height ∧ w.Address = a) := by
      intro w hw hk
      simp only [carryWrites, List.mem_map, List.mem_filter] at hw
      obtain ⟨r, ⟨_, hnot⟩, rfl⟩ := hw
      have hra : r.Address = a := hk.2
      rw [hra] at hnot
      have : (lookup (addrsToUpdate updates) a).isSome = true :=
        (lookup_isSome_iff _ _).2 hta
      simp [this] at hnot
    have hmem : ∃ w ∈ mergeWrites s h updates data,
        w.BlockHeight = data.Header.Height ∧ w.Address = a := by
      refine ⟨_, List.mem_map.2 ⟨a, List.mem_filter.2 ⟨hta, by simp [hnr]⟩, rfl⟩, rfl, rfl⟩
    obtain ⟨w, hw, _, hwa, hfind⟩ :=
      store.find_bulkWrite_of_mem _ s.AccountStatuses data.Header.Height a hmem
    simp only [mergeWrites, List.mem_map] at hw
    obtain ⟨addr, _, rfl⟩ := hw
    simp only at hwa
    subst hwa
    have hrow := (store.find_bulkWrite_of_not_mem _ _ _ _ hcarry).trans hfind
    exact ⟨_, hrow, by simp only [(currentAccountStatus_eq s h addr hrows).1],
      by simp only [(currentAccountStatus_eq s h addr hrows).2]⟩
  · intro b r hr hnd hns
    have hntouched : (lookup (addrsToUpdate updates) b).isSome = false := by
      cases hl : (lookup (addrsToUpdate updates) b).isSome with
      | false => rfl
      | true =>
        rcases (mem_addrsToUpdate updates b).1 ((lookup_isSome_iff _ _).1 hl) with h1 | h1
        · exact absurd h1 hnd
        · exact absurd h1 hns
    have hrmem : r ∈ s.AccountStatuses ∧ r.BlockHeight = h ∧ r.Address = b := by
      unfold store.AccountStatus at hr
      have h1 := List.mem_of_find?_eq_some hr
      have h2 := List.find?_some hr
      simp only [decide_eq_true_eq] at h2
      exact ⟨h1, h2.1, h2.2⟩
    have hmem : ∃ w ∈ carryWrites
        ((store.bulkWriteAccountStatuses (mergeWrites s h updates data)
          s.AccountStatuses).filter (fun r => decide (r.BlockHeight = h))) updates data,
        w.BlockHeight = data.Header.Height ∧ w.Address = b := by
      rw [hcur]
      refine ⟨_, List.mem_map.2 ⟨r, List.mem_filter.2
        ⟨List.mem_filter.2 ⟨hrmem.1, by simp [hrmem.2.1]⟩, ?_⟩, rfl⟩, rfl, hrmem.2.2⟩
      rw [hrmem.2.2, hntouched]
      rfl
    obtain ⟨w, hw, _, hwb, hfind⟩ := store.find_bulkWrite_of_mem _
      (store.bulkWriteAccountStatuses (mergeWrites s h updates data) s.AccountStatuses)
      data.Header.Height b hmem
    rw [hcur] at hw
    simp only [carryWrites, List.mem_map, List.mem_filter, decide_eq_true_eq] at hw
    obtain ⟨r', ⟨⟨hr'mem, hr'h⟩, _⟩, rfl⟩ := hw
    simp only at hwb
    refine ⟨_, r', hfind, hr'mem, hr'h, hwb, rfl, rfl, ?_⟩
    intro hnodup
    exact List.inj_on_of_nodup_map hnodup
      (List.mem_filter.2 ⟨hr'mem, by simp [hr'h]⟩)
      (List.mem_filter.2 ⟨hrmem.1, by simp [hrmem.2.1]⟩)
      (hwb.trans hrmem.2.2.symm)

end transformer

namespace transformer

open GoMap

theorem UpdateAccountStatus_rows_witness :
    AccStateUpdates exampleLib { IgnoredAddresses := [] } 101 [exampleBlock101] =
      some (.ok exampleUpdates) ∧
    ∃ s', UpdateAccountStatus exampleStore 100 exampleUpdates = some s' ∧
      ∃ row, store.AccountStatus s' 101 "cosmos1x" = some row ∧
        getInt row.Deposits.CountByPoolID 7 = 4 := by
  refine ⟨by rfl, ?_⟩
  obtain ⟨s', hs, htouched, _⟩ := UpdateAccountStatus_rows exampleStore 100 exampleUpdates
    exampleBlock101 rfl (by decide) (Or.inl (by decide))
  obtain ⟨row, hrow, hdep, _⟩ := htouched "cosmos1x" (Or.inl (by decide)) (by decide)
  refine ⟨s', hs, row, hrow, ?_⟩
  rw [hdep]
  decide

end transformer

/-! ## The store: upserts of pool statuses -/

namespace store

open GoMap

theorem find_upsertPoolStatus (w : PoolStatusWrite) (rows : List schema.PoolStatus)
    (h : Int) (id : Nat) :
    (upsertPoolStatus w rows).find? (fun r => decide (r.BlockHeight = h ∧ r.ID = id)) =
      if w.BlockHeight = h ∧ w.ID = id then
        some { BlockHeight := h, ID := id, SwapFeeVolumes := w.SwapFeeVolumes }
      else rows.find? (fun r => decide (r.BlockHeight = h ∧ r.ID = id)) := by
  induction rows with
  | nil =>
    by_cases hw : w.BlockHeight = h ∧ w.ID = id
    · simp [upsertPoolStatus, List.find?, hw]
    · simp [upsertPoolStatus, List.find?, hw]
  | cons r rows ih =>
    by_cases hr : r.BlockHeight = w.BlockHeight ∧ r.ID = w.ID
    · by_cases hw : w.BlockHeight = h ∧ w.ID = id
      · simp [upsertPoolStatus, hr, hw, List.find?]
      · have h1 : ¬ (r.BlockHeight = h ∧ r.ID = id) := by
          rw [hr.1, hr.2]; exact hw
        simp only [upsertPoolStatus, hr, and_self, if_true, List.find?, hw, if_false]
        simp [h1, hw]
    · by_cases hm : r.BlockHeight = h ∧ r.ID = id
      · have hw : ¬ (w.BlockHeight = h ∧ w.ID = id) := by
          rintro ⟨h1, h2⟩
          exact hr ⟨hm.1.trans h1.symm, hm.2.trans h2.symm⟩
        rw [upsertPoolStatus, if_neg hr, if_neg hw, List.find?_cons_of_pos _ (by simpa using hm),
          List.find?_cons_of_pos _ (by simpa using hm)]
      · rw [upsertPoolStatus, if_neg hr, List.find?_cons_of_neg _ (by simpa using hm),
          List.find?_cons_of_neg _ (by simpa using hm), ih]

theorem find_bulkWritePool_of_not_mem (writes : List PoolStatusWrite)
    (rows : List schema.PoolStatus) (h : Int) (id : Nat)
    (hn : ∀ w ∈ writes, ¬ (w.BlockHeight = h ∧ w.ID = id)) :
    (bulkWritePoolStatuses writes rows).find?
        (fun r => decide (r.BlockHeight = h ∧ r.ID = id)) =
      rows.find? (fun r => decide (r.BlockHeight = h ∧ r.ID = id)) := by
  induction writes generalizing rows with
  | nil => rfl
  | cons w ws ih =>
    have hw := hn w (List.mem_cons_self _ _)
    simp only [bulkWritePoolStatuses, List.foldl_cons] at ih ⊢
    rw [ih _ (fun w' hw' => hn w' (List.mem_cons_of_mem _ hw')), find_upsertPoolStatus,
      if_neg hw]

theorem find_bulkWritePool_of_mem (writes : List PoolStatusWrite)
    (rows : List schema.PoolStatus) (h : Int) (id : Nat)
    (hm : ∃ w ∈ writes, w.BlockHeight = h ∧ w.ID = id) :
    ∃ w ∈ writes, w.BlockHeight = h ∧ w.ID = id ∧
      (bulkWritePoolStatuses writes rows).find?
          (fun r => decide (r.BlockHeight = h ∧ r.ID = id)) =
        some { BlockHeight := h, ID := id, SwapFeeVolumes := w.SwapFeeVolumes } := by
  induction writes generalizing rows with
  | nil => obtain ⟨w, hw, _⟩ := hm; cases hw
  | cons w ws ih =>
    by_cases hrest : ∃ w' ∈ ws, w'.BlockHeight = h ∧ w'.ID = id
    · obtain ⟨w', hw', h1, h2, h3⟩ := ih (upsertPoolStatus w rows) hrest
      exact ⟨w', List.mem_cons_of_mem _ hw', h1, h2, h3⟩
    · have hw : w.BlockHeight = h ∧ w.ID = id := by
        obtain ⟨w', hw', hk⟩ := hm
        rcases List.mem_cons.1 hw' with rfl | hin
        · exact hk
        · exact absurd ⟨w', hin, hk⟩ hrest
      refine ⟨w, List.mem_cons_self _ _, hw.1, hw.2, ?_⟩
      have hno : ∀ w' ∈ ws, ¬ (w'.BlockHeight = h ∧ w'.ID = id) :=
        fun w' hw' hk => hrest ⟨w', hw', hk⟩
      have := find_bulkWritePool_of_not_mem ws (upsertPoolStatus w rows) h id hno
      simp only [bulkWritePoolStatuses, List.foldl_cons] at this ⊢
      rw [this, find_upsertPoolStatus, if_pos hw]

end store

/-! ## Transformer: the buckets of the swap fee volumes -/

namespace transformer

open GoMap

theorem bucketsSatisfy_addCoins (P : Int → Prop) (m : List (Nat × schema.Volumes))
    (poolID : Nat) (ts : Int) (c : schema.CoinMap) (hm : BucketsSatisfy P m)
    (hts : P (schema.truncateMinute ts)) :
    BucketsSatisfy P (store (Volumes m poolID).1 poolID
      ((Volumes m poolID).2.AddCoins ts c)) := by
  intro id v hv k hk
  rw [lookup_store] at hv
  by_cases hid : poolID = id
  · rw [if_pos hid] at hv
    simp only [Option.some.injEq] at hv
    subst hv
    unfold schema.Volumes.AddCoins at hk
    rcases (schema.mem_keys_mergeVolumesStep _ _ _).1 hk with hk | hk
    · rw [hk]; exact hts
    · unfold Volumes at hk
      cases hl : lookup m poolID with
      | none => simp [hl, keys] at hk
      | some v0 =>
        simp only [hl] at hk
        exact hm poolID v0 hl k hk
  · rw [if_neg hid] at hv
    unfold Volumes at hv
    cases hl : lookup m poolID with
    | none =>
      simp only [hl, lookup_store, if_neg hid] at hv
      exact hm id v hv k hk
    | some v0 =>
      simp only [hl] at hv
      exact hm id v hv k hk

theorem accSwapEvent_buckets (P : Int → Prop) (lib : Lib)
    (ignoredAddresses : List (String × Unit)) (tm : Int) (dateKey : String)
    (poolByID : List (Nat × liquiditytypes.Pool)) (updates u : StateUpdates) (evt : Event)
    (hm : BucketsSatisfy P updates.swapVolumesByPoolID)
    (hts : P (schema.truncateMinute (unixSeconds tm)))
    (h : accSwapEvent lib ignoredAddresses tm dateKey poolByID updates evt = some (.ok u)) :
    BucketsSatisfy P u.swapVolumesByPoolID := by
  unfold accSwapEvent at h
  simp only at h
  cases h1 : (eventAttrsFromEvent evt).SwapRequesterAddr with
  | error e => simp [h1] at h
  | ok addr =>
    simp only [h1] at h
    by_cases hig : (lookup ignoredAddresses addr).isSome = true
    · simp only [hig, if_true, Option.some.injEq, Except.ok.injEq] at h
      subst h
      exact hm
    · simp only [hig, Bool.false_eq_true, if_false] at h
      cases h2 : (eventAttrsFromEvent evt).PoolID lib with
      | error e => simp [h2] at h
      | ok poolID =>
        simp only [h2] at h
        cases h3 : (eventAttrsFromEvent evt).OfferCoinFee lib with
        | none => simp [h3] at h
        | some r =>
          cases r with
          | error e => simp [h3] at h
          | ok offerCoinFee =>
            simp only [h3] at h
            cases h4 : (eventAttrsFromEvent evt).SwapPrice lib with
            | error e => simp [h4] at h
            | ok swapPrice =>
              simp only [h4] at h
              cases h5 : lookup poolByID poolID with
              | none => simp [h5] at h
              | some pool =>
                simp only [h5] at h
                cases h6 : oppositeReserveCoinDenom pool offerCoinFee.Denom with
                | none => simp [h6] at h
                | some demandCoinDenom =>
                  simp only [h6] at h
                  cases h7 : demandCoinFee lib offerCoinFee demandCoinDenom swapPrice with
                  | none => simp [h7] at h
                  | some dcf =>
                    simp only [h7] at h
                    cases h8 : sdk.Int64 offerCoinFee.Amount with
                    | none => simp [h8] at h
                    | some oa =>
                      cases h9 : sdk.Int64 dcf.Amount with
                      | none => simp [h8, h9] at h
                      | some da =>
                        simp only [h8, h9, Option.some.injEq, Except.ok.injEq] at h
                        subst h
                        exact bucketsSatisfy_addCoins P _ poolID _ _ hm hts

theorem accDepositEvent_volumes (lib : Lib) (ignoredAddresses : List (String × Unit))
    (dateKey : String) (updates u : StateUpdates) (evt : Event)
    (h : accDepositEvent lib ignoredAddresses dateKey updates evt = .ok u) :
    u.swapVolumesByPoolID = updates.swapVolumesByPoolID := by
  unfold accDepositEvent at h
  simp only at h
  cases h1 : (eventAttrsFromEvent evt).DepositorAddr with
  | error e => simp [h1] at h
  | ok addr =>
    simp only [h1] at h
    by_cases hig : (lookup ignoredAddresses addr).isSome = true
    · simp only [hig, if_true, Except.ok.injEq] at h
      subst h; rfl
    · simp only [hig, Bool.false_eq_true, if_false] at h
      cases h2 : (eventAttrsFromEvent evt).PoolID lib with
      | error e => simp [h2] at h
      | ok poolID =>
        simp only [h2, Except.ok.injEq] at h
        subst h; rfl

theorem accEvents_buckets (P : Int → Prop) (lib : Lib)
    (ignoredAddresses : List (String × Unit)) (tm : Int) (dateKey : String)
    (poolByID : List (Nat × liquiditytypes.Pool)) (evts : List Event)
    (updates u : StateUpdates)
    (hm : BucketsSatisfy P updates.swapVolumesByPoolID)
    (hts : P (schema.truncateMinute (unixSeconds tm)))
    (h : accEvents lib ignoredAddresses tm dateKey poolByID evts updates = some (.ok u)) :
    BucketsSatisfy P u.swapVolumesByPoolID := by
  induction evts generalizing updates with
  | nil =>
    simp only [accEvents, Option.some.injEq, Except.ok.injEq] at h
    subst h; exact hm
  | cons evt rest ih =>
    unfold accEvents at h
    by_cases hd : evt.Type_ = liquiditytypes.EventTypeDepositToPool
    · simp only [hd, if_true] at h
      cases h1 : accDepositEvent lib ignoredAddresses dateKey updates evt with
      | error e => simp [h1] at h
      | ok u1 =>
        simp only [h1] at h
        refine ih u1 ?_ h
        rw [accDepositEvent_volumes lib ignoredAddresses dateKey updates u1 evt h1]
        exact hm
    · simp only [hd, if_false] at h
      by_cases hs : evt.Type_ = liquiditytypes.EventTypeSwapTransacted
      · simp only [hs, if_true] at h
        cases h1 : accSwapEvent lib ignoredAddresses tm dateKey poolByID updates evt with
        | none => simp [h1] at h
        | some r =>
          cases r with
          | error e => simp [h1] at h
          | ok u1 =>
            simp only [h1] at h
            exact ih u1 (accSwapEvent_buckets P lib ignoredAddresses tm dateKey poolByID
              updates u1 evt hm hts h1) h
      · simp only [hs, if_false] at h
        exact ih updates hm h

theorem accBlocks_buckets (P : Int → Prop) (lib : Lib)
    (ignoredAddresses : List (String × Unit)) (blocks : List BlockData) (blockHeight : Int)
    (updates u : StateUpdates)
    (hm : BucketsSatisfy P updates.swapVolumesByPoolID)
    (hts : ∀ b ∈ blocks, P (schema.truncateMinute (unixSeconds b.Header.Time)))
    (h : accBlocks lib ignoredAddresses blocks blockHeight updates = some (.ok u)) :
    BucketsSatisfy P u.swapVolumesByPoolID := by
  induction blocks generalizing updates blockHeight with
  | nil =>
    simp only [accBlocks, Option.some.injEq, Except.ok.injEq] at h
    subst h; exact hm
  | cons data rest ih =>
    unfold accBlocks at h
    by_cases hh : data.Header.Height ≠ blockHeight
    · simp [hh] at h
    · simp only [hh, if_false] at h
      cases h1 : accBlock lib ignoredAddresses blockHeight updates data with
      | none => simp [h1] at h
      | some r =>
        cases r with
        | error e => simp [h1] at h
        | ok u1 =>
          simp only [h1] at h
          refine ih _ u1 ?_ (fun b hb => hts b (List.mem_cons_of_mem _ hb)) h
          unfold accBlock at h1
          refine accEvents_buckets P lib ignoredAddresses _ _ _ _ _ u1 ?_
            (hts data (List.mem_cons_self _ _)) h1
          cases data.BankModuleState <;> exact hm

theorem AccStateUpdates_buckets (P : Int → Prop) (lib : Lib) (cfg : config.TransformerConfig)
    (startingBlockHeight : Int) (blocks : List BlockData) (u : StateUpdates)
    (hts : ∀ b ∈ blocks, P (schema.truncateMinute (unixSeconds b.Header.Time)))
    (h : AccStateUpdates lib cfg startingBlockHeight blocks = some (.ok u)) :
    BucketsSatisfy P u.swapVolumesByPoolID := by
  unfold AccStateUpdates at h
  cases blocks with
  | nil => simp at h
  | cons b bs =>
    simp only at h
    refine accBlocks_buckets P lib _ _ _ _ u ?_ hts h
    intro id v hv
    simp [lookup] at hv

end transformer

namespace transformer

open GoMap

theorem mem_keys_newSwapFeeVolumes (s : store.State) (h : Int) (updates : StateUpdates)
    (data : BlockData) (id : Nat) (k : Int)
    (hk : k ∈ keys (newSwapFeeVolumes s h updates data id)) :
    unixSeconds (data.Header.Time - timeHour) ≤ k ∧ k % 60 = 0 ∧
      ((∃ row k0, store.PoolStatus s h id = some row ∧ k0 ∈ keys row.SwapFeeVolumes ∧
          k = schema.truncateMinute k0) ∨
        (∃ v k0, lookup updates.swapVolumesByPoolID id = some v ∧ k0 ∈ keys v ∧
          k = schema.truncateMinute k0)) := by
  unfold newSwapFeeVolumes at hk
  rw [schema.RemoveOutdated_eq_filter] at hk
  simp only [keys, List.mem_map, List.mem_filter, decide_eq_true_eq] at hk
  obtain ⟨e, ⟨he, hp⟩, rfl⟩ := hk
  have hmem : e.1 ∈ keys (schema.MergeVolumes
      [(currentPoolStatus s h id).SwapFeeVolumes, getMap updates.swapVolumesByPoolID id]) :=
    List.mem_map_of_mem Prod.fst he
  obtain ⟨v, hv, e0, he0, hT⟩ := (schema.mem_keys_MergeVolumes _ _).1 hmem
  refine ⟨hp, ?_, ?_⟩
  · rw [← hT]; exact schema.truncateMinute_aligned _
  · simp only [List.mem_cons, List.mem_singleton, List.mem_nil_iff, or_false] at hv
    rcases hv with rfl | rfl
    · left
      unfold currentPoolStatus at he0
      by_cases hpos : h > 0
      · rw [if_pos hpos] at he0
        cases hr : store.PoolStatus s h id with
        | none => simp [hr] at he0
        | some row =>
          simp only [hr, Option.getD_some] at he0
          exact ⟨row, e0.1, rfl, List.mem_map_of_mem Prod.fst he0, hT.symm⟩
      · rw [if_neg hpos] at he0
        simp at he0
    · right
      unfold getMap at he0
      cases hl : lookup updates.swapVolumesByPoolID id with
      | none => simp [hl] at he0
      | some v =>
        simp only [hl, Option.getD_some] at he0
        exact ⟨v, e0.1, rfl, List.mem_map_of_mem Prod.fst he0, hT.symm⟩

/-- C20, as the code has it: every pool status that a cycle with the last block time `t`
writes, one for every pool of the last block at the last height, holds only buckets `k`,
in whole minutes of Unix seconds, with `floor(t) - 3600 <= k`, where `floor(t)` is `t` in
whole seconds.  The buckets are not later than `t` when no consumed block is later than
the last one and no bucket of a row at the checkpoint height is later than `t`. -/
theorem UpdatePoolStatus_buckets (lib : Lib) (cfg : config.TransformerConfig)
    (s : store.State) (h : Int) (blocks : List BlockData) (updates : StateUpdates)
    (data : BlockData)
    (hacc : AccStateUpdates lib cfg (h + 1) blocks = some (.ok updates))
    (hlast : updates.lastBlockData = some data) :
    ∃ s', UpdatePoolStatus s h updates = some s' ∧
      ∀ p ∈ data.Pools, ∃ row, store.PoolStatus s' data.Header.Height p.Id = some row ∧
        ∀ k ∈ keys row.SwapFeeVolumes,
          unixSeconds data.Header.Time - 3600 ≤ k ∧ k % 60 = 0 ∧
          ((∀ b ∈ blocks, b.Header.Time ≤ data.Header.Time) →
            (∀ id r, store.PoolStatus s h id = some r →
              ∀ k0 ∈ keys r.SwapFeeVolumes, k0 * 1000000000 ≤ data.Header.Time) →
            k * 1000000000 ≤ data.Header.Time) := by
  have hs : UpdatePoolStatus s h updates = some { s with
      PoolStatuses := store.bulkWritePoolStatuses (poolStatusWrites s h updates data)
        s.PoolStatuses
      Pools := store.bulkWritePools data.Pools s.Pools } := by
    simp only [UpdatePoolStatus, hlast]
  refine ⟨_, hs, ?_⟩
  intro p hp
  have hmem : ∃ w ∈ poolStatusWrites s h updates data,
      w.BlockHeight = data.Header.Height ∧ w.ID = p.Id :=
    ⟨_, List.mem_map.2 ⟨p, hp, rfl⟩, rfl, rfl⟩
  obtain ⟨w, hw, _, hwid, hfind⟩ :=
    store.find_bulkWritePool_of_mem _ s.PoolStatuses data.Header.Height p.Id hmem
  simp only [poolStatusWrites, List.mem_map] at hw
  obtain ⟨q, _, rfl⟩ := hw
  simp only at hwid hfind
  refine ⟨_, hfind, ?_⟩
  intro k hk
  simp only at hk
  obtain ⟨hlow, hal, hsrc⟩ := mem_keys_newSwapFeeVolumes s h updates data q.Id k hk
  refine ⟨?_, hal, ?_⟩
  · unfold unixSeconds timeHour at hlow
    unfold unixSeconds
    omega
  · intro hmono hold
    rcases hsrc with ⟨row, k0, hrow, hk0, rfl⟩ | ⟨v, k0, hv, hk0, rfl⟩
    · have := hold q.Id row hrow k0 hk0
      unfold schema.truncateMinute
      omega
    · have hb := AccStateUpdates_buckets
        (fun k => ∃ b ∈ blocks, k = schema.truncateMinute (unixSeconds b.Header.Time))
        lib cfg (h + 1) blocks updates (fun b hb => ⟨b, hb, rfl⟩) hacc
      obtain ⟨b, hbm, rfl⟩ := hb q.Id v hv k0 hk0
      have := hmono b hbm
      unfold schema.truncateMinute unixSeconds
      omega

theorem UpdatePoolStatus_buckets_witness :
    ∃ s', UpdatePoolStatus emptyStore 0 exampleSwapUpdates = some s' ∧
      ∃ row, store.PoolStatus s' 2 7 = some row ∧
        ∀ k ∈ keys row.SwapFeeVolumes, 1620126000 - 3600 ≤ k := by
  obtain ⟨s', hs, hrows⟩ := UpdatePoolStatus_buckets exampleLib { IgnoredAddresses := [] }
    emptyStore 0 [exampleSwapBlock1, exampleSwapBlock2] exampleSwapUpdates exampleSwapBlock2
    (by rfl) rfl
  obtain ⟨row, hrow, hk⟩ := hrows examplePool7 (by decide)
  exact ⟨s', hs, row, hrow, fun k hkm => (hk k hkm).1⟩

/-- The bucket of a written pool status can lie more than 3600 seconds before the last
block time: after the blocks of 10:00:30 and of 11:00:00.5, the pool status at the height
2 holds the bucket of 10:00:00, which is half a second earlier than `t - 3600 s`. -/
theorem UpdatePoolStatus_bucket_before_hour :
    AccStateUpdates exampleLib { IgnoredAddresses := [] } 1
        [exampleSwapBlock1, exampleSwapBlock2] = some (.ok exampleSwapUpdates) ∧
    (UpdatePoolStatus emptyStore 0 exampleSwapUpdates).bind
        (fun s => store.PoolStatus s 2 7) =
      some { BlockHeight := 2, ID := 7
             SwapFeeVolumes := [(1620122400, [("atom", 3), ("usd", 1)])] } ∧
    exampleSwapBlock2.Header.Time - timeHour = 1620122400500000000 ∧
    ¬ (exampleSwapBlock2.Header.Time - timeHour ≤ 1620122400 * 1000000000) :=
  ⟨by rfl, by decide, by decide, by decide⟩

end transformer

/-! ## The opposite reserve coin denom -/

namespace transformer

open GoMap

theorem find_ne_some (denoms : List String) (denom d : String) :
    denoms.find? (fun x => decide (x ≠ denom)) = some d ↔
      ∃ pre post, denoms = pre ++ d :: post ∧ d ≠ denom ∧ ∀ x ∈ pre, x = denom := by
  induction denoms with
  | nil => simp
  | cons a l ih =>
    by_cases ha : a = denom
    · rw [List.find?_cons_of_neg _ (by simpa using ha), ih]
      constructor
      · rintro ⟨pre, post, rfl, hd, hpre⟩
        refine ⟨a :: pre, post, rfl, hd, ?_⟩
        intro x hx
        rcases List.mem_cons.1 hx with rfl | hx
        · exact ha
        · exact hpre x hx
      · rintro ⟨pre, post, heq, hd, hpre⟩
        cases pre with
        | nil =>
          simp only [List.nil_append, List.cons.injEq] at heq
          exact absurd (heq.1 ▸ ha) hd
        | cons b pre =>
          simp only [List.cons_append, List.cons.injEq] at heq
          exact ⟨pre, post, heq.2, hd, fun x hx => hpre x (List.mem_cons_of_mem _ hx)⟩
    · rw [List.find?_cons_of_pos _ (by simpa using ha)]
      constructor
      · intro h
        simp only [Option.some.injEq] at h
        subst h
        exact ⟨[], l, rfl, ha, by simp⟩
      · rintro ⟨pre, post, heq, hd, hpre⟩
        cases pre with
        | nil =>
          simp only [List.nil_append, List.cons.injEq] at heq
          rw [heq.1]
        | cons b pre =>
          simp only [List.cons_append, List.cons.injEq] at heq
          exact absurd (hpre b (List.mem_cons_self _ _)) (heq.1 ▸ ha)

/-- C29: `oppositeReserveCoinDenom(pool, denom)` returns the first element of
`pool.ReserveCoinDenoms` that differs from `denom`, and reports not-found only when no
element differs.  For a pool with the two distinct reserve denoms `[a, b]` it returns `b`
for `a` and `a` for `b`, and for a denom that is not a reserve denom of the pool it returns
`a` rather than failing.  `OppositeReserveCoinDenom` of the accumulator returns the same
result on every input. -/
theorem oppositeReserveCoinDenom_first (pool : liquiditytypes.Pool) (denom : String) :
    (∀ d, oppositeReserveCoinDenom pool denom = some d ↔
      ∃ pre post, pool.ReserveCoinDenoms = pre ++ d :: post ∧ d ≠ denom ∧
        ∀ x ∈ pre, x = denom) ∧
    (oppositeReserveCoinDenom pool denom = none ↔ ∀ x ∈ pool.ReserveCoinDenoms, x = denom) ∧
    (∀ a b, pool.ReserveCoinDenoms = [a, b] → a ≠ b →
      (denom = a → oppositeReserveCoinDenom pool denom = some b) ∧
      (denom = b → oppositeReserveCoinDenom pool denom = some a) ∧
      (denom ≠ a → oppositeReserveCoinDenom pool denom = some a)) ∧
    accumulator.OppositeReserveCoinDenom pool denom = oppositeReserveCoinDenom pool denom := by
  refine ⟨fun d => find_ne_some _ _ _, ?_, ?_, rfl⟩
  · unfold oppositeReserveCoinDenom
    rw [List.find?_eq_none]
    simp
  · intro a b hden hab
    unfold oppositeReserveCoinDenom
    rw [hden]
    refine ⟨?_, ?_, ?_⟩
    · rintro rfl
      have h : ¬ b = denom := fun h => hab h.symm
      simp [List.find?, h]
    · rintro rfl
      simp [List.find?, hab]
    · intro hne
      have h : ¬ a = denom := fun h => hne h.symm
      simp [List.find?, h]

end transformer

/-! ## Account action statuses: totals and cells -/

namespace schema

open GoMap

theorem sum_store_getInt (m : List (String × CountByPoolID)) (d : String) (c : CountByPoolID)
    (p : Nat) :
    ((store m d c).map (fun e => getInt e.2 p)).sum =
      (m.map (fun e => getInt e.2 p)).sum - getInt (getMap m d) p + getInt c p := by
  induction m with
  | nil => simp [store, getMap, lookup, getInt]
  | cons e m ih =>
    obtain ⟨k, v⟩ := e
    by_cases hk : k = d
    · simp only [store, hk, if_true, List.map_cons, List.sum_cons, getMap, lookup,
        Option.getD_some]
      ring
    · have hg : getMap ((k, v) :: m) d = getMap m d := by
        simp [getMap, lookup, hk]
      simp only [store, hk, if_false, List.map_cons, List.sum_cons, ih, hg]
      ring

theorem entryTotal_IncreaseCount (s : AccountActionStatus) (p p' : Nat) (d : String)
    (a : Int) :
    (s.IncreaseCount p d a).entryTotal p' =
      if p = p' then s.entryTotal p' - s.cell d p' + wrapInt64 (s.cell d p' + a)
      else s.entryTotal p' := by
  unfold AccountActionStatus.entryTotal AccountActionStatus.cell
  rw [byDate_IncreaseCount]
  cases hl : lookup s.CountByPoolIDByDate d with
  | some c =>
    simp only []
    rw [sum_store_getInt, getInt_store]
    by_cases hp : p = p'
    · subst hp; simp
    · simp [hp]
  | none =>
    simp only []
    rw [sum_store_getInt, sum_store_getInt, getMap_store, getInt_store]
    have hg : getMap s.CountByPoolIDByDate d = [] := by simp [getMap, hl]
    by_cases hp : p = p'
    · subst hp; simp [hg, getInt, lookup]
    · simp [hp, hg, getInt, lookup]

theorem total_IncreaseCount (s : AccountActionStatus) (p p' : Nat) (d : String) (a : Int) :
    getInt (s.IncreaseCount p d a).CountByPoolID p' =
      if p = p' then wrapInt64 (getInt s.CountByPoolID p' + a)
      else getInt s.CountByPoolID p' := by
  have h : (s.IncreaseCount p d a).CountByPoolID =
      store s.CountByPoolID p (wrapInt64 (getInt s.CountByPoolID p + a)) := by
    unfold AccountActionStatus.IncreaseCount
    cases lookup s.CountByPoolIDByDate d <;> rfl
  rw [h, getInt_store]
  by_cases hp : p = p'
  · subst hp; simp
  · simp [hp]

/-- The totals are the wrapped sums over the entries: what `IncreaseCount` keeps. -/
theorem IncreaseCount_entryTotal (s : AccountActionStatus) (p : Nat) (d : String) (a : Int)
    (h : ∀ q, getInt s.CountByPoolID q = wrapInt64 (s.entryTotal q)) (q : Nat) :
    getInt (s.IncreaseCount p d a).CountByPoolID q =
      wrapInt64 ((s.IncreaseCount p d a).entryTotal q) := by
  rw [total_IncreaseCount, entryTotal_IncreaseCount]
  by_cases hp : p = q
  · rw [if_pos hp, if_pos hp, h q, wrapInt64_add_left, wrapInt64_add_right]
    congr 1
    ring
  · rw [if_neg hp, if_neg hp, h q]

theorem foldl_statuses_entryTotal (ss : List AccountActionStatus) (s : AccountActionStatus)
    (h : ∀ q, getInt s.CountByPoolID q = wrapInt64 (s.entryTotal q)) (q : Nat) :
    getInt (ss.foldl (fun s s2 =>
      s2.CountByPoolIDByDate.foldl (fun s e =>
        e.2.foldl (fun s e2 => s.IncreaseCount e2.1 e.1 e2.2) s) s) s).CountByPoolID q =
      wrapInt64 ((ss.foldl (fun s s2 =>
        s2.CountByPoolIDByDate.foldl (fun s e =>
          e.2.foldl (fun s e2 => s.IncreaseCount e2.1 e.1 e2.2) s) s) s).entryTotal q) := by
  have inner : ∀ (c : CountByPoolID) (date : String) (s : AccountActionStatus),
      (∀ q, getInt s.CountByPoolID q = wrapInt64 (s.entryTotal q)) →
      ∀ q, getInt (c.foldl (fun s e2 => s.IncreaseCount e2.1 date e2.2) s).CountByPoolID q =
        wrapInt64 ((c.foldl (fun s e2 => s.IncreaseCount e2.1 date e2.2) s).entryTotal q) := by
    intro c date
    induction c with
    | nil => intro s h; exact h
    | cons e c ih =>
      intro s h
      exact ih _ (IncreaseCount_entryTotal s e.1 date e.2 h)
  have middle : ∀ (es : List (String × CountByPoolID)) (s : AccountActionStatus),
      (∀ q, getInt s.CountByPoolID q = wrapInt64 (s.entryTotal q)) →
      ∀ q, getInt (es.foldl (fun s e =>
          e.2.foldl (fun s e2 => s.IncreaseCount e2.1 e.1 e2.2) s) s).CountByPoolID q =
        wrapInt64 ((es.foldl (fun s e =>
          e.2.foldl (fun s e2 => s.IncreaseCount e2.1 e.1 e2.2) s) s).entryTotal q) := by
    intro es
    induction es with
    | nil => intro s h; exact h
    | cons e es ih =>
      intro s h
      exact ih _ (inner e.2 e.1 s h)
  induction ss generalizing s with
  | nil => exact h q
  | cons s2 ss ih => exact ih _ (middle s2.CountByPoolIDByDate s h)

theorem dateSum_eq_entryTotal (s : AccountActionStatus)
    (h : GoMap.WF s.CountByPoolIDByDate) (p : Nat) : s.dateSum p = s.entryTotal p := by
  unfold AccountActionStatus.dateSum AccountActionStatus.entryTotal keys
  rw [List.map_map]
  congr 1
  apply List.map_congr_left
  intro e he
  simp only [Function.comp, AccountActionStatus.cell, getMap,
    lookup_of_mem_WF _ h e.1 e.2 he, Option.getD_some]

theorem mem_keys_total_IncreaseCount (s : AccountActionStatus) (p : Nat) (d : String) (a : Int)
    (q : Nat) :
    q ∈ keys (s.IncreaseCount p d a).CountByPoolID ↔ q = p ∨ q ∈ keys s.CountByPoolID := by
  have h : (s.IncreaseCount p d a).CountByPoolID =
      store s.CountByPoolID p (wrapInt64 (getInt s.CountByPoolID p + a)) := by
    unfold AccountActionStatus.IncreaseCount
    cases lookup s.CountByPoolIDByDate d <;> rfl
  rw [h, mem_keys_store]

theorem mem_keys_total_foldl (ss : List AccountActionStatus) (s : AccountActionStatus)
    (q : Nat) :
    q ∈ keys (ss.foldl (fun s s2 =>
      s2.CountByPoolIDByDate.foldl (fun s e =>
        e.2.foldl (fun s e2 => s.IncreaseCount e2.1 e.1 e2.2) s) s) s).CountByPoolID ↔
      q ∈ keys s.CountByPoolID ∨
        ∃ s2 ∈ ss, ∃ e ∈ s2.CountByPoolIDByDate, q ∈ keys e.2 := by
  have inner : ∀ (c : CountByPoolID) (date : String) (s : AccountActionStatus),
      q ∈ keys (c.foldl (fun s e2 => s.IncreaseCount e2.1 date e2.2) s).CountByPoolID ↔
        q ∈ keys s.CountByPoolID ∨ q ∈ keys c := by
    intro c date
    induction c with
    | nil => intro s; simp [keys]
    | cons e c ih =>
      intro s
      rw [List.foldl_cons, ih, mem_keys_total_IncreaseCount]
      simp only [keys, List.map_cons, List.mem_cons]
      constructor
      · rintro ((h | h) | h)
        · exact Or.inr (Or.inl h)
        · exact Or.inl h
        · exact Or.inr (Or.inr h)
      · rintro (h | h | h)
        · exact Or.inl (Or.inr h)
        · exact Or.inl (Or.inl h)
        · exact Or.inr h
  have middle : ∀ (es : List (String × CountByPoolID)) (s : AccountActionStatus),
      q ∈ keys (es.foldl (fun s e =>
          e.2.foldl (fun s e2 => s.IncreaseCount e2.1 e.1 e2.2) s) s).CountByPoolID ↔
        q ∈ keys s.CountByPoolID ∨ ∃ e ∈ es, q ∈ keys e.2 := by
    intro es
    induction es with
    | nil => intro s; simp
    | cons e es ih =>
      intro s
      rw [List.foldl_cons, ih, inner]
      simp only [List.mem_cons, exists_eq_or_imp]
      exact or_assoc
  induction ss generalizing s with
  | nil => simp
  | cons s2 ss ih =>
    rw [List.foldl_cons]
    refine (ih _).trans ?_
    rw [middle]
    simp only [List.mem_cons, exists_eq_or_imp]
    exact or_assoc

/-- C28: the per-pool totals of a merged status come from its per-date cells only.  For
all statuses `ss` and every pool `p`, `MergeAccountActionStatuses(ss...).CountByPoolID[p]`
is the sum over all dates `d` of the result's `CountByPoolIDByDate[d][p]`, wrapped to the
machine integers and hence equal to it when the sum fits, whatever the `CountByPoolID` maps
of the inputs hold: a pool is a key of the result's `CountByPoolID` exactly when a per-date
map of an input holds it.  `IncreaseCount` keeps the equality. -/
theorem MergeAccountActionStatuses_totals (ss : List AccountActionStatus) :
    AccountActionStatus.TotalsFromCells (MergeAccountActionStatuses ss) ∧
    (∀ p, -9223372036854775808 ≤ (MergeAccountActionStatuses ss).dateSum p →
      (MergeAccountActionStatuses ss).dateSum p < 9223372036854775808 →
      getInt (MergeAccountActionStatuses ss).CountByPoolID p =
        (MergeAccountActionStatuses ss).dateSum p) ∧
    (∀ p, p ∈ keys (MergeAccountActionStatuses ss).CountByPoolID ↔
      ∃ s ∈ ss, ∃ e ∈ s.CountByPoolIDByDate, p ∈ keys e.2) ∧
    (∀ (s : AccountActionStatus) (p : Nat) (d : String) (a : Int),
      AccountActionStatus.WF s → AccountActionStatus.TotalsFromCells s →
      AccountActionStatus.TotalsFromCells (s.IncreaseCount p d a)) ∧
    MergeAccountActionStatuses [exampleStatusStray] =
      { CountByPoolID := [(2, 1)], CountByPoolIDByDate := [("2021-05-05", [(2, 1)])] } := by
  have hwf := MergeAccountActionStatuses_WF ss
  have htot : AccountActionStatus.TotalsFromCells (MergeAccountActionStatuses ss) := by
    intro p
    rw [dateSum_eq_entryTotal _ hwf.2.1]
    unfold MergeAccountActionStatuses
    apply foldl_statuses_entryTotal
    intro q
    simp [NewAccountActionStatus, AccountActionStatus.entryTotal, getInt, lookup, wrapInt64_zero]
  refine ⟨htot, ?_, ?_, ?_, by decide⟩
  · intro p h1 h2
    rw [htot p, wrapInt64_of_range _ h1 h2]
  · intro p
    unfold MergeAccountActionStatuses
    rw [mem_keys_total_foldl]
    simp [NewAccountActionStatus, keys]
  · intro s p d a hs ht q
    rw [dateSum_eq_entryTotal _ (IncreaseCount_WF s p d a hs).2.1]
    apply IncreaseCount_entryTotal
    intro q'
    rw [ht q', dateSum_eq_entryTotal _ hs.2.1]

end schema

/-! ## Reserve coins of a pool -/

namespace schema

open GoMap

theorem lookup_foldl_store_coin (coins : List Coin) (init : List (String × Coin))
    (d : String) :
    lookup (coins.foldl (fun cm c => store cm c.Denom c) init) d =
      match coins.reverse.find? (fun c => decide (c.Denom = d)) with
      | some c => some c
      | none => lookup init d := by
  induction coins generalizing init with
  | nil => simp
  | cons c cs ih =>
    rw [List.foldl_cons, ih, List.reverse_cons, List.find?_append]
    cases hf : cs.reverse.find? (fun c => decide (c.Denom = d)) with
    | some x => simp
    | none =>
      by_cases hc : c.Denom = d
      · simp [hc, lookup_store]
      · simp [hc, lookup_store]

theorem ReserveCoins_eq (p : Pool) (b : Balance) (h : p.ReserveAccountBalance = some b) :
    p.ReserveCoins =
      p.ReserveCoinDenoms.map (fun denom => (b.coinOf denom).getD { Denom := "", Amount := 0 }) := by
  unfold Pool.ReserveCoins
  simp only [h]
  apply List.map_congr_left
  intro denom _
  rw [lookup_foldl_store_coin]
  unfold Balance.coinOf
  cases b.Coins.reverse.find? (fun c => decide (c.Denom = denom)) <;> simp [lookup]

theorem coinOf_some (b : Balance) (denom : String) (c : Coin) (h : b.coinOf denom = some c) :
    c ∈ b.Coins ∧ c.Denom = denom := by
  unfold Balance.coinOf at h
  have h1 := List.mem_of_find?_eq_some h
  have h2 := List.find?_some h
  simp only [decide_eq_true_eq] at h2
  exact ⟨List.mem_reverse.1 h1, h2⟩

theorem coinOf_none (b : Balance) (denom : String) :
    b.coinOf denom = none ↔ ∀ c ∈ b.Coins, c.Denom ≠ denom := by
  unfold Balance.coinOf
  rw [List.find?_eq_none]
  simp

end schema

namespace pricetable

open GoMap

variable {F : Type}

theorem sumReserveCoins_prefix_error (ops : FloatOps F) (rand : Nat → F) (n : Nat)
    (c : Context F) (g : Nat) (pre : List schema.Coin) (rc : schema.Coin)
    (post : List schema.Coin) (sum : F) (e : PriceError)
    (hpre : ∀ x ∈ pre, (lookup c.priceTable x.Denom).isSome = true)
    (hrc : Price ops rand (n + 1) c g rc.Denom = some (.error e, c, g)) :
    sumReserveCoins ops (Price ops rand (n + 1)) (pre ++ rc :: post) sum c g =
      some (.error e, c, g) := by
  induction pre generalizing sum with
  | nil => simp [sumReserveCoins, hrc]
  | cons x pre ih =>
    obtain ⟨p, hp⟩ := Option.isSome_iff_exists.1 (hpre x (List.mem_cons_self _ _))
    simp only [List.cons_append, sumReserveCoins, Price_hit ops rand n c g x.Denom p hp]
    exact ih _ (fun y hy => hpre y (List.mem_cons_of_mem _ hy))

/-- C30: for a pool with a reserve account balance, `Pool.ReserveCoins` returns a list of
the length of `ReserveCoinDenoms` whose `i`-th element is the coin of the balance for
`ReserveCoinDenoms[i]` when the balance holds that denom (the last such coin) and the zero
coin, of the empty denom and the amount 0, when it does not; for a pool without a balance
it returns the empty list.  So `Context.Price` of a pool coin with non-zero supply whose
balance lacks a reserve denom, the denoms before it being held and priced, resolves the
empty denom: it fails with the unknown-denom error of the empty denom when that denom has
no price, is no normal coin and has no metadata.  A pool coin with supply and without a
balance gets the price `1 / supply * 0`, which is 0. -/
theorem ReserveCoins_by_denom (p : schema.Pool) :
    (∀ b, p.ReserveAccountBalance = some b →
      p.ReserveCoins.length = p.ReserveCoinDenoms.length ∧
      ∀ (i : Nat) (denom : String), p.ReserveCoinDenoms[i]? = some denom →
        ∃ coin, p.ReserveCoins[i]? = some coin ∧
          ((∃ x ∈ b.Coins, x.Denom = denom) →
            coin ∈ b.Coins ∧ coin.Denom = denom ∧ b.coinOf denom = some coin) ∧
          ((∀ x ∈ b.Coins, x.Denom ≠ denom) → coin = { Denom := "", Amount := 0 })) ∧
    (p.ReserveAccountBalance = none → p.ReserveCoins = []) ∧
    (∀ (ops : FloatOps F) (rand : Nat → F) (c : Context F) (g n : Nat) (denom d : String)
        (b : schema.Balance) (pre post : List String),
      lookup c.priceTable denom = none → c.IsNormalCoinDenom denom = false →
      c.IsPoolCoinDenom denom = true → lookup c.pools denom = some p →
      p.PoolCoinAmount ≠ 0 → p.ReserveAccountBalance = some b →
      p.ReserveCoinDenoms = pre ++ d :: post →
      (∀ x ∈ pre, (∃ coin ∈ b.Coins, coin.Denom = x) ∧
        (lookup c.priceTable x).isSome = true) →
      (∀ coin ∈ b.Coins, coin.Denom ≠ d) →
      lookup c.priceTable "" = none → c.IsNormalCoinDenom "" = false →
      lookup c.denomMetadata "" = none →
      Price ops rand (n + 2) c g denom = some (.error (.unknownDenom ""), c, g)) ∧
    (∀ (ops : FloatOps F) (rand : Nat → F) (c : Context F) (g n : Nat) (denom : String),
      lookup c.priceTable denom = none → c.IsNormalCoinDenom denom = false →
      c.IsPoolCoinDenom denom = true → lookup c.pools denom = some p →
      p.PoolCoinAmount ≠ 0 → p.ReserveAccountBalance = none →
      Price ops rand (n + 1) c g denom =
        some (.ok (ops.mul (ops.div ops.one (ops.ofInt p.PoolCoinAmount)) ops.zero),
          c.setPrice denom (ops.mul (ops.div ops.one (ops.ofInt p.PoolCoinAmount)) ops.zero),
          g)) ∧
    Price ratOps (fun _ => 0) 2 lackingPoolContext 0 "pool7" =
      some (.error (.unknownDenom ""), lackingPoolContext, 0) ∧
    Price ratOps (fun _ => 0) 1 noBalancePoolContext 0 "pool8" =
      some (.ok 0, noBalancePoolContext.setPrice "pool8" 0, 0) := by
  refine ⟨?_, ?_, ?_, ?_, ?_, ?_⟩
  · intro b hb
    rw [schema.ReserveCoins_eq p b hb]
    refine ⟨by simp, ?_⟩
    intro i denom hi
    refine ⟨(b.coinOf denom).getD { Denom := "", Amount := 0 }, by simp [hi], ?_, ?_⟩
    · rintro ⟨x, hx, hxd⟩
      cases hc : b.coinOf denom with
      | none => exact absurd hxd ((schema.coinOf_none b denom).1 hc x hx)
      | some coin =>
        obtain ⟨h1, h2⟩ := schema.coinOf_some b denom coin hc
        exact ⟨h1, h2, rfl⟩
    · intro hno
      rw [(schema.coinOf_none b denom).2 hno]
      rfl
  · intro hb
    unfold schema.Pool.ReserveCoins
    simp only [hb]
  · intro ops rand c g n denom d b pre post hl hn hp hq hz hb hden hpre hd he1 he2 he3
    rw [Price_pool ops rand (n + 1) c g denom p hl hn hp hq hz, schema.ReserveCoins_eq p b hb,
      hden, List.map_append, List.map_cons]
    have hzero : (b.coinOf d).getD { Denom := "", Amount := 0 } = { Denom := "", Amount := 0 } := by
      rw [(schema.coinOf_none b d).2 hd]; rfl
    rw [hzero]
    have hempty : Price ops rand (n + 1) c g (schema.Coin.mk "" 0).Denom =
        some (.error (.unknownDenom ""), c, g) := by
      rw [Price_metadata ops rand n c g "" he1 he2 (by
        unfold Context.IsPoolCoinDenom stringsHasPrefix
        simp)]
      simp only [he3]
    rw [sumReserveCoins_prefix_error ops rand n c g _ _ _ _ _ ?_ hempty]
    intro x hx
    simp only [List.mem_map] at hx
    obtain ⟨y, hy, rfl⟩ := hx
    obtain ⟨⟨coin, hcoin, hcd⟩, hpriced⟩ := hpre y hy
    cases hc : b.coinOf y with
    | none => exact absurd hcd ((schema.coinOf_none b y).1 hc coin hcoin)
    | some c' =>
      simp only [Option.getD_some]
      rw [(schema.coinOf_some b y c' hc).2]
      exact hpriced
  · intro ops rand c g n denom hl hn hp hq hz hb
    rw [Price_pool ops rand n c g denom p hl hn hp hq hz]
    have : p.ReserveCoins = [] := by
      unfold schema.Pool.ReserveCoins
      simp only [hb]
    rw [this]
    simp only [sumReserveCoins]
  · simp [Price, sumReserveCoins, lackingPoolContext, testContextWith,
      Context.IsNormalCoinDenom, Context.IsPoolCoinDenom, util.StringInSlice, stringsHasPrefix,
      lookup, store, schema.Pool.ReserveCoins, schema.Pool.PoolCoinAmount, Context.setPrice,
      ratOps]
  · simp [Price, sumReserveCoins, noBalancePoolContext, testContextWith,
      Context.IsNormalCoinDenom, Context.IsPoolCoinDenom, util.StringInSlice, stringsHasPrefix,
      lookup, store, schema.Pool.ReserveCoins, schema.Pool.PoolCoinAmount, Context.setPrice,
      ratOps]

end pricetable

/-! ## Transformer: the counts of the accumulated statuses -/

namespace transformer

open GoMap

theorem getStatus_increaseCount (m : List (String × schema.AccountActionStatus))
    (addr a : String) (poolID : Nat) (dateKey : String) :
    getStatus (increaseCount m addr poolID dateKey) a =
      if addr = a then (getStatus m addr).IncreaseCount poolID dateKey 1
      else getStatus m a := by
  unfold increaseCount ActionStatus getStatus
  cases hl : lookup m addr with
  | some st =>
    simp only [lookup_store]
    by_cases h : addr = a
    · simp [h]
    · simp [h]
  | none =>
    simp only [lookup_store]
    by_cases h : addr = a
    · simp [h, schema.NewAccountActionStatus]
    · simp [h]

theorem cell_increaseCount (m : List (String × schema.AccountActionStatus))
    (addr a : String) (poolID p : Nat) (dateKey d : String) :
    (getStatus (increaseCount m addr poolID dateKey) a).cell d p =
      if addr = a ∧ poolID = p ∧ dateKey = d then wrapInt64 ((getStatus m a).cell d p + 1)
      else (getStatus m a).cell d p := by
  rw [getStatus_increaseCount]
  by_cases h : addr = a
  · subst h
    rw [if_pos rfl, schema.cell_IncreaseCount]
    by_cases h2 : dateKey = d ∧ poolID = p
    · rw [if_pos h2, if_pos ⟨rfl, h2.2, h2.1⟩]
    · rw [if_neg h2, if_neg (fun hh => h2 ⟨hh.2.2, hh.2.1⟩)]
  · rw [if_neg h, if_neg (fun hh => h hh.1)]

theorem ignored_iff (cfg : config.TransformerConfig) (a : String) :
    (lookup cfg.IgnoredAddressesSet a).isSome = true ↔ a ∈ cfg.IgnoredAddresses := by
  rw [lookup_isSome_iff]
  unfold config.TransformerConfig.IgnoredAddressesSet
  rw [mem_keys_foldl_store_unit]
  simp [keys]

theorem accDepositEvent_cells (lib : Lib) (ign : List (String × Unit)) (dateKey : String)
    (u u' : StateUpdates) (evt : Event) (a d : String) (p : Nat)
    (h : accDepositEvent lib ign dateKey u evt = .ok u')
    (ha : (lookup ign a).isSome = false)
    (htype : evt.Type_ = liquiditytypes.EventTypeDepositToPool) :
    (getStatus u'.depositStatusByAddress a).cell d p =
      (if dateKey = d ∧ isDepositOf lib a p evt = true then
        wrapInt64 ((getStatus u.depositStatusByAddress a).cell d p + 1)
      else (getStatus u.depositStatusByAddress a).cell d p) ∧
    u'.swapStatusByAddress = u.swapStatusByAddress := by
  unfold accDepositEvent at h
  simp only at h
  unfold isDepositOf
  cases h1 : (eventAttrsFromEvent evt).DepositorAddr with
  | error e => simp [h1] at h
  | ok addr =>
    simp only [h1] at h
    by_cases hig : (lookup ign addr).isSome = true
    · simp only [hig, if_true, Except.ok.injEq] at h
      subst h
      have hne : ¬ addr = a := by
        rintro rfl
        rw [ha] at hig
        cases hig
      refine ⟨?_, rfl⟩
      rw [if_neg]
      rintro ⟨_, hm⟩
      cases h2 : (eventAttrsFromEvent evt).PoolID lib with
      | error e => simp [h2] at hm
      | ok poolID => simp [h2, hne] at hm
    · simp only [hig, Bool.false_eq_true, if_false] at h
      cases h2 : (eventAttrsFromEvent evt).PoolID lib with
      | error e => simp [h2] at h
      | ok poolID =>
        simp only [h2, Except.ok.injEq] at h
        subst h
        refine ⟨?_, rfl⟩
        simp only [cell_increaseCount, htype, decide_True, Bool.true_and, decide_eq_true_eq]
        by_cases hc : addr = a ∧ poolID = p ∧ dateKey = d
        · rw [if_pos hc, if_pos ⟨hc.2.2, hc.1, hc.2.1⟩]
        · rw [if_neg hc, if_neg (fun hh => hc ⟨hh.2.1, hh.2.2, hh.1⟩)]

/-- What a swap event that the accumulation accepts has done. -/
theorem accSwapEvent_ok_inv (lib : Lib) (ign : List (String × Unit)) (tm : Int)
    (dateKey : String) (poolByID : List (Nat × liquiditytypes.Pool)) (u u' : StateUpdates)
    (evt : Event)
    (h : accSwapEvent lib ign tm dateKey poolByID u evt = some (.ok u')) :
    ∃ addr, (eventAttrsFromEvent evt).SwapRequesterAddr = .ok addr ∧
      (((lookup ign addr).isSome = true ∧ u' = u) ∨
        ((lookup ign addr).isSome = false ∧
          ∃ poolID, (eventAttrsFromEvent evt).PoolID lib = .ok poolID ∧
            u'.swapStatusByAddress =
              increaseCount u.swapStatusByAddress addr poolID dateKey ∧
            u'.depositStatusByAddress = u.depositStatusByAddress)) := by
  unfold accSwapEvent at h
  simp only at h
  cases h1 : (eventAttrsFromEvent evt).SwapRequesterAddr with
  | error e => simp [h1] at h
  | ok addr =>
    simp only [h1] at h
    refine ⟨addr, rfl, ?_⟩
    by_cases hig : (lookup ign addr).isSome = true
    · simp only [hig, if_true, Option.some.injEq, Except.ok.injEq] at h
      exact Or.inl ⟨hig, h.symm⟩
    · simp only [hig, Bool.false_eq_true, if_false] at h
      right
      refine ⟨by simpa using hig, ?_⟩
      cases h2 : (eventAttrsFromEvent evt).PoolID lib with
      | error e => simp [h2] at h
      | ok poolID =>
        simp only [h2] at h
        refine ⟨poolID, rfl, ?_⟩
        cases h3 : (eventAttrsFromEvent evt).OfferCoinFee lib with
        | none => simp [h3] at h
        | some r =>
          cases r with
          | error e => simp [h3] at h
          | ok offerCoinFee =>
            simp only [h3] at h
            cases h4 : (eventAttrsFromEvent evt).SwapPrice lib with
            | error e => simp [h4] at h
            | ok swapPrice =>
              simp only [h4] at h
              cases h5 : lookup poolByID poolID with
              | none => simp [h5] at h
              | some pool =>
                simp only [h5] at h
                cases h6 : oppositeReserveCoinDenom pool offerCoinFee.Denom with
                | none => simp [h6] at h
                | some demandCoinDenom =>
                  simp only [h6] at h
                  cases h7 : demandCoinFee lib offerCoinFee demandCoinDenom swapPrice with
                  | none => simp [h7] at h
                  | some dcf =>
                    simp only [h7] at h
                    cases h8 : sdk.Int64 offerCoinFee.Amount with
                    | none => simp [h8] at h
                    | some oa =>
                      cases h9 : sdk.Int64 dcf.Amount with
                      | none => simp [h8, h9] at h
                      | some da =>
                        simp only [h8, h9, Option.some.injEq, Except.ok.injEq] at h
                        subst h
                        exact ⟨rfl, rfl⟩

theorem accSwapEvent_cells (lib : Lib) (ign : List (String × Unit)) (tm : Int)
    (dateKey : String) (poolByID : List (Nat × liquiditytypes.Pool)) (u u' : StateUpdates)
    (evt : Event) (a d : String) (p : Nat)
    (h : accSwapEvent lib ign tm dateKey poolByID u evt = some (.ok u'))
    (ha : (lookup ign a).isSome = false)
    (htype : evt.Type_ = liquiditytypes.EventTypeSwapTransacted) :
    (getStatus u'.swapStatusByAddress a).cell d p =
      (if dateKey = d ∧ isSwapOf lib a p evt = true then
        wrapInt64 ((getStatus u.swapStatusByAddress a).cell d p + 1)
      else (getStatus u.swapStatusByAddress a).cell d p) ∧
    u'.depositStatusByAddress = u.depositStatusByAddress := by
  obtain ⟨addr, h1, hcase⟩ := accSwapEvent_ok_inv lib ign tm dateKey poolByID u u' evt h
  unfold isSwapOf
  rcases hcase with ⟨hig, rfl⟩ | ⟨hig, poolID, h2, hs, hd⟩
  · have hne : ¬ addr = a := by
      rintro rfl
      rw [ha] at hig
      cases hig
    refine ⟨?_, rfl⟩
    rw [if_neg]
    rintro ⟨_, hm⟩
    cases h2 : (eventAttrsFromEvent evt).PoolID lib with
    | error e => simp [h1, h2] at hm
    | ok poolID => simp [h1, h2, hne] at hm
  · refine ⟨?_, hd⟩
    rw [hs]
    simp only [cell_increaseCount, htype, h1, h2, decide_True, Bool.true_and,
      decide_eq_true_eq]
    by_cases hc : addr = a ∧ poolID = p ∧ dateKey = d
    · rw [if_pos hc, if_pos ⟨hc.2.2, hc.1, hc.2.1⟩]
    · rw [if_neg hc, if_neg (fun hh => hc ⟨hh.2.1, hh.2.2, hh.1⟩)]

theorem accEvents_cells (lib : Lib) (ign : List (String × Unit)) (tm : Int)
    (dateKey : String) (poolByID : List (Nat × liquiditytypes.Pool)) (evts : List Event)
    (u u' : StateUpdates) (a d : String) (p : Nat) (x y : Int)
    (h : accEvents lib ign tm dateKey poolByID evts u = some (.ok u'))
    (ha : (lookup ign a).isSome = false)
    (hx : (getStatus u.depositStatusByAddress a).cell d p = wrapInt64 x)
    (hy : (getStatus u.swapStatusByAddress a).cell d p = wrapInt64 y) :
    (getStatus u'.depositStatusByAddress a).cell d p =
      wrapInt64 (x + if dateKey = d then (evts.countP (isDepositOf lib a p) : Int) else 0) ∧
    (getStatus u'.swapStatusByAddress a).cell d p =
      wrapInt64 (y + if dateKey = d then (evts.countP (isSwapOf lib a p) : Int) else 0) := by
  induction evts generalizing u x y with
  | nil =>
    simp only [accEvents, Option.some.injEq, Except.ok.injEq] at h
    subst h
    simp [hx, hy]
  | cons evt rest ih =>
    unfold accEvents at h
    have hdistinct : liquiditytypes.EventTypeDepositToPool ≠
        liquiditytypes.EventTypeSwapTransacted := by decide
    by_cases hd : evt.Type_ = liquiditytypes.EventTypeDepositToPool
    · simp only [hd, if_true] at h
      have hsw : isSwapOf lib a p evt = false := by
        unfold isSwapOf
        simp [hd, hdistinct]
      cases h1 : accDepositEvent lib ign dateKey u evt with
      | error e => simp [h1] at h
      | ok u1 =>
        simp only [h1] at h
        obtain ⟨hc, hs⟩ := accDepositEvent_cells lib ign dateKey u u1 evt a d p h1 ha hd
        by_cases hm : dateKey = d ∧ isDepositOf lib a p evt = true
        · rw [if_pos hm, hx, wrapInt64_add_left] at hc
          have := ih u1 (x + 1) y h hc (by rw [hs]; exact hy)
          simp only [List.countP_cons, hm.2, hsw, if_true, Bool.false_eq_true, if_false,
            hm.1, Nat.cast_add, Nat.cast_one, add_zero] at this ⊢
          refine ⟨?_, this.2⟩
          rw [this.1]
          congr 1
          ring
        · rw [if_neg hm, hx] at hc
          have := ih u1 x y h hc (by rw [hs]; exact hy)
          by_cases hdk : dateKey = d
          · have hdep : isDepositOf lib a p evt = false := by
              cases hb : isDepositOf lib a p evt with
              | false => rfl
              | true => exact absurd ⟨hdk, hb⟩ hm
            simpa [List.countP_cons, hdep, hsw, hdk] using this
          · simpa [hdk] using this
    · simp only [hd, if_false] at h
      have hdep : isDepositOf lib a p evt = false := by
        unfold isDepositOf
        simp [hd]
      by_cases hs : evt.Type_ = liquiditytypes.EventTypeSwapTransacted
      · simp only [hs, if_true] at h
        cases h1 : accSwapEvent lib ign tm dateKey poolByID u evt with
        | none => simp [h1] at h
        | some r =>
          cases r with
          | error e => simp [h1] at h
          | ok u1 =>
            simp only [h1] at h
            obtain ⟨hc, hdd⟩ :=
              accSwapEvent_cells lib ign tm dateKey poolByID u u1 evt a d p h1 ha hs
            by_cases hm : dateKey = d ∧ isSwapOf lib a p evt = true
            · rw [if_pos hm, hy, wrapInt64_add_left] at hc
              have := ih u1 x (y + 1) h (by rw [hdd]; exact hx) hc
              simp only [List.countP_cons, hm.2, hdep, if_true, Bool.false_eq_true, if_false,
                hm.1, Nat.cast_add, Nat.cast_one, add_zero] at this ⊢
              refine ⟨this.1, ?_⟩
              rw [this.2]
              congr 1
              ring
            · rw [if_neg hm, hy] at hc
              have := ih u1 x y h (by rw [hdd]; exact hx) hc
              by_cases hdk : dateKey = d
              · have hsw : isSwapOf lib a p evt = false := by
                  cases hb : isSwapOf lib a p evt with
                  | false => rfl
                  | true => exact absurd ⟨hdk, hb⟩ hm
                simpa [List.countP_cons, hdep, hsw, hdk] using this
              · simpa [hdk] using this
      · simp only [hs, if_false] at h
        have hsw : isSwapOf lib a p evt = false := by
          unfold isSwapOf
          simp [hs]
        have := ih u x y h hx hy
        simpa [List.countP_cons, hdep, hsw] using this

theorem accBlocks_cells (lib : Lib) (ign : List (String × Unit)) (blocks : List BlockData)
    (blockHeight : Int) (u u' : StateUpdates) (a d : String) (p : Nat) (x y : Int)
    (h : accBlocks lib ign blocks blockHeight u = some (.ok u'))
    (ha : (lookup ign a).isSome = false)
    (hx : (getStatus u.depositStatusByAddress a).cell d p = wrapInt64 x)
    (hy : (getStatus u.swapStatusByAddress a).cell d p = wrapInt64 y) :
    (getStatus u'.depositStatusByAddress a).cell d p =
      wrapInt64 (x + (countOnDate lib (isDepositOf lib a p) blocks d : Int)) ∧
    (getStatus u'.swapStatusByAddress a).cell d p =
      wrapInt64 (y + (countOnDate lib (isSwapOf lib a p) blocks d : Int)) := by
  induction blocks generalizing u blockHeight x y with
  | nil =>
    simp only [accBlocks, Option.some.injEq, Except.ok.injEq] at h
    subst h
    simp [countOnDate, hx, hy]
  | cons data rest ih =>
    unfold accBlocks at h
    by_cases hh : data.Header.Height ≠ blockHeight
    · simp [hh] at h
    · simp only [hh, if_false] at h
      cases h1 : accBlock lib ign blockHeight u data with
      | none => simp [h1] at h
      | some r =>
        cases r with
        | error e => simp [h1] at h
        | ok u1 =>
          simp only [h1] at h
          unfold accBlock at h1
          have hstep := accEvents_cells lib ign data.Header.Time
            (lib.FormatDate data.Header.Time) data.PoolByID data.Events _ u1 a d p x y h1 ha
            (by cases data.BankModuleState <;> exact hx)
            (by cases data.BankModuleState <;> exact hy)
          have := ih _ u1 _ _ h hstep.1 hstep.2
          by_cases hdk : lib.FormatDate data.Header.Time = d
          · simp only [hdk, if_true] at this
            simp only [countOnDate, List.filter_cons, hdk, decide_True, if_true, List.map_cons,
              List.sum_cons, Nat.cast_add]
            simp only [countOnDate] at this
            refine ⟨?_, ?_⟩
            · rw [this.1]; congr 1; ring
            · rw [this.2]; congr 1; ring
          · simp only [hdk, if_false, add_zero] at this
            simpa [countOnDate, List.filter_cons, hdk] using this

/-- C27: for every sequence of blocks that `AccStateUpdates` consumes without an error and
every address `a` that is not in `IgnoredAddresses`, pool `p` and date key `d`, the cell
`(d, p)` of the deposit status of `a` is the number of `deposit_to_pool` events with the
depositor `a` and the pool `p` in the blocks whose UTC date is `d`, and the cell of the
swap status the number of `swap_transacted` events of the requester `a`, both wrapped to
the machine integers and hence the numbers themselves when these fit.  An event whose
depositor or requester is an ignored address leaves the updates as they are. -/
theorem AccStateUpdates_counts (lib : Lib) (cfg : config.TransformerConfig)
    (startingBlockHeight : Int) (blocks : List BlockData) (u : StateUpdates)
    (a d : String) (p : Nat)
    (hacc : AccStateUpdates lib cfg startingBlockHeight blocks = some (.ok u))
    (ha : a ∉ cfg.IgnoredAddresses) :
    (getStatus u.depositStatusByAddress a).cell d p =
      wrapInt64 (countOnDate lib (isDepositOf lib a p) blocks d) ∧
    (getStatus u.swapStatusByAddress a).cell d p =
      wrapInt64 (countOnDate lib (isSwapOf lib a p) blocks d) ∧
    ((countOnDate lib (isDepositOf lib a p) blocks d : Int) < 9223372036854775808 →
      (getStatus u.depositStatusByAddress a).cell d p =
        countOnDate lib (isDepositOf lib a p) blocks d) ∧
    ((countOnDate lib (isSwapOf lib a p) blocks d : Int) < 9223372036854775808 →
      (getStatus u.swapStatusByAddress a).cell d p =
        countOnDate lib (isSwapOf lib a p) blocks d) ∧
    (∀ (updates : StateUpdates) (evt : Event) (dateKey addr : String),
      (eventAttrsFromEvent evt).DepositorAddr = .ok addr → addr ∈ cfg.IgnoredAddresses →
      accDepositEvent lib cfg.IgnoredAddressesSet dateKey updates evt = .ok updates) ∧
    (∀ (updates : StateUpdates) (evt : Event) (tm : Int) (dateKey addr : String)
        (poolByID : List (Nat × liquiditytypes.Pool)),
      (eventAttrsFromEvent evt).SwapRequesterAddr = .ok addr → addr ∈ cfg.IgnoredAddresses →
      accSwapEvent lib cfg.IgnoredAddressesSet tm dateKey poolByID updates evt =
        some (.ok updates)) := by
  have hign : (lookup cfg.IgnoredAddressesSet a).isSome = false := by
    cases hl : (lookup cfg.IgnoredAddressesSet a).isSome with
    | false => rfl
    | true => exact absurd ((ignored_iff cfg a).1 hl) ha
  have hcells : (getStatus u.depositStatusByAddress a).cell d p =
        wrapInt64 (countOnDate lib (isDepositOf lib a p) blocks d) ∧
      (getStatus u.swapStatusByAddress a).cell d p =
        wrapInt64 (countOnDate lib (isSwapOf lib a p) blocks d) := by
    unfold AccStateUpdates at hacc
    cases blocks with
    | nil => simp at hacc
    | cons b bs =>
      simp only at hacc
      have := accBlocks_cells lib _ _ _ _ u a d p 0 0 hacc hign
        (by simp [getStatus, lookup, schema.AccountActionStatus.cell, getMap, getInt,
          wrapInt64_zero])
        (by simp [getStatus, lookup, schema.AccountActionStatus.cell, getMap, getInt,
          wrapInt64_zero])
      simpa using this
  refine ⟨hcells.1, hcells.2, ?_, ?_, ?_, ?_⟩
  · intro hlt
    rw [hcells.1, wrapInt64_of_range _ (by omega) hlt]
  · intro hlt
    rw [hcells.2, wrapInt64_of_range _ (by omega) hlt]
  · intro updates evt dateKey addr h1 hmem
    have := (ignored_iff cfg addr).2 hmem
    simp [accDepositEvent, h1, this]
  · intro updates evt tm dateKey addr poolByID h1 hmem
    have := (ignored_iff cfg addr).2 hmem
    simp [accSwapEvent, h1, this]

theorem AccStateUpdates_counts_witness :
    AccStateUpdates exampleLib { IgnoredAddresses := [] } 1
        [exampleSwapBlock1, exampleSwapBlock2] = some (.ok exampleSwapUpdates) ∧
    countOnDate exampleLib (isSwapOf exampleLib "cosmos1x" 7)
        [exampleSwapBlock1, exampleSwapBlock2] "2021-05-04" = 1 ∧
    (getStatus exampleSwapUpdates.swapStatusByAddress "cosmos1x").cell "2021-05-04" 7 =
      wrapInt64 (countOnDate exampleLib (isSwapOf exampleLib "cosmos1x" 7)
        [exampleSwapBlock1, exampleSwapBlock2] "2021-05-04") :=
  ⟨by rfl, by rfl,
    (AccStateUpdates_counts exampleLib { IgnoredAddresses := [] } 1
      [exampleSwapBlock1, exampleSwapBlock2] exampleSwapUpdates "cosmos1x" "2021-05-04" 7
      (by rfl) (by decide)).2.1⟩

end transformer

/-! ## Price cache: the keys of the stored and of the read symbols -/

namespace price

open GoMap

variable {F : Type}

theorem lookup_foldl_delete (p : Cache F → Bool) (l acc : List (String × Cache F))
    (k : String) :
    lookup (l.foldl (fun m kc => if p kc.2 then delete m kc.1 else m) acc) k =
      if l.any (fun kc => decide (kc.1 = k) && p kc.2) = true then none else lookup acc k := by
  induction l generalizing acc with
  | nil => simp
  | cons e rest ih =>
    rw [List.foldl_cons, ih]
    by_cases hr : rest.any (fun kc => decide (kc.1 = k) && p kc.2) = true
    · simp [hr]
    · by_cases hp : p e.2 = true
      · by_cases hk : e.1 = k
        · simp [hr, hp, hk, lookup_delete]
        · simp [hr, hp, hk, lookup_delete]
      · simp [hr, hp]

theorem lookup_Expire (cs : CacheStorage F) (now : Int) (k : String) (hwf : WF cs.c) :
    lookup (cs.Expire now).c k =
      (lookup cs.c k).filter (fun c => !cs.expired now c) := by
  unfold CacheStorage.Expire
  simp only
  rw [lookup_foldl_delete]
  cases hl : lookup cs.c k with
  | none =>
    simp
  | some c =>
    have hmem : (k, c) ∈ cs.c := schema.mem_of_lookup_eq_some cs.c k c hl
    by_cases he : cs.expired now c = true
    · have : cs.c.any (fun kc => decide (kc.1 = k) && cs.expired now kc.2) = true := by
        rw [List.any_eq_true]
        exact ⟨(k, c), hmem, by simp [he]⟩
      simp [this, he, Option.filter]
    · have : ¬ cs.c.any (fun kc => decide (kc.1 = k) && cs.expired now kc.2) = true := by
        rw [List.any_eq_true]
        rintro ⟨⟨k', c'⟩, hm', hc'⟩
        simp only [Bool.and_eq_true, decide_eq_true_eq] at hc'
        obtain ⟨rfl, hc'⟩ := hc'
        have := lookup_of_mem_WF cs.c hwf k' c' hm'
        rw [hl] at this
        cases this
        exact he hc'
      simp [this, he, Option.filter]

theorem mem_NewSymbols (cs : CacheStorage F) (now : Int) (symbols : List String) (s : String)
    (hwf : WF cs.c) :
    s ∈ (cs.NewSymbols now symbols).1 ↔
      s ∈ symbols ∧ ∀ c, lookup cs.c s = some c → cs.expired now c = true := by
  unfold CacheStorage.NewSymbols
  simp only [List.mem_filter]
  rw [lookup_Expire cs now s hwf]
  cases hl : lookup cs.c s with
  | none => simp
  | some c =>
    by_cases he : cs.expired now c = true
    · simp [he, Option.filter]
    · simp [he, Option.filter]

/-- C24: the cache stores a price under the lower-case form of the symbol and reads it
under the symbol as it is given.  After `SetPrice(s, p)` the method `Price` finds `p`
under `ToLower(s)`, and `NewSymbols` does not report `ToLower(s)` before the entry
expires; for every other symbol, `s` itself included when it has an upper-case letter,
`Price` and `NewSymbols` answer as they did before `SetPrice(s, p)`.  In a fresh cache
with `SetPrice("ATOM", 25/2)` at the time 0, `Price("ATOM")` is `(0, false)` and
`NewSymbols("ATOM")` reports `ATOM` one nanosecond later, while `Price("atom")` is
`(25/2, true)` and `NewSymbols("atom")` reports nothing. -/
theorem CacheStorage_reads_exact_key (ops : FloatOps F) (toLower : String → String)
    (cs : CacheStorage F) (t0 : Int) (s : String) (p : F) (symbols : List String) :
    (cs.SetPrice toLower t0 s p).Price ops (toLower s) = (p, true) ∧
    (∀ s2, s2 ≠ toLower s →
      (cs.SetPrice toLower t0 s p).Price ops s2 = cs.Price ops s2) ∧
    (∀ t1, WF cs.c → t1 < t0 + cs.maxAge →
      toLower s ∉ ((cs.SetPrice toLower t0 s p).NewSymbols t1 symbols).1) ∧
    (∀ t1 s2, WF cs.c → s2 ≠ toLower s →
      (s2 ∈ ((cs.SetPrice toLower t0 s p).NewSymbols t1 symbols).1 ↔
        s2 ∈ (cs.NewSymbols t1 symbols).1)) ∧
    exampleCache.c = [("atom", { Price := 25 / 2, UpdatedAt := 0 })] ∧
    exampleCache.Price ratOps "ATOM" = (0, false) ∧
    (exampleCache.NewSymbols 1 ["ATOM"]).1 = ["ATOM"] ∧
    exampleCache.Price ratOps "atom" = (25 / 2, true) ∧
    (exampleCache.NewSymbols 1 ["atom"]).1 = [] := by
  have hwfs : WF cs.c → WF (cs.SetPrice toLower t0 s p).c := fun h => WF_store _ _ _ h
  refine ⟨?_, ?_, ?_, ?_, by rfl, by rfl, by rfl, by rfl, by rfl⟩
  · simp [CacheStorage.Price, CacheStorage.SetPrice, lookup_store]
  · intro s2 hne
    simp [CacheStorage.Price, CacheStorage.SetPrice, lookup_store, Ne.symm hne]
  · intro t1 hwf hlt
    rw [mem_NewSymbols _ _ _ _ (hwfs hwf)]
    rintro ⟨_, hexp⟩
    have := hexp { Price := p, UpdatedAt := t0 }
      (by simp [CacheStorage.SetPrice, lookup_store])
    simp [CacheStorage.expired, CacheStorage.SetPrice] at this
    omega
  · intro t1 s2 hwf hne
    rw [mem_NewSymbols _ _ _ _ (hwfs hwf), mem_NewSymbols _ _ _ _ hwf]
    simp [CacheStorage.SetPrice, lookup_store, Ne.symm hne, CacheStorage.expired]

end price

/-! ## Store: the banner to show -/

namespace store

theorem firstByStartsAtDesc_eq_none (l : List schema.Banner) :
    firstByStartsAtDesc l = none ↔ l = [] := by
  cases l with
  | nil => simp [firstByStartsAtDesc]
  | cons b rest =>
    simp only [firstByStartsAtDesc]
    cases firstByStartsAtDesc rest with
    | none => simp
    | some b' => by_cases h : b'.StartsAt > b.StartsAt <;> simp [h]

theorem firstByStartsAtDesc_some (l : List schema.Banner) (b : schema.Banner)
    (h : firstByStartsAtDesc l = some b) :
    b ∈ l ∧ ∀ b' ∈ l, b'.StartsAt ≤ b.StartsAt := by
  induction l generalizing b with
  | nil => simp [firstByStartsAtDesc] at h
  | cons a rest ih =>
    simp only [firstByStartsAtDesc] at h
    cases hr : firstByStartsAtDesc rest with
    | none =>
      simp only [hr, Option.some.injEq] at h
      subst h
      have : rest = [] := (firstByStartsAtDesc_eq_none rest).1 hr
      subst this
      simp
    | some c =>
      simp only [hr] at h
      obtain ⟨hc, hmax⟩ := ih c hr
      by_cases hgt : c.StartsAt > a.StartsAt
      · simp only [hgt, if_true, Option.some.injEq] at h
        subst h
        refine ⟨List.mem_cons_of_mem _ hc, ?_⟩
        intro b' hb'
        rcases List.mem_cons.1 hb' with rfl | hb'
        · exact le_of_lt hgt
        · exact hmax b' hb'
      · simp only [hgt, if_false, Option.some.injEq] at h
        subst h
        refine ⟨List.mem_cons_self _ _, ?_⟩
        intro b' hb'
        rcases List.mem_cons.1 hb' with rfl | hb'
        · exact le_refl _
        · exact le_trans (hmax b' hb') (not_lt.1 hgt)

/-- C25: `Banner` returns no banner exactly when no banner of the collection has
`visibleAt <= now < endsAt`; a banner that it returns is one of the collection with
`visibleAt <= now < endsAt` whose `startsAt` is the greatest among the banners with
`visibleAt <= now < endsAt`.  A banner is eligible at `now = visibleAt` (when it ends
later) and not at `now = endsAt`.  With the three banners of `TestService_Banner` the
method gives, on 2021-05-04, event 1 at 09:09:59, the passive banner at 09:10:00, none at
12:00:00, event 2 at 17:30:00 and none at 18:10:00. -/
theorem Banner_greatest_startsAt (banners : List schema.Banner) (now : Int) :
    (Banner banners now = none ↔
      ∀ b ∈ banners, ¬ (b.VisibleAt ≤ now ∧ now < b.EndsAt)) ∧
    (∀ b, Banner banners now = some b →
      b ∈ banners ∧ b.VisibleAt ≤ now ∧ now < b.EndsAt ∧
      ∀ b' ∈ banners, b'.VisibleAt ≤ now → now < b'.EndsAt → b'.StartsAt ≤ b.StartsAt) ∧
    (∀ b ∈ banners, b.VisibleAt < b.EndsAt → (Banner banners b.VisibleAt).isSome = true) ∧
    (∀ b : schema.Banner, b.VisibleAt < b.EndsAt → Banner [b] b.VisibleAt = some b) ∧
    (∀ b : schema.Banner, Banner [b] b.EndsAt = none) ∧
    (Banner testBanners (may4 9 9 59)).map (fun b => b.Text) = some "event 1" ∧
    (Banner testBanners (may4 9 10 0)).map (fun b => b.Text) = some "passive banner 1" ∧
    Banner testBanners (may4 12 0 0) = none ∧
    (Banner testBanners (may4 17 30 0)).map (fun b => b.Text) = some "event 2" ∧
    Banner testBanners (may4 18 10 0) = none := by
  have hnone : ∀ (bs : List schema.Banner) (t : Int), Banner bs t = none ↔
      ∀ b ∈ bs, ¬ (b.VisibleAt ≤ t ∧ t < b.EndsAt) := by
    intro bs t
    unfold Banner
    rw [firstByStartsAtDesc_eq_none, List.filter_eq_nil_iff]
    simp [bannerFilter]
  refine ⟨hnone banners now, ?_, ?_, ?_, ?_, by decide, by decide, by decide, by decide,
    by decide⟩
  · intro b hb
    unfold Banner at hb
    obtain ⟨hmem, hmax⟩ := firstByStartsAtDesc_some _ b hb
    rw [List.mem_filter] at hmem
    have hf := hmem.2
    simp only [bannerFilter, Bool.and_eq_true, decide_eq_true_eq] at hf
    refine ⟨hmem.1, hf.1, hf.2, ?_⟩
    intro b' hb' h1 h2
    apply hmax
    rw [List.mem_filter]
    exact ⟨hb', by simp [bannerFilter, h1, h2]⟩
  · intro b hb hlt
    cases hB : Banner banners b.VisibleAt with
    | some c => rfl
    | none => exact absurd ⟨le_refl _, hlt⟩ ((hnone banners b.VisibleAt).1 hB b hb)
  · intro b hlt
    simp [Banner, bannerFilter, hlt, firstByStartsAtDesc]
  · intro b
    simp [Banner, bannerFilter, firstByStartsAtDesc]

end store

/-! ## Store: upserts in general -/

namespace store

theorem key_foldl_set {W R K : Type} (kR : R → K) (set : W → R → R)
    (hK : ∀ w r, kR (set w r) = kR r) (l : List W) (r : R) :
    kR (l.foldl (fun r w => set w r) r) = kR r := by
  induction l generalizing r with
  | nil => rfl
  | cons w l ih => rw [List.foldl_cons, ih, hK]

section upsert

variable {W R K : Type} [DecidableEq K] (kW : W → K) (kR : R → K) (set : W → R → R)
  (new : W → R)

theorem map_key_upsertBy (hK : ∀ w r, kR (set w r) = kR r) (hN : ∀ w, kR (new w) = kW w)
    (w : W) (rows : List R) :
    (upsertBy kW kR set new w rows).map kR =
      if kW w ∈ rows.map kR then rows.map kR else rows.map kR ++ [kW w] := by
  induction rows with
  | nil => simp [upsertBy, hN]
  | cons r rows ih =>
    by_cases h : kR r = kW w
    · simp [upsertBy, h, hK]
    · have h2 : ¬ kW w = kR r := fun e => h e.symm
      simp only [upsertBy, h, if_false, List.map_cons, ih, List.mem_cons, h2, false_or]
      by_cases hm : kW w ∈ rows.map kR
      · simp [hm]
      · simp [hm]

theorem mem_map_key_bulkBy (hK : ∀ w r, kR (set w r) = kR r) (hN : ∀ w, kR (new w) = kW w)
    (ws : List W) (rows : List R) (k : K) :
    k ∈ (bulkBy kW kR set new ws rows).map kR ↔ k ∈ rows.map kR ∨ k ∈ ws.map kW := by
  induction ws generalizing rows with
  | nil => simp [bulkBy]
  | cons w ws ih =>
    have := ih (upsertBy kW kR set new w rows)
    simp only [bulkBy, List.foldl_cons] at this ⊢
    rw [this, map_key_upsertBy kW kR set new hK hN]
    by_cases hm : kW w ∈ rows.map kR
    · rw [if_pos hm]
      simp only [List.map_cons, List.mem_cons]
      constructor
      · rintro (h | h)
        · exact Or.inl h
        · exact Or.inr (Or.inr h)
      · rintro (h | h | h)
        · exact Or.inl h
        · subst h; exact Or.inl hm
        · exact Or.inr h
    · rw [if_neg hm]
      simp only [List.map_cons, List.mem_cons, List.mem_append, List.mem_singleton]
      tauto

theorem nodup_map_key_bulkBy (hK : ∀ w r, kR (set w r) = kR r)
    (hN : ∀ w, kR (new w) = kW w) (ws : List W) (rows : List R)
    (hnd : (rows.map kR).Nodup) : ((bulkBy kW kR set new ws rows).map kR).Nodup := by
  induction ws generalizing rows with
  | nil => simpa [bulkBy] using hnd
  | cons w ws ih =>
    have := ih (upsertBy kW kR set new w rows)
    simp only [bulkBy, List.foldl_cons] at this ⊢
    apply this
    rw [map_key_upsertBy kW kR set new hK hN]
    by_cases hm : kW w ∈ rows.map kR
    · rw [if_pos hm]; exact hnd
    · rw [if_neg hm]
      rw [List.nodup_append]
      refine ⟨hnd, List.nodup_singleton _, ?_⟩
      intro a ha hb
      simp only [List.mem_singleton] at hb
      subst hb
      exact hm ha

/-- The writes with the key of a document, applied to it in their order. -/
theorem bulkBy_cons_row (hK : ∀ w r, kR (set w r) = kR r) (ws : List W) (r : R)
    (rows : List R) :
    bulkBy kW kR set new ws (r :: rows) =
      (ws.filter (fun w => decide (kW w = kR r))).foldl (fun r w => set w r) r ::
        bulkBy kW kR set new (ws.filter (fun w => !decide (kW w = kR r))) rows := by
  induction ws generalizing r rows with
  | nil => simp [bulkBy]
  | cons w ws ih =>
    simp only [bulkBy, List.foldl_cons] at ih ⊢
    by_cases h : kR r = kW w
    · have h2 : kW w = kR r := h.symm
      simp only [upsertBy, h, if_true]
      rw [ih (set w r) rows, hK]
      simp [List.filter_cons, h]
    · have h2 : ¬ kW w = kR r := fun e => h e.symm
      simp only [upsertBy, h, if_false]
      rw [ih r (upsertBy kW kR set new w rows)]
      simp [List.filter_cons, h2]

theorem foldl_set_absorb (hA : ∀ w v r, set w (set v r) = set w r) (l : List W)
    (hl : l ≠ []) (v : W) (r : R) :
    l.foldl (fun r w => set w r) (set v r) = l.foldl (fun r w => set w r) r := by
  cases l with
  | nil => exact absurd rfl hl
  | cons w l => simp [List.foldl_cons, hA]

theorem foldl_set_idem (hA : ∀ w v r, set w (set v r) = set w r) (l l2 : List W)
    (hl : l ≠ []) (r : R) :
    l.foldl (fun r w => set w r) (l2.foldl (fun r w => set w r) r) =
      l.foldl (fun r w => set w r) r := by
  induction l2 generalizing r with
  | nil => rfl
  | cons w l2 ih =>
    rw [List.foldl_cons, ih, foldl_set_absorb set hA l hl]

theorem bulkBy_idem_nil (hK : ∀ w r, kR (set w r) = kR r) (hN : ∀ w, kR (new w) = kW w)
    (hA : ∀ w v r, set w (set v r) = set w r) (hS : ∀ w, set w (new w) = new w) (n : Nat) :
    ∀ ws : List W, ws.length ≤ n →
      bulkBy kW kR set new ws (bulkBy kW kR set new ws []) = bulkBy kW kR set new ws [] := by
  induction n with
  | zero =>
    intro ws hlen
    have : ws = [] := List.length_eq_zero.1 (Nat.le_zero.1 hlen)
    subst this
    rfl
  | succ n ih =>
    intro ws hlen
    cases ws with
    | nil => rfl
    | cons w t =>
      have h1 : bulkBy kW kR set new (w :: t) [] = bulkBy kW kR set new t [new w] := by
        simp [bulkBy, upsertBy]
      rw [h1, bulkBy_cons_row kW kR set new hK t (new w) [], hN,
        bulkBy_cons_row kW kR set new hK (w :: t), key_foldl_set kR set hK, hN]
      have hlen2 : (t.filter (fun w2 => !decide (kW w2 = kW w))).length ≤ n :=
        le_trans (List.length_filter_le _ _) (Nat.le_of_succ_le_succ hlen)
      have hf1 : (w :: t).filter (fun w2 => decide (kW w2 = kW w)) =
          w :: t.filter (fun w2 => decide (kW w2 = kW w)) := by
        simp [List.filter_cons]
      have hf2 : (w :: t).filter (fun w2 => !decide (kW w2 = kW w)) =
          t.filter (fun w2 => !decide (kW w2 = kW w)) := by
        simp [List.filter_cons]
      rw [hf1, hf2, ih _ hlen2, List.foldl_cons]
      congr 1
      by_cases he : t.filter (fun w2 => decide (kW w2 = kW w)) = []
      · rw [he]
        simp [hS]
      · rw [foldl_set_absorb set hA _ he, foldl_set_idem set hA _ _ he]

/-- A bulk write of upserts that is repeated changes nothing. -/
theorem bulkBy_idem (hK : ∀ w r, kR (set w r) = kR r) (hN : ∀ w, kR (new w) = kW w)
    (hA : ∀ w v r, set w (set v r) = set w r) (hS : ∀ w, set w (new w) = new w)
    (ws : List W) (rows : List R) :
    bulkBy kW kR set new ws (bulkBy kW kR set new ws rows) = bulkBy kW kR set new ws rows := by
  induction rows generalizing ws with
  | nil => exact bulkBy_idem_nil kW kR set new hK hN hA hS ws.length ws (le_refl _)
  | cons r rows ih =>
    rw [bulkBy_cons_row kW kR set new hK ws r rows,
      bulkBy_cons_row kW kR set new hK ws, key_foldl_set kR set hK, ih]
    congr 1
    by_cases he : ws.filter (fun w => decide (kW w = kR r)) = []
    · rw [he]; rfl
    · exact foldl_set_idem set hA _ _ he r

theorem bulkBy_append (ws ws2 : List W) (rows : List R) :
    bulkBy kW kR set new (ws ++ ws2) rows =
      bulkBy kW kR set new ws2 (bulkBy kW kR set new ws rows) := by
  simp [bulkBy, List.foldl_append]

end upsert

end store

/-! ## Store: the bulk writes as upserts in general -/

namespace store

theorem bulkWriteAccountStatuses_eq_bulkBy (ws : List AccountStatusWrite)
    (rows : List schema.AccountStatus) :
    bulkWriteAccountStatuses ws rows =
      bulkBy (fun w : AccountStatusWrite => (w.BlockHeight, w.Address))
        (fun r : schema.AccountStatus => (r.BlockHeight, r.Address))
        (fun w r => { r with Deposits := w.Deposits, Swaps := w.Swaps })
        (fun w => { BlockHeight := w.BlockHeight, Address := w.Address
                    Deposits := w.Deposits, Swaps := w.Swaps }) ws rows := by
  have hu : ∀ (w : AccountStatusWrite) (rows : List schema.AccountStatus),
      upsertAccountStatus w rows =
        upsertBy (fun w : AccountStatusWrite => (w.BlockHeight, w.Address))
          (fun r : schema.AccountStatus => (r.BlockHeight, r.Address))
          (fun w r => { r with Deposits := w.Deposits, Swaps := w.Swaps })
          (fun w => { BlockHeight := w.BlockHeight, Address := w.Address
                      Deposits := w.Deposits, Swaps := w.Swaps }) w rows := by
    intro w rows
    induction rows with
    | nil => rfl
    | cons r rows ih =>
      simp only [upsertAccountStatus, upsertBy, Prod.mk.injEq, ih]
  induction ws generalizing rows with
  | nil => rfl
  | cons w ws ih =>
    simp only [bulkWriteAccountStatuses, bulkBy, List.foldl_cons] at ih ⊢
    rw [ih, hu]

theorem bulkWritePoolStatuses_eq_bulkBy (ws : List PoolStatusWrite)
    (rows : List schema.PoolStatus) :
    bulkWritePoolStatuses ws rows =
      bulkBy (fun w : PoolStatusWrite => (w.BlockHeight, w.ID))
        (fun r : schema.PoolStatus => (r.BlockHeight, r.ID))
        (fun w r => { r with SwapFeeVolumes := w.SwapFeeVolumes })
        (fun w => { BlockHeight := w.BlockHeight, ID := w.ID
                    SwapFeeVolumes := w.SwapFeeVolumes }) ws rows := by
  have hu : ∀ (w : PoolStatusWrite) (rows : List schema.PoolStatus),
      upsertPoolStatus w rows =
        upsertBy (fun w : PoolStatusWrite => (w.BlockHeight, w.ID))
          (fun r : schema.PoolStatus => (r.BlockHeight, r.ID))
          (fun w r => { r with SwapFeeVolumes := w.SwapFeeVolumes })
          (fun w => { BlockHeight := w.BlockHeight, ID := w.ID
                      SwapFeeVolumes := w.SwapFeeVolumes }) w rows := by
    intro w rows
    induction rows with
    | nil => rfl
    | cons r rows ih =>
      simp only [upsertPoolStatus, upsertBy, Prod.mk.injEq, ih]
  induction ws generalizing rows with
  | nil => rfl
  | cons w ws ih =>
    simp only [bulkWritePoolStatuses, bulkBy, List.foldl_cons] at ih ⊢
    rw [ih, hu]

theorem bulkWriteAccountStatuses_idem (ws : List AccountStatusWrite)
    (rows : List schema.AccountStatus) :
    bulkWriteAccountStatuses ws (bulkWriteAccountStatuses ws rows) =
      bulkWriteAccountStatuses ws rows := by
  rw [bulkWriteAccountStatuses_eq_bulkBy, bulkWriteAccountStatuses_eq_bulkBy]
  apply bulkBy_idem <;> intros <;> rfl

theorem bulkWritePoolStatuses_idem (ws : List PoolStatusWrite)
    (rows : List schema.PoolStatus) :
    bulkWritePoolStatuses ws (bulkWritePoolStatuses ws rows) =
      bulkWritePoolStatuses ws rows := by
  rw [bulkWritePoolStatuses_eq_bulkBy, bulkWritePoolStatuses_eq_bulkBy]
  apply bulkBy_idem <;> intros <;> rfl

theorem bulkWritePools_idem (ws : List liquiditytypes.Pool) (rows : List schema.Pool) :
    bulkWritePools ws (bulkWritePools ws rows) = bulkWritePools ws rows := by
  have hu : ∀ (p : liquiditytypes.Pool) (rows : List schema.Pool),
      upsertPool p rows =
        upsertBy (fun p : liquiditytypes.Pool => p.Id) (fun r : schema.Pool => r.ID)
          (fun p r => { r with ReserveAccountAddress := p.ReserveAccountAddress
                               ReserveCoinDenoms := p.ReserveCoinDenoms
                               PoolCoinDenom := p.PoolCoinDenom })
          (fun p => { ID := p.Id, ReserveAccountAddress := p.ReserveAccountAddress
                      ReserveCoinDenoms := p.ReserveCoinDenoms
                      PoolCoinDenom := p.PoolCoinDenom
                      Status := none, ReserveAccountBalance := none
                      PoolCoinSupply := none }) p rows := by
    intro p rows
    induction rows with
    | nil => rfl
    | cons r rows ih => simp only [upsertPool, upsertBy, ih]
  have hb : ∀ (ws : List liquiditytypes.Pool) (rows : List schema.Pool),
      bulkWritePools ws rows = bulkBy (fun p : liquiditytypes.Pool => p.Id)
          (fun r : schema.Pool => r.ID)
          (fun p r => { r with ReserveAccountAddress := p.ReserveAccountAddress
                               ReserveCoinDenoms := p.ReserveCoinDenoms
                               PoolCoinDenom := p.PoolCoinDenom })
          (fun p => { ID := p.Id, ReserveAccountAddress := p.ReserveAccountAddress
                      ReserveCoinDenoms := p.ReserveCoinDenoms
                      PoolCoinDenom := p.PoolCoinDenom
                      Status := none, ReserveAccountBalance := none
                      PoolCoinSupply := none }) ws rows := by
    intro ws
    induction ws with
    | nil => intro rows; rfl
    | cons w ws ih =>
      intro rows
      simp only [bulkWritePools, bulkBy, List.foldl_cons] at ih ⊢
      rw [ih, hu]
  rw [hb, hb]
  apply bulkBy_idem <;> intros <;> rfl

theorem bulkWriteBalances_idem (ws : List BalanceWrite) (rows : List schema.Balance) :
    bulkWriteBalances ws (bulkWriteBalances ws rows) = bulkWriteBalances ws rows := by
  have hu : ∀ (w : BalanceWrite) (rows : List schema.Balance),
      upsertBalance w rows =
        upsertBy (fun w : BalanceWrite => w.Address) (fun r : schema.Balance => r.Address)
          (fun w r => { r with BlockHeight := w.BlockHeight, Coins := w.Coins })
          (fun w => { BlockHeight := w.BlockHeight, Address := w.Address
                      Coins := w.Coins }) w rows := by
    intro w rows
    induction rows with
    | nil => rfl
    | cons r rows ih => simp only [upsertBalance, upsertBy, ih]
  have hb : ∀ (ws : List BalanceWrite) (rows : List schema.Balance),
      bulkWriteBalances ws rows =
        bulkBy (fun w : BalanceWrite => w.Address) (fun r : schema.Balance => r.Address)
          (fun w r => { r with BlockHeight := w.BlockHeight, Coins := w.Coins })
          (fun w => { BlockHeight := w.BlockHeight, Address := w.Address
                      Coins := w.Coins }) ws rows := by
    intro ws
    induction ws with
    | nil => intro rows; rfl
    | cons w ws ih =>
      intro rows
      simp only [bulkWriteBalances, bulkBy, List.foldl_cons] at ih ⊢
      rw [ih, hu]
  rw [hb, hb]
  apply bulkBy_idem <;> intros <;> rfl

theorem bulkWriteSupplies_idem (ws : List SupplyWrite) (rows : List schema.Supply) :
    bulkWriteSupplies ws (bulkWriteSupplies ws rows) = bulkWriteSupplies ws rows := by
  have hu : ∀ (w : SupplyWrite) (rows : List schema.Supply),
      upsertSupply w rows =
        upsertBy (fun w : SupplyWrite => w.Denom) (fun r : schema.Supply => r.Denom)
          (fun w r => { r with BlockHeight := w.BlockHeight, Amount := w.Amount })
          (fun w => { BlockHeight := w.BlockHeight, Denom := w.Denom
                      Amount := w.Amount }) w rows := by
    intro w rows
    induction rows with
    | nil => rfl
    | cons r rows ih => simp only [upsertSupply, upsertBy, ih]
  have hb : ∀ (ws : List SupplyWrite) (rows : List schema.Supply),
      bulkWriteSupplies ws rows =
        bulkBy (fun w : SupplyWrite => w.Denom) (fun r : schema.Supply => r.Denom)
          (fun w r => { r with BlockHeight := w.BlockHeight, Amount := w.Amount })
          (fun w => { BlockHeight := w.BlockHeight, Denom := w.Denom
                      Amount := w.Amount }) ws rows := by
    intro ws
    induction ws with
    | nil => intro rows; rfl
    | cons w ws ih =>
      intro rows
      simp only [bulkWriteSupplies, bulkBy, List.foldl_cons] at ih ⊢
      rw [ih, hu]
  rw [hb, hb]
  apply bulkBy_idem <;> intros <;> rfl

end store

/-! ## Transformer: a repeated update of the state -/

namespace transformer

open GoMap

theorem mergeWrites_height (s : store.State) (h : Int) (updates : StateUpdates)
    (data : BlockData) : ∀ w ∈ mergeWrites s h updates data, w.BlockHeight = data.Header.Height := by
  intro w hw
  unfold mergeWrites at hw
  rw [List.mem_map] at hw
  obtain ⟨_, _, rfl⟩ := hw
  rfl

theorem carryWrites_height (cur : List schema.AccountStatus) (updates : StateUpdates)
    (data : BlockData) : ∀ w ∈ carryWrites cur updates data, w.BlockHeight = data.Header.Height := by
  intro w hw
  unfold carryWrites at hw
  rw [List.mem_map] at hw
  obtain ⟨_, _, rfl⟩ := hw
  rfl

theorem mergeWrites_congr (s s2 : store.State) (h : Int) (updates : StateUpdates)
    (data : BlockData)
    (hfind : ∀ a, store.AccountStatus s2 h a = store.AccountStatus s h a) :
    mergeWrites s2 h updates data = mergeWrites s h updates data := by
  unfold mergeWrites currentAccountStatus
  simp only [hfind]

theorem UpdateAccountStatus_again (s s1 s2 : store.State) (h : Int) (updates : StateUpdates)
    (data : BlockData) (hd : updates.lastBlockData = some data) (hne : data.Header.Height ≠ h)
    (h1 : UpdateAccountStatus s h updates = some s1)
    (hrows : s2.AccountStatuses = s1.AccountStatuses) :
    UpdateAccountStatus s2 h updates = some s2 := by
  unfold UpdateAccountStatus at h1 ⊢
  simp only [hd, Option.some.injEq] at h1 ⊢
  have hmw := mergeWrites_height s h updates data
  have hfilter1 : (store.bulkWriteAccountStatuses (mergeWrites s h updates data)
      s.AccountStatuses).filter (fun r => decide (r.BlockHeight = h)) =
      s.AccountStatuses.filter (fun r => decide (r.BlockHeight = h)) :=
    store.filter_bulkWriteAccountStatuses _ _ h (fun w hw => by rw [hmw w hw]; exact hne)
  rw [hfilter1] at h1
  have hrows1 : s1.AccountStatuses = store.bulkWriteAccountStatuses
      (carryWrites (s.AccountStatuses.filter (fun r => decide (r.BlockHeight = h)))
        updates data)
      (store.bulkWriteAccountStatuses (mergeWrites s h updates data) s.AccountStatuses) := by
    rw [← h1]
  have hcw := carryWrites_height
    (s.AccountStatuses.filter (fun r => decide (r.BlockHeight = h))) updates data
  have hfind : ∀ a, store.AccountStatus s2 h a = store.AccountStatus s h a := by
    intro a
    unfold store.AccountStatus
    rw [hrows, hrows1,
      store.find_bulkWrite_of_not_mem _ _ h a
        (fun w hw hc => hne ((hcw w hw).symm.trans hc.1)),
      store.find_bulkWrite_of_not_mem _ _ h a
        (fun w hw hc => hne ((hmw w hw).symm.trans hc.1))]
  rw [mergeWrites_congr s s2 h updates data hfind]
  have hfilter2 : (store.bulkWriteAccountStatuses (mergeWrites s h updates data)
      s2.AccountStatuses).filter (fun r => decide (r.BlockHeight = h)) =
      s.AccountStatuses.filter (fun r => decide (r.BlockHeight = h)) := by
    rw [store.filter_bulkWriteAccountStatuses _ _ h (fun w hw => by rw [hmw w hw]; exact hne),
      hrows, hrows1,
      store.filter_bulkWriteAccountStatuses _ _ h (fun w hw => by rw [hcw w hw]; exact hne),
      store.filter_bulkWriteAccountStatuses _ _ h (fun w hw => by rw [hmw w hw]; exact hne)]
  rw [hfilter2]
  have hidem : store.bulkWriteAccountStatuses
      (carryWrites (s.AccountStatuses.filter (fun r => decide (r.BlockHeight = h)))
        updates data)
      (store.bulkWriteAccountStatuses (mergeWrites s h updates data) s2.AccountStatuses) =
      s2.AccountStatuses := by
    have happ : ∀ rows : List schema.AccountStatus,
        store.bulkWriteAccountStatuses
          (carryWrites (s.AccountStatuses.filter (fun r => decide (r.BlockHeight = h)))
            updates data)
          (store.bulkWriteAccountStatuses (mergeWrites s h updates data) rows) =
        store.bulkWriteAccountStatuses (mergeWrites s h updates data ++
          carryWrites (s.AccountStatuses.filter (fun r => decide (r.BlockHeight = h)))
            updates data) rows := by
      intro rows
      simp [store.bulkWriteAccountStatuses, List.foldl_append]
    rw [hrows, hrows1]
    simp only [happ]
    rw [store.bulkWriteAccountStatuses_idem]
  rw [hidem]

theorem poolStatusWrites_height (s : store.State) (h : Int) (updates : StateUpdates)
    (data : BlockData) :
    ∀ w ∈ poolStatusWrites s h updates data, w.BlockHeight = data.Header.Height := by
  intro w hw
  unfold poolStatusWrites at hw
  rw [List.mem_map] at hw
  obtain ⟨_, _, rfl⟩ := hw
  rfl

theorem UpdatePoolStatus_again (s s1 s2 : store.State) (h : Int) (updates : StateUpdates)
    (data : BlockData) (hd : updates.lastBlockData = some data) (hne : data.Header.Height ≠ h)
    (h1 : UpdatePoolStatus s h updates = some s1)
    (hrows : s2.PoolStatuses = s1.PoolStatuses) (hpools : s2.Pools = s1.Pools) :
    UpdatePoolStatus s2 h updates = some s2 := by
  unfold UpdatePoolStatus at h1 ⊢
  simp only [hd, Option.some.injEq] at h1 ⊢
  have hpw := poolStatusWrites_height s h updates data
  have hrows1 : s1.PoolStatuses = store.bulkWritePoolStatuses
      (poolStatusWrites s h updates data) s.PoolStatuses := by rw [← h1]
  have hpools1 : s1.Pools = store.bulkWritePools data.Pools s.Pools := by rw [← h1]
  have hfind : ∀ id, store.PoolStatus s2 h id = store.PoolStatus s h id := by
    intro id
    unfold store.PoolStatus
    rw [hrows, hrows1, store.find_bulkWritePool_of_not_mem _ _ h id
      (fun w hw hc => hne ((hpw w hw).symm.trans hc.1))]
  have hw : poolStatusWrites s2 h updates data = poolStatusWrites s h updates data := by
    unfold poolStatusWrites newSwapFeeVolumes currentPoolStatus
    simp only [hfind]
  rw [hw]
  have e1 : store.bulkWritePoolStatuses (poolStatusWrites s h updates data) s2.PoolStatuses =
      s2.PoolStatuses := by
    rw [hrows, hrows1, store.bulkWritePoolStatuses_idem]
  have e2 : store.bulkWritePools data.Pools s2.Pools = s2.Pools := by
    rw [hpools, hpools1, store.bulkWritePools_idem]
  rw [e1, e2]

theorem UpdateBalancesAndSupplies_again (s s1 s2 : store.State) (updates : StateUpdates)
    (h1 : UpdateBalancesAndSupplies s updates = some s1)
    (hb : s2.Balances = s1.Balances) (hs : s2.Supplies = s1.Supplies) :
    UpdateBalancesAndSupplies s2 updates = some s2 := by
  unfold UpdateBalancesAndSupplies at h1 ⊢
  cases hbank : updates.lastBankModuleState with
  | none => rfl
  | some st =>
    simp only [hbank] at h1 ⊢
    cases hw : balanceWrites updates.lastBankModuleStateHeight st.Balances with
    | none => simp [hw] at h1
    | some ws =>
      cases hw2 : supplyWrites updates.lastBankModuleStateHeight st.Supply with
      | none => simp [hw, hw2] at h1
      | some ws2 =>
        simp only [hw, hw2, Option.some.injEq] at h1 ⊢
        have e1 : s1.Balances = store.bulkWriteBalances ws s.Balances := by rw [← h1]
        have e2 : s1.Supplies = store.bulkWriteSupplies ws2 s.Supplies := by rw [← h1]
        rw [hb, hs, e1, e2, store.bulkWriteBalances_idem, store.bulkWriteSupplies_idem,
          ← e1, ← e2, ← hb, ← hs]

/-- The collections that each of the three functions of `UpdateState` leaves alone. -/
theorem UpdateState_parts (s s1 : store.State) (h : Int) (updates : StateUpdates)
    (h1 : UpdateState s h updates = some s1) :
    ∃ sa sp, UpdateAccountStatus s h updates = some sa ∧
      UpdatePoolStatus sa h updates = some sp ∧
      UpdateBalancesAndSupplies sp updates = some s1 ∧
      s1.Checkpoint = s.Checkpoint ∧
      s1.AccountStatuses = sa.AccountStatuses ∧
      s1.PoolStatuses = sp.PoolStatuses ∧ s1.Pools = sp.Pools := by
  unfold UpdateState at h1
  cases ha : UpdateAccountStatus s h updates with
  | none => simp [ha] at h1
  | some sa =>
    simp only [ha] at h1
    cases hp : UpdatePoolStatus sa h updates with
    | none => simp [hp] at h1
    | some sp =>
      simp only [hp] at h1
      have hb : UpdateBalancesAndSupplies sp updates = some s1 := by
        by_cases hbank : updates.lastBankModuleState.isSome = true
        · simpa [hbank] using h1
        · simp only [hbank, Bool.false_eq_true, if_false, Option.some.injEq] at h1
          subst h1
          have : updates.lastBankModuleState = none := by
            cases hx : updates.lastBankModuleState with
            | none => rfl
            | some st => simp [hx] at hbank
          simp [UpdateBalancesAndSupplies, this]
      refine ⟨sa, sp, rfl, hp, hb, ?_, ?_, ?_, ?_⟩
      all_goals
        unfold UpdateAccountStatus at ha
        unfold UpdatePoolStatus at hp
        unfold UpdateBalancesAndSupplies at hb
        cases hd : updates.lastBlockData with
        | none => simp [hd] at ha
        | some data =>
          simp only [hd, Option.some.injEq] at ha hp
          subst ha
          subst hp
          cases hbank : updates.lastBankModuleState with
          | none =>
            simp only [hbank, Option.some.injEq] at hb
            subst hb
            rfl
          | some st =>
            simp only [hbank] at hb
            cases hw : balanceWrites updates.lastBankModuleStateHeight st.Balances with
            | none => simp [hw] at hb
            | some ws =>
              cases hw2 : supplyWrites updates.lastBankModuleStateHeight st.Supply with
              | none => simp [hw, hw2] at hb
              | some ws2 =>
                simp only [hw, hw2, Option.some.injEq] at hb
                subst hb
                rfl

/-- C23: when `UpdateState(h, updates)` has run on a store and the height of the last
block of the updates is greater than `h`, a second run of `UpdateState(h, updates)` on
the store that the first run has left changes nothing: the account status, pool status,
pool, balance and supply documents after two runs are those after one. -/
theorem UpdateState_idempotent (s s1 : store.State) (h : Int) (updates : StateUpdates)
    (hrun : UpdateState s h updates = some s1)
    (hlast : ∀ data, updates.lastBlockData = some data → h < data.Header.Height) :
    UpdateState s1 h updates = some s1 := by
  obtain ⟨sa, sp, ha, hp, hb, _, hrows, hprows, hpools⟩ :=
    UpdateState_parts s s1 h updates hrun
  cases hd : updates.lastBlockData with
  | none => simp [UpdateAccountStatus, hd] at ha
  | some data =>
    have hne : data.Header.Height ≠ h := ne_of_gt (hlast data hd)
    have e1 := UpdateAccountStatus_again s sa s1 h updates data hd hne ha hrows
    have e2 := UpdatePoolStatus_again sa sp s1 h updates data hd hne hp hprows hpools
    have e3 := UpdateBalancesAndSupplies_again sp s1 s1 updates hb rfl rfl
    unfold UpdateState
    simp only [e1, e2, e3]
    by_cases hbank : updates.lastBankModuleState.isSome = true
    · simp [hbank]
    · simp [hbank]

theorem UpdateState_idempotent_witness :
    ∃ s1, UpdateState exampleStore 100 exampleBankUpdates = some s1 ∧
      UpdateState s1 100 exampleBankUpdates = some s1 ∧
      s1.AccountStatuses.map (fun r => (r.BlockHeight, r.Address)) =
        [(100, "cosmos1x"), (101, "cosmos1x")] ∧
      s1.Balances = [{ BlockHeight := 101, Address := "cosmos1x", Coins := [⟨"atom", 5⟩] }] := by
  have hs : (UpdateState exampleStore 100 exampleBankUpdates).isSome = true := by rfl
  obtain ⟨s1, hs1⟩ := Option.isSome_iff_exists.1 hs
  refine ⟨s1, hs1, UpdateState_idempotent exampleStore s1 100 exampleBankUpdates hs1 ?_, ?_, ?_⟩
  · intro data hdata
    have : data = exampleBlock101 := by
      have h2 : exampleBankUpdates.lastBlockData = some exampleBlock101 := rfl
      rw [h2] at hdata
      exact (Option.some.inj hdata).symm
    subst this
    decide
  · have h2 : (UpdateState exampleStore 100 exampleBankUpdates).map
        (fun s => s.AccountStatuses.map (fun r => (r.BlockHeight, r.Address))) =
        some [(100, "cosmos1x"), (101, "cosmos1x")] := by rfl
    rw [hs1] at h2
    exact Option.some.inj h2
  · have h2 : (UpdateState exampleStore 100 exampleBankUpdates).map (fun s => s.Balances) =
        some [{ BlockHeight := 101, Address := "cosmos1x", Coins := [⟨"atom", 5⟩] }] := by rfl
    rw [hs1] at h2
    exact Option.some.inj h2

end transformer

/-! ## Transformer: the checkpoint -/

namespace transformer

open GoMap

theorem accDepositEvent_lastBlockData (lib : Lib) (ign : List (String × Unit))
    (dateKey : String) (u u1 : StateUpdates) (evt : Event)
    (h : accDepositEvent lib ign dateKey u evt = .ok u1) :
    u1.lastBlockData = u.lastBlockData := by
  unfold accDepositEvent at h
  simp only at h
  cases h1 : (eventAttrsFromEvent evt).DepositorAddr with
  | error e => simp [h1] at h
  | ok addr =>
    simp only [h1] at h
    by_cases hig : (lookup ign addr).isSome = true
    · simp only [hig, if_true, Except.ok.injEq] at h
      rw [← h]
    · simp only [hig, Bool.false_eq_true, if_false] at h
      cases h2 : (eventAttrsFromEvent evt).PoolID lib with
      | error e => simp [h2] at h
      | ok poolID =>
        simp only [h2, Except.ok.injEq] at h
        rw [← h]

theorem accSwapEvent_lastBlockData (lib : Lib) (ign : List (String × Unit)) (tm : Int)
    (dateKey : String) (poolByID : List (Nat × liquiditytypes.Pool)) (u u1 : StateUpdates)
    (evt : Event)
    (h : accSwapEvent lib ign tm dateKey poolByID u evt = some (.ok u1)) :
    u1.lastBlockData = u.lastBlockData := by
  unfold accSwapEvent at h
  simp only at h
  cases h1 : (eventAttrsFromEvent evt).SwapRequesterAddr with
  | error e => simp [h1] at h
  | ok addr =>
    simp only [h1] at h
    by_cases hig : (lookup ign addr).isSome = true
    · simp only [hig, if_true, Option.some.injEq, Except.ok.injEq] at h
      rw [← h]
    · simp only [hig, Bool.false_eq_true, if_false] at h
      cases h2 : (eventAttrsFromEvent evt).PoolID lib with
      | error e => simp [h2] at h
      | ok poolID =>
        simp only [h2] at h
        cases h3 : (eventAttrsFromEvent evt).OfferCoinFee lib with
        | none => simp [h3] at h
        | some r =>
          cases r with
          | error e => simp [h3] at h
          | ok offerCoinFee =>
            simp only [h3] at h
            cases h4 : (eventAttrsFromEvent evt).SwapPrice lib with
            | error e => simp [h4] at h
            | ok swapPrice =>
              simp only [h4] at h
              cases h5 : lookup poolByID poolID with
              | none => simp [h5] at h
              | some pool =>
                simp only [h5] at h
                cases h6 : oppositeReserveCoinDenom pool offerCoinFee.Denom with
                | none => simp [h6] at h
                | some demandCoinDenom =>
                  simp only [h6] at h
                  cases h7 : demandCoinFee lib offerCoinFee demandCoinDenom swapPrice with
                  | none => simp [h7] at h
                  | some dcf =>
                    simp only [h7] at h
                    cases h8 : sdk.Int64 offerCoinFee.Amount with
                    | none => simp [h8] at h
                    | some oa =>
                      cases h9 : sdk.Int64 dcf.Amount with
                      | none => simp [h8, h9] at h
                      | some da =>
                        simp only [h8, h9, Option.some.injEq, Except.ok.injEq] at h
                        rw [← h]

theorem accEvents_lastBlockData (lib : Lib) (ign : List (String × Unit)) (tm : Int)
    (dateKey : String) (poolByID : List (Nat × liquiditytypes.Pool)) (evts : List Event)
    (u u1 : StateUpdates)
    (h : accEvents lib ign tm dateKey poolByID evts u = some (.ok u1)) :
    u1.lastBlockData = u.lastBlockData := by
  induction evts generalizing u with
  | nil =>
    simp only [accEvents, Option.some.injEq, Except.ok.injEq] at h
    rw [← h]
  | cons evt rest ih =>
    unfold accEvents at h
    by_cases hd : evt.Type_ = liquiditytypes.EventTypeDepositToPool
    · simp only [hd, if_true] at h
      cases h1 : accDepositEvent lib ign dateKey u evt with
      | error e => simp [h1] at h
      | ok u2 =>
        simp only [h1] at h
        rw [ih u2 h, accDepositEvent_lastBlockData lib ign dateKey u u2 evt h1]
    · simp only [hd, if_false] at h
      by_cases hs : evt.Type_ = liquiditytypes.EventTypeSwapTransacted
      · simp only [hs, if_true] at h
        cases h1 : accSwapEvent lib ign tm dateKey poolByID u evt with
        | none => simp [h1] at h
        | some r =>
          cases r with
          | error e => simp [h1] at h
          | ok u2 =>
            simp only [h1] at h
            rw [ih u2 h, accSwapEvent_lastBlockData lib ign tm dateKey poolByID u u2 evt h1]
      · simp only [hs, if_false] at h
        exact ih u h

theorem accBlocks_lastBlockData (lib : Lib) (ign : List (String × Unit))
    (blocks : List BlockData) (blockHeight : Int) (u u1 : StateUpdates)
    (h : accBlocks lib ign blocks blockHeight u = some (.ok u1))
    (hne : blocks ≠ [])
    (hlo : -9223372036854775808 ≤ blockHeight)
    (hhi : blockHeight + blocks.length ≤ 9223372036854775808) :
    ∃ data, u1.lastBlockData = some data ∧
      data.Header.Height + 1 = blockHeight + blocks.length := by
  induction blocks generalizing u blockHeight with
  | nil => exact absurd rfl hne
  | cons data rest ih =>
    unfold accBlocks at h
    by_cases hh : data.Header.Height ≠ blockHeight
    · simp [hh] at h
    · simp only [hh, if_false] at h
      have hheight : data.Header.Height = blockHeight := not_not.1 hh
      cases h1 : accBlock lib ign blockHeight u data with
      | none => simp [h1] at h
      | some r =>
        cases r with
        | error e => simp [h1] at h
        | ok u2 =>
          simp only [h1] at h
          have hu2 : u2.lastBlockData = some data := by
            unfold accBlock at h1
            rw [accEvents_lastBlockData lib ign _ _ _ _ _ u2 h1]
            cases data.BankModuleState <;> rfl
          simp only [List.length_cons, Nat.cast_add, Nat.cast_one] at hhi ⊢
          cases rest with
          | nil =>
            simp only [accBlocks, Option.some.injEq, Except.ok.injEq] at h
            subst h
            refine ⟨data, hu2, ?_⟩
            simp [hheight]
          | cons d2 rest2 =>
            have hw : wrapInt64 (blockHeight + 1) = blockHeight + 1 := by
              apply wrapInt64_of_range
              · omega
              · simp only [List.length_cons, Nat.cast_add, Nat.cast_one] at hhi
                omega
            rw [hw] at h
            obtain ⟨d, hd, hdh⟩ := ih (blockHeight + 1) u2 h (by simp) (by omega)
              (by omega)
            refine ⟨d, hd, ?_⟩
            rw [hdh]
            ring

theorem AccStateUpdates_last (lib : Lib) (cfg : config.TransformerConfig) (start : Int)
    (blocks : List BlockData) (u : StateUpdates)
    (h : AccStateUpdates lib cfg start blocks = some (.ok u))
    (hlo : -9223372036854775808 ≤ start)
    (hhi : start + blocks.length ≤ 9223372036854775808) :
    1 ≤ blocks.length ∧ ∃ data, u.lastBlockData = some data ∧
      data.Header.Height + 1 = start + blocks.length := by
  unfold AccStateUpdates at h
  cases blocks with
  | nil => simp at h
  | cons b bs =>
    simp only at h
    exact ⟨by simp, accBlocks_lastBlockData lib _ _ start _ u h (by simp) hlo hhi⟩

theorem pruneStep_checkpoint (fault : Option Fault) (s : store.State) (h : Int) :
    (∀ s0, pruneStep fault s h = .ok s0 → s0.Checkpoint = s.Checkpoint) ∧
    (∀ s0, pruneStep fault s h = .error s0 → s0.Checkpoint = s.Checkpoint) := by
  unfold pruneStep
  by_cases hh : h > 1
  · simp only [hh, if_true]
    cases fault with
    | none =>
      refine ⟨?_, ?_⟩
      · intro s0 h0
        simp only [Except.ok.injEq] at h0
        rw [← h0]
        rfl
      · intro s0 h0
        cases h0
    | some f =>
      cases f <;> refine ⟨?_, ?_⟩ <;> intro s0 h0 <;>
        first
        | (simp only [Except.ok.injEq] at h0; rw [← h0]; rfl)
        | (simp only [Except.error.injEq] at h0; rw [← h0])
        | cases h0
  · simp only [hh, if_false]
    refine ⟨?_, ?_⟩
    · intro s0 h0
      simp only [Except.ok.injEq] at h0
      rw [h0]
    · intro s0 h0
      cases h0

theorem UpdateState_checkpoint (s s1 : store.State) (h : Int) (updates : StateUpdates)
    (h1 : UpdateState s h updates = some s1) : s1.Checkpoint = s.Checkpoint := by
  unfold UpdateState at h1
  cases ha : UpdateAccountStatus s h updates with
  | none => simp [ha] at h1
  | some sa =>
    simp only [ha] at h1
    cases hp : UpdatePoolStatus sa h updates with
    | none => simp [hp] at h1
    | some sp =>
      simp only [hp] at h1
      unfold UpdateAccountStatus at ha
      unfold UpdatePoolStatus at hp
      cases hd : updates.lastBlockData with
      | none => simp [hd] at ha
      | some data =>
        simp only [hd, Option.some.injEq] at ha hp
        subst ha
        subst hp
        by_cases hbank : updates.lastBankModuleState.isSome = true
        · simp only [hbank, if_true] at h1
          unfold UpdateBalancesAndSupplies at h1
          cases hb : updates.lastBankModuleState with
          | none => simp [hb] at hbank
          | some st =>
            simp only [hb] at h1
            cases hw : balanceWrites updates.lastBankModuleStateHeight st.Balances with
            | none => simp [hw] at h1
            | some ws =>
              cases hw2 : supplyWrites updates.lastBankModuleStateHeight st.Supply with
              | none => simp [hw, hw2] at h1
              | some ws2 =>
                simp only [hw, hw2, Option.some.injEq] at h1
                subst h1
                rfl
        · simp only [hbank, Bool.false_eq_true, if_false, Option.some.injEq] at h1
          subst h1
          rfl

/-- What one turn of the loop of `Run` does to the checkpoint. -/
theorem cycle_checkpoint (lib : Lib) (cfg : config.TransformerConfig) (fault : Option Fault)
    (blocks : List BlockData) (s s1 : store.State) (err : Option RunError)
    (hrun : cycle lib cfg fault blocks s = some (s1, err))
    (h0 : 0 ≤ store.LatestBlockHeight s)
    (hhi : store.LatestBlockHeight s + blocks.length < 9223372036854775808) :
    (err ≠ none → s1.Checkpoint = s.Checkpoint) ∧
    (err = none → ∃ updates data s0 s2,
      pruneStep fault s (store.LatestBlockHeight s) = .ok s0 ∧
      AccStateUpdates lib cfg (store.LatestBlockHeight s + 1) blocks = some (.ok updates) ∧
      updates.lastBlockData = some data ∧
      UpdateState s0 (store.LatestBlockHeight s) updates = some s2 ∧
      s1 = store.SetLatestBlockHeight s2 data.Header.Height ∧
      data.Header.Height = store.LatestBlockHeight s + blocks.length ∧
      1 ≤ blocks.length) := by
  unfold cycle at hrun
  by_cases hf : fault = some .latestBlockHeight
  · simp only [hf, if_true, Option.some.injEq, Prod.mk.injEq] at hrun
    obtain ⟨rfl, rfl⟩ := hrun
    exact ⟨fun _ => rfl, fun h => by cases h⟩
  · simp only [hf, if_false] at hrun
    have hw : AccStateUpdates lib cfg (wrapInt64 (store.LatestBlockHeight s + 1)) blocks =
        AccStateUpdates lib cfg (store.LatestBlockHeight s + 1) blocks := by
      cases blocks with
      | nil => rfl
      | cons b bs =>
        simp only [List.length_cons, Nat.cast_add, Nat.cast_one] at hhi
        rw [wrapInt64_of_range _ (by omega) (by omega)]
    rw [hw] at hrun
    cases hp : pruneStep fault s (store.LatestBlockHeight s) with
    | error sp =>
      have hsp : sp.Checkpoint = s.Checkpoint := (pruneStep_checkpoint fault s _).2 sp hp
      simp only [hp, Option.some.injEq, Prod.mk.injEq] at hrun
      obtain ⟨rfl, rfl⟩ := hrun
      exact ⟨fun _ => hsp, fun h => by cases h⟩
    | ok s0 =>
      have hs0 : s0.Checkpoint = s.Checkpoint := (pruneStep_checkpoint fault s _).1 s0 hp
      simp only [hp] at hrun
      cases hacc : AccStateUpdates lib cfg (store.LatestBlockHeight s + 1) blocks with
      | none => simp [hacc] at hrun
      | some r =>
        cases r with
        | error e =>
          simp only [hacc, Option.some.injEq, Prod.mk.injEq] at hrun
          obtain ⟨rfl, rfl⟩ := hrun
          exact ⟨fun _ => hs0, fun h => by cases h⟩
        | ok updates =>
          simp only [hacc] at hrun
          obtain ⟨hlen, data, hdata, hheight⟩ := AccStateUpdates_last lib cfg _ blocks updates
            hacc (by omega) (by omega)
          simp only [hdata] at hrun
          unfold writeStep at hrun
          have hupd : ∀ s2, UpdateState s0 (store.LatestBlockHeight s) updates = some s2 →
              s2.Checkpoint = s.Checkpoint := fun s2 h2 =>
            (UpdateState_checkpoint _ _ _ _ h2).trans hs0
          have hheight2 : data.Header.Height = store.LatestBlockHeight s + blocks.length := by
            omega
          cases fault with
          | none =>
            simp only at hrun
            cases hu : UpdateState s0 (store.LatestBlockHeight s) updates with
            | none => simp [hu] at hrun
            | some s2 =>
              simp only [hu, Option.some.injEq, Prod.mk.injEq] at hrun
              obtain ⟨rfl, rfl⟩ := hrun
              exact ⟨fun h => absurd rfl h,
                fun _ => ⟨updates, data, s0, s2, rfl, rfl, hdata, hu, rfl, hheight2, hlen⟩⟩
          | some f =>
            cases f with
            | latestBlockHeight => exact absurd rfl hf
            | pruneOutdatedStates after =>
              simp only at hrun
              cases hu : UpdateState s0 (store.LatestBlockHeight s) updates with
              | none => simp [hu] at hrun
              | some s2 =>
                simp only [hu, Option.some.injEq, Prod.mk.injEq] at hrun
                obtain ⟨rfl, rfl⟩ := hrun
                exact ⟨fun h => absurd rfl h,
                  fun _ => ⟨updates, data, s0, s2, rfl, rfl, hdata, hu, rfl, hheight2, hlen⟩⟩
            | updateState after =>
              simp only [Option.some.injEq, Prod.mk.injEq] at hrun
              obtain ⟨rfl, rfl⟩ := hrun
              exact ⟨fun _ => hs0, fun h => by cases h⟩
            | setLatestBlockHeight =>
              simp only at hrun
              cases hu : UpdateState s0 (store.LatestBlockHeight s) updates with
              | none => simp [hu] at hrun
              | some s2 =>
                simp only [hu, Option.some.injEq, Prod.mk.injEq] at hrun
                obtain ⟨rfl, rfl⟩ := hrun
                exact ⟨fun _ => hupd _ hu, fun h => by cases h⟩

theorem cycle_latest (lib : Lib) (cfg : config.TransformerConfig) (fault : Option Fault)
    (blocks : List BlockData) (s s1 : store.State) (err : Option RunError)
    (hrun : cycle lib cfg fault blocks s = some (s1, err))
    (h0 : 0 ≤ store.LatestBlockHeight s)
    (hhi : store.LatestBlockHeight s + blocks.length < 9223372036854775808) :
    store.LatestBlockHeight s ≤ store.LatestBlockHeight s1 ∧
      store.LatestBlockHeight s1 ≤ store.LatestBlockHeight s + blocks.length ∧
      (err = none → store.LatestBlockHeight s1 = store.LatestBlockHeight s + blocks.length ∧
        1 ≤ blocks.length) := by
  obtain ⟨herr, hok⟩ := cycle_checkpoint lib cfg fault blocks s s1 err hrun h0 hhi
  cases err with
  | some e =>
    have := herr (by simp)
    unfold store.LatestBlockHeight
    rw [this]
    refine ⟨le_refl _, by omega, fun h => by cases h⟩
  | none =>
    obtain ⟨updates, data, s0, s2, _, _, _, _, hs1, hheight, hlen⟩ := hok rfl
    have hL : store.LatestBlockHeight s1 = data.Header.Height := by
      rw [hs1]
      rfl
    rw [hL, hheight]
    refine ⟨by omega, le_refl _, fun _ => ⟨rfl, hlen⟩⟩

theorem cycles_latest (lib : Lib) (cfg : config.TransformerConfig)
    (inputs : List (Option Fault × List BlockData)) (s sN : store.State)
    (hrun : cycles lib cfg inputs s = some sN)
    (h0 : 0 ≤ store.LatestBlockHeight s)
    (hhi : store.LatestBlockHeight s + ((inputs.map (fun i => i.2.length)).sum : Nat) <
      9223372036854775808) :
    store.LatestBlockHeight s ≤ store.LatestBlockHeight sN ∧
      store.LatestBlockHeight sN ≤
        store.LatestBlockHeight s + ((inputs.map (fun i => i.2.length)).sum : Nat) := by
  induction inputs generalizing s with
  | nil =>
    simp only [cycles, Option.some.injEq] at hrun
    subst hrun
    simp
  | cons i rest ih =>
    obtain ⟨fault, blocks⟩ := i
    simp only [cycles] at hrun
    simp only [List.map_cons, List.sum_cons, Nat.cast_add] at hhi ⊢
    cases hc : cycle lib cfg fault blocks s with
    | none => simp [hc] at hrun
    | some r =>
      obtain ⟨s1, err⟩ := r
      simp only [hc] at hrun
      obtain ⟨h1, h2, _⟩ := cycle_latest lib cfg fault blocks s s1 err hc h0 (by omega)
      obtain ⟨h3, h4⟩ := ih s1 hrun (by omega) (by omega)
      exact ⟨by omega, by omega⟩

/-- C22: in a sequence of turns of the loop of `Run` that starts at a checkpoint of at
least 0, with block heights that stay within the 64-bit range, every turn either returns
an error and leaves the checkpoint as it was, or `UpdateState` has succeeded and the
checkpoint is the height `lastH` of the last block that the turn has consumed, which is
the checkpoint `h` before the turn plus the number of blocks consumed and so at least
`h + 1`; the block height that `LatestBlockHeight` gives never decreases from one turn to
a later one. -/
theorem Run_checkpoint_forward (lib : Lib) (cfg : config.TransformerConfig)
    (pre post : List (Option Fault × List BlockData)) (fault : Option Fault)
    (blocks : List BlockData) (s sa sb sN : store.State) (err : Option RunError)
    (hpre : cycles lib cfg pre s = some sa)
    (hrun : cycle lib cfg fault blocks sa = some (sb, err))
    (hpost : cycles lib cfg post sb = some sN)
    (h0 : 0 ≤ store.LatestBlockHeight s)
    (hhi : store.LatestBlockHeight s +
      (((pre ++ (fault, blocks) :: post).map (fun i => i.2.length)).sum : Nat) <
        9223372036854775808) :
    store.LatestBlockHeight s ≤ store.LatestBlockHeight sa ∧
    (err ≠ none → sb.Checkpoint = sa.Checkpoint) ∧
    (err = none → ∃ updates data s0 s2,
      pruneStep fault sa (store.LatestBlockHeight sa) = .ok s0 ∧
      AccStateUpdates lib cfg (store.LatestBlockHeight sa + 1) blocks = some (.ok updates) ∧
      updates.lastBlockData = some data ∧
      UpdateState s0 (store.LatestBlockHeight sa) updates = some s2 ∧
      sb = store.SetLatestBlockHeight s2 data.Header.Height ∧
      store.LatestBlockHeight sb = data.Header.Height ∧
      data.Header.Height = store.LatestBlockHeight sa + blocks.length ∧
      store.LatestBlockHeight sa + 1 ≤ data.Header.Height) ∧
    store.LatestBlockHeight sa ≤ store.LatestBlockHeight sb ∧
    store.LatestBlockHeight sb ≤ store.LatestBlockHeight sN := by
  simp only [List.map_append, List.map_cons, List.sum_append, List.sum_cons,
    Nat.cast_add] at hhi
  obtain ⟨hp1, hp2⟩ := cycles_latest lib cfg pre s sa hpre h0 (by omega)
  have ha0 : 0 ≤ store.LatestBlockHeight sa := by omega
  have hahi : store.LatestBlockHeight sa + blocks.length < 9223372036854775808 := by omega
  obtain ⟨herr, hok⟩ := cycle_checkpoint lib cfg fault blocks sa sb err hrun ha0 hahi
  obtain ⟨hc1, hc2, _⟩ := cycle_latest lib cfg fault blocks sa sb err hrun ha0 hahi
  obtain ⟨hq1, _⟩ := cycles_latest lib cfg post sb sN hpost (by omega) (by omega)
  refine ⟨hp1, herr, ?_, hc1, hq1⟩
  intro he
  obtain ⟨updates, data, s0, s2, e1, e2, e3, e4, e5, e6, e7⟩ := hok he
  refine ⟨updates, data, s0, s2, e1, e2, e3, e4, e5, ?_, e6, by omega⟩
  rw [e5]
  rfl

theorem Run_checkpoint_forward_witness :
    cycles exampleLib { IgnoredAddresses := [] } [(none, [exampleDepositBlock1])]
      emptyStore = some (exampleStoreAfter [1] 1) ∧
    cycle exampleLib { IgnoredAddresses := [] } none [exampleEmptyBlock 2]
      (exampleStoreAfter [1] 1) = some (exampleStoreAfter [1, 2] 2, none) ∧
    cycles exampleLib { IgnoredAddresses := [] } [(none, []), (none, [exampleEmptyBlock 3])]
      (exampleStoreAfter [1, 2] 2) = some (exampleStoreAfter [1, 2, 3] 3) ∧
    store.LatestBlockHeight emptyStore ≤ store.LatestBlockHeight (exampleStoreAfter [1] 1) ∧
    store.LatestBlockHeight (exampleStoreAfter [1] 1) ≤
      store.LatestBlockHeight (exampleStoreAfter [1, 2] 2) ∧
    store.LatestBlockHeight (exampleStoreAfter [1, 2] 2) ≤
      store.LatestBlockHeight (exampleStoreAfter [1, 2, 3] 3) :=
  have h := Run_checkpoint_forward exampleLib { IgnoredAddresses := [] }
    [(none, [exampleDepositBlock1])] [(none, []), (none, [exampleEmptyBlock 3])] none
    [exampleEmptyBlock 2] emptyStore (exampleStoreAfter [1] 1) (exampleStoreAfter [1, 2] 2)
    (exampleStoreAfter [1, 2, 3] 3) none (by rfl) (by rfl) (by rfl) (by decide) (by decide)
  ⟨by rfl, by rfl, by rfl, h.1, h.2.2.2.1, h.2.2.2.2⟩

end transformer

/-! ## Store: the keys of the account status rows after a bulk write -/

namespace store

theorem nodup_keys_bulkWriteAccountStatuses (ws : List AccountStatusWrite)
    (rows : List schema.AccountStatus)
    (hnd : (rows.map (fun r => (r.BlockHeight, r.Address))).Nodup) :
    ((bulkWriteAccountStatuses ws rows).map (fun r => (r.BlockHeight, r.Address))).Nodup := by
  rw [bulkWriteAccountStatuses_eq_bulkBy]
  exact nodup_map_key_bulkBy (fun w : AccountStatusWrite => (w.BlockHeight, w.Address))
    (fun r : schema.AccountStatus => (r.BlockHeight, r.Address))
    (fun w r => { r with Deposits := w.Deposits, Swaps := w.Swaps })
    (fun w => { BlockHeight := w.BlockHeight, Address := w.Address
                Deposits := w.Deposits, Swaps := w.Swaps })
    (fun _ _ => rfl) (fun _ => rfl) ws rows hnd

theorem mem_keys_bulkWriteAccountStatuses (ws : List AccountStatusWrite)
    (rows : List schema.AccountStatus) (k : Int × String) :
    k ∈ (bulkWriteAccountStatuses ws rows).map (fun r => (r.BlockHeight, r.Address)) ↔
      k ∈ rows.map (fun r => (r.BlockHeight, r.Address)) ∨
        k ∈ ws.map (fun w => (w.BlockHeight, w.Address)) := by
  rw [bulkWriteAccountStatuses_eq_bulkBy]
  exact mem_map_key_bulkBy (fun w : AccountStatusWrite => (w.BlockHeight, w.Address))
    (fun r : schema.AccountStatus => (r.BlockHeight, r.Address))
    (fun w r => { r with Deposits := w.Deposits, Swaps := w.Swaps })
    (fun w => { BlockHeight := w.BlockHeight, Address := w.Address
                Deposits := w.Deposits, Swaps := w.Swaps })
    (fun _ _ => rfl) (fun _ => rfl) ws rows k

end store

/-! ## Transformer: the account status rows that the cycles leave -/

namespace transformer

open GoMap

theorem cycle_none_inv (lib : Lib) (cfg : config.TransformerConfig)
    (blocks : List BlockData) (s s1 : store.State) (err : Option RunError)
    (hrun : cycle lib cfg none blocks s = some (s1, err)) :
    ∃ s0, pruneStep none s (store.LatestBlockHeight s) = .ok s0 ∧
      ((err ≠ none ∧ s1 = s0) ∨
        (err = none ∧ ∃ updates data s2,
          updates.lastBlockData = some data ∧
          UpdateState s0 (store.LatestBlockHeight s) updates = some s2 ∧
          s1 = store.SetLatestBlockHeight s2 data.Header.Height)) := by
  unfold cycle at hrun
  simp only [if_false, reduceCtorEq] at hrun
  cases hp : pruneStep none s (store.LatestBlockHeight s) with
  | error sp =>
    unfold pruneStep at hp
    by_cases hh : store.LatestBlockHeight s > 1
    · simp [hh] at hp
    · simp [hh] at hp
  | ok s0 =>
    refine ⟨s0, rfl, ?_⟩
    simp only [hp] at hrun
    cases hacc : AccStateUpdates lib cfg (wrapInt64 (store.LatestBlockHeight s + 1)) blocks with
    | none => simp [hacc] at hrun
    | some r =>
      cases r with
      | error e =>
        simp only [hacc, Option.some.injEq, Prod.mk.injEq] at hrun
        obtain ⟨rfl, rfl⟩ := hrun
        exact Or.inl ⟨by simp, rfl⟩
      | ok updates =>
        simp only [hacc] at hrun
        cases hd : updates.lastBlockData with
        | none => simp [hd] at hrun
        | some data =>
          simp only [hd, writeStep] at hrun
          cases hu : UpdateState s0 (store.LatestBlockHeight s) updates with
          | none => simp [hu] at hrun
          | some s2 =>
            simp only [hu, Option.some.injEq, Prod.mk.injEq] at hrun
            obtain ⟨rfl, rfl⟩ := hrun
            exact Or.inr ⟨rfl, updates, data, s2, hd, hu, rfl⟩

/-- The account status rows after the pruning step, for rows at heights from 1 to the
checkpoint. -/
theorem pruneStep_rows (s s0 : store.State)
    (hp : pruneStep none s (store.LatestBlockHeight s) = .ok s0)
    (hhi : store.LatestBlockHeight s < 9223372036854775808)
    (hb : ∀ r ∈ s.AccountStatuses, 1 ≤ r.BlockHeight ∧
      r.BlockHeight ≤ store.LatestBlockHeight s) :
    s0.Checkpoint = s.Checkpoint ∧
    s0.AccountStatuses.Sublist s.AccountStatuses ∧
    ∀ r ∈ s0.AccountStatuses, r.BlockHeight = store.LatestBlockHeight s - 1 ∨
      r.BlockHeight = store.LatestBlockHeight s := by
  unfold pruneStep at hp
  by_cases hh : store.LatestBlockHeight s > 1
  · simp only [hh, if_true, Except.ok.injEq] at hp
    subst hp
    refine ⟨rfl, List.filter_sublist _, ?_⟩
    intro r hr
    have hr2 : r ∈ s.AccountStatuses.filter (fun r =>
        !(decide (r.BlockHeight < wrapInt64 (store.LatestBlockHeight s - 1)) ||
          decide (r.BlockHeight > wrapInt64 (store.LatestBlockHeight s + 1)))) := hr
    rw [List.mem_filter] at hr2
    obtain ⟨hmem, hkeep⟩ := hr2
    have hw : wrapInt64 (store.LatestBlockHeight s - 1) = store.LatestBlockHeight s - 1 :=
      wrapInt64_of_range _ (by omega) (by omega)
    rw [hw] at hkeep
    simp only [Bool.not_eq_true', Bool.or_eq_false_iff, decide_eq_false_iff_not, not_lt] at hkeep
    have := (hb r hmem).2
    omega
  · simp only [hh, if_false, Except.ok.injEq] at hp
    subst hp
    refine ⟨rfl, List.Sublist.refl _, ?_⟩
    intro r hr
    have := hb r hr
    omega

/-- The account status rows after `UpdateState`: the keys of the rows before it and the
keys of rows at the height of the last block. -/
theorem UpdateState_rows (s s2 : store.State) (h : Int) (updates : StateUpdates)
    (data : BlockData) (hd : updates.lastBlockData = some data)
    (hu : UpdateState s h updates = some s2) :
    ((s.AccountStatuses.map (fun r => (r.BlockHeight, r.Address))).Nodup →
      (s2.AccountStatuses.map (fun r => (r.BlockHeight, r.Address))).Nodup) ∧
    ∀ r ∈ s2.AccountStatuses,
      (r.BlockHeight, r.Address) ∈ s.AccountStatuses.map (fun r => (r.BlockHeight, r.Address)) ∨
        r.BlockHeight = data.Header.Height := by
  obtain ⟨sa, sp, ha, _, _, _, hrows, _, _⟩ := UpdateState_parts s s2 h updates hu
  unfold UpdateAccountStatus at ha
  simp only [hd, Option.some.injEq] at ha
  have hrows2 : s2.AccountStatuses = store.bulkWriteAccountStatuses
      (carryWrites ((store.bulkWriteAccountStatuses (mergeWrites s h updates data)
        s.AccountStatuses).filter (fun r => decide (r.BlockHeight = h))) updates data)
      (store.bulkWriteAccountStatuses (mergeWrites s h updates data) s.AccountStatuses) := by
    rw [hrows, ← ha]
  rw [hrows2]
  refine ⟨?_, ?_⟩
  · intro hnd
    exact store.nodup_keys_bulkWriteAccountStatuses _ _
      (store.nodup_keys_bulkWriteAccountStatuses _ _ hnd)
  · intro r hr
    have hk := List.mem_map_of_mem (fun r : schema.AccountStatus => (r.BlockHeight, r.Address)) hr
    rw [store.mem_keys_bulkWriteAccountStatuses, store.mem_keys_bulkWriteAccountStatuses] at hk
    rcases hk with (hk | hk) | hk
    · exact Or.inl hk
    · right
      rw [List.mem_map] at hk
      obtain ⟨w, hw, hwk⟩ := hk
      have := mergeWrites_height s h updates data w hw
      simp only [Prod.mk.injEq] at hwk
      rw [← hwk.1, this]
    · right
      rw [List.mem_map] at hk
      obtain ⟨w, hw, hwk⟩ := hk
      have := carryWrites_height _ updates data w hw
      simp only [Prod.mk.injEq] at hwk
      rw [← hwk.1, this]

theorem Reachable_inv (lib : Lib) (cfg : config.TransformerConfig) (s : store.State)
    (hr : Reachable lib cfg s) :
    0 ≤ store.LatestBlockHeight s ∧
    (∀ r ∈ s.AccountStatuses, 1 ≤ r.BlockHeight ∧ r.BlockHeight ≤ store.LatestBlockHeight s) ∧
    (s.AccountStatuses.map (fun r => (r.BlockHeight, r.Address))).Nodup ∧
    ∃ h0, h0 ≤ store.LatestBlockHeight s ∧
      ∀ r ∈ s.AccountStatuses, r.BlockHeight = h0 - 1 ∨ r.BlockHeight = h0 ∨
        r.BlockHeight = store.LatestBlockHeight s := by
  induction hr with
  | empty =>
    refine ⟨by decide, ?_, ?_, 0, by decide, ?_⟩
    · intro r hr
      cases hr
    · exact List.nodup_nil
    · intro r hr
      cases hr
  | step s s1 blocks err _ hlt hcycle ih =>
    obtain ⟨h0, hb, hnd, _⟩ := ih
    obtain ⟨s0, hp, hcase⟩ := cycle_none_inv lib cfg blocks s s1 err hcycle
    obtain ⟨hcp0, hsub, hwin⟩ := pruneStep_rows s s0 hp (by omega) hb
    have hnd0 : (s0.AccountStatuses.map (fun r => (r.BlockHeight, r.Address))).Nodup :=
      List.Nodup.sublist (List.Sublist.map _ hsub) hnd
    have hL0 : store.LatestBlockHeight s0 = store.LatestBlockHeight s := by
      unfold store.LatestBlockHeight
      rw [hcp0]
    rcases hcase with ⟨_, rfl⟩ | ⟨herr, _⟩
    · rw [hL0]
      refine ⟨h0, fun r hr => hb r (hsub.subset hr), hnd0, store.LatestBlockHeight s,
        le_refl _, ?_⟩
      intro r hr
      rcases hwin r hr with h | h
      · exact Or.inl h
      · exact Or.inr (Or.inl h)
    · obtain ⟨updates, data, s0b, s2, hpb, _, hd, hu, hs1, hheight, hlen⟩ :=
        (cycle_checkpoint lib cfg none blocks s s1 err hcycle h0 hlt).2 herr
      have hs0 : s0b = s0 := by
        rw [hp] at hpb
        exact (Except.ok.inj hpb).symm
      subst hs0
      obtain ⟨hnd2, hrows2⟩ := UpdateState_rows s0b s2 _ updates data hd hu
      have hL1 : store.LatestBlockHeight s1 = data.Header.Height := by
        rw [hs1]
        rfl
      have hrows1 : s1.AccountStatuses = s2.AccountStatuses := by
        rw [hs1]
        rfl
      have hlen2 : (1 : Int) ≤ blocks.length := by exact_mod_cast hlen
      have hkey : ∀ r ∈ s1.AccountStatuses,
          r.BlockHeight = store.LatestBlockHeight s - 1 ∨
            r.BlockHeight = store.LatestBlockHeight s ∨ r.BlockHeight = data.Header.Height := by
        intro r hr
        rw [hrows1] at hr
        rcases hrows2 r hr with hk | hk
        · rw [List.mem_map] at hk
          obtain ⟨r0, hr0, hk0⟩ := hk
          simp only [Prod.mk.injEq] at hk0
          rcases hwin r0 hr0 with h | h
          · exact Or.inl (by rw [← hk0.1, h])
          · exact Or.inr (Or.inl (by rw [← hk0.1, h]))
        · exact Or.inr (Or.inr hk)
      have hlow : ∀ r ∈ s1.AccountStatuses, 1 ≤ r.BlockHeight := by
        intro r hr
        rw [hrows1] at hr
        rcases hrows2 r hr with hk | hk
        · rw [List.mem_map] at hk
          obtain ⟨r0, hr0, hk0⟩ := hk
          simp only [Prod.mk.injEq] at hk0
          rw [← hk0.1]
          exact (hb r0 (hsub.subset hr0)).1
        · omega
      rw [hL1]
      refine ⟨by omega, ?_, ?_, store.LatestBlockHeight s, by omega, hkey⟩
      · intro r hr
        refine ⟨hlow r hr, ?_⟩
        rcases hkey r hr with h | h | h <;> omega
      · rw [hrows1]
        exact hnd2 hnd0

theorem length_rowsOf_le (s : store.State) (a : String) (x y z : Int)
    (hnd : (s.AccountStatuses.map (fun r => (r.BlockHeight, r.Address))).Nodup)
    (hh : ∀ r ∈ s.AccountStatuses, r.BlockHeight = x ∨ r.BlockHeight = y ∨ r.BlockHeight = z) :
    (store.rowsOf s a).length ≤ 3 := by
  have hsub : (store.rowsOf s a).Sublist s.AccountStatuses := List.filter_sublist _
  have hnd1 : ((store.rowsOf s a).map (fun r => (r.BlockHeight, r.Address))).Nodup :=
    List.Nodup.sublist (List.Sublist.map _ hsub) hnd
  have hmap : (store.rowsOf s a).map (fun r => (r.BlockHeight, r.Address)) =
      ((store.rowsOf s a).map (fun r => r.BlockHeight)).map (fun h => (h, a)) := by
    rw [List.map_map]
    apply List.map_congr_left
    intro r hr
    have : r.Address = a := by
      unfold store.rowsOf at hr
      rw [List.mem_filter] at hr
      simpa using hr.2
    simp [this]
  rw [hmap] at hnd1
  have hnd2 : ((store.rowsOf s a).map (fun r => r.BlockHeight)).Nodup :=
    List.Nodup.of_map _ hnd1
  have hss : (store.rowsOf s a).map (fun r => r.BlockHeight) ⊆ [x, y, z] := by
    intro h hm
    rw [List.mem_map] at hm
    obtain ⟨r, hr, rfl⟩ := hm
    have := hh r (hsub.subset hr)
    simp only [List.mem_cons, List.mem_singleton, List.not_mem_nil, or_false]
    exact this
  have := (List.subperm_of_subset hnd2 hss).length_le
  simpa using this

theorem exampleStoreAfter_reachable :
    Reachable exampleLib { IgnoredAddresses := [] } (exampleStoreAfter [1, 2] 2) ∧
    Reachable exampleLib { IgnoredAddresses := [] } (exampleStoreAfter [1, 2, 3] 3) := by
  have h1 : Reachable exampleLib { IgnoredAddresses := [] } (exampleStoreAfter [1] 1) :=
    Reachable.step emptyStore _ [exampleDepositBlock1] none Reachable.empty (by decide)
      (by rfl)
  have h2 : Reachable exampleLib { IgnoredAddresses := [] } (exampleStoreAfter [1, 2] 2) :=
    Reachable.step _ _ [exampleEmptyBlock 2] none h1 (by decide) (by rfl)
  exact ⟨h2, Reachable.step _ _ [exampleEmptyBlock 3] none h2 (by decide) (by rfl)⟩

/-- C21: in every store that cycles of the transformer without a failure of the database
reach from the empty store (prune the rows with a block height outside `h-1 .. h+1` when
the checkpoint `h` is greater than 1, write the status rows at `lastH`, set the checkpoint
to `lastH`), no two account status rows have the same block height and address, and every
row is at the checkpoint height, at the checkpoint height `h0` before the last completed
cycle, or at `h0 - 1`: each address has at most three account status rows. -/
theorem Reachable_rows_per_address (lib : Lib) (cfg : config.TransformerConfig)
    (s : store.State) (hr : Reachable lib cfg s) :
    ∃ h0, h0 ≤ store.LatestBlockHeight s ∧
      (∀ r ∈ s.AccountStatuses, r.BlockHeight = h0 - 1 ∨ r.BlockHeight = h0 ∨
        r.BlockHeight = store.LatestBlockHeight s) ∧
      (s.AccountStatuses.map (fun r => (r.BlockHeight, r.Address))).Nodup ∧
      ∀ a, (store.rowsOf s a).length ≤ 3 := by
  obtain ⟨_, _, hnd, h0, hle, hh⟩ := Reachable_inv lib cfg s hr
  exact ⟨h0, hle, hh, hnd, fun a => length_rowsOf_le s a _ _ _ hnd hh⟩

theorem Reachable_rows_per_address_witness :
    Reachable exampleLib { IgnoredAddresses := [] } (exampleStoreAfter [1, 2] 2) ∧
    (store.rowsOf (exampleStoreAfter [1, 2] 2) "cosmos1x").length ≤ 3 := by
  obtain ⟨_, _, _, _, h⟩ := Reachable_rows_per_address exampleLib { IgnoredAddresses := [] }
    (exampleStoreAfter [1, 2] 2) exampleStoreAfter_reachable.1
  exact ⟨exampleStoreAfter_reachable.1, h "cosmos1x"⟩

theorem Reachable_three_rows :
    Reachable exampleLib { IgnoredAddresses := [] } (exampleStoreAfter [1, 2, 3] 3) ∧
    store.LatestBlockHeight (exampleStoreAfter [1, 2, 3] 3) = 3 ∧
    (store.rowsOf (exampleStoreAfter [1, 2, 3] 3) "cosmos1x").map (fun r => r.BlockHeight) =
      [1, 2, 3] ∧
    ¬ (store.rowsOf (exampleStoreAfter [1, 2, 3] 3) "cosmos1x").length ≤ 2 :=
  ⟨exampleStoreAfter_reachable.2, by rfl, by rfl, by decide⟩

end transformer

/-! ## Price resolution: termination without a cycle -/

namespace pricetable

open GoMap

variable {F : Type}

theorem IsNormalCoinDenom_extends {c c1 : Context F} (h : Context.Extends c c1) (d : String) :
    c1.IsNormalCoinDenom d = c.IsNormalCoinDenom d := by
  unfold Context.IsNormalCoinDenom
  rw [h.1]

theorem IsPoolCoinDenom_extends {c c1 : Context F} (h : Context.Extends c c1) (d : String) :
    c1.IsPoolCoinDenom d = c.IsPoolCoinDenom d := by
  unfold Context.IsPoolCoinDenom
  rw [h.2.2.2.1]

theorem lookup_none_of_extends {c c1 : Context F} (h : Context.Extends c c1) (d : String)
    (hl : lookup c1.priceTable d = none) : lookup c.priceTable d = none := by
  cases hc : lookup c.priceTable d with
  | none => rfl
  | some p =>
    rw [h.2.2.2.2 d p hc] at hl
    cases hl

theorem pool_of_IsPoolCoinDenom (c : Context F) (d : String)
    (h : c.IsPoolCoinDenom d = true) : ∃ pool, lookup c.pools d = some pool := by
  unfold Context.IsPoolCoinDenom at h
  by_cases hp : (!stringsHasPrefix d "pool") = true
  · simp [hp] at h
  · simp only [hp, Bool.false_eq_true, if_false] at h
    exact Option.isSome_iff_exists.1 h

/-- The loop over the reserve coins returns when the calls for the coins return. -/
theorem sumReserveCoins_returns (ops : FloatOps F) (rand : Nat → F) (c : Context F)
    (rcs : List schema.Coin)
    (hrcs : ∀ rc ∈ rcs, ∀ c2 g, Context.Extends c c2 →
      ∃ n r, Price ops rand n c2 g rc.Denom = some r) :
    ∀ sum c2 g, Context.Extends c c2 →
      ∃ n r, sumReserveCoins ops (Price ops rand n) rcs sum c2 g = some r := by
  induction rcs with
  | nil =>
    intro sum c2 g _
    exact ⟨0, _, rfl⟩
  | cons rc rcs ih =>
    intro sum c2 g hext
    obtain ⟨n1, r1, h1⟩ := hrcs rc (List.mem_cons_self _ _) c2 g hext
    obtain ⟨res, c3, g3⟩ := r1
    cases res with
    | error e =>
      refine ⟨n1, (.error e, c3, g3), ?_⟩
      simp only [sumReserveCoins, h1]
    | ok tp =>
      have hext3 : Context.Extends c c3 :=
        Extends_trans hext (Price_memoizes ops rand n1 c2 g rc.Denom _ c3 g3 h1).1
      obtain ⟨n2, r2, h2⟩ := ih (fun rc2 hrc2 => hrcs rc2 (List.mem_cons_of_mem _ hrc2))
        (ops.add sum (ops.mul tp (ops.ofInt rc.Amount))) c3 g3 hext3
      refine ⟨n1 + n2, r2, ?_⟩
      simp only [sumReserveCoins, Price_mono ops rand n1 n2 c2 g rc.Denom _ h1]
      apply sumReserveCoins_mono ops (Price ops rand n2) (Price ops rand (n1 + n2)) _ _ _ _ _ _ h2
      intro c4 g4 d4 r4 h4
      rw [Nat.add_comm]
      exact Price_mono ops rand n2 n1 c4 g4 d4 r4 h4

/-- A call returns when the calls for the denoms on which the denom depends return. -/
theorem Price_returns_step (ops : FloatOps F) (rand : Nat → F) (c : Context F) (d : String)
    (hdeps : ∀ d2, c.Dep d d2 → ∀ c2 g, Context.Extends c c2 →
      ∃ n r, Price ops rand n c2 g d2 = some r) :
    ∀ c1 g, Context.Extends c c1 → ∃ n r, Price ops rand n c1 g d = some r := by
  intro c1 g hext
  have hany : ∀ d2, (lookup c.priceTable d2 = none → c.Dep d d2) →
      ∀ c2 g, Context.Extends c c2 → ∃ n r, Price ops rand n c2 g d2 = some r := by
    intro d2 hdep c2 g2 hext2
    cases hl2 : lookup c.priceTable d2 with
    | some p =>
      exact ⟨1, _, Price_hit ops rand 0 c2 g2 d2 p (hext2.2.2.2.2 d2 p hl2)⟩
    | none => exact hdeps d2 (hdep hl2) c2 g2 hext2
  cases hl : lookup c1.priceTable d with
  | some p => exact ⟨1, _, Price_hit ops rand 0 c1 g d p hl⟩
  | none =>
    have hlc := lookup_none_of_extends hext d hl
    cases hn : c1.IsNormalCoinDenom d with
    | true =>
      refine ⟨1, ?_⟩
      rw [Price_normal ops rand 0 c1 g d hl hn]
      cases lookup c1.manualPrices d with
      | none => exact ⟨_, rfl⟩
      | some mp => exact ⟨_, rfl⟩
    | false =>
      have hnc : c.IsNormalCoinDenom d = false := by
        rw [← IsNormalCoinDenom_extends hext d]
        exact hn
      cases hp : c1.IsPoolCoinDenom d with
      | true =>
        obtain ⟨pool, hq⟩ := pool_of_IsPoolCoinDenom c1 d hp
        have hpc : c.IsPoolCoinDenom d = true := by
          rw [← IsPoolCoinDenom_extends hext d]
          exact hp
        have hqc : lookup c.pools d = some pool := by
          rw [← hext.2.2.2.1]
          exact hq
        by_cases hz : pool.PoolCoinAmount = 0
        · exact ⟨1, _, Price_pool_zero ops rand 0 c1 g d pool hl hn hp hq hz⟩
        · obtain ⟨n, r, hsum⟩ := sumReserveCoins_returns ops rand c pool.ReserveCoins
            (fun rc hrc => hany rc.Denom (fun hl2 =>
              ⟨hlc, hl2, hnc, Or.inl ⟨hpc, pool, hqc, hz, rc, hrc, rfl⟩⟩))
            ops.zero c1 g hext
          refine ⟨n + 1, ?_⟩
          rw [Price_pool ops rand n c1 g d pool hl hn hp hq hz, hsum]
          obtain ⟨res, c3, g3⟩ := r
          cases res with
          | error e => exact ⟨_, rfl⟩
          | ok s => exact ⟨_, rfl⟩
      | false =>
        have hpc : c.IsPoolCoinDenom d = false := by
          rw [← IsPoolCoinDenom_extends hext d]
          exact hp
        cases hm : lookup c1.denomMetadata d with
        | none =>
          refine ⟨1, ?_⟩
          rw [Price_metadata ops rand 0 c1 g d hl hn hp, hm]
          exact ⟨_, rfl⟩
        | some md =>
          have hmc : lookup c.denomMetadata d = some md := by
            rw [← hext.2.2.1]
            exact hm
          obtain ⟨n, r, hcall⟩ := hany md.Display
            (fun hl2 => ⟨hlc, hl2, hnc, Or.inr ⟨hpc, md, hmc, rfl⟩⟩) c1 g hext
          refine ⟨n + 1, ?_⟩
          rw [Price_metadata ops rand n c1 g d hl hn hp, hm]
          simp only [hcall]
          obtain ⟨res, c3, g3⟩ := r
          cases res with
          | error e => exact ⟨_, rfl⟩
          | ok s => exact ⟨_, rfl⟩

theorem Dep_mem_keys (c : Context F) (d d2 : String) (h : c.Dep d d2) :
    d ∈ keys c.pools ++ keys c.denomMetadata := by
  obtain ⟨_, _, _, h4⟩ := h
  rw [List.mem_append]
  rcases h4 with ⟨_, pool, hq, _⟩ | ⟨_, md, hm, _⟩
  · left
    exact (lookup_isSome_iff c.pools d).1 (by rw [hq]; rfl)
  · right
    exact (lookup_isSome_iff c.denomMetadata d).1 (by rw [hm]; rfl)

/-- Without a cycle between the denoms, every call of `Price` returns. -/
theorem Price_returns (ops : FloatOps F) (rand : Nat → F) (c : Context F)
    (hac : c.Acyclic) (d : String) :
    ∀ c1 g, Context.Extends c c1 → ∃ n r, Price ops rand n c1 g d = some r := by
  have hfin : {x | x ∈ keys c.pools ++ keys c.denomMetadata}.Finite := List.finite_toSet _
  haveI : IsStrictOrder String (fun a b => Relation.TransGen c.Dep b a) :=
    { irrefl := fun a h => hac a h
      trans := fun _ _ _ hab hbd => hbd.trans hab }
  have hwfOn : {x | x ∈ keys c.pools ++ keys c.denomMetadata}.WellFoundedOn
      (fun a b => Relation.TransGen c.Dep b a) := hfin.wellFoundedOn
  have hwf := Set.wellFoundedOn_iff.1 hwfOn
  induction d using hwf.induction with
  | h x ih =>
    apply Price_returns_step ops rand c x
    intro d2 hdep
    by_cases hmem : d2 ∈ keys c.pools ++ keys c.denomMetadata
    · exact ih d2 ⟨Relation.TransGen.single hdep, hmem, Dep_mem_keys c x d2 hdep⟩
    · apply Price_returns_step ops rand c d2
      intro d3 hdep3
      exact absurd (Dep_mem_keys c d2 d3 hdep3) hmem

end pricetable

/-! ## Price resolution: the writes of a call -/

namespace pricetable

open GoMap

variable {F : Type}

theorem keys_store_of_none {V : Type} (m : List (String × V)) (k : String) (v : V)
    (h : lookup m k = none) : keys (store m k v) = keys m ++ [k] := by
  induction m with
  | nil => rfl
  | cons e m ih =>
    obtain ⟨a, b⟩ := e
    by_cases hk : a = k
    · simp [lookup, hk] at h
    · simp only [lookup, hk, if_false] at h
      simp only [store, hk, if_false, keys, List.map_cons, List.cons_append]
      exact congrArg _ (ih h)

theorem sumReserveCoinsLog_erase (ops : FloatOps F)
    (priceL : Context F → Nat → String → Option (PriceResult F × List String))
    (price : Context F → Nat → String → Option (PriceResult F))
    (hp : ∀ c g d, (priceL c g d).map Prod.fst = price c g d)
    (rcs : List schema.Coin) (sum : F) (c : Context F) (g : Nat) (log : List String) :
    (sumReserveCoinsLog ops priceL rcs sum c g log).map Prod.fst =
      sumReserveCoins ops price rcs sum c g := by
  induction rcs generalizing sum c g log with
  | nil => rfl
  | cons rc rcs ih =>
    simp only [sumReserveCoinsLog, sumReserveCoins]
    rw [← hp c g rc.Denom]
    cases priceL c g rc.Denom with
    | none => rfl
    | some res =>
      obtain ⟨⟨r, c1, g1⟩, l⟩ := res
      cases r with
      | error e => rfl
      | ok tp => exact ih _ _ _ _

/-- The calls of `PriceLog` return what the calls of `Price` return. -/
theorem PriceLog_erase (ops : FloatOps F) (rand : Nat → F) (n : Nat) :
    ∀ c g d, (PriceLog ops rand n c g d).map Prod.fst = Price ops rand n c g d := by
  induction n with
  | zero => intro c g d; rfl
  | succ n ih =>
    intro c g d
    rw [PriceLog, Price]
    cases lookup c.priceTable d with
    | some p => rfl
    | none =>
      simp only
      cases c.IsNormalCoinDenom d with
      | true =>
        simp only [if_true]
        cases lookup c.manualPrices d with
        | none => rfl
        | some mp => rfl
      | false =>
        simp only [Bool.false_eq_true, if_false]
        cases c.IsPoolCoinDenom d with
        | true =>
          simp only [if_true]
          cases lookup c.pools d with
          | none => rfl
          | some pool =>
            simp only
            by_cases hz : pool.PoolCoinAmount = 0
            · simp only [hz, if_true]
              rfl
            · simp only [hz, if_false]
              rw [← sumReserveCoinsLog_erase ops (PriceLog ops rand n) (Price ops rand n) ih
                pool.ReserveCoins ops.zero c g []]
              cases sumReserveCoinsLog ops (PriceLog ops rand n) pool.ReserveCoins ops.zero
                  c g [] with
              | none => rfl
              | some res =>
                obtain ⟨⟨r, c1, g1⟩, l⟩ := res
                cases r with
                | error e => rfl
                | ok tp => rfl
        | false =>
          simp only [Bool.false_eq_true, if_false]
          cases lookup c.denomMetadata d with
          | none => rfl
          | some md =>
            simp only
            rw [← ih c g md.Display]
            cases PriceLog ops rand n c g md.Display with
            | none => rfl
            | some res =>
              obtain ⟨⟨r, c1, g1⟩, l⟩ := res
              cases r with
              | error e => rfl
              | ok tp => rfl

theorem PriceLog_extends (ops : FloatOps F) (rand : Nat → F) (n : Nat) (c1 : Context F)
    (g : Nat) (d : String) (r : Except PriceError F) (c2 : Context F) (g2 : Nat)
    (log : List String) (h : PriceLog ops rand n c1 g d = some ((r, c2, g2), log)) :
    Context.Extends c1 c2 := by
  have he := PriceLog_erase ops rand n c1 g d
  rw [h] at he
  exact (Price_memoizes ops rand n c1 g d r c2 g2 he.symm).1

/-- What the writes of a call are, as a property of the call for `d` from `c1` that leaves
`c2` and the log: the table has grown by the log, no denom is written twice, none had a
price before, and every written denom is `d` or one on which `d` depends. -/
theorem write_site (c c1 c3 : Context F) (hac : c.Acyclic) (d : String) (p : F)
    (l : List String) (hl : lookup c1.priceTable d = none) (hlc : lookup c.priceTable d = none)
    (hkeys : keys c3.priceTable = keys c1.priceTable ++ l) (hnd : l.Nodup)
    (habs : ∀ x ∈ l, lookup c1.priceTable x = none)
    (hreach : ∀ x ∈ l, Relation.TransGen c.Dep d x) :
    keys (c3.setPrice d p).priceTable = keys c1.priceTable ++ (l ++ [d]) ∧
    (l ++ [d]).Nodup ∧
    (∀ x ∈ l ++ [d], lookup c1.priceTable x = none) ∧
    (∀ x ∈ l ++ [d], lookup c.priceTable d = none ∧ (x = d ∨ Relation.TransGen c.Dep d x)) := by
  have hdl : d ∉ l := fun hm => hac d (hreach d hm)
  have hd3 : lookup c3.priceTable d = none := by
    rw [lookup_eq_none_iff, hkeys, List.mem_append]
    rintro (h | h)
    · exact (lookup_eq_none_iff c1.priceTable d).1 hl h
    · exact hdl h
  refine ⟨?_, ?_, ?_, ?_⟩
  · simp only [Context.setPrice]
    rw [keys_store_of_none _ _ _ hd3, hkeys, List.append_assoc]
  · rw [List.nodup_append]
    refine ⟨hnd, List.nodup_singleton _, ?_⟩
    intro a ha hb
    rw [List.mem_singleton] at hb
    subst hb
    exact hdl ha
  · intro x hx
    rcases List.mem_append.1 hx with h | h
    · exact habs x h
    · rw [List.mem_singleton] at h
      rw [h]
      exact hl
  · intro x hx
    refine ⟨hlc, ?_⟩
    rcases List.mem_append.1 hx with h | h
    · exact Or.inr (hreach x h)
    · exact Or.inl (List.mem_singleton.1 h)

/-- The writes of the loop over the reserve coins, given those of the calls it makes. -/
theorem sumReserveCoinsLog_writes (ops : FloatOps F) (rand : Nat → F) (c : Context F)
    (n : Nat)
    (ih : ∀ c1 g d r c2 g2 log, Context.Extends c c1 →
      PriceLog ops rand n c1 g d = some ((r, c2, g2), log) →
      keys c2.priceTable = keys c1.priceTable ++ log ∧ log.Nodup ∧
      (∀ x ∈ log, lookup c1.priceTable x = none) ∧
      (∀ x ∈ log, lookup c.priceTable d = none ∧ (x = d ∨ Relation.TransGen c.Dep d x))) :
    ∀ rcs sum c1 g log0 r c2 g2 log, Context.Extends c c1 →
      sumReserveCoinsLog ops (PriceLog ops rand n) rcs sum c1 g log0 =
        some ((r, c2, g2), log) →
      ∃ l, log = log0 ++ l ∧ keys c2.priceTable = keys c1.priceTable ++ l ∧ l.Nodup ∧
        (∀ x ∈ l, lookup c1.priceTable x = none) ∧
        (∀ x ∈ l, ∃ rc ∈ rcs, lookup c.priceTable rc.Denom = none ∧
          (x = rc.Denom ∨ Relation.TransGen c.Dep rc.Denom x)) := by
  intro rcs
  induction rcs with
  | nil =>
    intro sum c1 g log0 r c2 g2 log _ h
    simp only [sumReserveCoinsLog, Option.some.injEq, Prod.mk.injEq] at h
    obtain ⟨⟨_, hc, _⟩, hlog⟩ := h
    subst hc
    subst hlog
    exact ⟨[], by simp, by simp, List.nodup_nil, by simp, by simp⟩
  | cons rc rcs ihr =>
    intro sum c1 g log0 r c2 g2 log hext h
    simp only [sumReserveCoinsLog] at h
    cases hcall : PriceLog ops rand n c1 g rc.Denom with
    | none => simp [hcall] at h
    | some res =>
      obtain ⟨⟨r1, c3, g3⟩, l1⟩ := res
      obtain ⟨hk1, hnd1, habs1, hreach1⟩ := ih c1 g rc.Denom r1 c3 g3 l1 hext hcall
      have hreach1b : ∀ x ∈ l1, ∃ rc2 ∈ rc :: rcs, lookup c.priceTable rc2.Denom = none ∧
          (x = rc2.Denom ∨ Relation.TransGen c.Dep rc2.Denom x) :=
        fun x hx => ⟨rc, List.mem_cons_self _ _, hreach1 x hx⟩
      cases r1 with
      | error e =>
        simp only [hcall, Option.some.injEq, Prod.mk.injEq] at h
        obtain ⟨⟨_, hc, _⟩, hlog⟩ := h
        subst hc
        subst hlog
        exact ⟨l1, rfl, hk1, hnd1, habs1, hreach1b⟩
      | ok tp =>
        simp only [hcall] at h
        have hext13 := PriceLog_extends ops rand n c1 g rc.Denom _ c3 g3 l1 hcall
        obtain ⟨l2, hlog, hk2, hnd2, habs2, hreach2⟩ :=
          ihr _ c3 g3 (log0 ++ l1) r c2 g2 log (Extends_trans hext hext13) h
        refine ⟨l1 ++ l2, ?_, ?_, ?_, ?_, ?_⟩
        · rw [hlog, List.append_assoc]
        · rw [hk2, hk1, List.append_assoc]
        · rw [List.nodup_append]
          refine ⟨hnd1, hnd2, ?_⟩
          intro a ha1 ha2
          have h3 := habs2 a ha2
          rw [lookup_eq_none_iff, hk1, List.mem_append] at h3
          exact h3 (Or.inr ha1)
        · intro x hx
          rcases List.mem_append.1 hx with hx1 | hx2
          · exact habs1 x hx1
          · exact lookup_none_of_extends hext13 x (habs2 x hx2)
        · intro x hx
          rcases List.mem_append.1 hx with hx1 | hx2
          · exact hreach1b x hx1
          · obtain ⟨rc2, hrc2, hfacts⟩ := hreach2 x hx2
            exact ⟨rc2, List.mem_cons_of_mem _ hrc2, hfacts⟩

/-- Without a cycle between the denoms, the writes of a call of `Price` are writes of
denoms without a price, each written once. -/
theorem PriceLog_writes (ops : FloatOps F) (rand : Nat → F) (c : Context F)
    (hac : c.Acyclic) (n : Nat) :
    ∀ c1 g d r c2 g2 log, Context.Extends c c1 →
      PriceLog ops rand n c1 g d = some ((r, c2, g2), log) →
      keys c2.priceTable = keys c1.priceTable ++ log ∧ log.Nodup ∧
      (∀ x ∈ log, lookup c1.priceTable x = none) ∧
      (∀ x ∈ log, lookup c.priceTable d = none ∧ (x = d ∨ Relation.TransGen c.Dep d x)) := by
  induction n with
  | zero =>
    intro c1 g d r c2 g2 log _ h
    simp [PriceLog] at h
  | succ n ih =>
    intro c1 g d r c2 g2 log hext h
    have hempty : ∀ cx : Context F, keys cx.priceTable = keys cx.priceTable ++ [] ∧
        ([] : List String).Nodup ∧
        (∀ x ∈ ([] : List String), lookup cx.priceTable x = none) ∧
        (∀ x ∈ ([] : List String), lookup c.priceTable d = none ∧
          (x = d ∨ Relation.TransGen c.Dep d x)) := fun cx =>
      ⟨by simp, List.nodup_nil, by simp, by simp⟩
    rw [PriceLog] at h
    cases hl : lookup c1.priceTable d with
    | some p =>
      simp only [hl, Option.some.injEq, Prod.mk.injEq] at h
      obtain ⟨⟨_, hc, _⟩, hlog⟩ := h
      subst hc
      subst hlog
      exact hempty c1
    | none =>
      have hlc := lookup_none_of_extends hext d hl
      have hself : ∀ p, keys (c1.setPrice d p).priceTable = keys c1.priceTable ++ [d] ∧
          [d].Nodup ∧ (∀ x ∈ [d], lookup c1.priceTable x = none) ∧
          (∀ x ∈ [d], lookup c.priceTable d = none ∧
            (x = d ∨ Relation.TransGen c.Dep d x)) := fun p => by
        have := write_site c c1 c1 hac d p [] hl hlc (by simp) List.nodup_nil (by simp)
          (by simp)
        simpa using this
      simp only [hl] at h
      cases hn : c1.IsNormalCoinDenom d with
      | true =>
        simp only [hn, if_true] at h
        cases hm : lookup c1.manualPrices d with
        | none =>
          simp only [hm, Option.some.injEq, Prod.mk.injEq] at h
          obtain ⟨⟨_, hc, _⟩, hlog⟩ := h
          subst hc
          subst hlog
          exact hempty c1
        | some mp =>
          simp only [hm, Option.some.injEq, Prod.mk.injEq] at h
          obtain ⟨⟨_, hc, _⟩, hlog⟩ := h
          subst hc
          subst hlog
          exact hself _
      | false =>
        have hnc : c.IsNormalCoinDenom d = false := by
          rw [← IsNormalCoinDenom_extends hext d]
          exact hn
        simp only [hn, Bool.false_eq_true, if_false] at h
        cases hp : c1.IsPoolCoinDenom d with
        | true =>
          have hpc : c.IsPoolCoinDenom d = true := by
            rw [← IsPoolCoinDenom_extends hext d]
            exact hp
          simp only [hp, if_true] at h
          cases hq : lookup c1.pools d with
          | none => simp [hq] at h
          | some pool =>
            have hqc : lookup c.pools d = some pool := by
              rw [← hext.2.2.2.1]
              exact hq
            simp only [hq] at h
            by_cases hz : pool.PoolCoinAmount = 0
            · simp only [hz, if_true, Option.some.injEq, Prod.mk.injEq] at h
              obtain ⟨⟨_, hc, _⟩, hlog⟩ := h
              subst hc
              subst hlog
              exact hself _
            · simp only [hz, if_false] at h
              cases hs : sumReserveCoinsLog ops (PriceLog ops rand n) pool.ReserveCoins
                  ops.zero c1 g [] with
              | none => simp [hs] at h
              | some res =>
                obtain ⟨⟨r1, c3, g3⟩, l⟩ := res
                obtain ⟨l2, hlog2, hk, hnd, habs, hreach⟩ :=
                  sumReserveCoinsLog_writes ops rand c n ih pool.ReserveCoins ops.zero c1 g
                    [] r1 c3 g3 l hext hs
                simp only [List.nil_append] at hlog2
                subst hlog2
                have hreach2 : ∀ x ∈ l, Relation.TransGen c.Dep d x := by
                  intro x hx
                  obtain ⟨rc, hrc, hrcl, hx2⟩ := hreach x hx
                  have hdep : c.Dep d rc.Denom :=
                    ⟨hlc, hrcl, hnc, Or.inl ⟨hpc, pool, hqc, hz, rc, hrc, rfl⟩⟩
                  rcases hx2 with rfl | htg
                  · exact Relation.TransGen.single hdep
                  · exact Relation.TransGen.head hdep htg
                cases r1 with
                | error e =>
                  simp only [hs, Option.some.injEq, Prod.mk.injEq] at h
                  obtain ⟨⟨_, hc, _⟩, hlog⟩ := h
                  subst hc
                  subst hlog
                  exact ⟨hk, hnd, habs, fun x hx => ⟨hlc, Or.inr (hreach2 x hx)⟩⟩
                | ok sum =>
                  simp only [hs, Option.some.injEq, Prod.mk.injEq] at h
                  obtain ⟨⟨_, hc, _⟩, hlog⟩ := h
                  subst hc
                  subst hlog
                  exact write_site c c1 c3 hac d _ l hl hlc hk hnd habs hreach2
        | false =>
          have hpc : c.IsPoolCoinDenom d = false := by
            rw [← IsPoolCoinDenom_extends hext d]
            exact hp
          simp only [hp, Bool.false_eq_true, if_false] at h
          cases hm : lookup c1.denomMetadata d with
          | none =>
            simp only [hm, Option.some.injEq, Prod.mk.injEq] at h
            obtain ⟨⟨_, hc, _⟩, hlog⟩ := h
            subst hc
            subst hlog
            exact hempty c1
          | some md =>
            have hmc : lookup c.denomMetadata d = some md := by
              rw [← hext.2.2.1]
              exact hm
            simp only [hm] at h
            cases hcall : PriceLog ops rand n c1 g md.Display with
            | none => simp [hcall] at h
            | some res =>
              obtain ⟨⟨r1, c3, g3⟩, l⟩ := res
              obtain ⟨hk, hnd, habs, hreach⟩ := ih c1 g md.Display r1 c3 g3 l hext hcall
              have hreach2 : ∀ x ∈ l, Relation.TransGen c.Dep d x := by
                intro x hx
                obtain ⟨hdl, hx2⟩ := hreach x hx
                have hdep : c.Dep d md.Display :=
                  ⟨hlc, hdl, hnc, Or.inr ⟨hpc, md, hmc, rfl⟩⟩
                rcases hx2 with rfl | htg
                · exact Relation.TransGen.single hdep
                · exact Relation.TransGen.head hdep htg
              cases r1 with
              | error e =>
                simp only [hcall, Option.some.injEq, Prod.mk.injEq] at h
                obtain ⟨⟨_, hc, _⟩, hlog⟩ := h
                subst hc
                subst hlog
                exact ⟨hk, hnd, habs, fun x hx => ⟨hlc, Or.inr (hreach2 x hx)⟩⟩
              | ok tp =>
                simp only [hcall, Option.some.injEq, Prod.mk.injEq] at h
                obtain ⟨⟨_, hc, _⟩, hlog⟩ := h
                subst hc
                subst hlog
                exact write_site c c1 c3 hac d _ l hl hlc hk hnd habs hreach2

end pricetable

/-! ## Price resolution: configurations without a cycle -/

namespace pricetable

open GoMap

variable {F : Type}

/-- A configuration in which every dependency lowers a rank has no cycle. -/
theorem acyclic_of_rank (c : Context F) (rank : String → Nat)
    (h : ∀ a b, c.Dep a b → rank b < rank a) : c.Acyclic := by
  have htg : ∀ a b, Relation.TransGen c.Dep a b → rank b < rank a := by
    intro a b hab
    induction hab with
    | single hd => exact h _ _ hd
    | tail _ hd ih => exact lt_trans (h _ _ hd) ih
  intro d hd
  exact lt_irrefl _ (htg d d hd)

theorem testContextNested_acyclic : testContextNested.Acyclic := by
  apply acyclic_of_rank testContextNested testRank
  intro a b hdep
  obtain ⟨_, _, _, h4⟩ := hdep
  have hpools : ∀ e ∈ testContextNested.pools, ∀ rc ∈ e.2.ReserveCoins,
      testRank rc.Denom < testRank e.1 := by decide
  have hmeta : ∀ e ∈ testContextNested.denomMetadata,
      testRank e.2.Display < testRank e.1 := by decide
  rcases h4 with ⟨_, pool, hq, _, rc, hrc, rfl⟩ | ⟨_, md, hm, rfl⟩
  · exact hpools (a, pool) (schema.mem_of_lookup_eq_some _ _ _ hq) rc hrc
  · exact hmeta (a, md) (schema.mem_of_lookup_eq_some _ _ _ hm)

/-- C26: in a configuration in which the dependencies between the denoms without a price
in the table (a pool coin with non-zero supply on the reserve coins of its pool, a denom
with metadata on its display denom) have no cycle, `Context.Price` returns for every
denom: from some depth of the recursion on, the call gives one and the same result, a
price or an error.  `PriceLog` returns what `Price` returns, and the denoms that it has
written into the price table are all different, had no price in the table before the call,
and are the keys by which the table has grown. -/
theorem Price_acyclic (ops : FloatOps F) (rand : Nat → F) (c : Context F)
    (hac : c.Acyclic) (g : Nat) (d : String) :
    (∃ n r, ∀ m, n ≤ m → Price ops rand m c g d = some r) ∧
    (∀ n, (PriceLog ops rand n c g d).map Prod.fst = Price ops rand n c g d) ∧
    (∀ n r c2 g2 log, PriceLog ops rand n c g d = some ((r, c2, g2), log) →
      log.Nodup ∧ (∀ x ∈ log, lookup c.priceTable x = none) ∧
      keys c2.priceTable = keys c.priceTable ++ log) := by
  refine ⟨?_, fun n => PriceLog_erase ops rand n c g d, ?_⟩
  · obtain ⟨n, r, h⟩ := Price_returns ops rand c hac d c g (Extends_refl c)
    refine ⟨n, r, ?_⟩
    intro m hm
    obtain ⟨k, rfl⟩ := Nat.exists_eq_add_of_le hm
    exact Price_mono ops rand n k c g d r h
  · intro n r c2 g2 log h
    obtain ⟨hk, hnd, habs, _⟩ :=
      PriceLog_writes ops rand c hac n c g d r c2 g2 log (Extends_refl c) h
    exact ⟨hnd, habs, hk⟩

theorem Price_acyclic_witness :
    testContextNested.Acyclic ∧
    (PriceLog ratOps (fun _ => 0) 4 testContextNested 0 "pool4").map (fun r => r.2) =
      some ["uatom", "usd", "uusd", "pool1", "uluna", "pool2", "pool4"] ∧
    (∃ n r, ∀ m, n ≤ m → Price ratOps (fun _ => 0) m testContextNested 0 "pool4" = some r) ∧
    ["uatom", "usd", "uusd", "pool1", "uluna", "pool2", "pool4"].Nodup := by
  have hthm := Price_acyclic ratOps (fun _ => 0) testContextNested testContextNested_acyclic
    0 "pool4"
  refine ⟨testContextNested_acyclic, by rfl, hthm.1, by decide⟩

end pricetable
